import Mathlib

/-!
# Takion / CubbyDNN execution engine: a shallow embedding

The development follows two source files.

* `src/Implementations/Takion/Engine/UnitManager.hpp` : the graph scheduler
  (`Compile`, `Forward`, `Backward`, the copy-readiness predicates and the copy
  actions).  Embedded in the namespace `Takion`.
* `src/Sources/cubbydnn/Engine/Engine.cpp` : the builder and the cooperative
  executor (`Source`, `Hidden`, `Multiply`, `Sink`, `OutputTest`, `Execute`).
  Embedded in the namespace `CubbyDNN`.

Conventions.  A `std::unordered_map` is an association list in iteration order
(the order is unspecified in C++ but fixed while the map is not rehashed);
`std::size_t` counters are natural numbers (no counter gets near `2^64`);
a failing `.at()` (or a dereference of an absent unit) is `none`.
-/

namespace Takion

/-! ## Data model of the unit manager -/

/-- Base kind of a unit (`UnitBaseType`). -/
inductive UnitBaseType where
  | Source
  | Hidden
  | Sink
  | Copy
  deriving DecidableEq, Repr

/-- Unit type: the base kind and the type name that `Compile` dispatches on. -/
structure UnitType where
  BaseType : UnitBaseType
  Name : String
  deriving DecidableEq, Repr

/-- Unit identifier (`UnitId`); the field `Type_` is the source's `Type`. -/
structure UnitId where
  Type_ : UnitType
  Id : Nat
  deriving DecidableEq, Repr

/-- Versioned buffer (`Tensor<T>`): the data and the atomic counter `State`. -/
structure Tensor where
  Data : List Int
  State : Nat
  deriving DecidableEq, Repr

/-- The part of `FrontEnd::UnitMetaData<T>` the scheduler reads. -/
structure UnitMetaData where
  Id : UnitId
  OutputUnitVector : List UnitId
  deriving DecidableEq, Repr

/-- The members of `ComputableUnit<T>` the scheduler reads and writes, with the
two epoch counters advanced by `UpdateForwardState` / `UpdateBackwardState`. -/
structure ComputableUnit where
  ForwardInputMap : List (UnitId × Tensor)
  BackwardInputMap : List (UnitId × Tensor)
  ForwardOutput : Tensor
  BackwardOutputMap : List (UnitId × Tensor)
  ForwardStateCount : Nat
  BackwardStateCount : Nat
  deriving DecidableEq, Repr

/-- State of `UnitManager<T>`: the two maps, in iteration order. -/
structure UnitManager where
  m_unitMetaDataMap : List (UnitId × UnitMetaData)
  m_unitMap : List (UnitId × ComputableUnit)
  deriving DecidableEq, Repr

/-- Lookup `map.at(k)`: `none` stands for `std::out_of_range`. -/
def at? {α : Type} : List (UnitId × α) → UnitId → Option α
  | [], _ => none
  | (k', v) :: rest, k => if k' = k then some v else at? rest k

/-- Overwrite the value stored under `k` (the unit behind the pointer is mutated
in place; the key set is unchanged). -/
def setAt {α : Type} : List (UnitId × α) → UnitId → α → List (UnitId × α)
  | [], _, _ => []
  | (k', v') :: rest, k, v =>
    if k' = k then (k', v) :: rest else (k', v') :: setAt rest k v

/-- Assignment `map[k] = v`: overwrite the entry when the key is present, insert
a new one otherwise. -/
def insertOrAssign {α : Type} : List (UnitId × α) → UnitId → α → List (UnitId × α)
  | [], k, v => [(k, v)]
  | (k', v') :: rest, k, v =>
    if k' = k then (k', v) :: rest else (k', v') :: insertOrAssign rest k v

/-- The keys of a map, in iteration order. -/
def keys {α : Type} (m : List (UnitId × α)) : List UnitId := m.map Prod.fst

/-! ## Forward copy -/

/-- Inner loop of `m_isForwardCopyReady` over one consumer's `ForwardInputMap`:
`false` as soon as an entry keyed by the subject has
`subjectOutputTensor.State != destTensor.State + 1`. -/
def forwardSlotsReady (subjectUnitId : UnitId) (outState : Nat) :
    List (UnitId × Tensor) → Bool
  | [] => true
  | (targetUnitId, destTensor) :: rest =>
    if targetUnitId = subjectUnitId then
      if outState ≠ destTensor.State + 1 then false
      else forwardSlotsReady subjectUnitId outState rest
    else forwardSlotsReady subjectUnitId outState rest

/-- Outer loop of `m_isForwardCopyReady` over `OutputUnitVector()`. -/
def isForwardCopyReadyLoop (unitMap : List (UnitId × ComputableUnit))
    (subjectUnitId : UnitId) (outState : Nat) : List UnitId → Option Bool
  | [] => some true
  | outputUnitId :: rest =>
    match at? unitMap outputUnitId with
    | none => none
    | some next =>
      if forwardSlotsReady subjectUnitId outState next.ForwardInputMap then
        isForwardCopyReadyLoop unitMap subjectUnitId outState rest
      else some false

/-- Function `UnitManager<T>::m_isForwardCopyReady`. -/
def m_isForwardCopyReady (um : UnitManager) (subjectUnitId : UnitId) : Option Bool :=
  match at? um.m_unitMetaDataMap subjectUnitId with
  | none => none
  | some sourceMetaData =>
    if sourceMetaData.Id.Type_.BaseType = UnitBaseType.Sink then some false
    else
      match at? um.m_unitMap subjectUnitId with
      | none => none
      | some subject =>
        isForwardCopyReadyLoop um.m_unitMap subjectUnitId subject.ForwardOutput.State
          sourceMetaData.OutputUnitVector

/-- Body of the copy loops: `Tensor<T>::CopyTensorData(src, dest)` followed by
`dest.State.fetch_add(1)`.
Modelled from the spec: `CopyTensorData` is not among the sources; the copy
action "duplicates the buffer". -/
def copyAndBump (src dest : Tensor) : Tensor :=
  { Data := src.Data, State := dest.State + 1 }

/-- Inner loop of `m_forwardCopy` (and of `m_backwardCopy`) over one input map:
every entry keyed by the subject receives the copy. -/
def copyIntoSlots (subjectUnitId : UnitId) (src : Tensor) :
    List (UnitId × Tensor) → List (UnitId × Tensor)
  | [] => []
  | (targetUnitId, destTensor) :: rest =>
    if targetUnitId = subjectUnitId then
      (targetUnitId, copyAndBump src destTensor) :: copyIntoSlots subjectUnitId src rest
    else (targetUnitId, destTensor) :: copyIntoSlots subjectUnitId src rest

/-- Outer loop of `m_forwardCopy` over `OutputUnitVector()`. -/
def forwardCopyLoop (subjectUnitId : UnitId) (src : Tensor) :
    List UnitId → List (UnitId × ComputableUnit) → Option (List (UnitId × ComputableUnit))
  | [], unitMap => some unitMap
  | outputUnitId :: rest, unitMap =>
    match at? unitMap outputUnitId with
    | none => none
    | some next =>
      forwardCopyLoop subjectUnitId src rest
        (setAt unitMap outputUnitId
          { next with ForwardInputMap := copyIntoSlots subjectUnitId src next.ForwardInputMap })

/-- Function `UnitManager<T>::m_forwardCopy`.  The source indexes both maps with
`operator[]`; an absent key would insert an empty entry and dereference a null
unit pointer, which is `none` here. -/
def m_forwardCopy (um : UnitManager) (subjectUnitId : UnitId) : Option UnitManager :=
  match at? um.m_unitMetaDataMap subjectUnitId with
  | none => none
  | some sourceMetaData =>
    match at? um.m_unitMap subjectUnitId with
    | none => none
    | some subject =>
      match forwardCopyLoop subjectUnitId subject.ForwardOutput
          sourceMetaData.OutputUnitVector um.m_unitMap with
      | none => none
      | some unitMap => some { um with m_unitMap := unitMap }

/-! ## Backward copy -/

/-- Inner loop of `m_isBackwardCopyReady` over one target's `BackwardInputMap`.
The argument is the running `hasValidBackwardUnit`; `none` is the early
`return false`, `some b` the flag when the loop runs to its end. -/
def backwardSlotsReady (subjectUnitId : UnitId) (outState : Nat) :
    Bool → List (UnitId × Tensor) → Option Bool
  | hasValidBackwardUnit, [] => some hasValidBackwardUnit
  | hasValidBackwardUnit, (targetUnitId, destTensor) :: rest =>
    if targetUnitId = subjectUnitId then
      if outState ≠ destTensor.State + 1 then none
      else backwardSlotsReady subjectUnitId outState true rest
    else backwardSlotsReady subjectUnitId outState hasValidBackwardUnit rest

/-- Outer loop of `m_isBackwardCopyReady` over the subject's `BackwardOutputMap`;
here `none` is `std::out_of_range` from `m_unitMap.at(unitId)`. -/
def isBackwardCopyReadyLoop (unitMap : List (UnitId × ComputableUnit))
    (subjectUnitId : UnitId) : Bool → List (UnitId × Tensor) → Option Bool
  | hasValidBackwardUnit, [] => some hasValidBackwardUnit
  | hasValidBackwardUnit, (unitId, outputTensor) :: rest =>
    match at? unitMap unitId with
    | none => none
    | some next =>
      match backwardSlotsReady subjectUnitId outputTensor.State hasValidBackwardUnit
          next.BackwardInputMap with
      | none => some false
      | some flag => isBackwardCopyReadyLoop unitMap subjectUnitId flag rest

/-- Function `UnitManager<T>::m_isBackwardCopyReady`. -/
def m_isBackwardCopyReady (um : UnitManager) (subjectUnitId : UnitId) : Option Bool :=
  match at? um.m_unitMetaDataMap subjectUnitId with
  | none => none
  | some sourceMetaData =>
    if sourceMetaData.Id.Type_.BaseType = UnitBaseType.Source then some false
    else
      match at? um.m_unitMap subjectUnitId with
      | none => none
      | some subject =>
        isBackwardCopyReadyLoop um.m_unitMap subjectUnitId false subject.BackwardOutputMap

/-- Outer loop of `m_backwardCopy` over the subject's `BackwardOutputMap`. -/
def backwardCopyLoop (subjectUnitId : UnitId) :
    List (UnitId × Tensor) → List (UnitId × ComputableUnit) →
      Option (List (UnitId × ComputableUnit))
  | [], unitMap => some unitMap
  | (unitId, outputTensor) :: rest, unitMap =>
    match at? unitMap unitId with
    | none => none
    | some next =>
      backwardCopyLoop subjectUnitId rest
        (setAt unitMap unitId
          { next with
            BackwardInputMap := copyIntoSlots subjectUnitId outputTensor next.BackwardInputMap })

/-- Function `UnitManager<T>::m_backwardCopy`. -/
def m_backwardCopy (um : UnitManager) (subjectUnitId : UnitId) : Option UnitManager :=
  match at? um.m_unitMap subjectUnitId with
  | none => none
  | some subject =>
    match backwardCopyLoop subjectUnitId subject.BackwardOutputMap um.m_unitMap with
    | none => none
    | some unitMap => some { um with m_unitMap := unitMap }

/-! ## Units as seen by the scheduler -/

/-- What the scheduler consumes from the unit classes, which are external
collaborators: the two readiness predicates and the numeric kernels (the data a
unit writes to its forward output, and to its backward output for each
target). -/
structure UnitOps where
  IsForwardReady : UnitId → ComputableUnit → Nat → Bool
  ForwardData : UnitId → ComputableUnit → List Int
  IsBackwardReady : UnitId → ComputableUnit → Nat → Bool
  BackwardData : UnitId → ComputableUnit → UnitId → List Int

/-- Method `Forward()` of a unit.
Modelled from the spec: the unit classes are not among the sources; "side
effects are confined to the node's own output/scratch slots".  As in
`SoftMax<T>::Forward`, the data of `ForwardOutput` is written and no counter is
touched. -/
def unitForward (ops : UnitOps) (key : UnitId) (unit : ComputableUnit) : ComputableUnit :=
  { unit with ForwardOutput := { unit.ForwardOutput with Data := ops.ForwardData key unit } }

/-- Method `UpdateForwardState()`.
Modelled from the spec: it "advances the node's own epoch counter", and the
write of the output slot "increments StateCounter by 1 and publishes buffer
contents". -/
def UpdateForwardState (unit : ComputableUnit) : ComputableUnit :=
  { unit with
    ForwardStateCount := unit.ForwardStateCount + 1
    ForwardOutput := { unit.ForwardOutput with State := unit.ForwardOutput.State + 1 } }

/-- Method `Backward()` of a unit.
Modelled from the spec: the data of every backward output slot is written. -/
def unitBackward (ops : UnitOps) (key : UnitId) (unit : ComputableUnit) : ComputableUnit :=
  { unit with
    BackwardOutputMap :=
      unit.BackwardOutputMap.map
        (fun e => (e.1, { e.2 with Data := ops.BackwardData key unit e.1 })) }

/-- Method `UpdateBackwardState()`.
Modelled from the spec: the backward epoch counter advances and every backward
output slot is published (its counter goes up by 1). -/
def UpdateBackwardState (unit : ComputableUnit) : ComputableUnit :=
  { unit with
    BackwardStateCount := unit.BackwardStateCount + 1
    BackwardOutputMap :=
      unit.BackwardOutputMap.map (fun e => (e.1, { e.2 with State := e.2.State + 1 })) }

/-- Readiness test on an input map: every slot is one version ahead of the
unit's last consumed version. -/
def allOneAhead (consumed : Nat) : List (UnitId × Tensor) → Bool
  | [] => true
  | (_, tensor) :: rest => tensor.State == consumed + 1 && allOneAhead consumed rest

/-- Modelled from the spec: the readiness predicates of the unit classes, which
are not among the sources.  Forward: "every input slot's version equals the
node's last-consumed version + 1".  Backward: the same on the backward input
slots, and a unit without any is "permanently backward-unready". -/
def specOps (forwardData : UnitId → ComputableUnit → List Int)
    (backwardData : UnitId → ComputableUnit → UnitId → List Int) : UnitOps where
  IsForwardReady := fun _ unit _ => allOneAhead unit.ForwardStateCount unit.ForwardInputMap
  ForwardData := forwardData
  IsBackwardReady := fun _ unit _ =>
    !unit.BackwardInputMap.isEmpty && allOneAhead unit.BackwardStateCount unit.BackwardInputMap
  BackwardData := backwardData

/-! ## The sweeps of `Forward` and `Backward` -/

/-- What a scheduler step did. -/
inductive Event where
  | seed
  | forward (key : UnitId)
  | forwardCopy (key : UnitId)
  | backward (key : UnitId)
  | backwardCopy (key : UnitId)
  deriving DecidableEq, Repr

/-- One step of the scheduler: the event, the state before and the state after. -/
structure Step where
  event : Event
  pre : UnitManager
  post : UnitManager
  deriving DecidableEq, Repr

/-- A run in progress: the current state and the steps taken so far. -/
structure Run where
  um : UnitManager
  log : List Step
  deriving DecidableEq, Repr

/-- Take one step: the state becomes `um'` and the step is appended to the log. -/
def Run.step (r : Run) (ev : Event) (um' : UnitManager) : Run :=
  { um := um', log := r.log ++ [{ event := ev, pre := r.um, post := um' }] }

/-- How a call of the scheduler ends: it returned, it raised (a failed lookup),
or it is still sweeping when the fuel of the model runs out. -/
inductive Outcome where
  | returned (r : Run)
  | threw (r : Run)
  | running (r : Run)
  deriving DecidableEq, Repr

/-- `State.fetch_add(1)` on every tensor of a map. -/
def bumpAll (m : List (UnitId × Tensor)) : List (UnitId × Tensor) :=
  m.map (fun e => (e.1, { e.2 with State := e.2.State + 1 }))

/-- First loop of `Forward`: the forward input slots of every Source unit are
advanced by one. -/
def seedForward : List (UnitId × ComputableUnit) → List (UnitId × ComputableUnit)
  | [] => []
  | (key, unit) :: rest =>
    if key.Type_.BaseType = UnitBaseType.Source then
      (key, { unit with ForwardInputMap := bumpAll unit.ForwardInputMap }) :: seedForward rest
    else (key, unit) :: seedForward rest

/-- First loop of `Backward`: the backward input slots of every Sink unit are
advanced by one. -/
def seedBackward : List (UnitId × ComputableUnit) → List (UnitId × ComputableUnit)
  | [] => []
  | (key, unit) :: rest =>
    if key.Type_.BaseType = UnitBaseType.Sink then
      (key, { unit with BackwardInputMap := bumpAll unit.BackwardInputMap }) :: seedBackward rest
    else (key, unit) :: seedBackward rest

/-- First `if` of the loop body of `Forward`: a ready unit runs `Forward()` and
`UpdateForwardState()`, and `done` becomes `false`.  The flag is `done`. -/
def forwardComputePhase (ops : UnitOps) (cycle : Nat) (key : UnitId) (unit : ComputableUnit)
    (s : Run × Bool) : Run × Bool :=
  if ops.IsForwardReady key unit cycle then
    (s.1.step (.forward key)
      { s.1.um with
        m_unitMap := setAt s.1.um.m_unitMap key (UpdateForwardState (unitForward ops key unit)) },
      false)
  else s

/-- Second `if` of the loop body of `Forward`: when `m_isForwardCopyReady(key)`,
`m_forwardCopy(key)` runs and `done` becomes `false`.  `Except.error` carries
the run up to a failed lookup. -/
def forwardCopyPhase (key : UnitId) (s : Run × Bool) : Except Run (Run × Bool) :=
  match m_isForwardCopyReady s.1.um key with
  | none => .error s.1
  | some false => .ok s
  | some true =>
    match m_forwardCopy s.1.um key with
    | none => .error s.1
    | some um' => .ok (s.1.step (.forwardCopy key) um', false)

/-- Body of the `for` loop of `Forward` for one key. -/
def forwardVisit (ops : UnitOps) (cycle : Nat) (key : UnitId) (s : Run × Bool) :
    Except Run (Run × Bool) :=
  match at? s.1.um.m_unitMap key with
  | none => .error s.1
  | some unit => forwardCopyPhase key (forwardComputePhase ops cycle key unit s)

/-- First `if` of the loop body of `Backward`. -/
def backwardComputePhase (ops : UnitOps) (cycle : Nat) (key : UnitId) (unit : ComputableUnit)
    (s : Run × Bool) : Run × Bool :=
  if ops.IsBackwardReady key unit cycle then
    (s.1.step (.backward key)
      { s.1.um with
        m_unitMap :=
          setAt s.1.um.m_unitMap key (UpdateBackwardState (unitBackward ops key unit)) },
      false)
  else s

/-- Second `if` of the loop body of `Backward`. -/
def backwardCopyPhase (key : UnitId) (s : Run × Bool) : Except Run (Run × Bool) :=
  match m_isBackwardCopyReady s.1.um key with
  | none => .error s.1
  | some false => .ok s
  | some true =>
    match m_backwardCopy s.1.um key with
    | none => .error s.1
    | some um' => .ok (s.1.step (.backwardCopy key) um', false)

/-- Body of the `for` loop of `Backward` for one key. -/
def backwardVisit (ops : UnitOps) (cycle : Nat) (key : UnitId) (s : Run × Bool) :
    Except Run (Run × Bool) :=
  match at? s.1.um.m_unitMap key with
  | none => .error s.1
  | some unit => backwardCopyPhase key (backwardComputePhase ops cycle key unit s)

/-- One pass of a `for (const auto& [key, unitPtr] : m_unitMap)` loop. -/
def sweep (visit : UnitId → Run × Bool → Except Run (Run × Bool)) :
    List UnitId → Run × Bool → Except Run (Run × Bool)
  | [], s => .ok s
  | key :: rest, s =>
    match visit key s with
    | .error r => .error r
    | .ok s' => sweep visit rest s'

/-- The loop `while (!done) { done = true; for ... }`, at most `fuel` passes. -/
def sweepLoop (visit : UnitId → Run × Bool → Except Run (Run × Bool)) :
    Nat → Run → Outcome
  | 0, r => .running r
  | fuel + 1, r =>
    match sweep visit (keys r.um.m_unitMap) (r, true) with
    | .error r' => .threw r'
    | .ok (r', true) => .returned r'
    | .ok (r', false) => sweepLoop visit fuel r'

/-- The state in which the sweeps of `Forward` start. -/
def forwardStart (um : UnitManager) : Run :=
  Run.step { um := um, log := [] } .seed { um with m_unitMap := seedForward um.m_unitMap }

/-- The state in which the sweeps of `Backward` start. -/
def backwardStart (um : UnitManager) : Run :=
  Run.step { um := um, log := [] } .seed { um with m_unitMap := seedBackward um.m_unitMap }

/-- Function `UnitManager<T>::Forward(cycle)`, with at most `fuel` sweeps. -/
def Forward (ops : UnitOps) (cycle : Nat) (fuel : Nat) (um : UnitManager) : Outcome :=
  sweepLoop (forwardVisit ops cycle) fuel (forwardStart um)

/-- Function `UnitManager<T>::Backward(cycle)`, with at most `fuel` sweeps. -/
def Backward (ops : UnitOps) (cycle : Nat) (fuel : Nat) (um : UnitManager) : Outcome :=
  sweepLoop (backwardVisit ops cycle) fuel (backwardStart um)

/-! ## The asynchronous passes -/

/-- First loop of `AsyncForward`: every unit that is forward-ready gets an
entry in `futureVector` and runs its `AsyncForward(promise)`.  The second
component is the keys of `futureVector`, in the order they were entered.
The method `AsyncForward(promise)` of a unit is modelled from the spec, as
`Forward()` is ("perform the same computation but signal a completion handle"):
as `SoftMax<T>::AsyncForward` does, it writes the data of `ForwardOutput` and
touches no counter; every computation is taken to be complete when the second
loop starts. -/
def asyncForwardDispatch (ops : UnitOps) (cycle : Nat) :
    List UnitId → UnitManager × List UnitId → UnitManager × List UnitId
  | [], s => s
  | key :: rest, s =>
    match at? s.1.m_unitMap key with
    | none => asyncForwardDispatch ops cycle rest s
    | some unit =>
      if ops.IsForwardReady key unit cycle then
        asyncForwardDispatch ops cycle rest
          ({ s.1 with m_unitMap := setAt s.1.m_unitMap key (unitForward ops key unit) },
            if key ∈ s.2 then s.2 else s.2 ++ [key])
      else asyncForwardDispatch ops cycle rest s

/-- Second loop of `AsyncForward`: for every key of `futureVector`, after
`future.wait()`, `m_forwardCopy(key)` is called. -/
def asyncForwardCopy : List UnitId → Run → Outcome
  | [], r => .returned r
  | key :: rest, r =>
    match m_forwardCopy r.um key with
    | none => .threw r
    | some um' => asyncForwardCopy rest (r.step (.forwardCopy key) um')

/-- Function `UnitManager<T>::AsyncForward(cycle)`.  The argument `order` is the
order in which the unordered map `futureVector` hands out its keys. -/
def AsyncForward (ops : UnitOps) (order : List UnitId → List UnitId) (cycle : Nat)
    (um : UnitManager) : Outcome :=
  let dispatched := asyncForwardDispatch ops cycle (keys um.m_unitMap) (um, [])
  asyncForwardCopy (order dispatched.2) { um := dispatched.1, log := [] }

/-- First loop of `AsyncBackward`: every unit that is backward-ready gets an
entry in `futureVector` and runs its `AsyncBackward(promise)`, which is
modelled as `Backward()` is. -/
def asyncBackwardDispatch (ops : UnitOps) (cycle : Nat) :
    List UnitId → UnitManager × List UnitId → UnitManager × List UnitId
  | [], s => s
  | key :: rest, s =>
    match at? s.1.m_unitMap key with
    | none => asyncBackwardDispatch ops cycle rest s
    | some unit =>
      if ops.IsBackwardReady key unit cycle then
        asyncBackwardDispatch ops cycle rest
          ({ s.1 with m_unitMap := setAt s.1.m_unitMap key (unitBackward ops key unit) },
            if key ∈ s.2 then s.2 else s.2 ++ [key])
      else asyncBackwardDispatch ops cycle rest s

/-- Second loop of `AsyncBackward`: for every key of `futureVector`, after
`future.wait()`, `m_backwardCopy(key)` is called. -/
def asyncBackwardCopy : List UnitId → Run → Outcome
  | [], r => .returned r
  | key :: rest, r =>
    match m_backwardCopy r.um key with
    | none => .threw r
    | some um' => asyncBackwardCopy rest (r.step (.backwardCopy key) um')

/-- Function `UnitManager<T>::AsyncBackward(cycle)`. -/
def AsyncBackward (ops : UnitOps) (order : List UnitId → List UnitId) (cycle : Nat)
    (um : UnitManager) : Outcome :=
  let dispatched := asyncBackwardDispatch ops cycle (keys um.m_unitMap) (um, [])
  asyncBackwardCopy (order dispatched.2) { um := dispatched.1, log := [] }

/-! ## Compile -/

/-- The `std::runtime_error` messages of `Compile` and `m_makeOptimizer`. -/
inductive CompileError where
  | NotImplemented
  | NoMatchingUnitType
  | UnsupportedOptimizerType
  deriving DecidableEq, Repr

/-- The `CreateUnit` functions of the unit classes `Compile` instantiates; they
are not among the sources and are taken as given (construction succeeds). -/
structure UnitFactory where
  Dense : UnitMetaData → ComputableUnit
  ReLU : UnitMetaData → ComputableUnit
  Sigmoid : UnitMetaData → ComputableUnit
  MSELoss : UnitMetaData → ComputableUnit
  ConstantUnit : UnitMetaData → ComputableUnit

/-- Function `UnitManager<T>::m_makeOptimizer`: `none` is the `SGD` optimizer,
whose update rule the scheduler never looks into. -/
def m_makeOptimizer (optimizerName : String) : Option CompileError :=
  if optimizerName = "SGD" then none else some .UnsupportedOptimizerType

/-- Body of the loop of `Compile` for one entry of `m_unitMetaDataMap`: the unit
map after the entry, or the error raised at it. -/
def compileEntry (factory : UnitFactory) (optimizerName : String)
    (unitMetaData : UnitMetaData) (unitMap : List (UnitId × ComputableUnit)) :
    Except CompileError (List (UnitId × ComputableUnit)) :=
  let name := unitMetaData.Id.Type_.Name
  if name = "DataLoader" then .error .NotImplemented
  else if name = "Dense" then
    match m_makeOptimizer optimizerName with
    | some err => .error err
    | none => .ok (insertOrAssign unitMap unitMetaData.Id (factory.Dense unitMetaData))
  else if name = "Dropout" then .error .NotImplemented
  else if name = "ReLU" then
    .ok (insertOrAssign unitMap unitMetaData.Id (factory.ReLU unitMetaData))
  else if name = "Sigmoid" then
    .ok (insertOrAssign unitMap unitMetaData.Id (factory.Sigmoid unitMetaData))
  else if name = "Reshape" then .error .NotImplemented
  else if name = "MSE" then
    .ok (insertOrAssign unitMap unitMetaData.Id (factory.MSELoss unitMetaData))
  else if name = "Constant" then
    .ok (insertOrAssign unitMap unitMetaData.Id (factory.ConstantUnit unitMetaData))
  else if name = "Multiply" then .error .NotImplemented
  else if name = "Add" then .error .NotImplemented
  else .error .NoMatchingUnitType

/-- The loop of `Compile` over `m_unitMetaDataMap`: the unit map when the loop
stops, and the error if it stopped by raising. -/
def compileLoop (factory : UnitFactory) (optimizerName : String) :
    List (UnitId × UnitMetaData) → List (UnitId × ComputableUnit) →
      List (UnitId × ComputableUnit) × Option CompileError
  | [], unitMap => (unitMap, none)
  | (_, unitMetaData) :: rest, unitMap =>
    match compileEntry factory optimizerName unitMetaData unitMap with
    | .error err => (unitMap, some err)
    | .ok unitMap' => compileLoop factory optimizerName rest unitMap'

/-- Function `UnitManager<T>::Compile`: the manager after the call, and the error
if the call raised. -/
def Compile (factory : UnitFactory) (optimizerName : String) (um : UnitManager) :
    UnitManager × Option CompileError :=
  let r := compileLoop factory optimizerName um.m_unitMetaDataMap um.m_unitMap
  ({ um with m_unitMap := r.1 }, r.2)

/-- Function `UnitManager<T>::AppendUnit`. -/
def AppendUnit (um : UnitManager) (unitMetaData : UnitMetaData) : UnitManager :=
  { um with
    m_unitMetaDataMap := insertOrAssign um.m_unitMetaDataMap unitMetaData.Id unitMetaData }

end Takion

/-! ## Example graphs -/

namespace Takion

/-- A freshly allocated tensor: no data, version `0`. -/
def freshTensor : Tensor := { Data := [], State := 0 }

/-- Identifier of a Source unit of type `Constant`. -/
def uSrc : UnitId := { Type_ := { BaseType := .Source, Name := "Constant" }, Id := 0 }

/-- Identifier of a Hidden unit of type `Dense`. -/
def uDense : UnitId := { Type_ := { BaseType := .Hidden, Name := "Dense" }, Id := 1 }

/-- Identifier of a Sink unit of type `MSE`. -/
def uLoss : UnitId := { Type_ := { BaseType := .Sink, Name := "MSE" }, Id := 2 }

/-- The chain `Constant → Dense → MSE`, freshly compiled: every counter is `0`.
The Source unit owns one (degenerate) forward input slot and the Sink unit one
(degenerate) backward input slot, the slots the scheduler seeds. -/
def chainGraph : UnitManager where
  m_unitMetaDataMap :=
    [ (uSrc, { Id := uSrc, OutputUnitVector := [uDense] }),
      (uDense, { Id := uDense, OutputUnitVector := [uLoss] }),
      (uLoss, { Id := uLoss, OutputUnitVector := [] }) ]
  m_unitMap :=
    [ (uSrc,
        { ForwardInputMap := [(uSrc, freshTensor)]
          BackwardInputMap := [(uDense, freshTensor)]
          ForwardOutput := freshTensor
          BackwardOutputMap := []
          ForwardStateCount := 0
          BackwardStateCount := 0 }),
      (uDense,
        { ForwardInputMap := [(uSrc, freshTensor)]
          BackwardInputMap := [(uLoss, freshTensor)]
          ForwardOutput := freshTensor
          BackwardOutputMap := [(uSrc, freshTensor)]
          ForwardStateCount := 0
          BackwardStateCount := 0 }),
      (uLoss,
        { ForwardInputMap := [(uDense, freshTensor)]
          BackwardInputMap := [(uLoss, freshTensor)]
          ForwardOutput := freshTensor
          BackwardOutputMap := [(uDense, freshTensor)]
          ForwardStateCount := 0
          BackwardStateCount := 0 }) ]

/-- The effect of `n` deliveries from the subject on an input map, in the words
of the spec: an entry keyed by the subject holds the subject's data and its
version has gone up by `n`; every other entry is as it was. -/
def deliverSlots (subjectUnitId : UnitId) (src : Tensor) (n : Nat)
    (m : List (UnitId × Tensor)) : List (UnitId × Tensor) :=
  m.map (fun e =>
    if e.1 = subjectUnitId ∧ 0 < n then (e.1, { Data := src.Data, State := e.2.State + n })
    else e)

/-- The chain graph in which the Source lists its consumer twice in
`OutputUnitVector` (the same unit feeds two named inputs of `Dense`), after
the Source has produced version `1` with data `[5]`. -/
def twiceListedGraph : UnitManager where
  m_unitMetaDataMap :=
    [ (uSrc, { Id := uSrc, OutputUnitVector := [uDense, uDense] }),
      (uDense, { Id := uDense, OutputUnitVector := [] }) ]
  m_unitMap :=
    [ (uSrc,
        { ForwardInputMap := [(uSrc, { Data := [], State := 1 })]
          BackwardInputMap := []
          ForwardOutput := { Data := [5], State := 1 }
          BackwardOutputMap := []
          ForwardStateCount := 1
          BackwardStateCount := 0 }),
      (uDense,
        { ForwardInputMap := [(uSrc, freshTensor)]
          BackwardInputMap := []
          ForwardOutput := freshTensor
          BackwardOutputMap := []
          ForwardStateCount := 0
          BackwardStateCount := 0 }) ]

/-- The run an outcome carries. -/
def Outcome.run : Outcome → Run
  | .returned r => r
  | .threw r => r
  | .running r => r

/-- The wiring of a unit: the keys of its three slot maps. -/
def unitShape (cu : ComputableUnit) : List UnitId × List UnitId × List UnitId :=
  (keys cu.ForwardInputMap, keys cu.BackwardInputMap, keys cu.BackwardOutputMap)

/-- The wiring of a unit map: its keys, each with the wiring of its unit. -/
def shape (unitMap : List (UnitId × ComputableUnit)) :
    List (UnitId × (List UnitId × List UnitId × List UnitId)) :=
  unitMap.map (fun e => (e.1, unitShape e.2))

/-- Two states of the manager with the same metadata and the same wiring. -/
def SameShape (um um' : UnitManager) : Prop :=
  um'.m_unitMetaDataMap = um.m_unitMetaDataMap ∧ shape um'.m_unitMap = shape um.m_unitMap

/-- The keys of the `BackwardOutputMap` of `u` (empty when `u` is not compiled). -/
def backwardTargets (um : UnitManager) (u : UnitId) : List UnitId :=
  match at? um.m_unitMap u with
  | none => []
  | some subject => keys subject.BackwardOutputMap

/-- The keys of the `BackwardInputMap` of `t` (empty when `t` is not compiled). -/
def backwardSources (um : UnitManager) (t : UnitId) : List UnitId :=
  match at? um.m_unitMap t with
  | none => []
  | some target => keys target.BackwardInputMap

/-- No target of the `BackwardOutputMap` of `u` has a `BackwardInputMap` entry
keyed by `u`. -/
def NoBackwardTarget (um : UnitManager) (u : UnitId) : Prop :=
  ∀ t ∈ backwardTargets um u, u ∉ backwardSources um t

instance (um : UnitManager) (u : UnitId) : Decidable (NoBackwardTarget um u) := by
  unfold NoBackwardTarget; infer_instance

/-- The unit `Compile` creates for a metadata entry, by type name; `none` for a
name it creates nothing for. -/
def createdUnit (factory : UnitFactory) (unitMetaData : UnitMetaData) :
    Option ComputableUnit :=
  let name := unitMetaData.Id.Type_.Name
  if name = "Dense" then some (factory.Dense unitMetaData)
  else if name = "ReLU" then some (factory.ReLU unitMetaData)
  else if name = "Sigmoid" then some (factory.Sigmoid unitMetaData)
  else if name = "MSE" then some (factory.MSELoss unitMetaData)
  else if name = "Constant" then some (factory.ConstantUnit unitMetaData)
  else none

/-- The unit map after the units of the given entries have been created and
stored, one after the other. -/
def storeCreated (factory : UnitFactory) :
    List (UnitId × UnitMetaData) → List (UnitId × ComputableUnit) →
      List (UnitId × ComputableUnit)
  | [], unitMap => unitMap
  | (_, unitMetaData) :: rest, unitMap =>
    match createdUnit factory unitMetaData with
    | none => storeCreated factory rest unitMap
    | some unit => storeCreated factory rest (insertOrAssign unitMap unitMetaData.Id unit)

/-- A unit with fresh tensors and no slots. -/
def blankUnit : ComputableUnit where
  ForwardInputMap := []
  BackwardInputMap := []
  ForwardOutput := freshTensor
  BackwardOutputMap := []
  ForwardStateCount := 0
  BackwardStateCount := 0

/-- A factory whose units are blank. -/
def blankFactory : UnitFactory where
  Dense := fun _ => blankUnit
  ReLU := fun _ => blankUnit
  Sigmoid := fun _ => blankUnit
  MSELoss := fun _ => blankUnit
  ConstantUnit := fun _ => blankUnit

/-- Identifier of a Hidden unit of type `ReLU`. -/
def uReLU : UnitId := { Type_ := { BaseType := .Hidden, Name := "ReLU" }, Id := 3 }

/-- Identifier of a Hidden unit of type `Dropout`, which `Compile` rejects. -/
def uDropout : UnitId := { Type_ := { BaseType := .Hidden, Name := "Dropout" }, Id := 4 }

/-- A declared, not yet compiled graph: a `ReLU` unit, iterated first, and a
`Dropout` unit. -/
def declaredGraph : UnitManager where
  m_unitMetaDataMap :=
    [ (uReLU, { Id := uReLU, OutputUnitVector := [uDropout] }),
      (uDropout, { Id := uDropout, OutputUnitVector := [] }) ]
  m_unitMap := []

/-! ## Edges and their versions -/

/-- The `OutputUnitVector` of `p` (empty when `p` has no metadata). -/
def outputVector (um : UnitManager) (p : UnitId) : List UnitId :=
  match at? um.m_unitMetaDataMap p with
  | none => []
  | some md => md.OutputUnitVector

/-- The `ForwardOutput` of `p`. -/
def forwardOutput (um : UnitManager) (p : UnitId) : Option Tensor :=
  (at? um.m_unitMap p).map (fun u => u.ForwardOutput)

/-- The keys of the `ForwardInputMap` of `c` (empty when `c` is not compiled). -/
def forwardSources (um : UnitManager) (c : UnitId) : List UnitId :=
  match at? um.m_unitMap c with
  | none => []
  | some cu => keys cu.ForwardInputMap

/-- The tensors of a slot map stored under the key `p`. -/
def slotsKeyed (p : UnitId) (m : List (UnitId × Tensor)) : List Tensor :=
  (m.filter (fun e => decide (e.1 = p))).map Prod.snd

/-- The consumer side of the forward edge `p → c`: the `ForwardInputMap` entries
of `c` keyed by `p`. -/
def edgeSlots (um : UnitManager) (p c : UnitId) : List Tensor :=
  match at? um.m_unitMap c with
  | none => []
  | some cu => slotsKeyed p cu.ForwardInputMap

/-- Every consumer input slot's version equals its producer's output version,
on every forward edge (`c` listed in the `OutputUnitVector` of `p`). -/
def ForwardSynced (um : UnitManager) : Prop :=
  ∀ p c, c ∈ outputVector um p → ∀ out, forwardOutput um p = some out →
    ∀ t ∈ edgeSlots um p c, t.State = out.State

/-- On every forward edge the consumer's version is the producer's version or
one behind it. -/
def ForwardEdgeInv (um : UnitManager) : Prop :=
  ∀ p c, c ∈ outputVector um p → ∀ out, forwardOutput um p = some out →
    ∀ t ∈ edgeSlots um p c, t.State ≤ out.State ∧ out.State ≤ t.State + 1

/-- A step changes the consumer side of the forward edges only by a copy, which
raises the version by exactly 1, to the producer's version, and brings the
producer's data. -/
def ForwardStepOk (st : Step) : Prop :=
  ∀ p c, c ∈ outputVector st.pre p →
    edgeSlots st.post p c = edgeSlots st.pre p c ∨
    (st.event = Event.forwardCopy p ∧
      ∃ out, forwardOutput st.post p = some out ∧
        edgeSlots st.post p c
          = (edgeSlots st.pre p c).map (fun t => { Data := out.Data, State := t.State + 1 }) ∧
        ∀ t ∈ edgeSlots st.post p c, t.State = out.State)

/-- How a compiled graph is wired on the forward side: every metadata entry is
stored under its own id (`AppendUnit`); a consumer is listed once; a Source
unit, whose input slots `Forward` seeds, is the consumer of no edge; a Sink
unit, which is never copied from, is the producer of no edge. -/
structure ForwardWired (um : UnitManager) : Prop where
  ids : ∀ k md, at? um.m_unitMetaDataMap k = some md → md.Id = k
  nodup : ∀ p, (outputVector um p).Nodup
  source : ∀ p c, c ∈ outputVector um p → c.Type_.BaseType = UnitBaseType.Source →
    p ∉ forwardSources um c
  sink : ∀ p c, p.Type_.BaseType = UnitBaseType.Sink → c ∈ outputVector um p →
    p ∉ forwardSources um c

/-- What a recorded step of `Forward` is held to: the edge invariant before and
after it, and no change to a consumer slot but by a copy. -/
def ForwardStepGood (st : Step) : Prop :=
  ForwardEdgeInv st.pre ∧ ForwardEdgeInv st.post ∧ ForwardStepOk st

/-- Every forward edge is in step, but for the edges out of `key`, whose
consumers are `δ` versions behind. -/
def ForwardSyncedBut (um : UnitManager) (key : UnitId) (δ : Nat) : Prop :=
  ∀ p c, c ∈ outputVector um p → ∀ out, forwardOutput um p = some out →
    ∀ t ∈ edgeSlots um p c, t.State + (if p = key then δ else 0) = out.State

/-- The `BackwardOutputMap` of `u` (empty when `u` is not compiled). -/
def backwardOutputs (um : UnitManager) (u : UnitId) : List (UnitId × Tensor) :=
  match at? um.m_unitMap u with
  | none => []
  | some subject => subject.BackwardOutputMap

/-- The consumer side of the backward edge `u → t`: the `BackwardInputMap`
entries of `t` keyed by `u`. -/
def backEdgeSlots (um : UnitManager) (u t : UnitId) : List Tensor :=
  match at? um.m_unitMap t with
  | none => []
  | some target => slotsKeyed u target.BackwardInputMap

/-- Every backward input slot's version equals the version of the backward
output it is fed from, on every backward edge (`t` a key of the
`BackwardOutputMap` of `u`). -/
def BackwardSynced (um : UnitManager) : Prop :=
  ∀ u t out, (t, out) ∈ backwardOutputs um u →
    ∀ d ∈ backEdgeSlots um u t, d.State = out.State

/-- On every backward edge the consumer's version is the producer's version or
one behind it. -/
def BackwardEdgeInv (um : UnitManager) : Prop :=
  ∀ u t out, (t, out) ∈ backwardOutputs um u →
    ∀ d ∈ backEdgeSlots um u t, d.State ≤ out.State ∧ out.State ≤ d.State + 1

/-- Every backward edge is in step, but for the edges out of `key`, whose
consumers are `δ` versions behind. -/
def BackwardSyncedBut (um : UnitManager) (key : UnitId) (δ : Nat) : Prop :=
  ∀ u t out, (t, out) ∈ backwardOutputs um u →
    ∀ d ∈ backEdgeSlots um u t, d.State + (if u = key then δ else 0) = out.State

/-- A step changes the consumer side of the backward edges only by a copy, which
raises the version by exactly 1, to the producer's version, and brings the
producer's data. -/
def BackwardStepOk (st : Step) : Prop :=
  ∀ u t, t ∈ backwardTargets st.pre u →
    backEdgeSlots st.post u t = backEdgeSlots st.pre u t ∨
    (st.event = Event.backwardCopy u ∧
      ∃ out, (t, out) ∈ backwardOutputs st.post u ∧
        backEdgeSlots st.post u t
          = (backEdgeSlots st.pre u t).map (fun d => { Data := out.Data, State := d.State + 1 }) ∧
        ∀ d ∈ backEdgeSlots st.post u t, d.State = out.State)

/-- What a recorded step of `Backward` is held to. -/
def BackwardStepGood (st : Step) : Prop :=
  BackwardEdgeInv st.pre ∧ BackwardEdgeInv st.post ∧ BackwardStepOk st

/-- How a compiled graph is wired on the backward side: every metadata entry is
stored under its own id; the keys of a `BackwardOutputMap` are distinct (it is
a `std::unordered_map`); a Sink unit, whose backward input slots `Backward`
seeds, is the consumer of no backward edge; a Source unit, which is never
copied from, is the producer of none. -/
structure BackwardWired (um : UnitManager) : Prop where
  ids : ∀ k md, at? um.m_unitMetaDataMap k = some md → md.Id = k
  nodup : ∀ u, (backwardTargets um u).Nodup
  sink : ∀ u t, t ∈ backwardTargets um u → t.Type_.BaseType = UnitBaseType.Sink →
    u ∉ backwardSources um t
  source : ∀ u t, u.Type_.BaseType = UnitBaseType.Source → t ∈ backwardTargets um u →
    u ∉ backwardSources um t

/-- A freshly compiled graph, every counter `0`, in which the Source lists the
Sink twice in its `OutputUnitVector`. -/
def twiceListedFresh : UnitManager where
  m_unitMetaDataMap :=
    [ (uSrc, { Id := uSrc, OutputUnitVector := [uLoss, uLoss] }),
      (uLoss, { Id := uLoss, OutputUnitVector := [] }) ]
  m_unitMap :=
    [ (uSrc,
        { ForwardInputMap := [(uSrc, freshTensor)]
          BackwardInputMap := []
          ForwardOutput := freshTensor
          BackwardOutputMap := []
          ForwardStateCount := 0
          BackwardStateCount := 0 }),
      (uLoss,
        { ForwardInputMap := [(uSrc, freshTensor)]
          BackwardInputMap := [(uLoss, freshTensor)]
          ForwardOutput := freshTensor
          BackwardOutputMap := []
          ForwardStateCount := 0
          BackwardStateCount := 0 }) ]

/-- The unit behaviour of the examples: readiness as in the spec, kernels that
write `[1]` forward and `[2]` backward. -/
def exampleOps : UnitOps := specOps (fun _ _ => [1]) (fun _ _ _ => [2])

/-! ## One forward pass over a compiled graph -/

/-- How many times `Forward()` of the unit `k` was invoked in a log. -/
def forwardCount (log : List Step) (k : UnitId) : Nat :=
  log.countP (fun st => decide (st.event = Event.forward k))

/-- A validly wired compiled graph, forward side: every metadata entry is stored
under its own id and every unit has one; a consumer is listed once, is not a
Source unit, is not listed by a Sink unit, and holds a slot keyed by its
producer; every slot of a unit other than a Source is keyed by a compiled unit
that lists it; every unit has an input slot and every unit but a Sink lists a
consumer. -/
structure ForwardCompiled (um : UnitManager) : Prop where
  ids : ∀ k md, at? um.m_unitMetaDataMap k = some md → md.Id = k
  declared : ∀ k ∈ keys um.m_unitMap, k ∈ keys um.m_unitMetaDataMap
  listedOnce : ∀ p, (outputVector um p).Nodup
  consumer : ∀ p c, c ∈ outputVector um p →
    c.Type_.BaseType ≠ UnitBaseType.Source ∧ p.Type_.BaseType ≠ UnitBaseType.Sink ∧
      p ∈ forwardSources um c
  producer : ∀ p c, c.Type_.BaseType ≠ UnitBaseType.Source → p ∈ forwardSources um c →
    p ∈ keys um.m_unitMap ∧ c ∈ outputVector um p
  inputs : ∀ c cu, at? um.m_unitMap c = some cu → cu.ForwardInputMap ≠ []
  outputs : ∀ p ∈ keys um.m_unitMap, p.Type_.BaseType ≠ UnitBaseType.Sink →
    outputVector um p ≠ []

/-- The edges of the graph are acyclic: the units can be ranked so that every
edge goes up. -/
def Acyclic (um : UnitManager) : Prop :=
  ∃ rank : UnitId → Nat, ∀ p c, c ∈ outputVector um p → rank p < rank c

/-- Every unit has consumed the version its input slots hold: each slot's
version equals the unit's last-consumed version. -/
def ForwardConsumed (um : UnitManager) : Prop :=
  ∀ c cu, at? um.m_unitMap c = some cu →
    ∀ e ∈ cu.ForwardInputMap, e.2.State = cu.ForwardStateCount

/-- What holds between two visits of a forward pass started in `um₀`: the
metadata and the keys are those of `um₀`, no unit was invoked twice, and the
counters of every unit follow the number of its invocations: its last-consumed
version and its output version are up by that number, and each of its input
slots is up by the number of invocations of the producer it is keyed by (by the
seeding, for a Source unit). -/
structure ForwardProgress (um₀ : UnitManager) (r : Run) : Prop where
  metaData : r.um.m_unitMetaDataMap = um₀.m_unitMetaDataMap
  keysEq : keys r.um.m_unitMap = keys um₀.m_unitMap
  atMostOnce : ∀ k, forwardCount r.log k ≤ 1
  others : ∀ k, k ∉ keys um₀.m_unitMap → forwardCount r.log k = 0
  units : ∀ k cu₀, at? um₀.m_unitMap k = some cu₀ →
    ∃ cu, at? r.um.m_unitMap k = some cu ∧
      cu.ForwardStateCount = cu₀.ForwardStateCount + forwardCount r.log k ∧
      cu.ForwardOutput.State = cu₀.ForwardOutput.State + forwardCount r.log k ∧
      keys cu.ForwardInputMap = keys cu₀.ForwardInputMap ∧
      ∀ e ∈ cu.ForwardInputMap, e.2.State = cu₀.ForwardStateCount +
        (if k.Type_.BaseType = UnitBaseType.Source then 1 else forwardCount r.log e.1)

/-- The unit `k` has not been invoked and, unless it is a Source unit, every
producer it holds a slot for has been. -/
def Enabled (um₀ : UnitManager) (log : List Step) (k : UnitId) : Prop :=
  forwardCount log k = 0 ∧
    (k.Type_.BaseType ≠ UnitBaseType.Source → ∀ p ∈ forwardSources um₀ k, forwardCount log p = 1)

/-- The number of invocations of `Forward()` in a log, over the units of `um₀`. -/
def computed (um₀ : UnitManager) (log : List Step) : Nat :=
  ((keys um₀.m_unitMap).map (forwardCount log)).sum

/-- A compiled graph with an inference head and no loss: `Constant → Dense`,
every counter `0`; the `Dense` unit is not a Sink and lists no consumer. -/
def danglingGraph : UnitManager where
  m_unitMetaDataMap :=
    [ (uSrc, { Id := uSrc, OutputUnitVector := [uDense] }),
      (uDense, { Id := uDense, OutputUnitVector := [] }) ]
  m_unitMap :=
    [ (uSrc,
        { ForwardInputMap := [(uSrc, freshTensor)]
          BackwardInputMap := []
          ForwardOutput := freshTensor
          BackwardOutputMap := []
          ForwardStateCount := 0
          BackwardStateCount := 0 }),
      (uDense,
        { ForwardInputMap := [(uSrc, freshTensor)]
          BackwardInputMap := []
          ForwardOutput := freshTensor
          BackwardOutputMap := []
          ForwardStateCount := 0
          BackwardStateCount := 0 }) ]

/-- The state after `Forward(); UpdateForwardState()` of the unit stored under
`key`. -/
def afterForward (ops : UnitOps) (key : UnitId) (unit : ComputableUnit) (um : UnitManager) :
    UnitManager :=
  { um with m_unitMap := setAt um.m_unitMap key (UpdateForwardState (unitForward ops key unit)) }

/-- Every lookup of the forward sweep succeeds: each compiled unit has metadata
and its listed consumers are compiled. -/
def ForwardClosed (um : UnitManager) : Prop :=
  ∀ k ∈ keys um.m_unitMap, ∃ md, at? um.m_unitMetaDataMap k = some md ∧
    ∀ c ∈ md.OutputUnitVector, c ∈ keys um.m_unitMap

/-- A compiled unit that is not a Sink and lists no consumer. -/
def Dangling (um : UnitManager) (k : UnitId) : Prop :=
  k ∈ keys um.m_unitMap ∧ ∃ md, at? um.m_unitMetaDataMap k = some md ∧
    md.Id.Type_.BaseType ≠ UnitBaseType.Sink ∧ md.OutputUnitVector = []

/-- The chain graph as `Forward` has it after its first loop: the input slot of
the Source unit is at version `1`, so that the Source unit is forward-ready. -/
def seededChain : UnitManager :=
  { chainGraph with m_unitMap := seedForward chainGraph.m_unitMap }

/-- The chain graph as `Backward` has it after its first loop: the backward
input slot of the Sink unit is at version `1`, so that the Sink unit is
backward-ready. -/
def seededChainBackward : UnitManager :=
  { chainGraph with m_unitMap := seedBackward chainGraph.m_unitMap }

/-- The chain graph as `Forward` has it when the Source and the `Dense` unit
have computed and copied, with data `[1]`: the Sink unit is forward-ready. -/
def lossReadyChain : UnitManager where
  m_unitMetaDataMap := chainGraph.m_unitMetaDataMap
  m_unitMap :=
    [ (uSrc,
        { ForwardInputMap := [(uSrc, { Data := [], State := 1 })]
          BackwardInputMap := [(uDense, freshTensor)]
          ForwardOutput := { Data := [1], State := 1 }
          BackwardOutputMap := []
          ForwardStateCount := 1
          BackwardStateCount := 0 }),
      (uDense,
        { ForwardInputMap := [(uSrc, { Data := [1], State := 1 })]
          BackwardInputMap := [(uLoss, freshTensor)]
          ForwardOutput := { Data := [1], State := 1 }
          BackwardOutputMap := [(uSrc, freshTensor)]
          ForwardStateCount := 1
          BackwardStateCount := 0 }),
      (uLoss,
        { ForwardInputMap := [(uDense, { Data := [1], State := 1 })]
          BackwardInputMap := [(uLoss, freshTensor)]
          ForwardOutput := freshTensor
          BackwardOutputMap := [(uDense, freshTensor)]
          ForwardStateCount := 0
          BackwardStateCount := 0 }) ]

/-- From `um` to `um'` the metadata and the compiled units are the same and no
forward input slot has gone back: for every slot of `um` keyed by `p` in a unit
`c`, the unit `c` of `um'` holds a slot keyed by `p` whose version is not
lower. -/
def SlotsNotLowered (um um' : UnitManager) : Prop :=
  um'.m_unitMetaDataMap = um.m_unitMetaDataMap ∧ keys um'.m_unitMap = keys um.m_unitMap ∧
    ∀ p c, ∀ t ∈ edgeSlots um p c, ∃ t' ∈ edgeSlots um' p c, t.State ≤ t'.State

/-- The chain graph as `Forward` has it when the Source unit has computed and
not yet copied: its output is at version `1`, the input slot of the `Dense`
unit at version `0`. -/
def sourceComputedChain : UnitManager :=
  match at? seededChain.m_unitMap uSrc with
  | some unit => afterForward exampleOps uSrc unit seededChain
  | none => seededChain

/-- The unit `k` is at rest: it is not forward-ready, readiness taken as in the
spec, and `m_isForwardCopyReady` is false for it. -/
def ForwardQuiet (um : UnitManager) (k : UnitId) : Prop :=
  (∀ cu, at? um.m_unitMap k = some cu →
    allOneAhead cu.ForwardStateCount cu.ForwardInputMap = false) ∧
  m_isForwardCopyReady um k = some false

/-- A compiled graph in which the forward sweep finds what it looks up and no
test is passed for want of slots: each compiled unit has metadata and its listed
consumers are compiled, every unit has a forward input slot, and every unit
whose metadata is not that of a Sink lists a consumer that holds a forward input
slot keyed by it. -/
structure ForwardConnected (um : UnitManager) : Prop where
  closed : ForwardClosed um
  inputs : ∀ c cu, at? um.m_unitMap c = some cu → cu.ForwardInputMap ≠ []
  served : ∀ k ∈ keys um.m_unitMap, ∀ md, at? um.m_unitMetaDataMap k = some md →
    md.Id.Type_.BaseType ≠ UnitBaseType.Sink →
    ∃ c ∈ md.OutputUnitVector, edgeSlots um k c ≠ []

/-- A compiled graph of one unit, a Sink that holds no forward input slot. -/
def inputlessGraph : UnitManager where
  m_unitMetaDataMap := [(uLoss, { Id := uLoss, OutputUnitVector := [] })]
  m_unitMap := [(uLoss, blankUnit)]

/-- The chain graph when the Sink unit has run its backward pass, with data
`[4]`: its backward output for the `Dense` unit is at version `1`, the slot of
the `Dense` unit it feeds at version `0`. -/
def lossBackwardChain : UnitManager :=
  { chainGraph with
    m_unitMap :=
      setAt chainGraph.m_unitMap uLoss
        { ForwardInputMap := [(uDense, freshTensor)]
          BackwardInputMap := [(uLoss, { Data := [], State := 1 })]
          ForwardOutput := freshTensor
          BackwardOutputMap := [(uDense, { Data := [4], State := 1 })]
          ForwardStateCount := 0
          BackwardStateCount := 1 } }

/-- A declared, not yet compiled graph without a `Dense` unit:
`Constant → ReLU → MSE`. -/
def activationGraph : UnitManager where
  m_unitMetaDataMap :=
    [ (uSrc, { Id := uSrc, OutputUnitVector := [uReLU] }),
      (uReLU, { Id := uReLU, OutputUnitVector := [uLoss] }),
      (uLoss, { Id := uLoss, OutputUnitVector := [] }) ]
  m_unitMap := []

/-! ## The initializers `Zeros` and `Ones` (`Initializers/InitializerOp.hpp`) -/

/-- Class `Shape` (not among the sources), as far as the initializers read it:
what `NumRow()`, `NumCol()` and `NumMatrices()` return. -/
structure Shape where
  NumRow : Nat
  NumCol : Nat
  NumMatrices : Nat
  deriving DecidableEq, Repr

namespace InitializerOperations

/-- The assignment `*(data + index) = value`; the buffer is the memory from
`data` on, indexed by the offset. -/
def assign {T : Type} (data : Nat → T) (index : Nat) (value : T) : Nat → T :=
  fun i => if i = index then value else data i

/-- The body `Zeros` and `Ones` share, with the value written as argument.  The
innermost test compares the column index with `shape.NumRow()`, as in the
source. -/
def fill {T : Type} (value : T) (shape : Shape) (data : Nat → T) (padSize : Nat) : Nat → T :=
  let matrixSize := if padSize ≠ 0 then shape.NumRow * padSize else shape.NumRow * shape.NumCol
  let batchSize := shape.NumMatrices
  let colSize := if padSize ≠ 0 then padSize else shape.NumCol
  (List.range batchSize).foldl
    (fun data batchIdx =>
      (List.range shape.NumRow).foldl
        (fun data rowIdx =>
          (List.range colSize).foldl
            (fun data colIdx =>
              if colIdx < shape.NumRow then
                assign data (batchIdx * matrixSize + rowIdx * colSize + colIdx) value
              else data)
            data)
        data)
    data

/-- Function `InitializerOperations::Zeros`. -/
def Zeros {T : Type} [Zero T] (shape : Shape) (data : Nat → T) (padSize : Nat) : Nat → T :=
  fill 0 shape data padSize

/-- Function `InitializerOperations::Ones`. -/
def Ones {T : Type} [One T] (shape : Shape) (data : Nat → T) (padSize : Nat) : Nat → T :=
  fill 1 shape data padSize

end InitializerOperations

/-- A shape of one matrix with two rows and three columns. -/
def shape2x3 : Shape := { NumRow := 2, NumCol := 3, NumMatrices := 1 }

/-- A shape of one matrix with three rows and two columns. -/
def shape3x2 : Shape := { NumRow := 3, NumCol := 2, NumMatrices := 1 }

/-! ## The `SoftMax` unit (`Units/HiddenUnits/Activations/SoftMax.hpp`) -/

namespace Graph

/-- Device kind (`Compute::DeviceType`); the sources name the enumerator `CPU`
only. -/
inductive DeviceType where
  | CPU
  | other
  deriving DecidableEq, Repr

/-- Device (`Compute::Device`); the field `Type_` is what `Type()` returns. -/
structure Device where
  Type_ : DeviceType
  deriving DecidableEq, Repr

/-- What `SoftMax<T>` consumes from code that is not among the sources: the
arithmetic of the element type `T` (with `exp` standing for
`static_cast<T>(std::exp(.))`), and of the tensor class `Tn` the element access
`At(index)` for reading and for assignment, `TensorShape.Size()`, the kernels
`Zeros<T>::Initialize` and `Compute::Add` (each giving the new contents of the
tensor it writes) and the default-constructed tensor that `operator[]` stores
under a missing key. -/
structure Kernels (T Tn : Type) where
  zero : T
  one : T
  add : T → T → T
  sub : T → T → T
  mul : T → T → T
  div : T → T → T
  neg : T → T
  exp : T → T
  At : Tn → Nat → T
  assignAt : Tn → Nat → T → Tn
  Size : Tn → Nat
  Initialize : Tn → Tn
  Add : Tn → Tn → Tn
  defaultTensor : Tn

/-- Members of `SoftMax<T>` (those of `ComputableUnit<T>` it uses, and its
own). -/
structure SoftMax (Tn : Type) where
  BatchSize : Nat
  ForwardInputMap : List (UnitId × Tn)
  BackwardInputMap : List (UnitId × Tn)
  ForwardOutput : Tn
  BackwardOutputMap : List (UnitId × Tn)
  InternalTensorMap : List (String × Tn)
  m_sourceUnitId : UnitId
  m_device : Device

/-- Expression `map[k]` of `std::unordered_map`: the value stored under `k`; a
missing key is first inserted with the default-constructed value. -/
def subscript {κ Tn : Type} [DecidableEq κ] (dflt : Tn) :
    List (κ × Tn) → κ → List (κ × Tn) × Tn
  | [], k => ([(k, dflt)], dflt)
  | (k', v) :: rest, k =>
    if k' = k then ((k', v) :: rest, v)
    else (((k', v) :: (subscript dflt rest k).1), (subscript dflt rest k).2)

/-- Write through the reference `map[k]` obtained before: the value stored
under `k` is replaced. -/
def store {κ Tn : Type} [DecidableEq κ] : List (κ × Tn) → κ → Tn → List (κ × Tn)
  | [], _, _ => []
  | (k', v') :: rest, k, v =>
    if k' = k then (k', v) :: rest else (k', v') :: store rest k v

/-- Shared state of a `std::promise<bool>`: `none` until a value is set. -/
abbrev Promise := Option Bool

/-- Call `promise.set_value(v)`: stores the value; on a promise that already
holds one it raises (`promise_already_satisfied`) and the state stays. -/
def Promise.set_value (p : Promise) (v : Bool) : Except Promise Promise :=
  match p with
  | none => .ok (some v)
  | some _ => .error p

/-- Method `SoftMax<T>::Forward()`.  The iterations of the batch loop (an
`omp parallel for`) are taken in index order. -/
def SoftMax.Forward {T Tn : Type} (k : Kernels T Tn) (s : SoftMax Tn) : SoftMax Tn :=
  let batchSize := s.BatchSize
  let size := k.Size s.ForwardOutput
  let input := subscript k.defaultTensor s.ForwardInputMap s.m_sourceUnitId
  let inputTensor := input.2
  let ForwardOutput :=
    (List.range batchSize).foldl
      (fun ForwardOutput batchIdx =>
        let sum :=
          (List.range size).foldl
            (fun sum idx =>
              let index := batchIdx * size + idx
              k.add sum (k.exp (k.At inputTensor index)))
            k.zero
        (List.range size).foldl
          (fun ForwardOutput idx =>
            let index := batchIdx * size + idx
            k.assignAt ForwardOutput index (k.exp (k.div (k.At inputTensor index) sum)))
          ForwardOutput)
      s.ForwardOutput
  { s with ForwardInputMap := input.1, ForwardOutput := ForwardOutput }

/-- Method `SoftMax<T>::AsyncForward(promise)`: the state of the unit and of the
promise after the call; `.error` when the call raises. -/
def SoftMax.AsyncForward {T Tn : Type} (k : Kernels T Tn) (s : SoftMax Tn)
    (promise : Promise) : Except (SoftMax Tn × Promise) (SoftMax Tn × Promise) :=
  let batchSize := s.BatchSize
  let size := k.Size s.ForwardOutput
  let input := subscript k.defaultTensor s.ForwardInputMap s.m_sourceUnitId
  let inputTensor := input.2
  let ForwardOutput :=
    (List.range batchSize).foldl
      (fun ForwardOutput batchIdx =>
        let sum :=
          (List.range size).foldl
            (fun sum idx =>
              let index := batchIdx * size + idx
              k.add sum (k.exp (k.At inputTensor index)))
            k.zero
        (List.range size).foldl
          (fun ForwardOutput idx =>
            let index := batchIdx * size + idx
            k.assignAt ForwardOutput index (k.exp (k.div (k.At inputTensor index) sum)))
          ForwardOutput)
      s.ForwardOutput
  let s' := { s with ForwardInputMap := input.1, ForwardOutput := ForwardOutput }
  match promise.set_value true with
  | .ok promise' => .ok (s', promise')
  | .error promise' => .error (s', promise')

/-- Method `SoftMax<T>::Backward()`: the state of the unit after the call;
`.error` carries the state at the raise of `std::runtime_error("Not
implemented")`. -/
def SoftMax.Backward {T Tn : Type} (k : Kernels T Tn) (s : SoftMax Tn) :
    Except (SoftMax Tn) (SoftMax Tn) :=
  let batchSize := s.BatchSize
  let size := k.Size s.ForwardOutput
  let temp := subscript k.defaultTensor s.InternalTensorMap "backwardTemp"
  let output := subscript k.defaultTensor s.BackwardOutputMap s.m_sourceUnitId
  let backwardTemp := k.Initialize temp.2
  let backwardTemp :=
    s.BackwardInputMap.foldl (fun backwardTemp entry => k.Add entry.2 backwardTemp) backwardTemp
  if s.m_device.Type_ = DeviceType.CPU then
    let backwardOutput :=
      (List.range batchSize).foldl
        (fun backwardOutput batchIdx =>
          (List.range size).foldl
            (fun backwardOutput idxOut =>
              let backwardOutputIdx := batchIdx * size + idxOut
              (List.range size).foldl
                (fun backwardOutput idxIn =>
                  let backwardInputIdx := batchIdx * size + idxIn
                  let sum := k.zero
                  let sum :=
                    if idxIn = idxOut then
                      let prevOutput := k.At s.ForwardOutput backwardInputIdx
                      let derivative := k.mul prevOutput (k.sub k.one prevOutput)
                      let val := k.mul (k.At backwardTemp backwardInputIdx) derivative
                      k.add sum val
                    else
                      let prevOutput := k.At s.ForwardOutput backwardInputIdx
                      let derivative := k.mul (k.neg prevOutput) prevOutput
                      let val := k.mul (k.At backwardTemp backwardInputIdx) derivative
                      k.add sum val
                  k.assignAt backwardOutput backwardOutputIdx sum)
                backwardOutput)
            backwardOutput)
        output.2
    .ok { s with
          InternalTensorMap := store temp.1 "backwardTemp" backwardTemp
          BackwardOutputMap := store output.1 s.m_sourceUnitId backwardOutput }
  else
    .error { s with
             InternalTensorMap := store temp.1 "backwardTemp" backwardTemp
             BackwardOutputMap := output.1 }

/-- Method `SoftMax<T>::AsyncBackward(promise)`: the state of the unit and of
the promise after the call; `.error` carries both at the raise. -/
def SoftMax.AsyncBackward {T Tn : Type} (k : Kernels T Tn) (s : SoftMax Tn)
    (promise : Promise) : Except (SoftMax Tn × Promise) (SoftMax Tn × Promise) :=
  let batchSize := s.BatchSize
  let size := k.Size s.ForwardOutput
  let temp := subscript k.defaultTensor s.InternalTensorMap "backwardTemp"
  let output := subscript k.defaultTensor s.BackwardOutputMap s.m_sourceUnitId
  let backwardTemp := k.Initialize temp.2
  let backwardTemp :=
    s.BackwardInputMap.foldl (fun backwardTemp entry => k.Add entry.2 backwardTemp) backwardTemp
  if s.m_device.Type_ = DeviceType.CPU then
    let backwardOutput :=
      (List.range batchSize).foldl
        (fun backwardOutput batchIdx =>
          (List.range size).foldl
            (fun backwardOutput idxOut =>
              let backwardOutputIdx := batchIdx * size + idxOut
              (List.range size).foldl
                (fun backwardOutput idxIn =>
                  let backwardInputIdx := batchIdx * size + idxIn
                  let sum := k.zero
                  let sum :=
                    if idxIn = idxOut then
                      let prevOutput := k.At s.ForwardOutput backwardInputIdx
                      let derivative := k.mul prevOutput (k.sub k.one prevOutput)
                      let val := k.mul (k.At backwardTemp backwardInputIdx) derivative
                      k.add sum val
                    else
                      let prevOutput := k.At s.ForwardOutput backwardInputIdx
                      let derivative := k.mul (k.neg prevOutput) prevOutput
                      let val := k.mul (k.At backwardTemp backwardInputIdx) derivative
                      k.add sum val
                  k.assignAt backwardOutput backwardOutputIdx sum)
                backwardOutput)
            backwardOutput)
        output.2
    let s' := { s with
                InternalTensorMap := store temp.1 "backwardTemp" backwardTemp
                BackwardOutputMap := store output.1 s.m_sourceUnitId backwardOutput }
    match promise.set_value true with
    | .ok promise' => .ok (s', promise')
    | .error promise' => .error (s', promise')
  else
    .error ({ s with
              InternalTensorMap := store temp.1 "backwardTemp" backwardTemp
              BackwardOutputMap := output.1 }, promise)

/-- Integer stand-in for the element type and list tensors, to evaluate the
unit on examples: `exp` is the power of two, an access past the end reads 0 and
an assignment past the end is dropped, `Compute::Add` adds the first tensor
into the second. -/
def exampleKernels : Kernels Int (List Int) where
  zero := 0
  one := 1
  add := fun a b => a + b
  sub := fun a b => a - b
  mul := fun a b => a * b
  div := fun a b => a / b
  neg := fun a => -a
  exp := fun a => 2 ^ a.toNat
  At := fun t i => t.getD i 0
  assignAt := fun t i v => t.set i v
  Size := fun t => t.length
  Initialize := fun t => t.map (fun _ => 0)
  Add := fun a b => List.zipWith (fun x y => x + y) a b
  defaultTensor := []

/-- A `SoftMax` unit on the CPU with one batch of two elements, fed by `uSrc`
and read by `uLoss`. -/
def exampleSoftMax : SoftMax (List Int) where
  BatchSize := 1
  ForwardInputMap := [(uSrc, [1, 2])]
  BackwardInputMap := [(uLoss, [3, 5])]
  ForwardOutput := [4, 2]
  BackwardOutputMap := [(uSrc, [0, 0])]
  InternalTensorMap := [("backwardTemp", [7, 7])]
  m_sourceUnitId := uSrc
  m_device := { Type_ := DeviceType.CPU }

/-- The same unit on another device. -/
def exampleSoftMaxOther : SoftMax (List Int) :=
  { exampleSoftMax with m_device := { Type_ := DeviceType.other } }

/-- The value the backward output is to hold at `(b, o)` by the description of
the unit (this is the description, not a translation of the source): the sum
over the input indices `i < size` of `g[b,i] * J(i,o)`, where `J(i,o)` is
`y[b,i] * (1 - y[b,i])` when `i = o` and `-y[b,i] * y[b,i]` otherwise. -/
def SoftMax.jacobianProduct {T Tn : Type} (k : Kernels T Tn) (g y : Tn) (size b o : Nat) : T :=
  (List.range size).foldl
    (fun sum i =>
      let J :=
        if i = o then k.mul (k.At y (b * size + i)) (k.sub k.one (k.At y (b * size + i)))
        else k.mul (k.neg (k.At y (b * size + i))) (k.At y (b * size + i))
      k.add sum (k.mul (k.At g (b * size + i)) J))
    k.zero

/-- Tensors as functions of the index, over any element type whose arithmetic
is given: `At` reads the function, an assignment changes it at one index,
`TensorShape.Size()` is `size` for every tensor. -/
def functionKernels {T : Type} (zero one : T) (add sub mul div : T → T → T) (neg exp : T → T)
    (size : Nat) : Kernels T (Nat → T) where
  zero := zero
  one := one
  add := add
  sub := sub
  mul := mul
  div := div
  neg := neg
  exp := exp
  At := fun t i => t i
  assignAt := fun t i v => fun j => if j = i then v else t j
  Size := fun _ => size
  Initialize := fun _ => fun _ => zero
  Add := fun a b => fun i => add (a i) (b i)
  defaultTensor := fun _ => zero

/-- A `SoftMax` unit on the CPU with `batchSize` batches, fed by `uSrc` with the
tensor `x`; every other tensor holds `zero`. -/
def softMaxOn {T : Type} (zero : T) (batchSize : Nat) (x : Nat → T) : SoftMax (Nat → T) where
  BatchSize := batchSize
  ForwardInputMap := [(uSrc, x)]
  BackwardInputMap := [(uLoss, fun _ => zero)]
  ForwardOutput := fun _ => zero
  BackwardOutputMap := [(uSrc, fun _ => zero)]
  InternalTensorMap := [("backwardTemp", fun _ => zero)]
  m_sourceUnitId := uSrc
  m_device := { Type_ := DeviceType.CPU }

/-- The same over a field `T`, with its own arithmetic and `exp` given. -/
def fieldKernels (T : Type) [Field T] (exp : T → T) (size : Nat) : Kernels T (Nat → T) :=
  functionKernels 0 1 (fun a b => a + b) (fun a b => a - b) (fun a b => a * b)
    (fun a b => a / b) (fun a => -a) exp size

end Graph

end Takion

namespace CubbyDNN

/-! ## Data model of the engine -/

/-- Kind of a unit (`UnitType`). -/
inductive UnitType where
  | Source
  | Hidden
  | Sink
  | Copy
  deriving DecidableEq, Repr

/-- Identifier returned by the builder (`UnitIdentifier`): the kind and the index
in the collection of that kind.  The engine's unit pointers are modelled by
identifiers too: the collections only grow, so an index stays valid. -/
structure UnitIdentifier where
  Type_ : UnitType
  ID : Nat
  deriving DecidableEq, Repr

/-- Shape of a tensor, as far as `Engine::Multiply` looks at it: `Row()`, `Col()`
and `BatchSize()`. -/
structure Shape where
  Row : Nat
  Col : Nat
  BatchSize : Nat
  deriving DecidableEq, Repr

/-- Modelled from the spec: `Shape::operator*` is not among the sources; the
product of an `m x k` and a `k x n` shape is `m x n`, in the same batch. -/
def Shape.mul (a b : Shape) : Shape :=
  { Row := a.Row, Col := b.Col, BatchSize := a.BatchSize }

/-- Description of a tensor (`TensorInfo`); `GetShape()` is the field. -/
structure TensorInfo where
  GetShape : Shape
  deriving DecidableEq, Repr

/-- A default-constructed `TensorInfo`. -/
def TensorInfo.default : TensorInfo := { GetShape := { Row := 0, Col := 0, BatchSize := 0 } }

/-- A Source, Hidden or Sink unit: the `UnitState` (`StateNum`, `IsBusy`), the
pointers to the copy units on its input side (each with its input index) and
on its output side, and the tensor descriptions it was constructed with. -/
structure ComputeUnit where
  StateNum : Nat
  IsBusy : Bool
  m_inputPtrVector : List (Nat × UnitIdentifier)
  m_outputPtrVector : List UnitIdentifier
  InputTensorInfoVector : List TensorInfo
  OutputTensorInfo : TensorInfo
  deriving DecidableEq, Repr

/-- A Copy unit: the `UnitState`, the unit it reads from, the unit it writes to,
and the two tensor indices. -/
structure CopyUnit where
  StateNum : Nat
  IsBusy : Bool
  m_inputPtrVector : List UnitIdentifier
  m_outputPtrVector : List UnitIdentifier
  m_inputTensorIndex : Nat
  m_outputTensorIndex : Nat
  deriving DecidableEq, Repr

/-- The static members of `Engine` that the builder and `Execute` use. -/
structure Engine where
  m_sourceUnitVector : List ComputeUnit
  m_hiddenUnitVector : List ComputeUnit
  m_sinkUnitVector : List ComputeUnit
  m_copyUnitVector : List CopyUnit
  m_active : Bool
  m_maxEpochs : Nat
  deriving DecidableEq, Repr

/-- The engine as initialised: no units, `m_active = true`, `m_maxEpochs = 0`. -/
def Engine.init : Engine where
  m_sourceUnitVector := []
  m_hiddenUnitVector := []
  m_sinkUnitVector := []
  m_copyUnitVector := []
  m_active := true
  m_maxEpochs := 0

/-- A call of the builder either returns a value or raises; either way the
engine is left in some state. -/
inductive Result (α : Type) where
  | ok (e : Engine) (value : α)
  | throws (e : Engine)
  deriving DecidableEq, Repr

/-- Update in place the element at index `i` (nothing happens out of range). -/
def updateAt {α : Type} : List α → Nat → (α → α) → List α
  | [], _, _ => []
  | x :: xs, 0, f => f x :: xs
  | x :: xs, i + 1, f => x :: updateAt xs i f

/-- A freshly constructed Source, Hidden or Sink unit. -/
def ComputeUnit.make (inputs : List TensorInfo) (output : TensorInfo) : ComputeUnit where
  StateNum := 0
  IsBusy := false
  m_inputPtrVector := []
  m_outputPtrVector := []
  InputTensorInfoVector := inputs
  OutputTensorInfo := output

/-- A freshly constructed Copy unit (`SharedPtr<CopyUnit>::Make()`). -/
def CopyUnit.make : CopyUnit where
  StateNum := 0
  IsBusy := false
  m_inputPtrVector := []
  m_outputPtrVector := []
  m_inputTensorIndex := 0
  m_outputTensorIndex := 0

/-- The collection of Source, Hidden or Sink units of a kind. -/
def Engine.units (e : Engine) : UnitType → List ComputeUnit
  | .Source => e.m_sourceUnitVector
  | .Hidden => e.m_hiddenUnitVector
  | .Sink => e.m_sinkUnitVector
  | .Copy => []

/-- Run `f` on the unit of kind `t` at index `i`. -/
def Engine.updateUnit (e : Engine) (t : UnitType) (i : Nat) (f : ComputeUnit → ComputeUnit) :
    Engine :=
  match t with
  | .Source => { e with m_sourceUnitVector := updateAt e.m_sourceUnitVector i f }
  | .Hidden => { e with m_hiddenUnitVector := updateAt e.m_hiddenUnitVector i f }
  | .Sink => { e with m_sinkUnitVector := updateAt e.m_sinkUnitVector i f }
  | .Copy => e

/-! ## The builder -/

/-- Method `AddOutputPtr(copyUnit)` of a unit.
Modelled from the spec: the unit classes are not among the sources; the pointer
becomes the unit's next output, and the index it was given is returned. -/
def AddOutputPtr (unit : ComputeUnit) (copyUnit : UnitIdentifier) : ComputeUnit × Nat :=
  ({ unit with m_outputPtrVector := unit.m_outputPtrVector ++ [copyUnit] },
    unit.m_outputPtrVector.length)

/-- Method `AddInputPtr(copyUnit, index)` of a unit.
Modelled from the spec: the pointer becomes the unit's input number `index`. -/
def AddInputPtr (unit : ComputeUnit) (copyUnit : UnitIdentifier) (index : Nat) : ComputeUnit :=
  { unit with m_inputPtrVector := unit.m_inputPtrVector ++ [(index, copyUnit)] }

/-- The common body of `m_connectSourceToHidden`, `m_connectHiddenToHidden` and
`m_connectHiddenToSink`: both lookups (the `assert`s and `.at()`) come first, so
a failure (`none`) leaves the engine as it was; then a Copy unit is appended and
wired between the origin and the destination. -/
def connectUnits (originType : UnitType) (originID : Nat) (destType : UnitType) (destID : Nat)
    (destInputIndex : Nat) (e : Engine) : Option Engine :=
  match (e.units originType)[originID]?, (e.units destType)[destID]? with
  | some origin, some _ =>
    let copyUnit : UnitIdentifier := { Type_ := .Copy, ID := e.m_copyUnitVector.length }
    let inputIndex := (AddOutputPtr origin copyUnit).2
    let e₁ := e.updateUnit originType originID (fun u => (AddOutputPtr u copyUnit).1)
    let e₂ := e₁.updateUnit destType destID (fun u => AddInputPtr u copyUnit destInputIndex)
    some { e₂ with
      m_copyUnitVector := e₂.m_copyUnitVector ++
        [{ CopyUnit.make with
            m_inputPtrVector := [{ Type_ := originType, ID := originID }]
            m_outputPtrVector := [{ Type_ := destType, ID := destID }]
            m_inputTensorIndex := inputIndex
            m_outputTensorIndex := destInputIndex }] }
  | _, _ => none

/-- Function `Engine::m_connectSourceToHidden`. -/
def m_connectSourceToHidden (originID destID destInputIndex : Nat) (e : Engine) :
    Option Engine :=
  connectUnits .Source originID .Hidden destID destInputIndex e

/-- Function `Engine::m_connectHiddenToHidden`. -/
def m_connectHiddenToHidden (originID destID destInputIndex : Nat) (e : Engine) :
    Option Engine :=
  connectUnits .Hidden originID .Hidden destID destInputIndex e

/-- Function `Engine::m_connectHiddenToSink`. -/
def m_connectHiddenToSink (originID destID destInputIndex : Nat) (e : Engine) :
    Option Engine :=
  connectUnits .Hidden originID .Sink destID destInputIndex e

/-- The loop of `m_connectWithPreviousUnit` for a Hidden subject, from input
index `inputIdx` on.  A predecessor that is neither Source nor Hidden reaches
`assert("Unsupported type of unit")`, which never fails: it is skipped.
`Except.error` carries the engine at the point where a connect raised. -/
def connectToHidden (subjectID : Nat) :
    List UnitIdentifier → Nat → Engine → Except Engine Engine
  | [], _, e => .ok e
  | unit :: rest, inputIdx, e =>
    if unit.Type_ = UnitType.Source then
      match m_connectSourceToHidden unit.ID subjectID inputIdx e with
      | none => .error e
      | some e' => connectToHidden subjectID rest (inputIdx + 1) e'
    else if unit.Type_ = UnitType.Hidden then
      match m_connectHiddenToHidden unit.ID subjectID inputIdx e with
      | none => .error e
      | some e' => connectToHidden subjectID rest (inputIdx + 1) e'
    else connectToHidden subjectID rest inputIdx e

/-- The loop of `m_connectWithPreviousUnit` for a Sink subject: only a Hidden
predecessor is connected. -/
def connectToSink (subjectID : Nat) :
    List UnitIdentifier → Nat → Engine → Except Engine Engine
  | [], _, e => .ok e
  | unit :: rest, inputIdx, e =>
    if unit.Type_ = UnitType.Hidden then
      match m_connectHiddenToSink unit.ID subjectID inputIdx e with
      | none => .error e
      | some e' => connectToSink subjectID rest (inputIdx + 1) e'
    else connectToSink subjectID rest inputIdx e

/-- Function `Engine::m_connectWithPreviousUnit`. -/
def m_connectWithPreviousUnit (previousUnitVector : List UnitIdentifier)
    (subjectUnitIdentifier : UnitIdentifier) (e : Engine) : Except Engine Engine :=
  if subjectUnitIdentifier.Type_ = UnitType.Hidden then
    connectToHidden subjectUnitIdentifier.ID previousUnitVector 0 e
  else if subjectUnitIdentifier.Type_ = UnitType.Sink then
    connectToSink subjectUnitIdentifier.ID previousUnitVector 0 e
  else .ok e

/-- Function `Engine::Source`. -/
def Engine.Source (e : Engine) (outputTensorInfo : TensorInfo) (_numberOfOutputs : Nat) :
    Result UnitIdentifier :=
  let unitId := e.m_sourceUnitVector.length
  .ok { e with
        m_sourceUnitVector := e.m_sourceUnitVector ++ [ComputeUnit.make [] outputTensorInfo] }
    { Type_ := .Source, ID := unitId }

/-- Function `Engine::Constant`: as `Source`, the unit holding constant data. -/
def Engine.Constant (e : Engine) (output : TensorInfo) (_numberOfOutputs : Nat) :
    Result UnitIdentifier :=
  let unitId := e.m_sourceUnitVector.length
  .ok { e with m_sourceUnitVector := e.m_sourceUnitVector ++ [ComputeUnit.make [] output] }
    { Type_ := .Source, ID := unitId }

/-- The output tensor description of a predecessor, as `Engine::Hidden` and
`Engine::Multiply` read it: from the Hidden or the Source collection (`none`
when `.at()` raises), and nothing (`some none`) for another kind. -/
def outputInfoOf (e : Engine) (unit : UnitIdentifier) : Option (Option TensorInfo) :=
  if unit.Type_ = UnitType.Hidden then
    match e.m_hiddenUnitVector[unit.ID]? with
    | none => none
    | some u => some (some u.OutputTensorInfo)
  else if unit.Type_ = UnitType.Source then
    match e.m_sourceUnitVector[unit.ID]? with
    | none => none
    | some u => some (some u.OutputTensorInfo)
  else some none

/-- First loop of `Engine::Hidden`: the input tensor descriptions. -/
def collectInputInfo (e : Engine) : List UnitIdentifier → Option (List TensorInfo)
  | [] => some []
  | unit :: rest =>
    match outputInfoOf e unit with
    | none => none
    | some info =>
      match collectInputInfo e rest with
      | none => none
      | some infos => some (info.toList ++ infos)

/-- Last part of the builder calls: connect the new unit and return its
identifier. -/
def connectAndReturn (previousUnitVector : List UnitIdentifier)
    (unitIdentifier : UnitIdentifier) (e : Engine) : Result UnitIdentifier :=
  match m_connectWithPreviousUnit previousUnitVector unitIdentifier e with
  | .error e' => .throws e'
  | .ok e' => .ok e' unitIdentifier

/-- Function `Engine::Hidden`. -/
def Engine.Hidden (e : Engine) (previousUnitVector : List UnitIdentifier)
    (outputTensorInfo : TensorInfo) (_numberOfOutputs : Nat) : Result UnitIdentifier :=
  match collectInputInfo e previousUnitVector with
  | none => .throws e
  | some inputTensorInfoVector =>
    let unitId := e.m_hiddenUnitVector.length
    connectAndReturn previousUnitVector { Type_ := .Hidden, ID := unitId }
      { e with
        m_hiddenUnitVector :=
          e.m_hiddenUnitVector ++ [ComputeUnit.make inputTensorInfoVector outputTensorInfo] }

/-- Function `Engine::Multiply`. -/
def Engine.Multiply (e : Engine) (unitA unitB : UnitIdentifier) (_numberOfOutputs : Nat) :
    Result UnitIdentifier :=
  let unitId := e.m_hiddenUnitVector.length
  match outputInfoOf e unitA, outputInfoOf e unitB with
  | some infoA, some infoB =>
    let tensorInfoA := infoA.getD TensorInfo.default
    let tensorInfoB := infoB.getD TensorInfo.default
    let shapeA := tensorInfoA.GetShape
    let shapeB := tensorInfoB.GetShape
    if shapeA.Col ≠ shapeB.Row then .throws e
    else if shapeA.BatchSize ≠ shapeB.BatchSize then .throws e
    else
      let outputShape := shapeA.mul shapeB
      connectAndReturn [unitA, unitB] { Type_ := .Hidden, ID := unitId }
        { e with
          m_hiddenUnitVector :=
            e.m_hiddenUnitVector ++
              [ComputeUnit.make [tensorInfoA, tensorInfoB] { GetShape := outputShape }] }
  | _, _ => .throws e

/-- Function `Engine::Sink`; the source returns nothing, the identifier of the
new Sink unit is returned here for reference. -/
def Engine.Sink (e : Engine) (previousUnit : List UnitIdentifier)
    (inputTensorInfoVector : List TensorInfo) : Result UnitIdentifier :=
  let unitId := e.m_sinkUnitVector.length
  connectAndReturn previousUnit { Type_ := .Sink, ID := unitId }
    { e with
      m_sinkUnitVector :=
        e.m_sinkUnitVector ++ [ComputeUnit.make inputTensorInfoVector TensorInfo.default] }

/-- Function `Engine::OutputTest`: a Hidden predecessor is looked up in the
Hidden collection, any other in the Source collection. -/
def Engine.OutputTest (e : Engine) (previousUnit : UnitIdentifier) : Result UnitIdentifier :=
  let unitId := e.m_sinkUnitVector.length
  let previousTensorInfo? :=
    if previousUnit.Type_ = UnitType.Hidden then
      (e.m_hiddenUnitVector[previousUnit.ID]?).map (fun u => u.OutputTensorInfo)
    else (e.m_sourceUnitVector[previousUnit.ID]?).map (fun u => u.OutputTensorInfo)
  match previousTensorInfo? with
  | none => .throws e
  | some previousTensorInfo =>
    connectAndReturn [previousUnit] { Type_ := .Sink, ID := unitId }
      { e with
        m_sinkUnitVector :=
          e.m_sinkUnitVector ++ [ComputeUnit.make [previousTensorInfo] TensorInfo.default] }

/-! ## The cooperative executor -/

/-- Method `GetStateNum()` of the unit an identifier points to. -/
def Engine.stateNum (e : Engine) (id : UnitIdentifier) : Option Nat :=
  match id.Type_ with
  | .Copy => (e.m_copyUnitVector[id.ID]?).map (fun u => u.StateNum)
  | t => ((e.units t)[id.ID]?).map (fun u => u.StateNum)

/-- The units a unit receives from (`m_inputPtrVector`). -/
def Engine.inputPtrs (e : Engine) (id : UnitIdentifier) : Option (List UnitIdentifier) :=
  match id.Type_ with
  | .Copy => (e.m_copyUnitVector[id.ID]?).map (fun u => u.m_inputPtrVector)
  | t => ((e.units t)[id.ID]?).map (fun u => u.m_inputPtrVector.map Prod.snd)

/-- Method `ComputableUnit::ReleaseUnit` on the unit an identifier points to:
`incrementStateNum()` and `setReleased()`. -/
def ReleaseUnit (e : Engine) (id : UnitIdentifier) : Engine :=
  match id.Type_ with
  | .Copy =>
    { e with
      m_copyUnitVector :=
        updateAt e.m_copyUnitVector id.ID
          (fun u => { u with StateNum := u.StateNum + 1, IsBusy := false }) }
  | t => e.updateUnit t id.ID (fun u => { u with StateNum := u.StateNum + 1, IsBusy := false })

/-- What `Execute` consumes from the unit classes, which are not among the
sources: the virtual `IsReady()`.  (`Compute()` works on tensor data only and
leaves every `UnitState` alone; it is recorded in the log of the run.) -/
structure UnitBehaviour where
  IsReady : Engine → UnitIdentifier → Bool

/-- Modelled from the spec: readiness of a unit, "every input slot's version
equals the node's last-consumed version + 1", the version of an input being the
`StateNum` of the unit it comes from and the last-consumed version the unit's own
`StateNum`. -/
def specIsReady (e : Engine) (id : UnitIdentifier) : Bool :=
  match e.stateNum id, e.inputPtrs id with
  | some stateNum, some inputs => inputs.all (fun p => e.stateNum p == some (stateNum + 1))
  | _, _ => false

/-- The behaviour of the units according to the spec. -/
def specBehaviour : UnitBehaviour := { IsReady := specIsReady }

/-- State of a run of `Execute`: the engine, the local `isFinished`, and the
units computed so far, in order. -/
structure ExecState where
  engine : Engine
  isFinished : Bool
  computed : List UnitIdentifier
  deriving DecidableEq, Repr

/-- Body of each of the four `for` loops of `Execute`, for one unit. -/
def executeUnit (beh : UnitBehaviour) (epochs : Nat) (s : ExecState) (id : UnitIdentifier) :
    ExecState :=
  match s.engine.stateNum id with
  | none => s
  | some stateNum =>
    if beh.IsReady s.engine id && decide (stateNum < epochs) then
      { engine := ReleaseUnit s.engine id, isFinished := false, computed := s.computed ++ [id] }
    else s

/-- The identifiers of the units of a collection of size `n`, in order. -/
def unitIds (t : UnitType) (n : Nat) : List UnitIdentifier :=
  (List.range n).map (fun i => { Type_ := t, ID := i })

/-- All units, in the order `Execute` sweeps them: source, hidden, sink, copy. -/
def Engine.allIds (e : Engine) : List UnitIdentifier :=
  unitIds .Source e.m_sourceUnitVector.length ++ unitIds .Hidden e.m_hiddenUnitVector.length ++
    unitIds .Sink e.m_sinkUnitVector.length ++ unitIds .Copy e.m_copyUnitVector.length

/-- Body of the `while` loop of `Execute`: `isFinished = true`, then the four
`for` loops. -/
def executeSweep (beh : UnitBehaviour) (epochs : Nat) (s : ExecState) : ExecState :=
  let s₀ := { s with isFinished := true }
  let s₁ := (unitIds .Source s.engine.m_sourceUnitVector.length).foldl (executeUnit beh epochs) s₀
  let s₂ := (unitIds .Hidden s.engine.m_hiddenUnitVector.length).foldl (executeUnit beh epochs) s₁
  let s₃ := (unitIds .Sink s.engine.m_sinkUnitVector.length).foldl (executeUnit beh epochs) s₂
  (unitIds .Copy s.engine.m_copyUnitVector.length).foldl (executeUnit beh epochs) s₃

/-- The loop `while (m_active && !isFinished)`, the condition being tested at
most `fuel` times; `none` when the fuel runs out. -/
def executeLoop (beh : UnitBehaviour) (epochs : Nat) : Nat → ExecState → Option ExecState
  | 0, _ => none
  | fuel + 1, s =>
    if s.engine.m_active && !s.isFinished then
      executeLoop beh epochs fuel (executeSweep beh epochs s)
    else some s

/-- Function `Engine::Execute(epochs)`. -/
def Engine.Execute (beh : UnitBehaviour) (fuel : Nat) (e : Engine) (epochs : Nat) :
    Option ExecState :=
  executeLoop beh epochs fuel
    { engine := { e with m_maxEpochs := epochs }, isFinished := false, computed := [] }

/-- The engine a chain of builder calls has reached (the engine is left as it
is once a call raises). -/
def Result.engine {α : Type} : Result α → Engine
  | .ok e _ => e
  | .throws e => e

/-! ## Example engines -/

/-- The tensor description of the example: shape `(2, 3)`, one batch. -/
def info23 : TensorInfo := { GetShape := { Row := 2, Col := 3, BatchSize := 1 } }

/-- The engine after `Source`. -/
def engineS : Engine := (Engine.init.Source info23 1).engine

/-- The engine after `Source`, then `Hidden` on it. -/
def engineSH : Engine := (engineS.Hidden [{ Type_ := .Source, ID := 0 }] info23 1).engine

/-- The graph `Source → Hidden → Sink` as the builder makes it, with its two
Copy units; every counter is `0`. -/
def engineSHK : Engine := (engineSH.Sink [{ Type_ := .Hidden, ID := 0 }] [info23]).engine

/-- The work left to `Execute(epochs)`: how far the units are, together, from
`epochs` computations each. -/
def deficit (epochs : Nat) (e : Engine) : Nat :=
  (e.m_sourceUnitVector.map (fun u => epochs - u.StateNum)).sum +
    (e.m_hiddenUnitVector.map (fun u => epochs - u.StateNum)).sum +
    (e.m_sinkUnitVector.map (fun u => epochs - u.StateNum)).sum +
    (e.m_copyUnitVector.map (fun u => epochs - u.StateNum)).sum

/-- The sizes of the four collections and the active flag. -/
def Engine.frame (e : Engine) : Nat × Nat × Nat × Nat × Bool :=
  (e.m_sourceUnitVector.length, e.m_hiddenUnitVector.length, e.m_sinkUnitVector.length,
    e.m_copyUnitVector.length, e.m_active)

/-- The engine after `Execute(5)` has run on the graph `Source → Hidden → Sink`. -/
def engineRun5 : Engine :=
  match Engine.Execute specBehaviour 9 engineSHK 5 with
  | some s => s.engine
  | none => engineSHK

/-- The engine after a second Hidden unit has then been declared on the same
Source: the new Hidden unit and its Copy unit start at `StateNum = 0`, while the
Source has already produced its 5 outputs. -/
def engineLate : Engine := (engineRun5.Hidden [{ Type_ := .Source, ID := 0 }] info23 1).engine

/-- What the builder may do to the units that exist already: a unit keeps its
counters and tensor descriptions and the outputs it had, further outputs being
appended; the collections keep their sizes; the Copy units that exist are left
as they are, further Copy units being appended. -/
def Extends (e e' : Engine) : Prop :=
  (∀ (t : UnitType) (i : Nat) (u : ComputeUnit), (e.units t)[i]? = some u →
    ∃ (u' : ComputeUnit) (more : List UnitIdentifier), (e'.units t)[i]? = some u' ∧
      u'.m_outputPtrVector = u.m_outputPtrVector ++ more ∧
      u'.StateNum = u.StateNum ∧ u'.OutputTensorInfo = u.OutputTensorInfo ∧
      u'.InputTensorInfoVector = u.InputTensorInfoVector) ∧
  (∀ t, (e'.units t).length = (e.units t).length) ∧
  (∃ more, e'.m_copyUnitVector = e.m_copyUnitVector ++ more) ∧
  e'.m_active = e.m_active ∧ e'.m_maxEpochs = e.m_maxEpochs

/-- The Copy units the connect loop has inserted for the predecessors `P` of the
unit `subject`, the first of them at input index `first`: one per predecessor,
appended in order; the `j`-th reads from `P[j]`, writes to `subject`, has output
tensor index `first + j`, and its input tensor index is the place it has among
the outputs of `P[j]`. -/
def WiredFrom (e e' : Engine) (P : List UnitIdentifier) (subject : UnitIdentifier)
    (first : Nat) : Prop :=
  ∃ newCopies : List CopyUnit,
    e'.m_copyUnitVector = e.m_copyUnitVector ++ newCopies ∧
    newCopies.length = P.length ∧
    ∀ (j : Nat) (p : UnitIdentifier), P[j]? = some p →
      ∃ (c : CopyUnit) (pred : ComputeUnit), newCopies[j]? = some c ∧
        c.m_inputPtrVector = [p] ∧
        c.m_outputPtrVector = [subject] ∧
        c.m_outputTensorIndex = first + j ∧
        (e'.units p.Type_)[p.ID]? = some pred ∧
        pred.m_outputPtrVector[c.m_inputTensorIndex]?
          = some ({ Type_ := .Copy, ID := e.m_copyUnitVector.length + j } : UnitIdentifier)

/-- The Copy units a builder call has inserted for the predecessors `P` of the
new unit `subject`: exactly one per predecessor, appended in order; the `j`-th
(0-based) reads from `P[j]`, writes to `subject`, has output tensor index `j`,
and its input tensor index is the place it has among the outputs of `P[j]`. -/
def CopiesWired (e e' : Engine) (P : List UnitIdentifier) (subject : UnitIdentifier) : Prop :=
  WiredFrom e e' P subject 0

/-- A tensor description of shape `(3, 4)`, one batch. -/
def info34 : TensorInfo := { GetShape := { Row := 3, Col := 4, BatchSize := 1 } }

/-- The engine after two `Source` calls, of shapes `(2, 3)` and `(3, 4)`. -/
def engineSS : Engine := (engineS.Source info34 1).engine

/-! ## Sequences of builder calls -/

/-- A call of the builder, with its arguments. -/
inductive BuilderCall where
  | Source (outputTensorInfo : TensorInfo) (numberOfOutputs : Nat)
  | Constant (output : TensorInfo) (numberOfOutputs : Nat)
  | Hidden (previousUnitVector : List UnitIdentifier) (outputTensorInfo : TensorInfo)
      (numberOfOutputs : Nat)
  | Multiply (unitA unitB : UnitIdentifier) (numberOfOutputs : Nat)
  | Sink (previousUnit : List UnitIdentifier) (inputTensorInfoVector : List TensorInfo)
  | OutputTest (previousUnit : UnitIdentifier)
  deriving DecidableEq, Repr

/-- The collection a call appends its unit to. -/
def BuilderCall.kind : BuilderCall → UnitType
  | .Source _ _ => .Source
  | .Constant _ _ => .Source
  | .Hidden _ _ _ => .Hidden
  | .Multiply _ _ _ => .Hidden
  | .Sink _ _ => .Sink
  | .OutputTest _ => .Sink

/-- Run one call of the builder. -/
def Engine.call (e : Engine) : BuilderCall → Result UnitIdentifier
  | .Source info n => e.Source info n
  | .Constant info n => e.Constant info n
  | .Hidden P info n => e.Hidden P info n
  | .Multiply unitA unitB n => e.Multiply unitA unitB n
  | .Sink P infos => e.Sink P infos
  | .OutputTest p => e.OutputTest p

/-- The identifier a call hands to its caller: none when the call raises, and
none for `Engine::Sink`, which returns `void`. -/
def handedBack (c : BuilderCall) (r : Result UnitIdentifier) : Option UnitIdentifier :=
  match c, r with
  | .Sink _ _, _ => none
  | _, .throws _ => none
  | _, .ok _ id => some id

/-- Run a sequence of builder calls, one after the other (a caller may catch a
raise and go on): the engine reached and the identifiers handed back, in
order. -/
def Engine.calls (e : Engine) : List BuilderCall → Engine × List UnitIdentifier
  | [] => (e, [])
  | c :: rest =>
    let r := ((e.call c).engine).calls rest
    (r.1, (handedBack c (e.call c)).toList ++ r.2)

/-- The engine `e'` holds every unit of `e` at the index it had: with the state
counter and the tensor descriptions it had, and the output pointers it had,
possibly followed by new ones; the Copy units of `e` are the first of `e'`. -/
def Grows (e e' : Engine) : Prop :=
  (∀ (t : UnitType) (i : Nat) (u : ComputeUnit), (e.units t)[i]? = some u →
    ∃ (u' : ComputeUnit) (more : List UnitIdentifier), (e'.units t)[i]? = some u' ∧
      u'.m_outputPtrVector = u.m_outputPtrVector ++ more ∧
      u'.StateNum = u.StateNum ∧ u'.OutputTensorInfo = u.OutputTensorInfo ∧
      u'.InputTensorInfoVector = u.InputTensorInfoVector) ∧
  (∃ more, e'.m_copyUnitVector = e.m_copyUnitVector ++ more)

/-! ## The task queue and the worker loop -/

/-- Class `SpinLockQueue<T>`: the capacity given to the constructor and the
elements held, the oldest first.
Modelled from the spec: `SpinLockQueue.hpp` is not among the sources; "a bounded
... FIFO queue of closures". -/
structure SpinLockQueue (α : Type) where
  capacity : Nat
  items : List α
  deriving DecidableEq, Repr

/-- Method `Enqueue`; `none` when the call cannot complete in this state and
the caller keeps spinning.
Modelled from the spec: "`Enqueue` blocks (spins) while the queue is full". -/
def SpinLockQueue.Enqueue {α : Type} (q : SpinLockQueue α) (x : α) : Option (SpinLockQueue α) :=
  if q.items.length < q.capacity then some { q with items := q.items ++ [x] } else none

/-- Method `Dequeue`; `none` when the call cannot complete in this state.
Modelled from the spec: "`Dequeue` blocks while empty. FIFO order is
preserved." -/
def SpinLockQueue.Dequeue {α : Type} (q : SpinLockQueue α) : Option (α × SpinLockQueue α) :=
  match q.items with
  | [] => none
  | x :: rest => some (x, { q with items := rest })

/-- The two threads of a queue used by one producer and one consumer. -/
inductive Party where
  | producer
  | consumer
  deriving DecidableEq, Repr

/-- A producer that calls `Enqueue` on each element of `toSend` in turn and a
consumer that calls `Dequeue` again and again, collecting what it gets (the
first dequeued first). -/
structure Channel (α : Type) where
  toSend : List α
  queue : SpinLockQueue α
  received : List α
  deriving DecidableEq, Repr

/-- One step of one of the two threads: the producer completes its pending
`Enqueue`, or the consumer completes its pending `Dequeue`; a call that cannot
complete leaves everything as it is. -/
def Channel.step {α : Type} (ch : Channel α) : Party → Channel α
  | .producer =>
    match ch.toSend with
    | [] => ch
    | x :: rest =>
      match ch.queue.Enqueue x with
      | some q => { ch with toSend := rest, queue := q }
      | none => ch
  | .consumer =>
    match ch.queue.Dequeue with
    | some (x, q) => { ch with queue := q, received := ch.received ++ [x] }
    | none => ch

/-- The channel after the threads have taken steps in the order of
`schedule`. -/
def Channel.run {α : Type} (ch : Channel α) (schedule : List Party) : Channel α :=
  schedule.foldl Channel.step ch

/-- The channel at the start: an empty queue of the given capacity, nothing
received. -/
def Channel.start {α : Type} (capacity : Nat) (toSend : List α) : Channel α where
  toSend := toSend
  queue := { capacity := capacity, items := [] }
  received := []

/-- The schedule in which the producer and the consumer take turns, `n` times. -/
def alternate : Nat → List Party
  | 0 => []
  | n + 1 => Party.producer :: Party.consumer :: alternate n

/-- Enumerators of `TaskType` that `Engine.cpp` names. -/
inductive TaskType where
  | ComputeSource
  | ComputeHidden
  | ComputeSink
  | Copy
  | Join
  deriving DecidableEq, Repr

/-- A `TaskWrapper`: its `Type` and what its two closures capture, the unit
(`computeFunc` calls `Compute()` on it, `updateState` calls `ReleaseUnit()` on
it) and the counter `count` that `updateState` adds to, named by the number of
the call of the scan function that declared it; `none` for a task constructed
without closures or with empty ones. -/
structure TaskWrapper where
  Type_ : TaskType
  closures : Option (UnitIdentifier × Nat)
  deriving DecidableEq, Repr

/-- A task of type `Join`, as `ExecuteParallel` and `Abort` construct it. -/
def joinTask : TaskWrapper := { Type_ := TaskType.Join, closures := none }

/-- A task for a unit, as the scan functions construct it. -/
def unitTask (type : TaskType) (unit : UnitIdentifier) (call : Nat) : TaskWrapper :=
  { Type_ := type, closures := some (unit, call) }

/-! ## The parallel executor -/

/-- Where a thread of `m_mainThreadPool` stands in `m_run`: in a call of
`Dequeue`; in `task()` before `computeFunc`; in `updateState` before
`count.fetch_add(1)`; before `ReleaseUnit()`; or past the end of `m_run`.  The
closure `GetTask()` returns is taken to call `computeFunc` and then
`updateState`, as the names of the constructor arguments say (`TaskWrapper` is
not among the sources). -/
inductive Thread where
  | dequeue
  | compute (t : TaskWrapper)
  | signal (t : TaskWrapper)
  | release (t : TaskWrapper)
  | exited
  deriving DecidableEq, Repr

/-- Where the thread that called `ExecuteParallel` or `Abort` stands.
In `ExecuteParallel`: `spawn count`, in the loop that creates the workers;
`complete call`, at the test `m_IsComplete(epochs)`, `call` invocations of the
scan functions having returned; `scan call index desired`, in invocation number
`call` of a scan function (`m_executeComputeUnits` for an even number,
`m_executeCopyUnits` for an odd one), at the test `IsReady()` of the unit at
position `index`; `enqueue call index desired t`, at the call `Enqueue` of the
task `t` declared for that unit; `wait call desired`, in the loop that waits
for `count` to reach `desired`; `join count`, in the loop that enqueues the
`Join` tasks.  In `Abort`: `abortEnqueue count`, in the first loop;
`abortJoin index`, at the `join()` of the pool thread `index`. -/
inductive Main where
  | spawn (count : Nat)
  | complete (call : Nat)
  | scan (call index desired : Nat)
  | enqueue (call index desired : Nat) (t : TaskWrapper)
  | wait (call desired : Nat)
  | join (count : Nat)
  | abortEnqueue (count : Nat)
  | abortJoin (index : Nat)
  | returned
  deriving DecidableEq, Repr

/-- What is recorded of a run, for the statements about its order. -/
inductive Event where
  | scanned (call : Nat) (unit : UnitIdentifier) (ready : Bool)
  | enqueued (t : TaskWrapper)
  | dequeued (worker : Nat) (t : TaskWrapper)
  | computed (worker : Nat) (t : TaskWrapper)
  | signalled (worker : Nat) (t : TaskWrapper)
  | released (worker : Nat) (t : TaskWrapper)
  | passed (call : Nat)
  deriving DecidableEq, Repr

/-- State of the engine and of its threads: the static members, the position
of the calling thread and of each pool thread, the counter `count` of each
invocation of a scan function, and the events so far, the latest first. -/
structure ParState where
  engine : Engine
  m_taskQueue : SpinLockQueue TaskWrapper
  m_mainThreadPool : List Thread
  main : Main
  count : Nat → Nat
  log : List Event

/-- The arguments of `ExecuteParallel`, the value of
`std::thread::hardware_concurrency()` and the behaviour of the units. -/
structure Config where
  beh : UnitBehaviour
  workers : Nat
  epochs : Nat
  hardwareConcurrency : Nat

/-- The value of `workers` after `if (hardwareConcurrency < workers) workers =
hardwareConcurrency`. -/
def Config.clamped (cfg : Config) : Nat :=
  if cfg.hardwareConcurrency < cfg.workers then cfg.hardwareConcurrency else cfg.workers

/-- Function `Engine::m_IsComplete(epochs)`. -/
def m_IsComplete (e : Engine) (epochs : Nat) : Bool :=
  let isComplete := true
  let isComplete :=
    e.m_sourceUnitVector.foldl
      (fun isComplete u => if u.StateNum < epochs then false else isComplete) isComplete
  let isComplete :=
    e.m_hiddenUnitVector.foldl
      (fun isComplete u => if u.StateNum < epochs then false else isComplete) isComplete
  let isComplete :=
    e.m_sinkUnitVector.foldl
      (fun isComplete u => if u.StateNum < epochs then false else isComplete) isComplete
  let isComplete :=
    e.m_copyUnitVector.foldl
      (fun isComplete u => if u.StateNum < epochs then false else isComplete) isComplete
  isComplete

/-- The units that invocation number `call` of a scan function goes through,
each with the type of the task declared for it: for `m_executeComputeUnits`
the source, hidden and sink units, for `m_executeCopyUnits` the copy units. -/
def scanList (e : Engine) (call : Nat) : List (TaskType × UnitIdentifier) :=
  if call % 2 = 0 then
    (unitIds .Source e.m_sourceUnitVector.length).map (fun u => (TaskType.ComputeSource, u)) ++
    (unitIds .Hidden e.m_hiddenUnitVector.length).map (fun u => (TaskType.ComputeHidden, u)) ++
    (unitIds .Sink e.m_sinkUnitVector.length).map (fun u => (TaskType.ComputeSink, u))
  else
    (unitIds .Copy e.m_copyUnitVector.length).map (fun u => (TaskType.Copy, u))

/-- The counter of invocation `call`, after `fetch_add(1)`. -/
def fetch_add (count : Nat → Nat) (call : Nat) : Nat → Nat :=
  fun c => if c = call then count c + 1 else count c

/-- One step of the thread that called `ExecuteParallel` or `Abort`; a call of
`Enqueue` or `join()` that cannot complete, and the waiting loop while `count`
differs from `desired`, leave the state as it is.  The flag `m_ready`, which
the scan functions write and nothing reads, and the output to `std::cout` are
left out. -/
def ParState.mainStep (cfg : Config) (s : ParState) : ParState :=
  match s.main with
  | .spawn count =>
    if count < cfg.clamped then
      { s with m_mainThreadPool := s.m_mainThreadPool ++ [Thread.dequeue]
               main := .spawn (count + 1) }
    else { s with main := .complete 0 }
  | .complete call =>
    if m_IsComplete s.engine cfg.epochs then { s with main := .join 0 }
    else { s with main := .scan call 0 0 }
  | .scan call index desired =>
    match (scanList s.engine call)[index]? with
    | none => { s with main := .wait call desired }
    | some (type, unit) =>
      if cfg.beh.IsReady s.engine unit then
        { s with main := .enqueue call index desired (unitTask type unit call)
                 log := .scanned call unit true :: s.log }
      else
        { s with main := .scan call (index + 1) desired
                 log := .scanned call unit false :: s.log }
  | .enqueue call index desired t =>
    match s.m_taskQueue.Enqueue t with
    | none => s
    | some q =>
      { s with m_taskQueue := q
               main := .scan call (index + 1) (desired + 1)
               log := .enqueued t :: s.log }
  | .wait call desired =>
    if s.count call = desired then
      { s with main := if call % 2 = 0 then .scan (call + 1) 0 0 else .complete (call + 1)
               log := .passed call :: s.log }
    else s
  | .join count =>
    if count < s.m_mainThreadPool.length then
      match s.m_taskQueue.Enqueue joinTask with
      | none => s
      | some q =>
        { s with m_taskQueue := q, main := .join (count + 1), log := .enqueued joinTask :: s.log }
    else { s with main := .returned }
  | .abortEnqueue count =>
    if count < s.m_mainThreadPool.length then
      match s.m_taskQueue.Enqueue joinTask with
      | none => s
      | some q =>
        { s with m_taskQueue := q
                 main := .abortEnqueue (count + 1)
                 log := .enqueued joinTask :: s.log }
    else { s with main := .abortJoin 0 }
  | .abortJoin index =>
    match s.m_mainThreadPool[index]? with
    | none => { s with engine := { s.engine with m_active := false }, main := .returned }
    | some thread => if thread = Thread.exited then { s with main := .abortJoin (index + 1) } else s
  | .returned => s

/-- One step of the pool thread `worker` in `m_run`; a call of `Dequeue` that
cannot complete leaves the state as it is. -/
def ParState.workerStep (s : ParState) (worker : Nat) : ParState :=
  match s.m_mainThreadPool[worker]? with
  | none => s
  | some .dequeue =>
    match s.m_taskQueue.Dequeue with
    | none => s
    | some (taskWrapper, q) =>
      { s with m_taskQueue := q
               m_mainThreadPool :=
                 s.m_mainThreadPool.set worker
                   (if taskWrapper.Type_ ≠ TaskType.Join then .compute taskWrapper else .exited)
               log := .dequeued worker taskWrapper :: s.log }
  | some (.compute t) =>
    { s with m_mainThreadPool := s.m_mainThreadPool.set worker (.signal t)
             log := .computed worker t :: s.log }
  | some (.signal t) =>
    { s with count := match t.closures with
                      | some (_, call) => fetch_add s.count call
                      | none => s.count
             m_mainThreadPool := s.m_mainThreadPool.set worker (.release t)
             log := .signalled worker t :: s.log }
  | some (.release t) =>
    { s with engine := match t.closures with
                       | some (unit, _) => ReleaseUnit s.engine unit
                       | none => s.engine
             m_mainThreadPool := s.m_mainThreadPool.set worker .dequeue
             log := .released worker t :: s.log }
  | some .exited => s

/-- The threads of a run: the calling thread and the pool threads. -/
inductive Actor where
  | main
  | worker (index : Nat)
  deriving DecidableEq, Repr

/-- One step of one thread. -/
def ParState.step (cfg : Config) (s : ParState) : Actor → ParState
  | .main => s.mainStep cfg
  | .worker index => s.workerStep index

/-- The state after the threads have taken steps in the order of `schedule`. -/
def ParState.run (cfg : Config) (s : ParState) (schedule : List Actor) : ParState :=
  schedule.foldl (ParState.step cfg) s

/-- The state in which a thread enters `ExecuteParallel`: the engine, the task
queue and the thread pool as they are, no counter declared yet. -/
def ExecuteParallel (e : Engine) (queue : SpinLockQueue TaskWrapper) (pool : List Thread) :
    ParState where
  engine := e
  m_taskQueue := queue
  m_mainThreadPool := pool
  main := .spawn 0
  count := fun _ => 0
  log := []

/-- The state in which a thread enters `Abort`. -/
def Abort (e : Engine) (queue : SpinLockQueue TaskWrapper) (pool : List Thread)
    (count : Nat → Nat) : ParState where
  engine := e
  m_taskQueue := queue
  m_mainThreadPool := pool
  main := .abortEnqueue 0
  count := count
  log := []

/-- The task queue as `Engine.cpp` declares it: `m_taskQueue(20)`. -/
def m_taskQueue : SpinLockQueue TaskWrapper := { capacity := 20, items := [] }

/-- The number of tasks of type `Join` that have been enqueued. -/
def joinsEnqueued (log : List Event) : Nat :=
  log.countP (fun e => match e with
    | .enqueued t => decide (t.Type_ = TaskType.Join)
    | _ => false)

/-- What holds throughout a run of `Abort`: the calling thread is in `Abort` or
has returned from it, the pool has the threads it had, the threads already
joined have left `m_run`, and after the return `m_active` is `false`. -/
structure AbortInv (size : Nat) (s : ParState) : Prop where
  size_eq : s.m_mainThreadPool.length = size
  position : (∃ count, s.main = .abortEnqueue count) ∨ (∃ index, s.main = .abortJoin index) ∨
    s.main = .returned
  joined : ∀ index, s.main = .abortJoin index →
    ∀ j, j < index → s.m_mainThreadPool[j]? = some Thread.exited
  all_joined : s.main = .returned →
    s.engine.m_active = false ∧ ∀ th ∈ s.m_mainThreadPool, th = Thread.exited

/-- A pool of two workers waiting for a task, next to the engine with one source
unit. -/
def examplePool : List Thread := [Thread.dequeue, Thread.dequeue]

/-- An `ExecuteParallel(2, 0)` where eight threads are available. -/
def exampleConfig : Config where
  beh := specBehaviour
  workers := 2
  epochs := 0
  hardwareConcurrency := 8

/-- A schedule of `ExecuteParallel` with `exampleConfig`: the calling thread
runs to its end, then each of the two workers takes a step. -/
def exampleShutdown : List Actor :=
  List.replicate 7 Actor.main ++ [Actor.worker 0, Actor.worker 1]

/-- A schedule of `Abort` with two pool threads: the calling thread enqueues,
each of the two workers takes a step, the calling thread joins them. -/
def exampleAbort : List Actor :=
  List.replicate 3 Actor.main ++ [Actor.worker 0, Actor.worker 1] ++ List.replicate 3 Actor.main

/-- The invocation of a scan function whose counter the task adds to. -/
def TaskWrapper.call (t : TaskWrapper) : Option Nat := t.closures.map Prod.snd

/-- 1 for a task of invocation `call`, 0 for any other. -/
def TaskWrapper.weight (call : Nat) (t : TaskWrapper) : Nat :=
  if t.call = some call then 1 else 0

/-- The task a thread holds and has not yet signalled, counted for its
invocation. -/
def Thread.weight (call : Nat) : Thread → Nat
  | .compute t => t.weight call
  | .signal t => t.weight call
  | _ => 0

/-- The number of tasks of invocation `call` enqueued so far. -/
def enqueuedCount (log : List Event) (call : Nat) : Nat :=
  (log.map (fun e => match e with
    | .enqueued t => t.weight call
    | _ => 0)).sum

/-- The number of tasks of invocation `call` that have signalled so far. -/
def signalledCount (log : List Event) (call : Nat) : Nat :=
  (log.map (fun e => match e with
    | .signalled _ t => t.weight call
    | _ => 0)).sum

/-- The number of tasks of invocation `call` in the queue or held by a worker
that has not yet signalled. -/
def ParState.pending (s : ParState) (call : Nat) : Nat :=
  (s.m_taskQueue.items.map (TaskWrapper.weight call)).sum +
    (s.m_mainThreadPool.map (Thread.weight call)).sum

/-- The task is in the queue or held by a worker that has not yet signalled. -/
def ParState.Holds (s : ParState) (t : TaskWrapper) : Prop :=
  t ∈ s.m_taskQueue.items ∨
    ∃ w : Nat, s.m_mainThreadPool[w]? = some (Thread.compute t) ∨
      s.m_mainThreadPool[w]? = some (Thread.signal t)

/-- The invocation of a scan function the calling thread is in, with the value
of `desired`. -/
def Main.desired : Main → Option (Nat × Nat)
  | .scan call _ desired => some (call, desired)
  | .enqueue call _ desired _ => some (call, desired)
  | .wait call desired => some (call, desired)
  | _ => none

/-- The number of the invocation of a scan function the calling thread is in,
or is about to enter. -/
def Main.current : Main → Option Nat
  | .complete call => some call
  | .scan call _ _ => some call
  | .enqueue call _ _ _ => some call
  | .wait call _ => some call
  | _ => none

/-- Invocation `call` has been entered, as far as the position of the calling
thread tells: no task of a later invocation exists. -/
def Main.Below (m : Main) (call : Nat) : Prop :=
  match m with
  | .spawn _ => False
  | .complete k => call < k
  | .scan k _ _ => call ≤ k
  | .enqueue k _ _ _ => call ≤ k
  | .wait k _ => call ≤ k
  | _ => True

/-- Invocation `call` has returned, as far as the position of the calling
thread tells. -/
def Main.Past (m : Main) (call : Nat) : Prop :=
  match m with
  | .spawn _ => False
  | .complete k => call < k
  | .scan k _ _ => call < k
  | .enqueue k _ _ _ => call < k
  | .wait k _ => call < k
  | _ => True

/-- What must have happened before an event: before invocation `call` leaves its
waiting loop, as many of its tasks have signalled as were enqueued, and every
one enqueued has signalled; before a task of an invocation is enqueued, that
invocation has not left its waiting loop and, for an invocation of
`m_executeCopyUnits`, the preceding invocation of `m_executeComputeUnits` has;
before the closure of a task runs, the task was enqueued. -/
def Event.Follows (e : Event) (earlier : List Event) : Prop :=
  match e with
  | .passed call =>
    signalledCount earlier call = enqueuedCount earlier call ∧
      ∀ t, Event.enqueued t ∈ earlier → t.call = some call →
        ∃ w, Event.signalled w t ∈ earlier
  | .enqueued t =>
    ∀ call, t.call = some call →
      Event.passed call ∉ earlier ∧ (call % 2 = 1 → Event.passed (call - 1) ∈ earlier)
  | .computed _ t => t.call ≠ none → Event.enqueued t ∈ earlier
  | _ => True

/-- Every event of the log, the latest first, follows what it must follow. -/
def Ordered : List Event → Prop
  | [] => True
  | e :: earlier => e.Follows earlier ∧ Ordered earlier

/-- What holds throughout a run of `ExecuteParallel`. -/
structure RoundInv (s : ParState) : Prop where
  counted : ∀ c, s.count c + s.pending c = enqueuedCount s.log c
  signalled_eq : ∀ c, s.count c = signalledCount s.log c
  desired_eq : ∀ c d, s.main.desired = some (c, d) → enqueuedCount s.log c = d
  below : ∀ t c, Event.enqueued t ∈ s.log → t.call = some c → s.main.Below c
  past : ∀ c, Event.passed c ∈ s.log → s.main.Past c
  progress : ∀ t c, Event.enqueued t ∈ s.log → t.call = some c →
    s.Holds t ∨ ∃ w, Event.signalled w t ∈ s.log
  held : ∀ t, t.call ≠ none →
    (t ∈ s.m_taskQueue.items ∨ ∃ w : Nat, s.m_mainThreadPool[w]? = some (Thread.compute t)) →
    Event.enqueued t ∈ s.log
  typed : ∀ t c, Event.enqueued t ∈ s.log → t.call = some c →
    t.Type_ ≠ TaskType.Join ∧ (t.Type_ = TaskType.Copy ↔ c % 2 = 1)
  declared : ∀ c i d t, s.main = Main.enqueue c i d t →
    t.call = some c ∧ t.Type_ ≠ TaskType.Join ∧ (t.Type_ = TaskType.Copy ↔ c % 2 = 1)
  previous : ∀ c, s.main.current = some c → c % 2 = 1 → Event.passed (c - 1) ∈ s.log
  ordered : Ordered s.log

/-- The steps of a run, one case for each thing a thread can do: `Moves cfg s s'`
says that `s'` is `s` after one such step. -/
inductive Moves (cfg : Config) (s : ParState) : ParState → Prop where
  | stay : Moves cfg s s
  | spawned (k : Nat) (hm : s.main = Main.spawn k) :
    Moves cfg s
      { s with m_mainThreadPool := s.m_mainThreadPool ++ [Thread.dequeue]
               main := Main.spawn (k + 1) }
  | started (k : Nat) (hm : s.main = Main.spawn k) :
    Moves cfg s { s with main := Main.complete 0 }
  | entered (c : Nat) (hm : s.main = Main.complete c) :
    Moves cfg s { s with main := Main.scan c 0 0 }
  | scannedAll (c i d : Nat) (hm : s.main = Main.scan c i d)
      (hend : (scanList s.engine c)[i]? = none) :
    Moves cfg s { s with main := Main.wait c d }
  | foundReady (c i d : Nat) (type : TaskType) (unit : UnitIdentifier)
      (hm : s.main = Main.scan c i d)
      (hget : (scanList s.engine c)[i]? = some (type, unit)) :
    Moves cfg s
      { s with main := Main.enqueue c i d (unitTask type unit c)
               log := Event.scanned c unit true :: s.log }
  | foundIdle (c i d : Nat) (type : TaskType) (unit : UnitIdentifier)
      (hm : s.main = Main.scan c i d)
      (hget : (scanList s.engine c)[i]? = some (type, unit)) :
    Moves cfg s
      { s with main := Main.scan c (i + 1) d
               log := Event.scanned c unit false :: s.log }
  | enqueuedTask (c i d : Nat) (t : TaskWrapper) (q : SpinLockQueue TaskWrapper)
      (hm : s.main = Main.enqueue c i d t) (hq : q.items = s.m_taskQueue.items ++ [t]) :
    Moves cfg s
      { s with m_taskQueue := q
               main := Main.scan c (i + 1) (d + 1)
               log := Event.enqueued t :: s.log }
  | passedBarrier (c d : Nat) (hm : s.main = Main.wait c d) (hcount : s.count c = d) :
    Moves cfg s
      { s with main := if c % 2 = 0 then Main.scan (c + 1) 0 0 else Main.complete (c + 1)
               log := Event.passed c :: s.log }
  | enqueuedJoin (m : Main) (q : SpinLockQueue TaskWrapper)
      (hm : (∃ k, m = Main.join k) ∨ ∃ k, m = Main.abortEnqueue k)
      (hq : q.items = s.m_taskQueue.items ++ [joinTask]) (hold : s.main.desired = none) :
    Moves cfg s { s with m_taskQueue := q, main := m, log := Event.enqueued joinTask :: s.log }
  | left (m : Main) (hm : m = Main.returned ∨ (∃ i, m = Main.abortJoin i) ∨ m = Main.join 0)
      (hold : s.main.desired = none) :
    Moves cfg s { s with main := m }
  | aborted (hold : s.main.desired = none) :
    Moves cfg s { s with engine := { s.engine with m_active := false }, main := Main.returned }
  | took (w : Nat) (t : TaskWrapper) (q : SpinLockQueue TaskWrapper)
      (hth : s.m_mainThreadPool[w]? = some Thread.dequeue)
      (hq : s.m_taskQueue.items = t :: q.items) :
    Moves cfg s
      { s with m_taskQueue := q
               m_mainThreadPool :=
                 s.m_mainThreadPool.set w
                   (if t.Type_ ≠ TaskType.Join then Thread.compute t else Thread.exited)
               log := Event.dequeued w t :: s.log }
  | ran (w : Nat) (t : TaskWrapper) (hth : s.m_mainThreadPool[w]? = some (Thread.compute t)) :
    Moves cfg s
      { s with m_mainThreadPool := s.m_mainThreadPool.set w (Thread.signal t)
               log := Event.computed w t :: s.log }
  | signalled (w : Nat) (t : TaskWrapper)
      (hth : s.m_mainThreadPool[w]? = some (Thread.signal t)) :
    Moves cfg s
      { s with count := match t.closures with
                        | some (_, call) => fetch_add s.count call
                        | none => s.count
               m_mainThreadPool := s.m_mainThreadPool.set w (Thread.release t)
               log := Event.signalled w t :: s.log }
  | released (w : Nat) (t : TaskWrapper)
      (hth : s.m_mainThreadPool[w]? = some (Thread.release t)) :
    Moves cfg s
      { s with engine := match t.closures with
                         | some (unit, _) => ReleaseUnit s.engine unit
                         | none => s.engine
               m_mainThreadPool := s.m_mainThreadPool.set w Thread.dequeue
               log := Event.released w t :: s.log }

/-- The units invocation `call` has tested with `IsReady()`, the latest first. -/
def scannedUnits (log : List Event) (call : Nat) : List UnitIdentifier :=
  log.filterMap (fun e => match e with
    | .scanned c unit _ => if c = call then some unit else none
    | _ => none)

/-- The units invocation `call` has found ready, the latest first. -/
def readyUnits (log : List Event) (call : Nat) : List UnitIdentifier :=
  log.filterMap (fun e => match e with
    | .scanned c unit true => if c = call then some unit else none
    | _ => none)

/-- The unit a task was declared for by invocation `call`, if it was. -/
def TaskWrapper.unitOf (call : Nat) (t : TaskWrapper) : Option UnitIdentifier :=
  match t.closures with
  | some (unit, c) => if c = call then some unit else none
  | none => none

/-- The units for which invocation `call` has enqueued a task, the latest
first. -/
def enqueuedUnits (log : List Event) (call : Nat) : List UnitIdentifier :=
  log.filterMap (fun e => match e with
    | .enqueued t => t.unitOf call
    | _ => none)

/-- The unit found ready by invocation `call` whose task the calling thread is
about to enqueue. -/
def Main.pendingUnit (call : Nat) : Main → List UnitIdentifier
  | .enqueue _ _ _ t => (t.unitOf call).toList
  | _ => []

/-- How many units of its list invocation `call` has tested, as far as the
position of the calling thread tells. -/
def Main.tested (size call : Nat) : Main → Nat
  | .scan c index _ => if c = call then index else 0
  | .enqueue c index _ _ => if c = call then index + 1 else 0
  | .wait c _ => if c = call then size else 0
  | _ => 0

/-- How many units of its list invocation `call` has tested: all of them once
it has left its waiting loop. -/
def ParState.scanProgress (s : ParState) (call : Nat) : Nat :=
  if Event.passed call ∈ s.log then (scanList s.engine call).length
  else s.main.tested (scanList s.engine call).length call

/-- What holds of the scans throughout a run of `ExecuteParallel`: the units
found ready are those a task was enqueued for and the one whose task is about
to be; the units tested are the first ones of the list, each once, in order. -/
structure ScanInv (s : ParState) : Prop where
  ready_eq : ∀ c, readyUnits s.log c = s.main.pendingUnit c ++ enqueuedUnits s.log c
  scanned_eq : ∀ c, scannedUnits s.log c =
    (((scanList s.engine c).take (s.scanProgress c)).map Prod.snd).reverse

/-- An `ExecuteParallel(1, 1)` where eight threads are available, the units
being ready as the spec says. -/
def exampleRound : Config where
  beh := specBehaviour
  workers := 1
  epochs := 1
  hardwareConcurrency := 8

/-- A schedule of `ExecuteParallel` with `exampleRound` on the graph
`Source → Hidden → Sink`: the worker is created; the first scan finds the source
unit ready and enqueues its task; the worker runs it to its end; the calling
thread leaves the waiting loop, and its second scan finds the first copy unit
ready and enqueues its task; the worker dequeues and runs it. -/
def exampleBarrier : List Actor :=
  List.replicate 8 Actor.main ++ List.replicate 4 (Actor.worker 0) ++
    List.replicate 5 Actor.main ++ List.replicate 2 (Actor.worker 0)

/-- The task of the source unit in the first invocation of
`m_executeComputeUnits`. -/
def exampleSourceTask : TaskWrapper := unitTask TaskType.ComputeSource { Type_ := .Source, ID := 0 } 0

/-- The task of the first copy unit in the first invocation of
`m_executeCopyUnits`. -/
def exampleCopyTask : TaskWrapper := unitTask TaskType.Copy { Type_ := .Copy, ID := 0 } 1

/-- The schedule in which the calling thread and the worker 0 take turns, `n`
times. -/
def turns : Nat → List Actor
  | 0 => []
  | n + 1 => Actor.main :: Actor.worker 0 :: turns n

/-- A schedule of `ExecuteParallel` with `exampleRound` in which the calling
thread leaves the waiting loop of its first scan as soon as the worker has
signalled, before the worker calls `ReleaseUnit()`, and goes through the copy
units. -/
def exampleRace : List Actor :=
  List.replicate 8 Actor.main ++ List.replicate 3 (Actor.worker 0) ++ List.replicate 4 Actor.main

/-- The values of `GetStateNum()` of all units: source, hidden, sink, copy. -/
def Engine.stateNums (e : Engine) : List (Option Nat) := e.allIds.map e.stateNum

/-! ## Class `Sync` -/

/-- Class `Sync`: the fields `m_resetVal`, `m_counter` and `m_forceFinish`.  The
mutex and the condition variable hold no data; every method takes `m_mtx` for
its whole body, so a call is one step. -/
structure Sync where
  m_resetVal : Int
  m_counter : Int
  m_forceFinish : Bool
  deriving DecidableEq, Repr

/-- Constructor `Sync(int waitFor)`. -/
def Sync.make (waitFor : Int) : Sync where
  m_resetVal := waitFor
  m_counter := waitFor
  m_forceFinish := false

/-- The condition `WaitUntilAllFinish` waits for. -/
def Sync.WaitUntilAllFinish (s : Sync) : Bool :=
  (s.m_counter == 0) || s.m_forceFinish

/-- Method `ResetCounter`. -/
def Sync.ResetCounter (s : Sync) : Sync :=
  { s with m_counter := s.m_resetVal }

/-- Method `NotifyFinish`. -/
def Sync.NotifyFinish (s : Sync) : Sync :=
  if s.m_counter > 0 then { s with m_counter := s.m_counter - 1 } else s

/-- Method `ForceFinish`. -/
def Sync.ForceFinish (s : Sync) : Sync :=
  { s with m_forceFinish := true }

/-- The object after `k` calls of `NotifyFinish`. -/
def Sync.notified (s : Sync) : Nat → Sync
  | 0 => s
  | k + 1 => (s.notified k).NotifyFinish

/-! ## Engine operations, one after the other -/

/-- An operation on the engine: a call of the builder, a call of `Execute`, or
a call of `ExecuteParallel` or `Abort` seen after the threads have taken the
steps of a schedule. -/
inductive EngineCall where
  | build (c : BuilderCall)
  | Execute (beh : UnitBehaviour) (fuel epochs : Nat)
  | ExecuteParallel (cfg : Config) (queue : SpinLockQueue TaskWrapper) (pool : List Thread)
      (schedule : List Actor)
  | Abort (cfg : Config) (queue : SpinLockQueue TaskWrapper) (pool : List Thread)
      (count : Nat → Nat) (schedule : List Actor)

/-- The engine an operation leaves (the engine as it is when `Execute` has not
returned within its fuel). -/
def Engine.perform (e : Engine) : EngineCall → Engine
  | .build c => (e.call c).engine
  | .Execute beh fuel epochs =>
    match Engine.Execute beh fuel e epochs with
    | some s => s.engine
    | none => e
  | .ExecuteParallel cfg queue pool schedule =>
    ((CubbyDNN.ExecuteParallel e queue pool).run cfg schedule).engine
  | .Abort cfg queue pool count schedule =>
    ((CubbyDNN.Abort e queue pool count).run cfg schedule).engine

/-- The engine a sequence of operations leaves. -/
def Engine.performAll (e : Engine) (calls : List EngineCall) : Engine :=
  calls.foldl Engine.perform e

/-! ## Units that are never ready -/

/-- The number of steps of the calling thread in a schedule. -/
def mainSteps : List Actor → Nat
  | [] => 0
  | .main :: rest => mainSteps rest + 1
  | .worker _ :: rest => mainSteps rest

/-- The calling thread is in one of the two loops that enqueue the `Join`
tasks, the queue having room for those still to come, or it is past such a
loop. -/
def ShutdownRoom (s : ParState) : Prop :=
  match s.main with
  | .join count =>
    s.m_taskQueue.items.length + (s.m_mainThreadPool.length - count) ≤ s.m_taskQueue.capacity
  | .abortEnqueue count =>
    s.m_taskQueue.items.length + (s.m_mainThreadPool.length - count) ≤ s.m_taskQueue.capacity
  | .abortJoin _ => True
  | .returned => True
  | _ => False

/-- The number of steps the calling thread has to take to leave the loop that
enqueues the `Join` tasks, when no call of `Enqueue` has to wait. -/
def enqueuesLeft (s : ParState) : Nat :=
  match s.main with
  | .join count => s.m_mainThreadPool.length - count + 1
  | .abortEnqueue count => s.m_mainThreadPool.length - count + 1
  | _ => 0

end CubbyDNN

/-! # The graph-building backend (`backend/graph/graph.hpp`,
`backend/management/graph_management.hpp`) -/

namespace cubby_dnn

/-- Class `tensor_shape` (`backend/util_decl/shape.hpp`, not among the sources):
the three extents read by `rows()`, `cols()` and `dimension()`; `operator!=`
compares them.  `tensor_shape()` is `default`. -/
structure tensor_shape where
  rows : Int
  cols : Int
  dimension : Int
  deriving DecidableEq, Repr

/-- The shape built by `tensor_shape()`. -/
def tensor_shape.default : tensor_shape := { rows := 0, cols := 0, dimension := 0 }

/-- The two methods of `tensor_shape` whose bodies are not among the sources,
taken as given: `empty()` and `size()`. -/
structure ShapeOps where
  empty : tensor_shape → Bool
  size : tensor_shape → Nat

/-- Class `tensor<T>`: the handle shown to the user. -/
structure tensor where
  from_ : Int
  to_vector : List Int
  _mutable : Bool
  shape : tensor_shape
  deriving DecidableEq, Repr

/-- Struct `tensor_object<T>::info`. -/
structure info where
  from_ : Int
  to_ : Int
  _mutable : Bool
  busy : Bool
  deriving DecidableEq, Repr

/-- Class `tensor_object<T>`: its `info` and its storage (a data vector of
`data_size` elements and the shape). -/
structure tensor_object where
  information : info
  data_size : Nat
  shape : tensor_shape
  deriving DecidableEq, Repr

/-- The operation classes built by `operate<T>` (`mat_mul_op`, `mat_add_op`,
`reshape_op`), and any other. -/
inductive operation_kind where
  | mat_mul_op
  | mat_add_op
  | reshape_op
  | other
  deriving DecidableEq, Repr

/-- Class `operation<T>` (`backend/graph/operations.hpp`, not among the
sources), as far as the graph builder uses it: `get_id()`, the name, and the
vectors filled by `add_input_tensor` and `add_output_tensor`. -/
structure operation where
  kind : operation_kind
  id : Int
  name : String
  input_tensor_vector : List Int
  output_tensor_vector : List Int
  deriving DecidableEq, Repr

/-- The static containers of `tensor_object_management<T>`,
`operation_management<T>` and `adjacency_management<T>`. -/
structure Graph where
  tensor_object_vector : List tensor_object
  operation_vector : List operation
  adjacency_matrix : List (List Int)
  deriving DecidableEq, Repr

/-- Constant `adjacency_management<T>::default_graph_size`. -/
def default_graph_size : Nat := 0

/-- Constant `adjacency_management<T>::unallocated_state`. -/
def unallocated_state : Int := -1

/-- Element access `.at(i)` of a deque with a `long` index: `none` is
`std::out_of_range` (a negative index converts to a huge unsigned one). -/
def atLong {α : Type} (l : List α) (i : Int) : Option α :=
  if i < 0 then none else l[i.toNat]?

/-- Assignment through `.at(i)`: `none` is `std::out_of_range`. -/
def setLong {α : Type} (l : List α) (i : Int) (x : α) : Option (List α) :=
  if i < 0 then none
  else if i.toNat < l.length then some (l.set i.toNat x) else none

/-- Method `tensor<T>::is_valid`. -/
def tensor.is_valid (ops : ShapeOps) (t : tensor) : Bool := !ops.empty t.shape

/-- Method `tensor<T>::get_data_size`. -/
def tensor.get_data_size (ops : ShapeOps) (t : tensor) : Nat := ops.size t.shape

/-- Method `tensor<T>::add_to`. -/
def tensor.add_to (t : tensor) (to_ : Int) : tensor :=
  { t with to_vector := t.to_vector ++ [to_] }

/-- Function `operate<T>::get_default_tensor`: `tensor<T>(tensor_shape(), -1,
"default Tensor due to error")`; the string literal converts to `true`. -/
def get_default_tensor : tensor :=
  { from_ := -1, to_vector := [], _mutable := true, shape := tensor_shape.default }

/-- Constructor `tensor_object<T>(data_size, shape, from, to)`: `info(from, to)`
has `_mutable = true` and `busy = false`. -/
def tensor_object.make (data_size : Nat) (shape : tensor_shape) (from_ to_ : Int) :
    tensor_object :=
  { information := { from_ := from_, to_ := to_, _mutable := true, busy := false }
    data_size := data_size
    shape := shape }

/-- Method `tensor_object<T>::set_constant`. -/
def tensor_object.set_constant (o : tensor_object) : tensor_object :=
  { o with information := { o.information with _mutable := false } }

/-- Function `tensor_object_management<T>::add_tensor_object`: the new vector
and the id handed back, `size() - 1`. -/
def add_tensor_object (g : Graph) (object : tensor_object) : Graph × Int :=
  let v := g.tensor_object_vector ++ [object]
  ({ g with tensor_object_vector := v }, (v.length : Int) - 1)

/-- Function `operation_management<T>::operation_vector_size`. -/
def operation_vector_size (g : Graph) : Int := g.operation_vector.length

/-- Function `operation_management<T>::add_operation`. -/
def add_operation (g : Graph) (operation_to_add : operation) : Graph :=
  { g with operation_vector := g.operation_vector ++ [operation_to_add] }

/-- The statement `get_operation(operation_id).add_output_tensor(tensor_id)`:
`none` when `.at()` raises. -/
def add_output_tensor_at (g : Graph) (operation_id tensor_id : Int) : Option Graph :=
  match atLong g.operation_vector operation_id with
  | none => none
  | some op =>
    match setLong g.operation_vector operation_id
        { op with output_tensor_vector := op.output_tensor_vector ++ [tensor_id] } with
    | none => none
    | some v => some { g with operation_vector := v }

/-- The lambda `emplace_until_expected_row_size`: a row shorter than the
expected size is filled up with `unallocated_state`. -/
def emplace_until (expected_row_size : Nat) (arg : List Int) : List Int :=
  arg ++ List.replicate (expected_row_size - arg.length) unallocated_state

/-- Last loop of `add_operation_to_adjacency`: for each input tensor of the
operation, the entry `[from][operation_id]` of the matrix becomes the tensor id.
`Except.error` carries the graph at the `.at()` that raised. -/
def link_inputs (operation_id : Int) : List Int → Graph → Except Graph Graph
  | [], g => .ok g
  | tensor_id :: rest, g =>
    match atLong g.tensor_object_vector tensor_id with
    | none => .error g
    | some object =>
      match atLong g.adjacency_matrix object.information.from_ with
      | none => .error g
      | some row =>
        match setLong row operation_id tensor_id with
        | none => .error g
        | some row' =>
          match setLong g.adjacency_matrix object.information.from_ row' with
          | none => .error g
          | some matrix => link_inputs operation_id rest { g with adjacency_matrix := matrix }

/-- Function `adjacency_management<T>::add_operation_to_adjacency` (the size it
returns is not used by the builder). -/
def add_operation_to_adjacency (g : Graph) (operation_id : Int) : Except Graph Graph :=
  let graph_size := g.adjacency_matrix.length
  let expected_row_size :=
    if graph_size ≥ default_graph_size then graph_size + 1 else default_graph_size
  let rows :=
    if expected_row_size > default_graph_size then
      g.adjacency_matrix.map (emplace_until expected_row_size)
    else g.adjacency_matrix
  let g₁ : Graph :=
    { g with adjacency_matrix := rows ++ [List.replicate expected_row_size unallocated_state] }
  match atLong g₁.operation_vector operation_id with
  | none => .error g₁
  | some op => link_inputs operation_id op.input_tensor_vector g₁

/-- What a call of `operate<T>::mat_mul` or `mat_add` leaves: the tensor it
returns (`none` when it raised), the two argument tensors, which are passed by
reference, and the graph. -/
structure Call where
  result : Option tensor
  tensor1 : tensor
  tensor2 : tensor
  graph : Graph
  deriving DecidableEq, Repr

/-- The two tensor objects `mat_mul` and `mat_add` build (lines 93-104 and
154-165 of `graph.hpp`).  As in the source, the second `set_constant` is on
`tensor_data1` too. -/
def tensor_data_pair (ops : ShapeOps) (tensor1 tensor2 : tensor) (this_id : Int) :
    tensor_object × tensor_object :=
  let tensor_data1 :=
    tensor_object.make (tensor1.get_data_size ops) tensor1.shape tensor1.from_ this_id
  let tensor_data2 :=
    tensor_object.make (tensor2.get_data_size ops) tensor2.shape tensor2.from_ this_id
  let tensor_data1 := if !tensor1._mutable then tensor_data1.set_constant else tensor_data1
  let tensor_data1 := if !tensor2._mutable then tensor_data1.set_constant else tensor_data1
  (tensor_data1, tensor_data2)

/-- The registration `mat_mul` and `mat_add` end with (lines 106-127 and 167-186
of `graph.hpp`): the two tensor objects are stored and added to the outputs of
the operations the tensors come from, and the new operation, with the two
objects as its inputs, is stored and entered in the adjacency matrix. -/
def store_and_link (kind : operation_kind) (new_shape : tensor_shape) (this_id : Int)
    (tensor1 tensor2 : tensor) (name : String) (tensor_data1 tensor_data2 : tensor_object)
    (g : Graph) : Call :=
  let r₁ := add_tensor_object g tensor_data1
  let r₂ := add_tensor_object r₁.1 tensor_data2
  match add_output_tensor_at r₂.1 tensor1.from_ r₁.2 with
  | none => { result := none, tensor1 := tensor1, tensor2 := tensor2, graph := r₂.1 }
  | some g₃ =>
    match add_output_tensor_at g₃ tensor2.from_ r₂.2 with
    | none => { result := none, tensor1 := tensor1, tensor2 := tensor2, graph := g₃ }
    | some g₄ =>
      let output_tensor : tensor :=
        { from_ := this_id, to_vector := [], _mutable := false, shape := new_shape }
      let op : operation :=
        { kind := kind, id := this_id, name := name
          input_tensor_vector := [r₁.2, r₂.2], output_tensor_vector := [] }
      match add_operation_to_adjacency (add_operation g₄ op) op.id with
      | .error g₅ => { result := none, tensor1 := tensor1, tensor2 := tensor2, graph := g₅ }
      | .ok g₅ =>
        { result := some output_tensor, tensor1 := tensor1, tensor2 := tensor2, graph := g₅ }

/-- The statements `mat_mul` and `mat_add` share once the checks have passed
(lines 87-127 and 148-186 of `graph.hpp`), which differ in the operation class
and in `new_shape` only. -/
def register_binary (ops : ShapeOps) (kind : operation_kind) (new_shape : tensor_shape)
    (tensor1 tensor2 : tensor) (name : String) (g : Graph) : Call :=
  let this_id := operation_vector_size g
  let tensor1 := tensor1.add_to this_id
  let tensor2 := tensor2.add_to this_id
  let pair := tensor_data_pair ops tensor1 tensor2 this_id
  store_and_link kind new_shape this_id tensor1 tensor2 name pair.1 pair.2 g

/-- Function `operate<T>::mat_mul`. -/
def mat_mul (ops : ShapeOps) (tensor1 tensor2 : tensor) (name : String) (g : Graph) : Call :=
  if !tensor1.is_valid ops || !tensor2.is_valid ops then
    { result := some get_default_tensor, tensor1 := tensor1, tensor2 := tensor2, graph := g }
  else if tensor1.shape.cols ≠ tensor2.shape.rows ∨
      tensor1.shape.dimension ≠ tensor2.shape.dimension then
    { result := some get_default_tensor, tensor1 := tensor1, tensor2 := tensor2, graph := g }
  else
    register_binary ops .mat_mul_op
      { rows := tensor1.shape.rows, cols := tensor2.shape.cols,
        dimension := tensor1.shape.dimension }
      tensor1 tensor2 name g

/-- Function `operate<T>::mat_add`. -/
def mat_add (ops : ShapeOps) (tensor1 tensor2 : tensor) (name : String) (g : Graph) : Call :=
  if !tensor1.is_valid ops || !tensor2.is_valid ops then
    { result := some get_default_tensor, tensor1 := tensor1, tensor2 := tensor2, graph := g }
  else if tensor1.shape ≠ tensor2.shape then
    { result := some get_default_tensor, tensor1 := tensor1, tensor2 := tensor2, graph := g }
  else register_binary ops .mat_add_op tensor1.shape tensor1 tensor2 name g

/-! ## `reshape` and `one_hot` -/

/-- What a call of `operate<T>::reshape` or `one_hot` leaves: the tensor it
returns (`none` when it raised), the argument tensor, which is passed by
reference, the graph, and whether `terminal::print_error` was called. -/
structure UnaryCall where
  result : Option tensor
  tensor1 : tensor
  graph : Graph
  print_error : Bool
  deriving DecidableEq, Repr

/-- The registration `reshape` and `one_hot` end with: the tensor object is
stored and added to the outputs of the operation the tensor comes from, and the
new `reshape_op`, with the object as its input, is stored and entered in the
adjacency matrix. -/
def store_and_link_unary (new_shape : tensor_shape) (this_id : Int) (tensor1 : tensor)
    (name : String) (tensor_data1 : tensor_object) (printed : Bool) (g : Graph) : UnaryCall :=
  let r₁ := add_tensor_object g tensor_data1
  match add_output_tensor_at r₁.1 tensor1.from_ r₁.2 with
  | none => { result := none, tensor1 := tensor1, graph := r₁.1, print_error := printed }
  | some g₂ =>
    let output_tensor : tensor :=
      { from_ := this_id, to_vector := [], _mutable := false, shape := new_shape }
    let op : operation :=
      { kind := .reshape_op, id := this_id, name := name
        input_tensor_vector := [r₁.2], output_tensor_vector := [] }
    match add_operation_to_adjacency (add_operation g₂ op) op.id with
    | .error g₃ => { result := none, tensor1 := tensor1, graph := g₃, print_error := printed }
    | .ok g₃ =>
      { result := some output_tensor, tensor1 := tensor1, graph := g₃, print_error := printed }

/-- The tensor object `reshape` and `one_hot` build for their argument. -/
def tensor_data_single (ops : ShapeOps) (tensor1 : tensor) (this_id : Int) : tensor_object :=
  let tensor_data1 :=
    tensor_object.make (tensor1.get_data_size ops) tensor1.shape tensor1.from_ this_id
  if !tensor1._mutable then tensor_data1.set_constant else tensor_data1

/-- Function `operate<T>::reshape`.  `shape::check_shape` is not among the
sources and is taken as given.  The test of the sizes calls `print_error` and
has no `return`: the statements after it run on either outcome. -/
def reshape (ops : ShapeOps) (check_shape : tensor_shape → String → Bool) (tensor1 : tensor)
    (shape : tensor_shape) (name : String) (g : Graph) : UnaryCall :=
  if !tensor1.is_valid ops then
    { result := some get_default_tensor, tensor1 := tensor1, graph := g, print_error := false }
  else if !check_shape tensor1.shape name then
    { result := some get_default_tensor, tensor1 := tensor1, graph := g, print_error := true }
  else
    let printed := decide (tensor1.get_data_size ops ≠ ops.size shape)
    let this_id := operation_vector_size g
    let tensor1 := tensor1.add_to this_id
    store_and_link_unary shape this_id tensor1 name (tensor_data_single ops tensor1 this_id)
      printed g

/-- Function `operate<T>::one_hot`.  The test of the sizes calls `print_error`
and has no `return`; the tensor is not given the new operation as a reader
(there is no `add_to`); `tensor_shape(size, 1, 1)` is taken to list rows,
columns and dimension. -/
def one_hot (ops : ShapeOps) (check_shape : tensor_shape → String → Bool) (tensor1 : tensor)
    (size : Nat) (name : String) (g : Graph) : UnaryCall :=
  if !tensor1.is_valid ops then
    { result := some get_default_tensor, tensor1 := tensor1, graph := g, print_error := false }
  else if !check_shape tensor1.shape name then
    { result := some get_default_tensor, tensor1 := tensor1, graph := g, print_error := true }
  else
    let printed := decide (tensor1.get_data_size ops ≠ size)
    let this_id := operation_vector_size g
    store_and_link_unary { rows := size, cols := 1, dimension := 1 } this_id tensor1 name
      (tensor_data_single ops tensor1 this_id) printed g

/-! ## Example graph -/

/-- Shapes are empty when an extent is not positive; the size is the product. -/
def exampleShapeOps : ShapeOps where
  empty := fun s => decide (s.rows ≤ 0 ∨ s.cols ≤ 0 ∨ s.dimension ≤ 0)
  size := fun s => (s.rows * s.cols * s.dimension).toNat

/-- A graph with two registered source operations, `0` and `1`, each with its
adjacency row. -/
def twoSources : Graph where
  tensor_object_vector := []
  operation_vector :=
    [ { kind := .other, id := 0, name := "a", input_tensor_vector := [],
        output_tensor_vector := [] },
      { kind := .other, id := 1, name := "b", input_tensor_vector := [],
        output_tensor_vector := [] } ]
  adjacency_matrix := [[-1, -1], [-1, -1]]

/-- A tensor of shape `2 x 3` coming from operation `0`. -/
def tensorA : tensor :=
  { from_ := 0, to_vector := [], _mutable := true,
    shape := { rows := 2, cols := 3, dimension := 1 } }

/-- A tensor of shape `3 x 4` coming from operation `1`. -/
def tensorB : tensor :=
  { from_ := 1, to_vector := [], _mutable := true,
    shape := { rows := 3, cols := 4, dimension := 1 } }

/-- A tensor of shape `5 x 2` coming from operation `1`. -/
def tensorC : tensor :=
  { from_ := 1, to_vector := [], _mutable := true,
    shape := { rows := 5, cols := 2, dimension := 1 } }

/-- A tensor of shape `2 x 3` coming from operation `1`. -/
def tensorD : tensor :=
  { from_ := 1, to_vector := [], _mutable := false,
    shape := { rows := 2, cols := 3, dimension := 1 } }

/-- The graph after the first half of `add_operation_to_adjacency`: every row
filled up to one more than the number of rows, and a new row of that size. -/
def with_new_row (g : Graph) : Graph :=
  { g with
    adjacency_matrix :=
      g.adjacency_matrix.map (emplace_until (g.adjacency_matrix.length + 1)) ++
        [List.replicate (g.adjacency_matrix.length + 1) unallocated_state] }

/-- A tensor of shape `2 x 3` whose `from` is no registered operation of
`twoSources`. -/
def tensorE : tensor :=
  { from_ := 7, to_vector := [], _mutable := true,
    shape := { rows := 2, cols := 3, dimension := 1 } }

/-- The two source operations without their adjacency rows. -/
def twoSourcesNoRows : Graph := { twoSources with adjacency_matrix := [] }

/-- A constant tensor of shape `3 x 4` coming from operation `1`. -/
def tensorF : tensor :=
  { from_ := 1, to_vector := [], _mutable := false,
    shape := { rows := 3, cols := 4, dimension := 1 } }

/-! ## The storage of a tensor object (`backend/graph/tensor.hpp`) -/

namespace tensor_hpp

/-- Struct `tensor_object<T>::data`. -/
structure data where
  data_vector : List Int
  shape : tensor_shape
  byte_size : Nat
  deriving DecidableEq, Repr

/-- Constructor `data(const std::vector<T>&, const tensor_shape&)`. -/
def data.make (data_vector : List Int) (shape : tensor_shape) : data where
  data_vector := data_vector
  shape := shape
  byte_size := data_vector.length

/-- Class `tensor_object<T>` with its members `information` and
`tensor_storage`; `none` is the null `std::unique_ptr<data>`. -/
structure tensor_object where
  information : info
  tensor_storage : Option data
  deriving DecidableEq, Repr

/-- Constructor `tensor_object<T>(data_size, shape, from, to)`: the data vector
has `data_size` value-initialised elements. -/
def tensor_object.make (data_size : Nat) (shape : tensor_shape) (from_ to_ : Int) :
    tensor_object where
  information := { from_ := from_, to_ := to_, _mutable := true, busy := false }
  tensor_storage := some (data.make (List.replicate data_size 0) shape)

/-- Method `tensor_object<T>::get_information`. -/
def tensor_object.get_information (o : tensor_object) : info := o.information

/-- Method `tensor_object<T>::get_data_vector`. -/
def tensor_object.get_data_vector (o : tensor_object) : List Int :=
  match o.tensor_storage with
  | none => []
  | some d => d.data_vector

/-- Method `tensor_object<T>::get_data_shape`. -/
def tensor_object.get_data_shape (o : tensor_object) : tensor_shape :=
  match o.tensor_storage with
  | none => tensor_shape.default
  | some d => d.shape

/-- Copy constructor `tensor_object<T>(const tensor_object<T>& rhs)`: the storage
is built under `if (!rhs.tensor_storage)`, and is null otherwise. -/
def tensor_object.copy (rhs : tensor_object) : tensor_object where
  tensor_storage :=
    if rhs.tensor_storage.isNone then some (data.make rhs.get_data_vector rhs.get_data_shape)
    else none
  information := rhs.information

/-- Move constructor `tensor_object<T>(tensor_object<T>&& rhs)`: the storage is
taken over under `if (rhs.tensor_storage)`. -/
def tensor_object.move (rhs : tensor_object) : tensor_object where
  tensor_storage := if rhs.tensor_storage.isSome then rhs.tensor_storage else none
  information := rhs.information

/-- Function `tensor_object_management<T>::add_tensor_object(const
tensor_object<T>&)`: `emplace_back(object)` copy-constructs the new element. -/
def add_tensor_object (tensor_object_vector : List tensor_object) (object : tensor_object) :
    List tensor_object × Int :=
  let v := tensor_object_vector ++ [object.copy]
  (v, (v.length : Int) - 1)

/-- Function `tensor_object_management<T>::add_tensor_object(tensor_object<T>&&)`:
`emplace_back` move-constructs the new element. -/
def add_tensor_object_rvalue (tensor_object_vector : List tensor_object)
    (object : tensor_object) : List tensor_object × Int :=
  let v := tensor_object_vector ++ [object.move]
  (v, (v.length : Int) - 1)

/-- A tensor object of two elements and shape `2 x 1`, from operation `0` to
operation `1`. -/
def exampleObject : tensor_object :=
  tensor_object.make 2 { rows := 2, cols := 1, dimension := 1 } 0 1

end tensor_hpp

/-! ## The other builder functions and sequences of calls -/

/-- What a call of `generate<T>::placeholder` or `variable` leaves: the tensor
it returns (`none` when it raised) and the graph. -/
structure GenerateCall where
  result : Option tensor
  graph : Graph
  deriving DecidableEq, Repr

/-- Function `generate<T>::placeholder`; the stream is held by the operation
and is left out, `placeholder_op` is an operation of kind `other`. -/
def placeholder (check_shape : tensor_shape → String → Bool) (shape : tensor_shape)
    (name : String) (g : Graph) : GenerateCall :=
  if !check_shape shape name then { result := some get_default_tensor, graph := g }
  else
    let operation_id := operation_vector_size g
    let output_tensor : tensor :=
      { from_ := operation_id, to_vector := [], _mutable := false, shape := shape }
    let new_op : operation :=
      { kind := .other, id := operation_id, name := name
        input_tensor_vector := [], output_tensor_vector := [] }
    match add_operation_to_adjacency (add_operation g new_op) new_op.id with
    | .error g' => { result := none, graph := g' }
    | .ok g' => { result := some output_tensor, graph := g' }

/-- Method `tensor<T>::make_constant`. -/
def tensor.make_constant (t : tensor) : tensor := { t with _mutable := false }

/-- Function `generate<T>::variable` (`variable` is a keyword here); `weight_op`
is an operation of kind `other`. -/
def variable_ (check_shape : tensor_shape → String → Bool) (shape : tensor_shape)
    (trainable : Bool) (name : String) (g : Graph) : GenerateCall :=
  if !check_shape shape name then { result := some get_default_tensor, graph := g }
  else
    let operation_id := operation_vector_size g
    let output_tensor : tensor :=
      { from_ := operation_id, to_vector := [], _mutable := false, shape := shape }
    let output_tensor := if !trainable then output_tensor.make_constant else output_tensor
    let new_op : operation :=
      { kind := .other, id := operation_id, name := name
        input_tensor_vector := [], output_tensor_vector := [] }
    match add_operation_to_adjacency (add_operation g new_op) new_op.id with
    | .error g' => { result := none, graph := g' }
    | .ok g' => { result := some output_tensor, graph := g' }

/-- Function `operate<T>::mat_dot`; the multiplier is held by the operation,
`mat_dot_op` is an operation of kind `other`. -/
def mat_dot (ops : ShapeOps) (tensor1 : tensor) (_multiplier : Int) (name : String)
    (g : Graph) : UnaryCall :=
  if !tensor1.is_valid ops then
    { result := some get_default_tensor, tensor1 := tensor1, graph := g, print_error := false }
  else
    let this_id := operation_vector_size g
    let tensor1 := tensor1.add_to this_id
    let tensor_data1 := tensor_data_single ops tensor1 this_id
    let r₁ := add_tensor_object g tensor_data1
    match add_output_tensor_at r₁.1 tensor1.from_ r₁.2 with
    | none => { result := none, tensor1 := tensor1, graph := r₁.1, print_error := false }
    | some g₂ =>
      let output_tensor : tensor :=
        { from_ := this_id, to_vector := [], _mutable := false, shape := tensor1.shape }
      let op : operation :=
        { kind := .other, id := this_id, name := name
          input_tensor_vector := [r₁.2], output_tensor_vector := [] }
      match add_operation_to_adjacency (add_operation g₂ op) op.id with
      | .error g₃ => { result := none, tensor1 := tensor1, graph := g₃, print_error := false }
      | .ok g₃ =>
        { result := some output_tensor, tensor1 := tensor1, graph := g₃, print_error := false }

/-- What a call of `final<T>::wrapper`, which returns nothing, leaves: whether
it raised, the argument tensor, which is passed by reference, and the graph. -/
structure VoidCall where
  raised : Bool
  tensor1 : tensor
  graph : Graph
  deriving DecidableEq, Repr

/-- Function `final<T>::wrapper`; `wrapper_op` is an operation of kind
`other`. -/
def wrapper (ops : ShapeOps) (tensor1 : tensor) (name : String) (g : Graph) : VoidCall :=
  if !tensor1.is_valid ops then { raised := false, tensor1 := tensor1, graph := g }
  else
    let this_id := operation_vector_size g
    let tensor1 := tensor1.add_to this_id
    let tensor_data1 := tensor_data_single ops tensor1 this_id
    let r₁ := add_tensor_object g tensor_data1
    match add_output_tensor_at r₁.1 tensor1.from_ r₁.2 with
    | none => { raised := true, tensor1 := tensor1, graph := r₁.1 }
    | some g₂ =>
      let op : operation :=
        { kind := .other, id := this_id, name := name
          input_tensor_vector := [r₁.2], output_tensor_vector := [] }
      match add_operation_to_adjacency (add_operation g₂ op) op.id with
      | .error g₃ => { raised := true, tensor1 := tensor1, graph := g₃ }
      | .ok g₃ => { raised := false, tensor1 := tensor1, graph := g₃ }

/-- The value `add_operation_to_adjacency` returns,
`static_cast<long>(adjacency_matrix.size())`; `none` when it raises. -/
def add_operation_to_adjacency_size (g : Graph) (operation_id : Int) : Option Int :=
  match add_operation_to_adjacency g operation_id with
  | .ok g' => some (g'.adjacency_matrix.length : Int)
  | .error _ => none

/-- The three functions `clear()` of the managers. -/
def clear (_g : Graph) : Graph where
  tensor_object_vector := []
  operation_vector := []
  adjacency_matrix := []

/-- A call of the graph builder, with its arguments. -/
inductive BuilderCall where
  | placeholder (shape : tensor_shape) (name : String)
  | variable_ (shape : tensor_shape) (trainable : Bool) (name : String)
  | mat_mul (tensor1 tensor2 : tensor) (name : String)
  | mat_add (tensor1 tensor2 : tensor) (name : String)
  | mat_dot (tensor1 : tensor) (multiplier : Int) (name : String)
  | reshape (tensor1 : tensor) (shape : tensor_shape) (name : String)
  | one_hot (tensor1 : tensor) (size : Nat) (name : String)
  | wrapper (tensor1 : tensor) (name : String)
  deriving DecidableEq, Repr

/-- Run one call of the builder: the graph it leaves, `none` when it raises. -/
def run_call (ops : ShapeOps) (check_shape : tensor_shape → String → Bool) :
    BuilderCall → Graph → Option Graph
  | .placeholder shape name, g =>
    (placeholder check_shape shape name g).result.map
      (fun _ => (placeholder check_shape shape name g).graph)
  | .variable_ shape trainable name, g =>
    (variable_ check_shape shape trainable name g).result.map
      (fun _ => (variable_ check_shape shape trainable name g).graph)
  | .mat_mul tensor1 tensor2 name, g =>
    (mat_mul ops tensor1 tensor2 name g).result.map
      (fun _ => (mat_mul ops tensor1 tensor2 name g).graph)
  | .mat_add tensor1 tensor2 name, g =>
    (mat_add ops tensor1 tensor2 name g).result.map
      (fun _ => (mat_add ops tensor1 tensor2 name g).graph)
  | .mat_dot tensor1 multiplier name, g =>
    (mat_dot ops tensor1 multiplier name g).result.map
      (fun _ => (mat_dot ops tensor1 multiplier name g).graph)
  | .reshape tensor1 shape name, g =>
    (reshape ops check_shape tensor1 shape name g).result.map
      (fun _ => (reshape ops check_shape tensor1 shape name g).graph)
  | .one_hot tensor1 size name, g =>
    (one_hot ops check_shape tensor1 size name g).result.map
      (fun _ => (one_hot ops check_shape tensor1 size name g).graph)
  | .wrapper tensor1 name, g =>
    if (wrapper ops tensor1 name g).raised then none
    else some (wrapper ops tensor1 name g).graph

/-- Run a sequence of calls of the builder, each of which returns: the graph
they leave, `none` as soon as one raises. -/
def run_calls (ops : ShapeOps) (check_shape : tensor_shape → String → Bool) :
    List BuilderCall → Graph → Option Graph
  | [], g => some g
  | c :: rest, g =>
    match run_call ops check_shape c g with
    | none => none
    | some g' => run_calls ops check_shape rest g'

/-- Every entry of the matrix `m` at row `f`, column `t` is `unallocated_state`
or the id of a tensor object of `objects` whose `comes_from()` is `f` and whose
`heads_to()` is `t`. -/
def EntriesLinked (objects : List tensor_object) (m : List (List Int)) : Prop :=
  ∀ (f t : Nat) (row : List Int) (v : Int), m[f]? = some row → row[t]? = some v →
    v = unallocated_state ∨
      ∃ object, atLong objects v = some object ∧ object.information.from_ = (f : Int) ∧
        object.information.to_ = (t : Int)

/-- The adjacency matrix is square, with one row and one column for each
registered operation, and its entries are linked to the registered tensor
objects. -/
def Adjacent (g : Graph) : Prop :=
  g.adjacency_matrix.length = g.operation_vector.length ∧
  (∀ row ∈ g.adjacency_matrix, row.length = g.operation_vector.length) ∧
  EntriesLinked g.tensor_object_vector g.adjacency_matrix

/-- A sequence of calls that builds `c = a * b` and wraps it: two
placeholders of shapes `2 x 3` and `3 x 4`, their product, the wrapper. -/
def exampleCalls : List BuilderCall :=
  [ .placeholder { rows := 2, cols := 3, dimension := 1 } "a",
    .placeholder { rows := 3, cols := 4, dimension := 1 } "b",
    .mat_mul tensorA tensorB "c",
    .wrapper { from_ := 2, to_vector := [], _mutable := false,
               shape := { rows := 2, cols := 4, dimension := 1 } } "out" ]

/-- The graph `exampleCalls` build from cleared managers. -/
def exampleBuilt : Graph where
  tensor_object_vector :=
    [ { information := { from_ := 0, to_ := 2, _mutable := true, busy := false },
        data_size := 6, shape := { rows := 2, cols := 3, dimension := 1 } },
      { information := { from_ := 1, to_ := 2, _mutable := true, busy := false },
        data_size := 12, shape := { rows := 3, cols := 4, dimension := 1 } },
      { information := { from_ := 2, to_ := 3, _mutable := false, busy := false },
        data_size := 8, shape := { rows := 2, cols := 4, dimension := 1 } } ]
  operation_vector :=
    [ { kind := .other, id := 0, name := "a", input_tensor_vector := [],
        output_tensor_vector := [0] },
      { kind := .other, id := 1, name := "b", input_tensor_vector := [],
        output_tensor_vector := [1] },
      { kind := .mat_mul_op, id := 2, name := "c", input_tensor_vector := [0, 1],
        output_tensor_vector := [2] },
      { kind := .other, id := 3, name := "out", input_tensor_vector := [2],
        output_tensor_vector := [] } ]
  adjacency_matrix := [[-1, -1, 0, -1], [-1, -1, 1, -1], [-1, -1, -1, 2], [-1, -1, -1, -1]]

end cubby_dnn

/-! # Theorems -/

namespace Takion

/-! ## Association lists -/

theorem at?_setAt_self {α : Type} (m : List (UnitId × α)) (k : UnitId) (v w : α)
    (h : at? m k = some w) : at? (setAt m k v) k = some v := by
  induction m with
  | nil => simp [at?] at h
  | cons e rest ih =>
    obtain ⟨k', v'⟩ := e
    by_cases hk : k' = k
    · simp [setAt, at?, hk]
    · simp [setAt, at?, hk] at h ⊢
      exact ih h

theorem at?_setAt_of_ne {α : Type} (m : List (UnitId × α)) (k k₁ : UnitId) (v : α)
    (h : k₁ ≠ k) : at? (setAt m k v) k₁ = at? m k₁ := by
  induction m with
  | nil => simp [setAt]
  | cons e rest ih =>
    obtain ⟨k', v'⟩ := e
    by_cases hk : k' = k
    · subst hk
      have : ¬ k' = k₁ := fun h' => h h'.symm
      simp [setAt, at?, this]
    · by_cases hk1 : k' = k₁
      · simp [setAt, at?, hk, hk1]
        simp [← hk1, hk, at?]
      · simp [setAt, at?, hk, hk1, ih]

theorem keys_setAt {α : Type} (m : List (UnitId × α)) (k : UnitId) (v : α) :
    keys (setAt m k v) = keys m := by
  induction m with
  | nil => rfl
  | cons e rest ih =>
    obtain ⟨k', v'⟩ := e
    by_cases hk : k' = k
    · simp [setAt, keys, hk]
    · simp only [setAt, hk, if_false, keys, List.map_cons] at ih ⊢
      rw [ih]

theorem at?_isSome_iff_mem_keys {α : Type} (m : List (UnitId × α)) (k : UnitId) :
    (at? m k).isSome ↔ k ∈ keys m := by
  induction m with
  | nil => simp [at?, keys]
  | cons e rest ih =>
    obtain ⟨k', v'⟩ := e
    by_cases hk : k' = k
    · simp [at?, keys, hk]
    · have hk' : ¬ k = k' := fun h => hk h.symm
      simp only [at?, hk, if_false, keys, List.map_cons, List.mem_cons, hk', false_or] at ih ⊢
      exact ih

/-! ## Forward copy readiness -/

theorem forwardSlotsReady_iff (u : UnitId) (o : Nat) (m : List (UnitId × Tensor)) :
    forwardSlotsReady u o m = true ↔ ∀ e ∈ m, e.1 = u → o = e.2.State + 1 := by
  induction m with
  | nil => simp [forwardSlotsReady]
  | cons e rest ih =>
    obtain ⟨k, t⟩ := e
    by_cases hk : k = u
    · by_cases ho : o = t.State + 1
      · rw [forwardSlotsReady, if_pos hk, if_neg (not_not.mpr ho), ih]
        constructor
        · intro h e he hu
          rcases List.mem_cons.mp he with rfl | hmem
          · exact ho
          · exact h e hmem hu
        · intro h e he hu
          exact h e (List.mem_cons_of_mem _ he) hu
      · rw [forwardSlotsReady, if_pos hk, if_pos ho]
        constructor
        · intro h; cases h
        · intro h
          exact absurd (h (k, t) (List.mem_cons_self _ _) hk) ho
    · rw [forwardSlotsReady, if_neg hk, ih]
      constructor
      · intro h e he hu
        rcases List.mem_cons.mp he with rfl | hmem
        · exact absurd hu hk
        · exact h e hmem hu
      · intro h e he hu
        exact h e (List.mem_cons_of_mem _ he) hu

theorem isForwardCopyReadyLoop_spec (unitMap : List (UnitId × ComputableUnit))
    (u : UnitId) (o : Nat) (vec : List UnitId)
    (hvec : ∀ c ∈ vec, (at? unitMap c).isSome) :
    ∃ b, isForwardCopyReadyLoop unitMap u o vec = some b ∧
      (b = true ↔ ∀ c ∈ vec, ∀ cc, at? unitMap c = some cc →
        ∀ e ∈ cc.ForwardInputMap, e.1 = u → o = e.2.State + 1) := by
  induction vec with
  | nil => exact ⟨true, rfl, by simp⟩
  | cons c rest ih =>
    have hc := hvec c (List.mem_cons_self _ _)
    obtain ⟨cc, hcc⟩ := Option.isSome_iff_exists.mp hc
    obtain ⟨b, hb, hiff⟩ := ih (fun c' hc' => hvec c' (List.mem_cons_of_mem _ hc'))
    by_cases hs : forwardSlotsReady u o cc.ForwardInputMap = true
    · refine ⟨b, by simp [isForwardCopyReadyLoop, hcc, hs, hb], ?_⟩
      rw [hiff]
      constructor
      · intro h c' hc' cc' hcc' e he hk
        rcases List.mem_cons.mp hc' with rfl | hmem
        · rw [hcc] at hcc'; cases hcc'
          exact (forwardSlotsReady_iff u o _).mp hs e he hk
        · exact h c' hmem cc' hcc' e he hk
      · intro h c' hc'
        exact h c' (List.mem_cons_of_mem _ hc')
    · refine ⟨false, by simp [isForwardCopyReadyLoop, hcc, hs], ?_⟩
      constructor
      · intro h; cases h
      · intro h
        exact absurd ((forwardSlotsReady_iff u o _).mpr
          (h c (List.mem_cons_self _ _) cc hcc)) hs

/-- C3: for a unit `u` of the graph (its metadata is stored under its own id),
`m_isForwardCopyReady(u)` returns `false` whenever `u` is a Sink, whatever the
versions; and, when `u` and the units of its `OutputUnitVector` are compiled, it
returns `true` exactly when `u` is not a Sink and every `ForwardInputMap` entry
keyed by `u` in every unit of the `OutputUnitVector` has a version one below
the version of `u`'s `ForwardOutput`. -/
theorem m_isForwardCopyReady_iff (um : UnitManager) (u : UnitId) (md : UnitMetaData)
    (hmd : at? um.m_unitMetaDataMap u = some md) (hid : md.Id = u) :
    (u.Type_.BaseType = UnitBaseType.Sink → m_isForwardCopyReady um u = some false) ∧
    (∀ subject, at? um.m_unitMap u = some subject →
      (∀ c ∈ md.OutputUnitVector, (at? um.m_unitMap c).isSome) →
      ∃ b, m_isForwardCopyReady um u = some b ∧
        (b = true ↔
          (u.Type_.BaseType ≠ UnitBaseType.Sink ∧
            ∀ c ∈ md.OutputUnitVector, ∀ cc, at? um.m_unitMap c = some cc →
              ∀ e ∈ cc.ForwardInputMap, e.1 = u →
                subject.ForwardOutput.State = e.2.State + 1))) := by
  subst hid
  constructor
  · intro hs
    simp [m_isForwardCopyReady, hmd, hs]
  · intro subject hsub hvec
    by_cases hs : md.Id.Type_.BaseType = UnitBaseType.Sink
    · exact ⟨false, by simp [m_isForwardCopyReady, hmd, hs], by simp [hs]⟩
    · obtain ⟨b, hb, hiff⟩ := isForwardCopyReadyLoop_spec um.m_unitMap md.Id
        subject.ForwardOutput.State md.OutputUnitVector hvec
      exact ⟨b, by simp [m_isForwardCopyReady, hmd, hs, hsub, hb], by simp [hs, hiff]⟩

/-- Witness for C3 on the chain graph, at the Source unit. -/
theorem m_isForwardCopyReady_iff_witness :
    (uSrc.Type_.BaseType = UnitBaseType.Sink → m_isForwardCopyReady chainGraph uSrc = some false) ∧
    (∀ subject, at? chainGraph.m_unitMap uSrc = some subject →
      (∀ c ∈ [uDense], (at? chainGraph.m_unitMap c).isSome) →
      ∃ b, m_isForwardCopyReady chainGraph uSrc = some b ∧
        (b = true ↔
          (uSrc.Type_.BaseType ≠ UnitBaseType.Sink ∧
            ∀ c ∈ [uDense], ∀ cc, at? chainGraph.m_unitMap c = some cc →
              ∀ e ∈ cc.ForwardInputMap, e.1 = uSrc →
                subject.ForwardOutput.State = e.2.State + 1))) :=
  m_isForwardCopyReady_iff chainGraph uSrc { Id := uSrc, OutputUnitVector := [uDense] }
    (by decide) rfl

end Takion

namespace Takion

/-! ## Forward copy -/

theorem copyIntoSlots_eq_deliverSlots (u : UnitId) (src : Tensor)
    (m : List (UnitId × Tensor)) : copyIntoSlots u src m = deliverSlots u src 1 m := by
  induction m with
  | nil => rfl
  | cons e rest ih =>
    obtain ⟨k, t⟩ := e
    by_cases hk : k = u
    · simp only [copyIntoSlots, hk, if_true, ih]
      simp [deliverSlots, copyAndBump]
    · simp only [copyIntoSlots, hk, if_false, ih]
      simp [deliverSlots, hk]

theorem deliverSlots_zero (u : UnitId) (src : Tensor) (m : List (UnitId × Tensor)) :
    deliverSlots u src 0 m = m := by
  simp [deliverSlots]

theorem deliverSlots_succ (u : UnitId) (src : Tensor) (n : Nat)
    (m : List (UnitId × Tensor)) :
    deliverSlots u src n (copyIntoSlots u src m) = deliverSlots u src (n + 1) m := by
  rw [copyIntoSlots_eq_deliverSlots]
  simp only [deliverSlots, List.map_map]
  apply List.map_congr_left
  intro e _
  by_cases hk : e.1 = u
  · by_cases hn : 0 < n
    · simp [hk, hn]; omega
    · have : n = 0 := by omega
      simp [hk, this]
  · simp [hk]

theorem keys_deliverSlots (u : UnitId) (src : Tensor) (n : Nat)
    (m : List (UnitId × Tensor)) : keys (deliverSlots u src n m) = keys m := by
  simp only [keys, deliverSlots, List.map_map]
  apply List.map_congr_left
  intro e _
  by_cases h : e.1 = u ∧ 0 < n <;> simp [h]

/-- What the loop of `m_forwardCopy` leaves in the unit map: the unit stored
under `k` has received `count k vec` deliveries and is otherwise untouched. -/
theorem forwardCopyLoop_spec (u : UnitId) (src : Tensor) (vec : List UnitId) :
    ∀ unitMap : List (UnitId × ComputableUnit),
      (∀ c ∈ vec, (at? unitMap c).isSome) →
      ∃ unitMap', forwardCopyLoop u src vec unitMap = some unitMap' ∧
        keys unitMap' = keys unitMap ∧
        ∀ k, at? unitMap' k =
          (at? unitMap k).map (fun cu =>
            { cu with ForwardInputMap := deliverSlots u src (vec.count k) cu.ForwardInputMap }) := by
  induction vec with
  | nil =>
    intro unitMap _
    refine ⟨unitMap, rfl, rfl, fun k => ?_⟩
    cases h : at? unitMap k <;> simp [deliverSlots_zero]
  | cons c rest ih =>
    intro unitMap hvec
    obtain ⟨cc, hcc⟩ := Option.isSome_iff_exists.mp (hvec c (List.mem_cons_self _ _))
    have hrest : ∀ c' ∈ rest,
        (at? (setAt unitMap c
          { cc with ForwardInputMap := copyIntoSlots u src cc.ForwardInputMap }) c').isSome := by
      intro c' hc'
      rw [at?_isSome_iff_mem_keys, keys_setAt, ← at?_isSome_iff_mem_keys]
      exact hvec c' (List.mem_cons_of_mem _ hc')
    obtain ⟨um', hrun, hkeys, hat⟩ := ih _ hrest
    refine ⟨um', by simp [forwardCopyLoop, hcc, hrun], by rw [hkeys, keys_setAt], fun k => ?_⟩
    rw [hat k]
    by_cases hk : k = c
    · subst hk
      rw [at?_setAt_self _ _ _ _ hcc, hcc]
      simp [deliverSlots_succ]
    · rw [at?_setAt_of_ne _ _ _ _ hk]
      have hc : ¬ c = k := fun h => hk h.symm
      simp [List.count_cons, hc]

/-- C4 (amended): one call `m_forwardCopy(u)`, for a compiled unit `u` whose
listed consumers are compiled, returns and leaves in every unit `k` the forward
input map with `count k OutputUnitVector` deliveries applied: each entry keyed
by `u` holds the data of `u`'s `ForwardOutput` and a version greater by the
number of times `k` is listed (exactly 1 when it is listed once), every other
entry is unchanged; everything else of every unit, `u`'s own `ForwardOutput`
included, the key set and the metadata are unchanged. -/
theorem m_forwardCopy_delivers (um : UnitManager) (u : UnitId) (md : UnitMetaData)
    (subject : ComputableUnit)
    (hmd : at? um.m_unitMetaDataMap u = some md)
    (hsub : at? um.m_unitMap u = some subject)
    (hvec : ∀ c ∈ md.OutputUnitVector, (at? um.m_unitMap c).isSome) :
    ∃ um', m_forwardCopy um u = some um' ∧
      um'.m_unitMetaDataMap = um.m_unitMetaDataMap ∧
      keys um'.m_unitMap = keys um.m_unitMap ∧
      ∀ k cu, at? um.m_unitMap k = some cu →
        at? um'.m_unitMap k =
          some { cu with
            ForwardInputMap :=
              deliverSlots u subject.ForwardOutput (md.OutputUnitVector.count k)
                cu.ForwardInputMap } := by
  obtain ⟨unitMap', hrun, hkeys, hat⟩ :=
    forwardCopyLoop_spec u subject.ForwardOutput md.OutputUnitVector um.m_unitMap hvec
  refine ⟨{ um with m_unitMap := unitMap' }, by simp [m_forwardCopy, hmd, hsub, hrun],
    rfl, hkeys, fun k cu hk => ?_⟩
  simp [hat k, hk]

/-- Witness for C4 (amended) on the chain graph: the Source delivers to `Dense`,
listed once. -/
theorem m_forwardCopy_delivers_witness :
    ∃ um', m_forwardCopy chainGraph uSrc = some um' ∧
      um'.m_unitMetaDataMap = chainGraph.m_unitMetaDataMap ∧
      keys um'.m_unitMap = keys chainGraph.m_unitMap ∧
      ∀ k cu, at? chainGraph.m_unitMap k = some cu →
        at? um'.m_unitMap k =
          some { cu with
            ForwardInputMap :=
              deliverSlots uSrc freshTensor ([uDense].count k) cu.ForwardInputMap } :=
  m_forwardCopy_delivers chainGraph uSrc { Id := uSrc, OutputUnitVector := [uDense] }
    _ (by decide) rfl (by decide)

/-- Counterexample to C4 as stated: `Dense` is listed in the Source's
`OutputUnitVector` and owns an entry keyed by the Source, at version `0`; one
call `m_forwardCopy(Source)` leaves that entry at version `2`, not `1`. -/
theorem m_forwardCopy_twice_listed :
    uDense ∈ [uDense, uDense] ∧
    at? twiceListedGraph.m_unitMetaDataMap uSrc
      = some { Id := uSrc, OutputUnitVector := [uDense, uDense] } ∧
    (at? twiceListedGraph.m_unitMap uDense).map (fun c => c.ForwardInputMap)
      = some [(uSrc, { Data := [], State := 0 })] ∧
    ((m_forwardCopy twiceListedGraph uSrc).bind (fun um' => at? um'.m_unitMap uDense)).map
        (fun c => c.ForwardInputMap)
      = some [(uSrc, { Data := [5], State := 2 })] := by
  decide

end Takion

namespace Takion

/-! ## Wiring is never changed by the scheduler -/

theorem at?_map_snd {α β : Type} (f : α → β) (m : List (UnitId × α)) (k : UnitId) :
    at? (m.map (fun e => (e.1, f e.2))) k = (at? m k).map f := by
  induction m with
  | nil => rfl
  | cons e rest ih =>
    obtain ⟨k', v⟩ := e
    by_cases hk : k' = k
    · simp [at?, hk]
    · simp [at?, hk, ih]

theorem keys_map_snd {α β : Type} (f : UnitId → α → β) (m : List (UnitId × α)) :
    keys (m.map (fun e => (e.1, f e.1 e.2))) = keys m := by
  simp [keys, List.map_map, Function.comp_def]

theorem at?_shape (unitMap : List (UnitId × ComputableUnit)) (k : UnitId) :
    at? (shape unitMap) k = (at? unitMap k).map unitShape :=
  at?_map_snd unitShape unitMap k

theorem keys_shape (unitMap : List (UnitId × ComputableUnit)) :
    keys (shape unitMap) = keys unitMap := by
  simp [shape, keys, List.map_map, Function.comp_def]

theorem SameShape.same_refl (um : UnitManager) : SameShape um um := ⟨rfl, rfl⟩

theorem SameShape.same_trans {a b c : UnitManager} (h₁ : SameShape a b) (h₂ : SameShape b c) :
    SameShape a c := ⟨h₂.1.trans h₁.1, h₂.2.trans h₁.2⟩

theorem SameShape.keys_eq {a b : UnitManager} (h : SameShape a b) :
    keys b.m_unitMap = keys a.m_unitMap := by
  rw [← keys_shape, h.2, keys_shape]

theorem SameShape.units_shape_eq {a b : UnitManager} (h : SameShape a b) (k : UnitId) :
    (at? b.m_unitMap k).map unitShape = (at? a.m_unitMap k).map unitShape := by
  rw [← Takion.at?_shape, h.2, Takion.at?_shape]

theorem shape_setAt (unitMap : List (UnitId × ComputableUnit)) (k : UnitId)
    (old new : ComputableUnit) (hold : at? unitMap k = some old)
    (hs : unitShape new = unitShape old) : shape (setAt unitMap k new) = shape unitMap := by
  induction unitMap with
  | nil => rfl
  | cons e rest ih =>
    obtain ⟨k', v⟩ := e
    by_cases hk : k' = k
    · simp [at?, hk] at hold
      subst hold
      simp [setAt, hk, shape, hs]
    · simp only [at?, hk, if_false] at hold
      have := ih hold
      simp only [shape] at this
      simp [setAt, hk, shape, this]

theorem keys_copyIntoSlots (u : UnitId) (src : Tensor) (m : List (UnitId × Tensor)) :
    keys (copyIntoSlots u src m) = keys m := by
  rw [copyIntoSlots_eq_deliverSlots, keys_deliverSlots]

theorem keys_bumpAll (m : List (UnitId × Tensor)) : keys (bumpAll m) = keys m := by
  simp [bumpAll, keys, List.map_map, Function.comp_def]

theorem unitShape_update_forward (ops : UnitOps) (key : UnitId) (unit : ComputableUnit) :
    unitShape (UpdateForwardState (unitForward ops key unit)) = unitShape unit := rfl

theorem unitShape_update_backward (ops : UnitOps) (key : UnitId) (unit : ComputableUnit) :
    unitShape (UpdateBackwardState (unitBackward ops key unit)) = unitShape unit := by
  simp [unitShape, UpdateBackwardState, unitBackward, keys, List.map_map, Function.comp_def]

theorem shape_seedForward (unitMap : List (UnitId × ComputableUnit)) :
    shape (seedForward unitMap) = shape unitMap := by
  induction unitMap with
  | nil => rfl
  | cons e rest ih =>
    obtain ⟨k, v⟩ := e
    simp only [shape] at ih
    by_cases hk : k.Type_.BaseType = UnitBaseType.Source
    · have hu : unitShape { v with ForwardInputMap := bumpAll v.ForwardInputMap } = unitShape v := by
        simp [unitShape, keys_bumpAll]
      simp [seedForward, hk, shape, ih, hu]
    · simp [seedForward, hk, shape, ih]

theorem shape_seedBackward (unitMap : List (UnitId × ComputableUnit)) :
    shape (seedBackward unitMap) = shape unitMap := by
  induction unitMap with
  | nil => rfl
  | cons e rest ih =>
    obtain ⟨k, v⟩ := e
    simp only [shape] at ih
    by_cases hk : k.Type_.BaseType = UnitBaseType.Sink
    · have hu : unitShape { v with BackwardInputMap := bumpAll v.BackwardInputMap } = unitShape v := by
        simp [unitShape, keys_bumpAll]
      simp [seedBackward, hk, shape, ih, hu]
    · simp [seedBackward, hk, shape, ih]

theorem shape_forwardCopyLoop (u : UnitId) (src : Tensor) (vec : List UnitId) :
    ∀ unitMap unitMap', forwardCopyLoop u src vec unitMap = some unitMap' →
      shape unitMap' = shape unitMap := by
  induction vec with
  | nil => intro unitMap unitMap' h; simp [forwardCopyLoop] at h; rw [h]
  | cons c rest ih =>
    intro unitMap unitMap' h
    cases hc : at? unitMap c with
    | none => simp [forwardCopyLoop, hc] at h
    | some cc =>
      simp only [forwardCopyLoop, hc] at h
      rw [ih _ _ h]
      exact shape_setAt _ _ cc _ hc (by simp [unitShape, keys_copyIntoSlots])

theorem shape_backwardCopyLoop (u : UnitId) (bom : List (UnitId × Tensor)) :
    ∀ unitMap unitMap', backwardCopyLoop u bom unitMap = some unitMap' →
      shape unitMap' = shape unitMap := by
  induction bom with
  | nil => intro unitMap unitMap' h; simp [backwardCopyLoop] at h; rw [h]
  | cons e rest ih =>
    obtain ⟨t, out⟩ := e
    intro unitMap unitMap' h
    cases hc : at? unitMap t with
    | none => simp [backwardCopyLoop, hc] at h
    | some cc =>
      simp only [backwardCopyLoop, hc] at h
      rw [ih _ _ h]
      exact shape_setAt _ _ cc _ hc (by simp [unitShape, keys_copyIntoSlots])

theorem SameShape_m_forwardCopy (um um' : UnitManager) (u : UnitId)
    (h : m_forwardCopy um u = some um') : SameShape um um' := by
  unfold m_forwardCopy at h
  split at h
  · cases h
  · split at h
    · cases h
    · split at h
      · cases h
      · rename_i unitMap hloop
        cases h
        exact ⟨rfl, shape_forwardCopyLoop _ _ _ _ _ hloop⟩

theorem SameShape_m_backwardCopy (um um' : UnitManager) (u : UnitId)
    (h : m_backwardCopy um u = some um') : SameShape um um' := by
  unfold m_backwardCopy at h
  split at h
  · cases h
  · split at h
    · cases h
    · rename_i unitMap hloop
      cases h
      exact ⟨rfl, shape_backwardCopyLoop _ _ _ _ hloop⟩

/-! ## Invariants of the sweeps -/

/-- An invariant of the run that every visit keeps is kept by a pass; `Err` is
what a visit that raises guarantees instead. -/
theorem sweep_invariant (visit : UnitId → Run × Bool → Except Run (Run × Bool))
    (Inv Err : Run → Prop)
    (hvisit : ∀ key s, Inv s.1 →
      match visit key s with
      | .error r => Err r
      | .ok s' => Inv s'.1) :
    ∀ (ks : List UnitId) (s : Run × Bool), Inv s.1 →
      match sweep visit ks s with
      | .error r => Err r
      | .ok s' => Inv s'.1 := by
  intro ks
  induction ks with
  | nil => intro s hs; simpa [sweep] using hs
  | cons key rest ih =>
    intro s hs
    have hv := hvisit key s hs
    cases hvk : visit key s with
    | error r => simp only [hvk] at hv; simpa [sweep, hvk] using hv
    | ok s' =>
      simp only [hvk] at hv
      simpa [sweep, hvk] using ih s' hv

/-- An invariant of the run that every visit keeps holds of the run of every
outcome of the loop that has not raised, and `Err` of one that has. -/
theorem sweepLoop_invariant (visit : UnitId → Run × Bool → Except Run (Run × Bool))
    (Inv Err : Run → Prop)
    (hvisit : ∀ key s, Inv s.1 →
      match visit key s with
      | .error r => Err r
      | .ok s' => Inv s'.1) :
    ∀ (fuel : Nat) (r : Run), Inv r →
      match sweepLoop visit fuel r with
      | .returned r' => Inv r'
      | .running r' => Inv r'
      | .threw r' => Err r' := by
  intro fuel
  induction fuel with
  | zero => intro r hr; simpa [sweepLoop] using hr
  | succ n ih =>
    intro r hr
    have hs := sweep_invariant visit Inv Err hvisit (keys r.um.m_unitMap) (r, true) hr
    cases hsw : sweep visit (keys r.um.m_unitMap) (r, true) with
    | error r' => simp only [hsw] at hs; simpa [sweepLoop, hsw] using hs
    | ok s' =>
      obtain ⟨r', b⟩ := s'
      simp only [hsw] at hs
      cases b with
      | true => simpa [sweepLoop, hsw] using hs
      | false => simpa [sweepLoop, hsw] using ih r' hs

/-- The same, when a visit that raises keeps the invariant too. -/
theorem sweepLoop_invariant_run (visit : UnitId → Run × Bool → Except Run (Run × Bool))
    (Inv : Run → Prop)
    (hvisit : ∀ key s, Inv s.1 →
      match visit key s with
      | .error r => Inv r
      | .ok s' => Inv s'.1)
    (fuel : Nat) (r : Run) (hr : Inv r) : Inv (sweepLoop visit fuel r).run := by
  have := sweepLoop_invariant visit Inv Inv hvisit fuel r hr
  cases h : sweepLoop visit fuel r <;> simp only [h] at this <;> simpa [Outcome.run] using this

end Takion

namespace Takion

/-! ## Backward copy readiness of excluded units -/

theorem backwardSlotsReady_of_not_mem (u : UnitId) (o : Nat) (flag : Bool)
    (m : List (UnitId × Tensor)) (h : u ∉ keys m) :
    backwardSlotsReady u o flag m = some flag := by
  induction m with
  | nil => rfl
  | cons e rest ih =>
    obtain ⟨k, t⟩ := e
    simp only [keys, List.map_cons, List.mem_cons, not_or] at h
    have hk : ¬ k = u := fun h' => h.1 h'.symm
    simp only [backwardSlotsReady, hk, if_false]
    exact ih h.2

theorem isBackwardCopyReadyLoop_no_target (unitMap : List (UnitId × ComputableUnit))
    (u : UnitId) (bom : List (UnitId × Tensor))
    (h : ∀ t ∈ keys bom, ∀ target, at? unitMap t = some target →
      u ∉ keys target.BackwardInputMap) :
    isBackwardCopyReadyLoop unitMap u false bom ≠ some true ∧
    ((∀ t ∈ keys bom, (at? unitMap t).isSome) →
      isBackwardCopyReadyLoop unitMap u false bom = some false) := by
  induction bom with
  | nil => simp [isBackwardCopyReadyLoop]
  | cons e rest ih =>
    obtain ⟨t, out⟩ := e
    have hrest : ∀ t' ∈ keys rest, ∀ target, at? unitMap t' = some target →
        u ∉ keys target.BackwardInputMap := by
      intro t' ht'
      exact h t' (by simp only [keys, List.map_cons, List.mem_cons]; exact Or.inr ht')
    obtain ⟨ih1, ih2⟩ := ih hrest
    cases ht : at? unitMap t with
    | none =>
      constructor
      · simp [isBackwardCopyReadyLoop, ht]
      · intro hall
        have := hall t (by simp [keys])
        simp [ht] at this
    | some target =>
      have hnot := h t (by simp [keys]) target ht
      have hslots := backwardSlotsReady_of_not_mem u out.State false _ hnot
      constructor
      · simpa [isBackwardCopyReadyLoop, ht, hslots] using ih1
      · intro hall
        have := ih2 (fun t' ht' =>
          hall t' (by simp only [keys, List.map_cons, List.mem_cons]; exact Or.inr ht'))
        simpa [isBackwardCopyReadyLoop, ht, hslots] using this

theorem m_isBackwardCopyReady_of_source (um : UnitManager) (u : UnitId) (md : UnitMetaData)
    (hmd : at? um.m_unitMetaDataMap u = some md)
    (hs : md.Id.Type_.BaseType = UnitBaseType.Source) :
    m_isBackwardCopyReady um u = some false := by
  simp [m_isBackwardCopyReady, hmd, hs]

theorem m_isBackwardCopyReady_of_noBackwardTarget (um : UnitManager) (u : UnitId)
    (h : NoBackwardTarget um u) :
    m_isBackwardCopyReady um u ≠ some true ∧
    ((at? um.m_unitMetaDataMap u).isSome → (at? um.m_unitMap u).isSome →
      (∀ t ∈ backwardTargets um u, (at? um.m_unitMap t).isSome) →
      m_isBackwardCopyReady um u = some false) := by
  unfold m_isBackwardCopyReady
  cases hmd : at? um.m_unitMetaDataMap u with
  | none => simp
  | some md =>
    by_cases hs : md.Id.Type_.BaseType = UnitBaseType.Source
    · simp [hs]
    · cases hsub : at? um.m_unitMap u with
      | none => simp [hs]
      | some subject =>
        have hloop := isBackwardCopyReadyLoop_no_target um.m_unitMap u
          subject.BackwardOutputMap (by
            intro t ht target htarget
            have := h t (by simpa [backwardTargets, hsub] using ht)
            simpa [backwardSources, htarget] using this)
        constructor
        · simpa [hs] using hloop.1
        · intro _ _ hall
          simp only [hs, if_false]
          exact hloop.2 (by simpa [backwardTargets, hsub] using hall)

theorem backwardTargets_of_sameShape {a b : UnitManager} (h : SameShape a b) (u : UnitId) :
    backwardTargets b u = backwardTargets a u := by
  have := h.units_shape_eq u
  unfold backwardTargets
  cases ha : at? a.m_unitMap u <;> cases hb : at? b.m_unitMap u <;>
    simp [ha, hb, unitShape] at this ⊢
  exact this.2.2

theorem backwardSources_of_sameShape {a b : UnitManager} (h : SameShape a b) (u : UnitId) :
    backwardSources b u = backwardSources a u := by
  have := h.units_shape_eq u
  unfold backwardSources
  cases ha : at? a.m_unitMap u <;> cases hb : at? b.m_unitMap u <;>
    simp [ha, hb, unitShape] at this ⊢
  exact this.2.1

theorem NoBackwardTarget_of_sameShape {a b : UnitManager} {u : UnitId}
    (h : NoBackwardTarget a u) (hs : SameShape a b) : NoBackwardTarget b u := by
  intro t ht
  rw [backwardTargets_of_sameShape hs] at ht
  rw [backwardSources_of_sameShape hs]
  exact h t ht

/-- A visit of `Backward` keeps the wiring, and logs a backward copy of `u`
only where `m_isBackwardCopyReady(u)` holds. -/
theorem backwardVisit_invariant (ops : UnitOps) (cycle : Nat) (um₀ : UnitManager) (u : UnitId)
    (hnever : ∀ um', SameShape um₀ um' → m_isBackwardCopyReady um' u ≠ some true)
    (key : UnitId) (s : Run × Bool)
    (hs : SameShape um₀ s.1.um ∧ ∀ st ∈ s.1.log, st.event ≠ Event.backwardCopy u) :
    match backwardVisit ops cycle key s with
    | .error r => SameShape um₀ r.um ∧ ∀ st ∈ r.log, st.event ≠ Event.backwardCopy u
    | .ok s' => SameShape um₀ s'.1.um ∧ ∀ st ∈ s'.1.log, st.event ≠ Event.backwardCopy u := by
  unfold backwardVisit
  cases hunit : at? s.1.um.m_unitMap key with
  | none => simpa using hs
  | some unit =>
    simp only
    -- the state after the optional compute step
    have hI : SameShape um₀ (backwardComputePhase ops cycle key unit s).1.um ∧
        ∀ st ∈ (backwardComputePhase ops cycle key unit s).1.log,
          st.event ≠ Event.backwardCopy u := by
      unfold backwardComputePhase
      by_cases hr : ops.IsBackwardReady key unit cycle = true
      · rw [if_pos hr]
        refine ⟨hs.1.same_trans ⟨rfl, ?_⟩, ?_⟩
        · exact shape_setAt _ _ unit _ hunit (unitShape_update_backward ops key unit)
        · intro st hst
          simp only [Run.step, List.mem_append, List.mem_singleton] at hst
          rcases hst with hst | rfl
          · exact hs.2 st hst
          · simp
      · rw [if_neg hr]
        exact hs
    generalize backwardComputePhase ops cycle key unit s = s1 at hI
    unfold backwardCopyPhase
    cases hready : m_isBackwardCopyReady s1.1.um key with
    | none => simpa using hI
    | some b =>
      cases b with
      | false => simpa using hI
      | true =>
        cases hcopy : m_backwardCopy s1.1.um key with
        | none => simpa using hI
        | some um' =>
          simp only
          refine ⟨hI.1.same_trans (SameShape_m_backwardCopy _ _ _ hcopy), ?_⟩
          intro st hst
          simp only [Run.step, List.mem_append, List.mem_singleton] at hst
          rcases hst with hst | rfl
          · exact hI.2 st hst
          · simp only [ne_eq, Event.backwardCopy.injEq]
            intro hku
            subst hku
            exact hnever _ hI.1 hready

/-- C5: let `u` be a unit of the graph that is a Source, or none of whose
`BackwardOutputMap` targets has a `BackwardInputMap` entry keyed by `u` (an
empty `BackwardOutputMap` included).  Then in every state with the same wiring,
whatever the slot versions, `m_isBackwardCopyReady(u)` does not return `true`:
it returns `false` for a Source, and `false` whenever its lookups succeed.  So
no run of `Backward`, finished or not, performs `m_backwardCopy(u)`. -/
theorem m_isBackwardCopyReady_excluded (um : UnitManager) (u : UnitId) (md : UnitMetaData)
    (hmd : at? um.m_unitMetaDataMap u = some md) (hid : md.Id = u)
    (hex : u.Type_.BaseType = UnitBaseType.Source ∨ NoBackwardTarget um u) :
    (∀ um', SameShape um um' →
      m_isBackwardCopyReady um' u ≠ some true ∧
      (u.Type_.BaseType = UnitBaseType.Source → m_isBackwardCopyReady um' u = some false) ∧
      ((at? um'.m_unitMap u).isSome →
        (∀ t ∈ backwardTargets um' u, (at? um'.m_unitMap t).isSome) →
        m_isBackwardCopyReady um' u = some false)) ∧
    (∀ (ops : UnitOps) (cycle fuel : Nat),
      ∀ st ∈ (Backward ops cycle fuel um).run.log, st.event ≠ Event.backwardCopy u) := by
  subst hid
  have hstate : ∀ um', SameShape um um' →
      m_isBackwardCopyReady um' md.Id ≠ some true ∧
      (md.Id.Type_.BaseType = UnitBaseType.Source →
        m_isBackwardCopyReady um' md.Id = some false) ∧
      ((at? um'.m_unitMap md.Id).isSome →
        (∀ t ∈ backwardTargets um' md.Id, (at? um'.m_unitMap t).isSome) →
        m_isBackwardCopyReady um' md.Id = some false) := by
    intro um' hs
    have hmd' : at? um'.m_unitMetaDataMap md.Id = some md := by rw [hs.1]; exact hmd
    have hsrc : md.Id.Type_.BaseType = UnitBaseType.Source →
        m_isBackwardCopyReady um' md.Id = some false :=
      fun h => m_isBackwardCopyReady_of_source um' md.Id md hmd' h
    rcases hex with hsource | hno
    · exact ⟨by simp [hsrc hsource], hsrc, fun _ _ => hsrc hsource⟩
    · have := m_isBackwardCopyReady_of_noBackwardTarget um' md.Id (NoBackwardTarget_of_sameShape hno hs)
      exact ⟨this.1, hsrc, fun h1 h2 => this.2 (by simp [hmd']) h1 h2⟩
  refine ⟨hstate, ?_⟩
  intro ops cycle fuel
  have hinv := sweepLoop_invariant_run (backwardVisit ops cycle)
    (fun r => SameShape um r.um ∧ ∀ st ∈ r.log, st.event ≠ Event.backwardCopy md.Id)
    (fun key s hs => backwardVisit_invariant ops cycle um md.Id
      (fun um' h => (hstate um' h).1) key s hs)
    fuel (backwardStart um)
    ⟨⟨rfl, shape_seedBackward _⟩, by simp [backwardStart, Run.step]⟩
  exact hinv.2

/-- Witness for C5 on the chain graph: the Source unit has an empty
`BackwardOutputMap`. -/
theorem m_isBackwardCopyReady_excluded_witness :
    (∀ um', SameShape chainGraph um' →
      m_isBackwardCopyReady um' uSrc ≠ some true ∧
      (uSrc.Type_.BaseType = UnitBaseType.Source → m_isBackwardCopyReady um' uSrc = some false) ∧
      ((at? um'.m_unitMap uSrc).isSome →
        (∀ t ∈ backwardTargets um' uSrc, (at? um'.m_unitMap t).isSome) →
        m_isBackwardCopyReady um' uSrc = some false)) ∧
    (∀ (ops : UnitOps) (cycle fuel : Nat),
      ∀ st ∈ (Backward ops cycle fuel chainGraph).run.log, st.event ≠ Event.backwardCopy uSrc) :=
  m_isBackwardCopyReady_excluded chainGraph uSrc { Id := uSrc, OutputUnitVector := [uDense] }
    (by decide) rfl (Or.inr (by decide))

end Takion

namespace Takion

/-! ## Compile -/

theorem compileEntry_ok_iff (factory : UnitFactory) (optimizerName : String)
    (md : UnitMetaData) (unitMap unitMap' : List (UnitId × ComputableUnit))
    (h : compileEntry factory optimizerName md unitMap = .ok unitMap') :
    ∃ unit, createdUnit factory md = some unit ∧ unitMap' = insertOrAssign unitMap md.Id unit := by
  unfold compileEntry at h
  unfold createdUnit
  simp only at h ⊢
  by_cases h1 : md.Id.Type_.Name = "DataLoader"
  · rw [if_pos h1] at h; cases h
  rw [if_neg h1] at h
  by_cases h2 : md.Id.Type_.Name = "Dense"
  · rw [if_pos h2] at h
    rw [if_pos h2]
    cases hopt : m_makeOptimizer optimizerName with
    | none =>
      rw [hopt] at h
      cases h
      exact ⟨_, rfl, rfl⟩
    | some err => rw [hopt] at h; cases h
  rw [if_neg h2] at h
  rw [if_neg h2]
  by_cases h3 : md.Id.Type_.Name = "Dropout"
  · rw [if_pos h3] at h; cases h
  rw [if_neg h3] at h
  by_cases h4 : md.Id.Type_.Name = "ReLU"
  · rw [if_pos h4] at h
    rw [if_pos h4]
    cases h
    exact ⟨_, rfl, rfl⟩
  rw [if_neg h4] at h
  rw [if_neg h4]
  by_cases h5 : md.Id.Type_.Name = "Sigmoid"
  · rw [if_pos h5] at h
    rw [if_pos h5]
    cases h
    exact ⟨_, rfl, rfl⟩
  rw [if_neg h5] at h
  rw [if_neg h5]
  by_cases h6 : md.Id.Type_.Name = "Reshape"
  · rw [if_pos h6] at h; cases h
  rw [if_neg h6] at h
  by_cases h7 : md.Id.Type_.Name = "MSE"
  · rw [if_pos h7] at h
    rw [if_pos h7]
    cases h
    exact ⟨_, rfl, rfl⟩
  rw [if_neg h7] at h
  rw [if_neg h7]
  by_cases h8 : md.Id.Type_.Name = "Constant"
  · rw [if_pos h8] at h
    rw [if_pos h8]
    cases h
    exact ⟨_, rfl, rfl⟩
  rw [if_neg h8] at h
  by_cases h9 : md.Id.Type_.Name = "Multiply"
  · rw [if_pos h9] at h; cases h
  rw [if_neg h9] at h
  by_cases h10 : md.Id.Type_.Name = "Add"
  · rw [if_pos h10] at h; cases h
  rw [if_neg h10] at h
  cases h

theorem compileLoop_error (factory : UnitFactory) (optimizerName : String)
    (mds : List (UnitId × UnitMetaData)) :
    ∀ (unitMap unitMap' : List (UnitId × ComputableUnit)) (err : CompileError),
      compileLoop factory optimizerName mds unitMap = (unitMap', some err) →
      ∃ pre bad post, mds = pre ++ bad :: post ∧
        (∀ e ∈ pre, (createdUnit factory e.2).isSome) ∧
        compileEntry factory optimizerName bad.2 unitMap' = .error err ∧
        unitMap' = storeCreated factory pre unitMap := by
  induction mds with
  | nil => intro unitMap unitMap' err h; simp [compileLoop] at h
  | cons e rest ih =>
    obtain ⟨k, md⟩ := e
    intro unitMap unitMap' err h
    cases hentry : compileEntry factory optimizerName md unitMap with
    | error err' =>
      simp only [compileLoop, hentry, Prod.mk.injEq, Option.some.injEq] at h
      obtain ⟨rfl, rfl⟩ := h
      exact ⟨[], (k, md), rest, rfl, by simp, hentry, rfl⟩
    | ok unitMap₁ =>
      simp only [compileLoop, hentry] at h
      obtain ⟨pre, bad, post, hsplit, hpre, hbad, hmap⟩ := ih unitMap₁ unitMap' err h
      obtain ⟨unit, hunit, hins⟩ := compileEntry_ok_iff _ _ _ _ _ hentry
      refine ⟨(k, md) :: pre, bad, post, by simp [hsplit], ?_, hbad, ?_⟩
      · intro e he
        rcases List.mem_cons.mp he with rfl | hmem
        · simp [hunit]
        · exact hpre e hmem
      · simp [storeCreated, hunit, hmap, hins]

/-- C10 (amended): whenever `Compile` raises, the metadata map is unchanged and
the unit map is the map from before the call with the units of the entries
iterated before the failing one created and stored (nothing is rolled back);
the failing entry and the entries after it contribute nothing. -/
theorem Compile_error_keeps_created (factory : UnitFactory) (optimizerName : String)
    (um um' : UnitManager) (err : CompileError)
    (h : Compile factory optimizerName um = (um', some err)) :
    um'.m_unitMetaDataMap = um.m_unitMetaDataMap ∧
    ∃ pre bad post, um.m_unitMetaDataMap = pre ++ bad :: post ∧
      (∀ e ∈ pre, (createdUnit factory e.2).isSome) ∧
      compileEntry factory optimizerName bad.2 um'.m_unitMap = .error err ∧
      um'.m_unitMap = storeCreated factory pre um.m_unitMap := by
  simp only [Compile, Prod.mk.injEq] at h
  obtain ⟨hum, herr⟩ := h
  subst hum
  refine ⟨rfl, ?_⟩
  exact compileLoop_error factory optimizerName um.m_unitMetaDataMap um.m_unitMap _ err
    (Prod.ext rfl herr)

/-- Witness for C10 (amended): compiling the declared graph raises at `Dropout`
after the `ReLU` unit has been stored. -/
theorem Compile_error_keeps_created_witness :
    (Compile blankFactory "SGD" declaredGraph).1.m_unitMetaDataMap
      = declaredGraph.m_unitMetaDataMap ∧
    ∃ pre bad post, declaredGraph.m_unitMetaDataMap = pre ++ bad :: post ∧
      (∀ e ∈ pre, (createdUnit blankFactory e.2).isSome) ∧
      compileEntry blankFactory "SGD" bad.2 (Compile blankFactory "SGD" declaredGraph).1.m_unitMap
        = .error CompileError.NotImplemented ∧
      (Compile blankFactory "SGD" declaredGraph).1.m_unitMap
        = storeCreated blankFactory pre declaredGraph.m_unitMap :=
  Compile_error_keeps_created blankFactory "SGD" declaredGraph
    (Compile blankFactory "SGD" declaredGraph).1 CompileError.NotImplemented (by decide)

/-- Counterexample to C10 as stated: `Compile` raises "Not implemented" on the
declared graph, whose unit map was empty, and the unit map afterwards holds the
`ReLU` unit created before the failing entry. -/
theorem Compile_error_partial_graph :
    declaredGraph.m_unitMap = [] ∧
    (Compile blankFactory "SGD" declaredGraph).2 = some CompileError.NotImplemented ∧
    (Compile blankFactory "SGD" declaredGraph).1.m_unitMap = [(uReLU, blankUnit)] ∧
    (Compile blankFactory "SGD" declaredGraph).1.m_unitMap ≠ declaredGraph.m_unitMap := by
  decide

end Takion

namespace CubbyDNN

/-! ## The cooperative executor -/

theorem length_updateAt {α : Type} (l : List α) (i : Nat) (f : α → α) :
    (updateAt l i f).length = l.length := by
  induction l generalizing i with
  | nil => rfl
  | cons x xs ih =>
    cases i with
    | zero => rfl
    | succ i => simp [updateAt, ih]

theorem getElem?_updateAt {α : Type} (l : List α) (i j : Nat) (f : α → α) :
    (updateAt l i f)[j]? = if j = i then (l[j]?).map f else l[j]? := by
  induction l generalizing i j with
  | nil => simp [updateAt]
  | cons x xs ih =>
    cases i with
    | zero =>
      cases j with
      | zero => simp [updateAt]
      | succ j => simp [updateAt]
    | succ i =>
      cases j with
      | zero => simp [updateAt]
      | succ j => simp [updateAt, ih]

theorem sum_map_updateAt {α : Type} (g : α → Nat) (f : α → α) (l : List α) (i : Nat) (x : α)
    (hx : l[i]? = some x) (hg : g (f x) + 1 = g x) :
    ((updateAt l i f).map g).sum + 1 = (l.map g).sum := by
  induction l generalizing i with
  | nil => simp at hx
  | cons y ys ih =>
    cases i with
    | zero =>
      simp only [List.getElem?_cons_zero, Option.some.injEq] at hx
      subst hx
      simp only [updateAt, List.map_cons, List.sum_cons]
      omega
    | succ i =>
      simp only [List.getElem?_cons_succ] at hx
      have := ih i hx
      simp only [updateAt, List.map_cons, List.sum_cons]
      omega

theorem frame_ReleaseUnit (e : Engine) (id : UnitIdentifier) :
    (ReleaseUnit e id).frame = e.frame := by
  obtain ⟨t, i⟩ := id
  cases t <;> simp [ReleaseUnit, Engine.updateUnit, Engine.frame, length_updateAt]

/-- Releasing a unit that is below `epochs` takes one off the work left. -/
theorem deficit_ReleaseUnit (epochs : Nat) (e : Engine) (id : UnitIdentifier) (n : Nat)
    (hn : e.stateNum id = some n) (hlt : n < epochs) :
    deficit epochs (ReleaseUnit e id) + 1 = deficit epochs e := by
  obtain ⟨t, i⟩ := id
  cases t
  case Copy =>
    simp only [Engine.stateNum, Option.map_eq_some'] at hn
    obtain ⟨u, hu, rfl⟩ := hn
    have := sum_map_updateAt (fun u : CopyUnit => epochs - u.StateNum)
      (fun u => { u with StateNum := u.StateNum + 1, IsBusy := false })
      e.m_copyUnitVector i u hu (by simp only; omega)
    simp only [deficit, ReleaseUnit]
    omega
  all_goals
    simp only [Engine.stateNum, Engine.units, Option.map_eq_some'] at hn
    obtain ⟨u, hu, rfl⟩ := hn
    have := sum_map_updateAt (fun u : ComputeUnit => epochs - u.StateNum)
      (fun u => { u with StateNum := u.StateNum + 1, IsBusy := false })
      _ i u hu (by simp only; omega)
    simp only [deficit, ReleaseUnit, Engine.updateUnit]
    omega

/-- The guard of the four loops of `Execute` at a unit. -/
theorem executeUnit_cases (beh : UnitBehaviour) (epochs : Nat) (s : ExecState)
    (id : UnitIdentifier) :
    (executeUnit beh epochs s id = s ∧
      ∀ n, s.engine.stateNum id = some n → n < epochs → beh.IsReady s.engine id = false) ∨
    (∃ n, s.engine.stateNum id = some n ∧ n < epochs ∧ beh.IsReady s.engine id = true ∧
      executeUnit beh epochs s id =
        { engine := ReleaseUnit s.engine id, isFinished := false,
          computed := s.computed ++ [id] }) := by
  unfold executeUnit
  cases hn : s.engine.stateNum id with
  | none => left; simp
  | some n =>
    by_cases hr : beh.IsReady s.engine id = true
    · by_cases hlt : n < epochs
      · right; exact ⟨n, rfl, hlt, hr, by simp [hr, hlt]⟩
      · left
        refine ⟨by simp [hr, hlt], fun m hm hmlt => ?_⟩
        cases hm
        exact absurd hmlt hlt
    · left
      simp only [Bool.not_eq_true] at hr
      exact ⟨by simp [hr], fun _ _ _ => hr⟩

/-- A run of one of the `for` loops of `Execute`: the collections keep their
sizes, the work left does not grow and shrinks when the loop computes
something, and a loop that leaves `isFinished` set has changed nothing and
found no unit both ready and below `epochs`. -/
theorem foldl_executeUnit (beh : UnitBehaviour) (epochs : Nat) (l : List UnitIdentifier) :
    ∀ s s' : ExecState, s' = l.foldl (executeUnit beh epochs) s →
      s'.engine.frame = s.engine.frame ∧
      deficit epochs s'.engine + (if s'.isFinished then 0 else 1)
        ≤ deficit epochs s.engine + (if s.isFinished then 0 else 1) ∧
      (s'.isFinished = true →
        s' = s ∧ ∀ id ∈ l, ∀ n, s.engine.stateNum id = some n → n < epochs →
          beh.IsReady s.engine id = false) := by
  induction l with
  | nil => intro s s' h; subst h; simp
  | cons id rest ih =>
    intro s s' h
    simp only [List.foldl_cons] at h
    obtain ⟨hf, hd, hfin⟩ := ih (executeUnit beh epochs s id) s' h
    rcases executeUnit_cases beh epochs s id with ⟨heq, hguard⟩ | ⟨n, hn, hlt, _, heq⟩
    · rw [heq] at hf hd hfin
      refine ⟨hf, hd, fun h => ?_⟩
      obtain ⟨h1, h2⟩ := hfin h
      refine ⟨h1, fun id' hid' => ?_⟩
      rcases List.mem_cons.mp hid' with rfl | hmem
      · exact hguard
      · exact h2 id' hmem
    · rw [heq] at hf hd hfin
      have hdef := deficit_ReleaseUnit epochs s.engine id n hn hlt
      refine ⟨by rw [hf]; exact frame_ReleaseUnit _ _, ?_, fun h => ?_⟩
      · have hd' : deficit epochs s'.engine + (if s'.isFinished = true then 0 else 1)
            ≤ deficit epochs (ReleaseUnit s.engine id) + 1 := by simpa using hd
        split_ifs at hd' ⊢ <;> omega
      · obtain ⟨h1, _⟩ := hfin h
        rw [h1] at h
        simp at h

theorem allIds_eq_of_frame {e e' : Engine} (h : e'.frame = e.frame) : e'.allIds = e.allIds := by
  simp only [Engine.frame, Prod.mk.injEq] at h
  obtain ⟨h1, h2, h3, h4, _⟩ := h
  simp [Engine.allIds, h1, h2, h3, h4]

/-- One pass of the `while` loop of `Execute`. -/
theorem executeSweep_spec (beh : UnitBehaviour) (epochs : Nat) (s : ExecState) :
    (executeSweep beh epochs s).engine.frame = s.engine.frame ∧
    deficit epochs (executeSweep beh epochs s).engine +
        (if (executeSweep beh epochs s).isFinished then 0 else 1) ≤ deficit epochs s.engine ∧
    ((executeSweep beh epochs s).isFinished = true →
      (executeSweep beh epochs s).engine = s.engine ∧
      (executeSweep beh epochs s).computed = s.computed ∧
      ∀ id ∈ s.engine.allIds, ∀ n, s.engine.stateNum id = some n → n < epochs →
        beh.IsReady s.engine id = false) := by
  have hsweep : executeSweep beh epochs s =
      s.engine.allIds.foldl (executeUnit beh epochs) { s with isFinished := true } := by
    simp [executeSweep, Engine.allIds, List.foldl_append]
  obtain ⟨hf, hd, hfin⟩ := foldl_executeUnit beh epochs s.engine.allIds
    { s with isFinished := true } (executeSweep beh epochs s) hsweep
  refine ⟨hf, by simpa using hd, fun h => ?_⟩
  obtain ⟨h1, h2⟩ := hfin h
  rw [h1]
  exact ⟨rfl, rfl, h2⟩

/-- The `while` loop of `Execute` stops: from a state with the active flag set
it returns within `deficit + 2` tests of its condition, in a state where
`isFinished` is set and no unit is both ready and below `epochs`. -/
theorem executeLoop_terminates (beh : UnitBehaviour) (epochs : Nat) :
    ∀ (d : Nat) (s : ExecState), deficit epochs s.engine ≤ d →
      s.engine.m_active = true → s.isFinished = false →
      ∃ s', executeLoop beh epochs (d + 2) s = some s' ∧
        s'.isFinished = true ∧ s'.engine.frame = s.engine.frame ∧
        ∀ id ∈ s'.engine.allIds, ∀ n, s'.engine.stateNum id = some n → n < epochs →
          beh.IsReady s'.engine id = false := by
  intro d
  induction d with
  | zero =>
    intro s hd hact hfin
    obtain ⟨hf, hdef, hdone⟩ := executeSweep_spec beh epochs s
    have hfin' : (executeSweep beh epochs s).isFinished = true := by
      by_contra h
      simp only [Bool.not_eq_true] at h
      simp only [h, Bool.false_eq_true, if_false] at hdef
      omega
    obtain ⟨heng, _, hguard⟩ := hdone hfin'
    refine ⟨executeSweep beh epochs s, ?_, hfin', hf, ?_⟩
    · simp [executeLoop, hact, hfin, hfin']
    · rw [heng]; exact hguard
  | succ d ih =>
    intro s hd hact hfin
    obtain ⟨hf, hdef, hdone⟩ := executeSweep_spec beh epochs s
    have hact' : (executeSweep beh epochs s).engine.m_active = true := by
      have := congrArg (fun p => p.2.2.2.2) hf
      simp only [Engine.frame] at this
      rw [this]; exact hact
    by_cases hfin' : (executeSweep beh epochs s).isFinished = true
    · obtain ⟨heng, _, hguard⟩ := hdone hfin'
      refine ⟨executeSweep beh epochs s, ?_, hfin', hf, ?_⟩
      · simp [executeLoop, hact, hfin, hfin']
      · rw [heng]; exact hguard
    · simp only [Bool.not_eq_true] at hfin'
      simp only [hfin', Bool.false_eq_true, if_false] at hdef
      obtain ⟨s', hrun, h1, h2, h3⟩ := ih (executeSweep beh epochs s) (by omega) hact' hfin'
      refine ⟨s', ?_, h1, h2.trans hf, h3⟩
      rw [executeLoop]
      simp only [hact, hfin, Bool.not_false, Bool.and_self, if_true]
      exact hrun

end CubbyDNN

namespace CubbyDNN

/-- C7 (amended): from every engine state with the active flag set, and for
every behaviour of the units, `Execute(epochs)` returns, with the same
collections, and on return no unit is both ready and below `epochs`: every unit
has `StateNum >= epochs` or is not ready. -/
theorem Execute_returns_at_fixed_point (beh : UnitBehaviour) (e : Engine) (epochs : Nat)
    (hactive : e.m_active = true) :
    ∃ fuel s, Engine.Execute beh fuel e epochs = some s ∧
      s.engine.allIds = e.allIds ∧
      ∀ id ∈ s.engine.allIds, ∀ n, s.engine.stateNum id = some n →
        epochs ≤ n ∨ beh.IsReady s.engine id = false := by
  obtain ⟨s, hrun, _, hframe, hguard⟩ :=
    executeLoop_terminates beh epochs (deficit epochs { e with m_maxEpochs := epochs })
      { engine := { e with m_maxEpochs := epochs }, isFinished := false, computed := [] }
      (Nat.le_refl _) hactive rfl
  refine ⟨_, s, hrun, ?_, fun id hid n hn => ?_⟩
  · rw [allIds_eq_of_frame hframe]; rfl
  · by_cases hlt : n < epochs
    · exact Or.inr (hguard id hid n hn hlt)
    · exact Or.inl (Nat.le_of_not_lt hlt)

/-- Witness for C7 (amended) on the graph `Source → Hidden → Sink`. -/
theorem Execute_returns_at_fixed_point_witness :
    ∃ fuel s, Engine.Execute specBehaviour fuel engineSHK 5 = some s ∧
      s.engine.allIds = engineSHK.allIds ∧
      ∀ id ∈ s.engine.allIds, ∀ n, s.engine.stateNum id = some n →
        5 ≤ n ∨ specBehaviour.IsReady s.engine id = false :=
  Execute_returns_at_fixed_point specBehaviour engineSHK 5 (by decide)

/-- Counterexample to C7 as stated: in `engineLate` the active flag is set,
`Execute(5)` returns after one sweep in which nothing is ready, and the Hidden
unit declared last still has `StateNum = 0 < 5`. -/
theorem Execute_returns_below_epochs :
    engineLate.m_active = true ∧
    ∃ s, Engine.Execute specBehaviour 2 engineLate 5 = some s ∧
      { Type_ := UnitType.Hidden, ID := 1 } ∈ s.engine.allIds ∧
      s.engine.stateNum { Type_ := .Hidden, ID := 1 } = some 0 := by
  refine ⟨by decide, _, rfl, by decide, by decide⟩

/-- C6: on the graph `Source → Hidden → Sink` built by `Engine::Source`,
`Engine::Hidden` and `Engine::Sink` (two Copy units inserted), all counters
`0`, `Execute(5)` returns, and on return the `StateNum` of each of the five
units is `5`; the Sink has been computed exactly 5 times, and so has the Copy
unit that feeds it. -/
theorem Execute_chain_five_epochs :
    (∀ id ∈ engineSHK.allIds, engineSHK.stateNum id = some 0) ∧
    ∃ s, Engine.Execute specBehaviour 9 engineSHK 5 = some s ∧
      s.engine.allIds =
        [{ Type_ := .Source, ID := 0 }, { Type_ := .Hidden, ID := 0 }, { Type_ := .Sink, ID := 0 },
          { Type_ := .Copy, ID := 0 }, { Type_ := .Copy, ID := 1 }] ∧
      (∀ id ∈ s.engine.allIds, s.engine.stateNum id = some 5) ∧
      s.computed.count { Type_ := .Sink, ID := 0 } = 5 ∧
      s.computed.count { Type_ := .Copy, ID := 1 } = 5 := by
  refine ⟨by decide, _, rfl, by decide, by decide, by decide, by decide⟩

end CubbyDNN

namespace CubbyDNN

/-! ## The builder -/

theorem units_updateUnit (e : Engine) (t t' : UnitType) (i j : Nat)
    (f : ComputeUnit → ComputeUnit) :
    ((e.updateUnit t i f).units t')[j]? =
      if t' = t ∧ j = i then ((e.units t')[j]?).map f else (e.units t')[j]? := by
  cases t <;> cases t' <;>
    simp [Engine.updateUnit, Engine.units, getElem?_updateAt]

theorem length_units_updateUnit (e : Engine) (t t' : UnitType) (i : Nat)
    (f : ComputeUnit → ComputeUnit) :
    ((e.updateUnit t i f).units t').length = (e.units t').length := by
  cases t <;> cases t' <;> simp [Engine.updateUnit, Engine.units, length_updateAt]

theorem copy_updateUnit (e : Engine) (t : UnitType) (i : Nat) (f : ComputeUnit → ComputeUnit) :
    (e.updateUnit t i f).m_copyUnitVector = e.m_copyUnitVector ∧
    (e.updateUnit t i f).m_active = e.m_active ∧
    (e.updateUnit t i f).m_maxEpochs = e.m_maxEpochs := by
  cases t <;> simp [Engine.updateUnit]

theorem Extends.extends_refl (e : Engine) : Extends e e :=
  ⟨fun _ _ u hu => ⟨u, [], hu, by simp, rfl, rfl, rfl⟩, fun _ => rfl, ⟨[], by simp⟩, rfl, rfl⟩

theorem Extends.extends_trans {a b c : Engine} (h₁ : Extends a b) (h₂ : Extends b c) : Extends a c := by
  obtain ⟨hu₁, hl₁, ⟨m₁, hc₁⟩, ha₁, he₁⟩ := h₁
  obtain ⟨hu₂, hl₂, ⟨m₂, hc₂⟩, ha₂, he₂⟩ := h₂
  refine ⟨fun t i u hu => ?_, fun t => (hl₂ t).trans (hl₁ t), ⟨m₁ ++ m₂, by simp [hc₂, hc₁]⟩,
    ha₂.trans ha₁, he₂.trans he₁⟩
  obtain ⟨u₁, more₁, hu₁', ho₁, hs₁, hi₁, hv₁⟩ := hu₁ t i u hu
  obtain ⟨u₂, more₂, hu₂', ho₂, hs₂, hi₂, hv₂⟩ := hu₂ t i u₁ hu₁'
  exact ⟨u₂, more₁ ++ more₂, hu₂', by simp [ho₂, ho₁], hs₂.trans hs₁, hi₂.trans hi₁,
    hv₂.trans hv₁⟩

/-- The common body of the three connect functions, when both lookups succeed:
one Copy unit is appended, wired from the origin to the destination, and the
index it holds is its place among the outputs of the origin. -/
theorem connectUnits_spec (ot dt : UnitType) (oi di idx : Nat) (e : Engine)
    (origin dest : ComputeUnit)
    (ho : (e.units ot)[oi]? = some origin) (hd : (e.units dt)[di]? = some dest) :
    ∃ e' c pred, connectUnits ot oi dt di idx e = some e' ∧ Extends e e' ∧
      e'.m_copyUnitVector = e.m_copyUnitVector ++ [c] ∧
      c.m_inputPtrVector = [{ Type_ := ot, ID := oi }] ∧
      c.m_outputPtrVector = [{ Type_ := dt, ID := di }] ∧
      c.m_outputTensorIndex = idx ∧
      (e'.units ot)[oi]? = some pred ∧
      pred.m_outputPtrVector[c.m_inputTensorIndex]?
        = some { Type_ := .Copy, ID := e.m_copyUnitVector.length } := by
  let cid : UnitIdentifier := { Type_ := .Copy, ID := e.m_copyUnitVector.length }
  let e₂ := (e.updateUnit ot oi (fun u => (AddOutputPtr u cid).1)).updateUnit dt di
    (fun u => AddInputPtr u cid idx)
  let c : CopyUnit :=
    { CopyUnit.make with
      m_inputPtrVector := [{ Type_ := ot, ID := oi }]
      m_outputPtrVector := [{ Type_ := dt, ID := di }]
      m_inputTensorIndex := (AddOutputPtr origin cid).2
      m_outputTensorIndex := idx }
  have hrun : connectUnits ot oi dt di idx e
      = some { e₂ with m_copyUnitVector := e₂.m_copyUnitVector ++ [c] } := by
    simp only [connectUnits, ho, hd]
  have hunits : ∀ t j, (e₂.units t)[j]? =
      (if t = dt ∧ j = di then
        Option.map (fun u => AddInputPtr u cid idx)
          (if t = ot ∧ j = oi then Option.map (fun u => (AddOutputPtr u cid).1) ((e.units t)[j]?)
            else (e.units t)[j]?)
      else
        (if t = ot ∧ j = oi then Option.map (fun u => (AddOutputPtr u cid).1) ((e.units t)[j]?)
          else (e.units t)[j]?)) := by
    intro t j
    simp only [e₂]
    rw [units_updateUnit, units_updateUnit]
  have hsame : ∀ t, ({ e₂ with m_copyUnitVector := e₂.m_copyUnitVector ++ [c] } : Engine).units t
      = e₂.units t := by
    intro t; cases t <;> rfl
  have hcopy : e₂.m_copyUnitVector = e.m_copyUnitVector := by
    simp only [e₂]
    rw [(copy_updateUnit _ _ _ _).1, (copy_updateUnit _ _ _ _).1]
  have hpred : ∃ pred, (e₂.units ot)[oi]? = some pred ∧
      pred.m_outputPtrVector = origin.m_outputPtrVector ++ [cid] := by
    rw [hunits ot oi, ho]
    by_cases h1 : ot = dt ∧ oi = di
    · exact ⟨AddInputPtr (AddOutputPtr origin cid).1 cid idx,
        by rw [if_pos h1, if_pos ⟨rfl, rfl⟩]; rfl, by simp [AddInputPtr, AddOutputPtr]⟩
    · exact ⟨(AddOutputPtr origin cid).1, by rw [if_neg h1, if_pos ⟨rfl, rfl⟩]; rfl,
        by simp [AddOutputPtr]⟩
  obtain ⟨pred, hpred1, hpred2⟩ := hpred
  refine ⟨_, c, pred, hrun, ?_, ?_, rfl, rfl, rfl, ?_, ?_⟩
  · refine ⟨fun t j u hu => ?_, fun t => ?_, ⟨[c], ?_⟩, ?_, ?_⟩
    · rw [hsame, hunits t j, hu]
      by_cases h1 : t = dt ∧ j = di
      · by_cases h2 : t = ot ∧ j = oi
        · exact ⟨AddInputPtr (AddOutputPtr u cid).1 cid idx, [cid],
            by rw [if_pos h1, if_pos h2]; rfl, rfl, rfl, rfl, rfl⟩
        · exact ⟨AddInputPtr u cid idx, [], by rw [if_pos h1, if_neg h2]; rfl,
            by simp [AddInputPtr], rfl, rfl, rfl⟩
      · by_cases h2 : t = ot ∧ j = oi
        · exact ⟨(AddOutputPtr u cid).1, [cid], by rw [if_neg h1, if_pos h2]; rfl,
            rfl, rfl, rfl, rfl⟩
        · exact ⟨u, [], by rw [if_neg h1, if_neg h2], by simp, rfl, rfl, rfl⟩
    · rw [hsame]
      simp only [e₂]
      rw [length_units_updateUnit, length_units_updateUnit]
    · simp [hcopy]
    · simp only [e₂]
      rw [(copy_updateUnit _ _ _ _).2.1, (copy_updateUnit _ _ _ _).2.1]
    · simp only [e₂]
      rw [(copy_updateUnit _ _ _ _).2.2, (copy_updateUnit _ _ _ _).2.2]
  · simp [hcopy]
  · rw [hsame]; exact hpred1
  · rw [hpred2]
    simp [c, AddOutputPtr, cid]

end CubbyDNN

namespace CubbyDNN

theorem Extends.length_copy {e e' : Engine} (h : Extends e e') :
    e.m_copyUnitVector.length ≤ e'.m_copyUnitVector.length := by
  obtain ⟨_, _, ⟨more, hm⟩, _⟩ := h
  simp [hm]

theorem Extends.getElem?_output {e e' : Engine} (h : Extends e e') (t : UnitType) (i k : Nat)
    (pred : ComputeUnit) (x : UnitIdentifier)
    (hp : (e.units t)[i]? = some pred) (hx : pred.m_outputPtrVector[k]? = some x) :
    ∃ pred', (e'.units t)[i]? = some pred' ∧ pred'.m_outputPtrVector[k]? = some x := by
  obtain ⟨u', more, hu', hout, _⟩ := h.1 t i pred hp
  refine ⟨u', hu', ?_⟩
  rw [hout]
  have hk : k < pred.m_outputPtrVector.length := by
    by_contra hk
    rw [List.getElem?_eq_none (Nat.le_of_not_lt hk)] at hx
    cases hx
  rw [List.getElem?_append_left hk]
  exact hx

/-- One more predecessor in front: the wiring of the first Copy unit survives
the rest of the loop, which wires the others. -/
theorem WiredFrom.cons {e e₁ e' : Engine} {p : UnitIdentifier} {rest : List UnitIdentifier}
    {subject : UnitIdentifier} {first : Nat} {c : CopyUnit} {pred : ComputeUnit}
    (hcopy : e₁.m_copyUnitVector = e.m_copyUnitVector ++ [c])
    (hin : c.m_inputPtrVector = [p]) (hout : c.m_outputPtrVector = [subject])
    (hidx : c.m_outputTensorIndex = first)
    (hpred : (e₁.units p.Type_)[p.ID]? = some pred)
    (hplace : pred.m_outputPtrVector[c.m_inputTensorIndex]?
      = some { Type_ := .Copy, ID := e.m_copyUnitVector.length })
    (hext : Extends e₁ e') (hrest : WiredFrom e₁ e' rest subject (first + 1)) :
    WiredFrom e e' (p :: rest) subject first := by
  obtain ⟨newCopies, hnew, hlen, hall⟩ := hrest
  refine ⟨c :: newCopies, by simp [hnew, hcopy], by simp [hlen], fun j q hq => ?_⟩
  cases j with
  | zero =>
    simp only [List.getElem?_cons_zero, Option.some.injEq] at hq
    subst hq
    obtain ⟨pred', hpred', hplace'⟩ := hext.getElem?_output _ _ _ pred _ hpred hplace
    exact ⟨c, pred', by simp, hin, hout, by simp [hidx], hpred', by simpa using hplace'⟩
  | succ j =>
    simp only [List.getElem?_cons_succ] at hq
    obtain ⟨c', pred', h1, h2, h3, h4, h5, h6⟩ := hall j q hq
    refine ⟨c', pred', by simpa using h1, h2, h3, by omega, h5, ?_⟩
    rw [h6, hcopy]
    simp only [List.length_append, List.length_singleton]
    congr 2
    omega

theorem connectToHidden_spec (sid : Nat) :
    ∀ (P : List UnitIdentifier) (first : Nat) (e : Engine),
      sid < e.m_hiddenUnitVector.length →
      (∀ p ∈ P, (p.Type_ = UnitType.Source ∨ p.Type_ = UnitType.Hidden) ∧
        p.ID < (e.units p.Type_).length) →
      ∃ e', connectToHidden sid P first e = .ok e' ∧ Extends e e' ∧
        WiredFrom e e' P { Type_ := .Hidden, ID := sid } first := by
  intro P
  induction P with
  | nil =>
    intro first e _ _
    exact ⟨e, rfl, Extends.extends_refl e, [], by simp, rfl, fun j p h => by simp at h⟩
  | cons p rest ih =>
    intro first e hsid hP
    obtain ⟨htype, hvalid⟩ := hP p (List.mem_cons_self _ _)
    obtain ⟨origin, horigin⟩ : ∃ origin, (e.units p.Type_)[p.ID]? = some origin :=
      ⟨_, List.getElem?_eq_getElem hvalid⟩
    obtain ⟨dest, hdest⟩ : ∃ dest, (e.units .Hidden)[sid]? = some dest :=
      ⟨_, List.getElem?_eq_getElem hsid⟩
    obtain ⟨e₁, c, pred, hrun, hext₁, hcopy, hin, hout, hidx, hpred, hplace⟩ :=
      connectUnits_spec p.Type_ .Hidden p.ID sid first e origin dest horigin hdest
    have hsid₁ : sid < e₁.m_hiddenUnitVector.length := by
      have := hext₁.2.1 .Hidden
      simp only [Engine.units] at this
      omega
    have hP₁ : ∀ q ∈ rest, (q.Type_ = UnitType.Source ∨ q.Type_ = UnitType.Hidden) ∧
        q.ID < (e₁.units q.Type_).length := by
      intro q hq
      obtain ⟨h1, h2⟩ := hP q (List.mem_cons_of_mem _ hq)
      exact ⟨h1, by rw [hext₁.2.1]; exact h2⟩
    obtain ⟨e', hrun', hext', hwired⟩ := ih (first + 1) e₁ hsid₁ hP₁
    refine ⟨e', ?_, hext₁.extends_trans hext', WiredFrom.cons hcopy hin hout hidx hpred hplace hext' hwired⟩
    rcases htype with hs | hh
    · simp only [connectToHidden, hs, if_true, m_connectSourceToHidden]
      rw [hs] at hrun
      rw [hrun]
      exact hrun'
    · have hns : ¬ p.Type_ = UnitType.Source := by rw [hh]; decide
      simp only [connectToHidden, hns, hh, if_true, if_false, m_connectHiddenToHidden]
      rw [hh] at hrun
      rw [hrun]
      exact hrun'

theorem connectToSink_spec (sid : Nat) :
    ∀ (P : List UnitIdentifier) (first : Nat) (e : Engine),
      sid < e.m_sinkUnitVector.length →
      (∀ p ∈ P, p.Type_ = UnitType.Hidden ∧ p.ID < e.m_hiddenUnitVector.length) →
      ∃ e', connectToSink sid P first e = .ok e' ∧ Extends e e' ∧
        WiredFrom e e' P { Type_ := .Sink, ID := sid } first := by
  intro P
  induction P with
  | nil =>
    intro first e _ _
    exact ⟨e, rfl, Extends.extends_refl e, [], by simp, rfl, fun j p h => by simp at h⟩
  | cons p rest ih =>
    intro first e hsid hP
    obtain ⟨hh, hvalid⟩ := hP p (List.mem_cons_self _ _)
    obtain ⟨origin, horigin⟩ : ∃ origin, (e.units .Hidden)[p.ID]? = some origin :=
      ⟨_, List.getElem?_eq_getElem hvalid⟩
    obtain ⟨dest, hdest⟩ : ∃ dest, (e.units .Sink)[sid]? = some dest :=
      ⟨_, List.getElem?_eq_getElem hsid⟩
    obtain ⟨e₁, c, pred, hrun, hext₁, hcopy, hin, hout, hidx, hpred, hplace⟩ :=
      connectUnits_spec .Hidden .Sink p.ID sid first e origin dest horigin hdest
    have hsid₁ : sid < e₁.m_sinkUnitVector.length := by
      have := hext₁.2.1 .Sink
      simp only [Engine.units] at this
      omega
    have hP₁ : ∀ q ∈ rest, q.Type_ = UnitType.Hidden ∧ q.ID < e₁.m_hiddenUnitVector.length := by
      intro q hq
      obtain ⟨h1, h2⟩ := hP q (List.mem_cons_of_mem _ hq)
      have := hext₁.2.1 .Hidden
      simp only [Engine.units] at this
      exact ⟨h1, by omega⟩
    obtain ⟨e', hrun', hext', hwired⟩ := ih (first + 1) e₁ hsid₁ hP₁
    have hp : p = { Type_ := .Hidden, ID := p.ID } := by
      cases p; simp_all
    refine ⟨e', ?_, hext₁.extends_trans hext',
      WiredFrom.cons hcopy (by rw [hin, ← hp]) hout hidx (by rw [hh]; exact hpred) hplace hext'
        hwired⟩
    simp only [connectToSink, hh, if_true, m_connectHiddenToSink]
    rw [hrun]
    exact hrun'

end CubbyDNN

namespace CubbyDNN

theorem outputInfoOf_valid (e : Engine) (p : UnitIdentifier) (u : ComputeUnit)
    (htype : p.Type_ = UnitType.Source ∨ p.Type_ = UnitType.Hidden)
    (hu : (e.units p.Type_)[p.ID]? = some u) :
    outputInfoOf e p = some (some u.OutputTensorInfo) := by
  rcases htype with hs | hh
  · have hns : ¬ p.Type_ = UnitType.Hidden := by rw [hs]; decide
    rw [hs] at hu
    simp only [Engine.units] at hu
    simp [outputInfoOf, hns, hs, hu]
  · rw [hh] at hu
    simp only [Engine.units] at hu
    simp [outputInfoOf, hh, hu]

theorem collectInputInfo_valid (e : Engine) (P : List UnitIdentifier)
    (hP : ∀ p ∈ P, (p.Type_ = UnitType.Source ∨ p.Type_ = UnitType.Hidden) ∧
      p.ID < (e.units p.Type_).length) :
    ∃ infos, collectInputInfo e P = some infos := by
  induction P with
  | nil => exact ⟨[], rfl⟩
  | cons p rest ih =>
    obtain ⟨htype, hvalid⟩ := hP p (List.mem_cons_self _ _)
    obtain ⟨infos, hinfos⟩ := ih (fun q hq => hP q (List.mem_cons_of_mem _ hq))
    have := outputInfoOf_valid e p _ htype (List.getElem?_eq_getElem hvalid)
    exact ⟨(some (e.units p.Type_)[p.ID].OutputTensorInfo).toList ++ infos,
      by simp only [collectInputInfo, this, hinfos]⟩

theorem WiredFrom.of_copy_eq {e₀ e e' : Engine} {P : List UnitIdentifier}
    {subject : UnitIdentifier} {first : Nat}
    (h : WiredFrom e₀ e' P subject first) (hc : e₀.m_copyUnitVector = e.m_copyUnitVector) :
    WiredFrom e e' P subject first := by
  unfold WiredFrom at h ⊢
  rw [hc] at h
  exact h

/-- A new Hidden unit, appended and then connected to supported predecessors. -/
theorem connect_new_hidden (e : Engine) (unit : ComputeUnit) (P : List UnitIdentifier)
    (hP : ∀ p ∈ P, (p.Type_ = UnitType.Source ∨ p.Type_ = UnitType.Hidden) ∧
      p.ID < (e.units p.Type_).length) :
    ∃ e', connectAndReturn P { Type_ := .Hidden, ID := e.m_hiddenUnitVector.length }
          { e with m_hiddenUnitVector := e.m_hiddenUnitVector ++ [unit] }
        = .ok e' { Type_ := .Hidden, ID := e.m_hiddenUnitVector.length } ∧
      Extends { e with m_hiddenUnitVector := e.m_hiddenUnitVector ++ [unit] } e' ∧
      CopiesWired e e' P { Type_ := .Hidden, ID := e.m_hiddenUnitVector.length } := by
  have hP' : ∀ p ∈ P, (p.Type_ = UnitType.Source ∨ p.Type_ = UnitType.Hidden) ∧
      p.ID < (({ e with m_hiddenUnitVector := e.m_hiddenUnitVector ++ [unit] } : Engine).units
        p.Type_).length := by
    intro p hp
    obtain ⟨h1, h2⟩ := hP p hp
    refine ⟨h1, ?_⟩
    rcases h1 with hs | hh
    · rw [hs] at h2 ⊢; exact h2
    · rw [hh] at h2 ⊢
      simp only [Engine.units, List.length_append, List.length_singleton] at h2 ⊢
      omega
  obtain ⟨e', hrun, hext, hwired⟩ := connectToHidden_spec e.m_hiddenUnitVector.length P 0
    { e with m_hiddenUnitVector := e.m_hiddenUnitVector ++ [unit] } (by simp) hP'
  exact ⟨e', by simp [connectAndReturn, m_connectWithPreviousUnit, hrun], hext,
    hwired.of_copy_eq rfl⟩

/-- A new Sink unit, appended and then connected to Hidden predecessors. -/
theorem connect_new_sink (e : Engine) (unit : ComputeUnit) (P : List UnitIdentifier)
    (hP : ∀ p ∈ P, p.Type_ = UnitType.Hidden ∧ p.ID < e.m_hiddenUnitVector.length) :
    ∃ e', connectAndReturn P { Type_ := .Sink, ID := e.m_sinkUnitVector.length }
          { e with m_sinkUnitVector := e.m_sinkUnitVector ++ [unit] }
        = .ok e' { Type_ := .Sink, ID := e.m_sinkUnitVector.length } ∧
      Extends { e with m_sinkUnitVector := e.m_sinkUnitVector ++ [unit] } e' ∧
      CopiesWired e e' P { Type_ := .Sink, ID := e.m_sinkUnitVector.length } := by
  obtain ⟨e', hrun, hext, hwired⟩ := connectToSink_spec e.m_sinkUnitVector.length P 0
    { e with m_sinkUnitVector := e.m_sinkUnitVector ++ [unit] } (by simp) hP
  exact ⟨e', by simp [connectAndReturn, m_connectWithPreviousUnit, hrun], hext,
    hwired.of_copy_eq rfl⟩

/-- C8 (amended): a call of `Engine::Hidden` or `Engine::Multiply` whose
predecessors are valid Source or Hidden identifiers, and a call of
`Engine::Sink` or `Engine::OutputTest` whose predecessors are valid Hidden
identifiers, returns the identifier of the new unit and appends exactly one
Copy unit per predecessor, wired as `CopiesWired` says: the `j`-th reads from
`P[j]`, writes to the new unit, has output tensor index `j`, and its input
tensor index is its place among the outputs of `P[j]`. -/
theorem builder_inserts_copy_units (e : Engine) :
    (∀ (P : List UnitIdentifier) (info : TensorInfo) (n : Nat),
      (∀ p ∈ P, (p.Type_ = UnitType.Source ∨ p.Type_ = UnitType.Hidden) ∧
        p.ID < (e.units p.Type_).length) →
      ∃ e', e.Hidden P info n = .ok e' { Type_ := .Hidden, ID := e.m_hiddenUnitVector.length } ∧
        CopiesWired e e' P { Type_ := .Hidden, ID := e.m_hiddenUnitVector.length }) ∧
    (∀ (unitA unitB : UnitIdentifier) (n : Nat) (a b : ComputeUnit),
      (unitA.Type_ = UnitType.Source ∨ unitA.Type_ = UnitType.Hidden) →
      (unitB.Type_ = UnitType.Source ∨ unitB.Type_ = UnitType.Hidden) →
      (e.units unitA.Type_)[unitA.ID]? = some a → (e.units unitB.Type_)[unitB.ID]? = some b →
      a.OutputTensorInfo.GetShape.Col = b.OutputTensorInfo.GetShape.Row →
      a.OutputTensorInfo.GetShape.BatchSize = b.OutputTensorInfo.GetShape.BatchSize →
      ∃ e', e.Multiply unitA unitB n
          = .ok e' { Type_ := .Hidden, ID := e.m_hiddenUnitVector.length } ∧
        CopiesWired e e' [unitA, unitB] { Type_ := .Hidden, ID := e.m_hiddenUnitVector.length }) ∧
    (∀ (P : List UnitIdentifier) (infos : List TensorInfo),
      (∀ p ∈ P, p.Type_ = UnitType.Hidden ∧ p.ID < e.m_hiddenUnitVector.length) →
      ∃ e', e.Sink P infos = .ok e' { Type_ := .Sink, ID := e.m_sinkUnitVector.length } ∧
        CopiesWired e e' P { Type_ := .Sink, ID := e.m_sinkUnitVector.length }) ∧
    (∀ (p : UnitIdentifier),
      p.Type_ = UnitType.Hidden → p.ID < e.m_hiddenUnitVector.length →
      ∃ e', e.OutputTest p = .ok e' { Type_ := .Sink, ID := e.m_sinkUnitVector.length } ∧
        CopiesWired e e' [p] { Type_ := .Sink, ID := e.m_sinkUnitVector.length }) := by
  refine ⟨?_, ?_, ?_, ?_⟩
  · intro P info n hP
    obtain ⟨infos, hinfos⟩ := collectInputInfo_valid e P hP
    obtain ⟨e', hrun, _, hwired⟩ := connect_new_hidden e (ComputeUnit.make infos info) P hP
    exact ⟨e', by simp only [Engine.Hidden, hinfos]; exact hrun, hwired⟩
  · intro unitA unitB n a b hA hB ha hb hcol hbatch
    have hP : ∀ p ∈ [unitA, unitB], (p.Type_ = UnitType.Source ∨ p.Type_ = UnitType.Hidden) ∧
        p.ID < (e.units p.Type_).length := by
      intro p hp
      simp only [List.mem_cons, List.mem_singleton, List.not_mem_nil, or_false] at hp
      rcases hp with rfl | rfl
      · exact ⟨hA, (List.getElem?_eq_some_iff.mp ha).1⟩
      · exact ⟨hB, (List.getElem?_eq_some_iff.mp hb).1⟩
    obtain ⟨e', hrun, _, hwired⟩ := connect_new_hidden e
      (ComputeUnit.make [a.OutputTensorInfo, b.OutputTensorInfo]
        { GetShape := a.OutputTensorInfo.GetShape.mul b.OutputTensorInfo.GetShape })
      [unitA, unitB] hP
    refine ⟨e', ?_, hwired⟩
    simp only [Engine.Multiply, outputInfoOf_valid e unitA a hA ha,
      outputInfoOf_valid e unitB b hB hb, Option.getD_some, hcol, hbatch, ne_eq,
      not_true_eq_false, if_false]
    exact hrun
  · intro P infos hP
    obtain ⟨e', hrun, _, hwired⟩ := connect_new_sink e
      (ComputeUnit.make infos TensorInfo.default) P hP
    exact ⟨e', hrun, hwired⟩
  · intro p hh hvalid
    have hP : ∀ q ∈ [p], q.Type_ = UnitType.Hidden ∧ q.ID < e.m_hiddenUnitVector.length := by
      intro q hq
      simp only [List.mem_singleton] at hq
      subst hq
      exact ⟨hh, hvalid⟩
    obtain ⟨e', hrun, _, hwired⟩ := connect_new_sink e
      (ComputeUnit.make [(e.m_hiddenUnitVector[p.ID]).OutputTensorInfo] TensorInfo.default) [p] hP
    refine ⟨e', ?_, hwired⟩
    simp only [Engine.OutputTest, hh, if_true, List.getElem?_eq_getElem hvalid, Option.map_some']
    exact hrun

end CubbyDNN

namespace CubbyDNN

/-- Witness for C8 (amended): `Hidden` on a Source, `Multiply` on two Sources of
shapes `(2, 3)` and `(3, 4)`, `Sink` and `OutputTest` on a Hidden unit. -/
theorem builder_inserts_copy_units_witness :
    (∃ e', engineS.Hidden [{ Type_ := .Source, ID := 0 }] info23 1
        = .ok e' { Type_ := .Hidden, ID := 0 } ∧
      CopiesWired engineS e' [{ Type_ := .Source, ID := 0 }] { Type_ := .Hidden, ID := 0 }) ∧
    (∃ e', engineSS.Multiply { Type_ := .Source, ID := 0 } { Type_ := .Source, ID := 1 } 1
        = .ok e' { Type_ := .Hidden, ID := 0 } ∧
      CopiesWired engineSS e' [{ Type_ := .Source, ID := 0 }, { Type_ := .Source, ID := 1 }]
        { Type_ := .Hidden, ID := 0 }) ∧
    (∃ e', engineSH.Sink [{ Type_ := .Hidden, ID := 0 }] [info23]
        = .ok e' { Type_ := .Sink, ID := 0 } ∧
      CopiesWired engineSH e' [{ Type_ := .Hidden, ID := 0 }] { Type_ := .Sink, ID := 0 }) ∧
    (∃ e', engineSH.OutputTest { Type_ := .Hidden, ID := 0 } = .ok e' { Type_ := .Sink, ID := 0 } ∧
      CopiesWired engineSH e' [{ Type_ := .Hidden, ID := 0 }] { Type_ := .Sink, ID := 0 }) :=
  ⟨(builder_inserts_copy_units engineS).1 [{ Type_ := .Source, ID := 0 }] info23 1 (by decide),
    (builder_inserts_copy_units engineSS).2.1 { Type_ := .Source, ID := 0 }
      { Type_ := .Source, ID := 1 } 1 (ComputeUnit.make [] info23) (ComputeUnit.make [] info34)
      (by decide) (by decide) (by decide) (by decide) (by decide) (by decide),
    (builder_inserts_copy_units engineSH).2.2.1 [{ Type_ := .Hidden, ID := 0 }] [info23]
      (by decide),
    (builder_inserts_copy_units engineSH).2.2.2 { Type_ := .Hidden, ID := 0 } (by decide)
      (by decide)⟩

/-- Counterexample to C8 as stated: `Engine::Sink` is called with the list of
one predecessor, the identifier `Engine::Source` has returned; it returns
normally and no Copy unit has been appended. -/
theorem Sink_on_Source_inserts_no_copy :
    Engine.init.Source info23 1 = .ok engineS { Type_ := .Source, ID := 0 } ∧
    [({ Type_ := .Source, ID := 0 } : UnitIdentifier)].length = 1 ∧
    ∃ e', engineS.Sink [{ Type_ := .Source, ID := 0 }] [info23]
        = .ok e' { Type_ := .Sink, ID := 0 } ∧
      e'.m_copyUnitVector = engineS.m_copyUnitVector ∧ e'.m_copyUnitVector = [] := by
  refine ⟨by decide, by decide, _, rfl, by decide, by decide⟩

/-- C9: for valid Source or Hidden identifiers `A` and `B` with output shapes
`shapeA` and `shapeB`, `Engine::Multiply(A, B, n)` raises when
`shapeA.Col() != shapeB.Row()` or the batch sizes differ, and then the engine
(the hidden and copy collections included) is exactly as before the call;
otherwise it returns the identifier `{Hidden, i}` of one hidden unit appended
at the end of the hidden collection, whose output shape is `shapeA * shapeB`,
the hidden units from before keeping their place, counters and tensor
descriptions. -/
theorem Multiply_spec (e : Engine) (unitA unitB : UnitIdentifier) (n : Nat)
    (a b : ComputeUnit)
    (hA : unitA.Type_ = UnitType.Source ∨ unitA.Type_ = UnitType.Hidden)
    (hB : unitB.Type_ = UnitType.Source ∨ unitB.Type_ = UnitType.Hidden)
    (ha : (e.units unitA.Type_)[unitA.ID]? = some a)
    (hb : (e.units unitB.Type_)[unitB.ID]? = some b) :
    ((a.OutputTensorInfo.GetShape.Col ≠ b.OutputTensorInfo.GetShape.Row ∨
        a.OutputTensorInfo.GetShape.BatchSize ≠ b.OutputTensorInfo.GetShape.BatchSize) →
      e.Multiply unitA unitB n = .throws e) ∧
    (a.OutputTensorInfo.GetShape.Col = b.OutputTensorInfo.GetShape.Row →
      a.OutputTensorInfo.GetShape.BatchSize = b.OutputTensorInfo.GetShape.BatchSize →
      ∃ e', e.Multiply unitA unitB n
          = .ok e' { Type_ := .Hidden, ID := e.m_hiddenUnitVector.length } ∧
        e'.m_hiddenUnitVector.length = e.m_hiddenUnitVector.length + 1 ∧
        (∃ u, e'.m_hiddenUnitVector[e.m_hiddenUnitVector.length]? = some u ∧
          u.OutputTensorInfo.GetShape
            = a.OutputTensorInfo.GetShape.mul b.OutputTensorInfo.GetShape) ∧
        (∀ (i : Nat) (u : ComputeUnit), e.m_hiddenUnitVector[i]? = some u →
          ∃ u', e'.m_hiddenUnitVector[i]? = some u' ∧ u'.StateNum = u.StateNum ∧
            u'.OutputTensorInfo = u.OutputTensorInfo ∧
            u'.InputTensorInfoVector = u.InputTensorInfoVector)) := by
  have hinfoA := outputInfoOf_valid e unitA a hA ha
  have hinfoB := outputInfoOf_valid e unitB b hB hb
  constructor
  · intro hbad
    simp only [Engine.Multiply, hinfoA, hinfoB, Option.getD_some]
    by_cases hcol : a.OutputTensorInfo.GetShape.Col = b.OutputTensorInfo.GetShape.Row
    · have hbatch : a.OutputTensorInfo.GetShape.BatchSize
          ≠ b.OutputTensorInfo.GetShape.BatchSize := by
        rcases hbad with h | h
        · exact absurd hcol h
        · exact h
      simp [hcol, hbatch]
    · simp [hcol]
  · intro hcol hbatch
    have hP : ∀ p ∈ [unitA, unitB], (p.Type_ = UnitType.Source ∨ p.Type_ = UnitType.Hidden) ∧
        p.ID < (e.units p.Type_).length := by
      intro p hp
      simp only [List.mem_cons, List.mem_singleton, List.not_mem_nil, or_false] at hp
      rcases hp with rfl | rfl
      · exact ⟨hA, (List.getElem?_eq_some_iff.mp ha).1⟩
      · exact ⟨hB, (List.getElem?_eq_some_iff.mp hb).1⟩
    obtain ⟨e', hrun, hext, _⟩ := connect_new_hidden e
      (ComputeUnit.make [a.OutputTensorInfo, b.OutputTensorInfo]
        { GetShape := a.OutputTensorInfo.GetShape.mul b.OutputTensorInfo.GetShape })
      [unitA, unitB] hP
    refine ⟨e', ?_, ?_, ?_, ?_⟩
    · simp only [Engine.Multiply, hinfoA, hinfoB, Option.getD_some, hcol, hbatch, ne_eq,
        not_true_eq_false, if_false]
      exact hrun
    · have := hext.2.1 .Hidden
      simpa [Engine.units] using this
    · obtain ⟨u', _, hu', _, _, hinfo, _⟩ := hext.1 .Hidden e.m_hiddenUnitVector.length
        (ComputeUnit.make [a.OutputTensorInfo, b.OutputTensorInfo]
          { GetShape := a.OutputTensorInfo.GetShape.mul b.OutputTensorInfo.GetShape })
        (by simp [Engine.units])
      exact ⟨u', hu', by rw [hinfo]; rfl⟩
    · intro i u hu
      have hi : i < e.m_hiddenUnitVector.length := (List.getElem?_eq_some_iff.mp hu).1
      obtain ⟨u', _, hu', _, hs, hinfo, hin⟩ := hext.1 .Hidden i u
        (by simp only [Engine.units]; rw [List.getElem?_append_left hi]; exact hu)
      exact ⟨u', hu', hs, hinfo, hin⟩

/-- Witness for C9 on two Sources of shapes `(2, 3)` and `(3, 4)`. -/
theorem Multiply_spec_witness :
    (engineS.Multiply { Type_ := .Source, ID := 0 } { Type_ := .Source, ID := 0 } 1
        = .throws engineS) ∧
    (∃ e', engineSS.Multiply { Type_ := .Source, ID := 0 } { Type_ := .Source, ID := 1 } 1
        = .ok e' { Type_ := .Hidden, ID := 0 } ∧
      e'.m_hiddenUnitVector.length = 0 + 1 ∧
      (∃ u, e'.m_hiddenUnitVector[0]? = some u ∧
        u.OutputTensorInfo.GetShape = { Row := 2, Col := 4, BatchSize := 1 })) :=
  ⟨(Multiply_spec engineS { Type_ := .Source, ID := 0 } { Type_ := .Source, ID := 0 } 1
      (ComputeUnit.make [] info23) (ComputeUnit.make [] info23)
      (by decide) (by decide) (by decide) (by decide)).1
      (by decide),
    by
      obtain ⟨e', h1, h2, h3, _⟩ :=
        (Multiply_spec engineSS { Type_ := .Source, ID := 0 } { Type_ := .Source, ID := 1 } 1
          (ComputeUnit.make [] info23) (ComputeUnit.make [] info34)
          (by decide) (by decide) (by decide) (by decide)).2 (by decide) (by decide)
      exact ⟨e', h1, h2, h3⟩⟩

end CubbyDNN

namespace Takion

/-! ## What the forward copy does, read off its result -/

theorem forwardCopyLoop_some (u : UnitId) (src : Tensor) (vec : List UnitId) :
    ∀ unitMap unitMap' : List (UnitId × ComputableUnit),
      forwardCopyLoop u src vec unitMap = some unitMap' →
      ∀ k, at? unitMap' k =
        (at? unitMap k).map (fun cu =>
          { cu with ForwardInputMap := deliverSlots u src (vec.count k) cu.ForwardInputMap }) := by
  induction vec with
  | nil =>
    intro unitMap unitMap' h k
    simp only [forwardCopyLoop, Option.some.injEq] at h
    subst h
    cases hk : at? unitMap k <;> simp [deliverSlots_zero]
  | cons c rest ih =>
    intro unitMap unitMap' h k
    cases hc : at? unitMap c with
    | none => simp [forwardCopyLoop, hc] at h
    | some cc =>
      simp only [forwardCopyLoop, hc] at h
      rw [ih _ _ h k]
      by_cases hk : k = c
      · subst hk
        rw [at?_setAt_self _ _ _ _ hc, hc]
        simp [deliverSlots_succ]
      · rw [at?_setAt_of_ne _ _ _ _ hk]
        have hck : ¬ c = k := fun h => hk h.symm
        simp [List.count_cons, hck]

theorem m_forwardCopy_some (um um' : UnitManager) (u : UnitId)
    (h : m_forwardCopy um u = some um') :
    ∃ md subject, at? um.m_unitMetaDataMap u = some md ∧ at? um.m_unitMap u = some subject ∧
      um'.m_unitMetaDataMap = um.m_unitMetaDataMap ∧
      ∀ k, at? um'.m_unitMap k =
        (at? um.m_unitMap k).map (fun cu =>
          { cu with
            ForwardInputMap :=
              deliverSlots u subject.ForwardOutput (md.OutputUnitVector.count k)
                cu.ForwardInputMap }) := by
  unfold m_forwardCopy at h
  cases hmd : at? um.m_unitMetaDataMap u with
  | none => simp [hmd] at h
  | some md =>
    cases hsub : at? um.m_unitMap u with
    | none => simp [hmd, hsub] at h
    | some subject =>
      cases hloop : forwardCopyLoop u subject.ForwardOutput md.OutputUnitVector um.m_unitMap with
      | none => simp [hmd, hsub, hloop] at h
      | some unitMap =>
        simp only [hmd, hsub, hloop, Option.some.injEq] at h
        subst h
        exact ⟨md, subject, rfl, rfl, rfl, forwardCopyLoop_some _ _ _ _ _ hloop⟩

theorem isForwardCopyReadyLoop_true (unitMap : List (UnitId × ComputableUnit))
    (u : UnitId) (o : Nat) (vec : List UnitId)
    (h : isForwardCopyReadyLoop unitMap u o vec = some true) :
    ∀ c ∈ vec, ∃ cc, at? unitMap c = some cc ∧
      ∀ e ∈ cc.ForwardInputMap, e.1 = u → o = e.2.State + 1 := by
  induction vec with
  | nil => intro c hc; simp at hc
  | cons c rest ih =>
    cases hc : at? unitMap c with
    | none => simp [isForwardCopyReadyLoop, hc] at h
    | some cc =>
      by_cases hs : forwardSlotsReady u o cc.ForwardInputMap = true
      · simp only [isForwardCopyReadyLoop, hc, hs, if_true] at h
        intro c' hc'
        rcases List.mem_cons.mp hc' with rfl | hmem
        · exact ⟨cc, hc, (forwardSlotsReady_iff u o _).mp hs⟩
        · exact ih h c' hmem
      · simp [isForwardCopyReadyLoop, hc, hs] at h

theorem m_isForwardCopyReady_true (um : UnitManager) (u : UnitId)
    (h : m_isForwardCopyReady um u = some true) :
    ∃ md subject, at? um.m_unitMetaDataMap u = some md ∧ at? um.m_unitMap u = some subject ∧
      md.Id.Type_.BaseType ≠ UnitBaseType.Sink ∧
      ∀ c ∈ md.OutputUnitVector, ∃ cc, at? um.m_unitMap c = some cc ∧
        ∀ e ∈ cc.ForwardInputMap, e.1 = u → subject.ForwardOutput.State = e.2.State + 1 := by
  unfold m_isForwardCopyReady at h
  cases hmd : at? um.m_unitMetaDataMap u with
  | none => simp [hmd] at h
  | some md =>
    by_cases hs : md.Id.Type_.BaseType = UnitBaseType.Sink
    · simp [hmd, hs] at h
    · cases hsub : at? um.m_unitMap u with
      | none => simp [hmd, hs, hsub] at h
      | some subject =>
        simp only [hmd, hs, hsub, if_false] at h
        exact ⟨md, subject, rfl, rfl, hs, isForwardCopyReadyLoop_true _ _ _ _ h⟩

theorem isForwardCopyReadyLoop_false (unitMap : List (UnitId × ComputableUnit))
    (u : UnitId) (o : Nat) (vec : List UnitId)
    (h : isForwardCopyReadyLoop unitMap u o vec = some false) :
    ∃ c ∈ vec, ∃ cc, at? unitMap c = some cc ∧
      ∃ e ∈ cc.ForwardInputMap, e.1 = u ∧ o ≠ e.2.State + 1 := by
  induction vec with
  | nil => simp [isForwardCopyReadyLoop] at h
  | cons c rest ih =>
    cases hc : at? unitMap c with
    | none => simp [isForwardCopyReadyLoop, hc] at h
    | some cc =>
      by_cases hs : forwardSlotsReady u o cc.ForwardInputMap = true
      · simp only [isForwardCopyReadyLoop, hc, hs, if_true] at h
        obtain ⟨c', hc', rest'⟩ := ih h
        exact ⟨c', List.mem_cons_of_mem _ hc', rest'⟩
      · refine ⟨c, List.mem_cons_self _ _, cc, hc, ?_⟩
        by_contra hno
        apply hs
        rw [forwardSlotsReady_iff]
        intro e he hk
        by_contra hne
        exact hno ⟨e, he, hk, hne⟩

theorem m_isForwardCopyReady_false (um : UnitManager) (u : UnitId)
    (h : m_isForwardCopyReady um u = some false) :
    ∃ md, at? um.m_unitMetaDataMap u = some md ∧
      (md.Id.Type_.BaseType = UnitBaseType.Sink ∨
        ∃ subject, at? um.m_unitMap u = some subject ∧
          ∃ c ∈ md.OutputUnitVector, ∃ cc, at? um.m_unitMap c = some cc ∧
            ∃ e ∈ cc.ForwardInputMap, e.1 = u ∧ subject.ForwardOutput.State ≠ e.2.State + 1) := by
  unfold m_isForwardCopyReady at h
  cases hmd : at? um.m_unitMetaDataMap u with
  | none => simp [hmd] at h
  | some md =>
    by_cases hs : md.Id.Type_.BaseType = UnitBaseType.Sink
    · exact ⟨md, rfl, Or.inl hs⟩
    · cases hsub : at? um.m_unitMap u with
      | none => simp [hmd, hs, hsub] at h
      | some subject =>
        simp only [hmd, hs, hsub, if_false] at h
        exact ⟨md, rfl, Or.inr ⟨subject, rfl, isForwardCopyReadyLoop_false _ _ _ _ h⟩⟩

/-! ## Slots stored under a key -/

theorem mem_slotsKeyed (p : UnitId) (m : List (UnitId × Tensor)) (t : Tensor) :
    t ∈ slotsKeyed p m ↔ (p, t) ∈ m := by
  unfold slotsKeyed
  simp only [List.mem_map, List.mem_filter, decide_eq_true_eq]
  constructor
  · rintro ⟨⟨k, t'⟩, ⟨hmem, hk⟩, rfl⟩
    simp only at hk
    subst hk
    exact hmem
  · intro h
    exact ⟨(p, t), ⟨h, rfl⟩, rfl⟩

theorem slotsKeyed_eq_nil_iff (p : UnitId) (m : List (UnitId × Tensor)) :
    slotsKeyed p m = [] ↔ p ∉ keys m := by
  induction m with
  | nil => simp [slotsKeyed, keys]
  | cons e rest ih =>
    obtain ⟨k, t⟩ := e
    by_cases hk : k = p
    · simp [slotsKeyed, keys, hk]
    · have hk' : ¬ p = k := fun h => hk h.symm
      simp only [slotsKeyed, keys] at ih
      simp [slotsKeyed, keys, hk, hk', ih]

theorem slotsKeyed_cons (p k : UnitId) (t : Tensor) (rest : List (UnitId × Tensor)) :
    slotsKeyed p ((k, t) :: rest) =
      if k = p then t :: slotsKeyed p rest else slotsKeyed p rest := by
  by_cases hk : k = p <;> simp [slotsKeyed, hk]

theorem deliverSlots_cons (u k : UnitId) (src t : Tensor) (n : Nat)
    (rest : List (UnitId × Tensor)) :
    deliverSlots u src n ((k, t) :: rest) =
      (if k = u ∧ 0 < n then (k, { Data := src.Data, State := t.State + n }) else (k, t)) ::
        deliverSlots u src n rest := by
  simp [deliverSlots]

theorem slotsKeyed_deliverSlots (u p : UnitId) (src : Tensor) (n : Nat)
    (m : List (UnitId × Tensor)) :
    slotsKeyed p (deliverSlots u src n m) =
      if p = u ∧ 0 < n then
        (slotsKeyed p m).map (fun t => { Data := src.Data, State := t.State + n })
      else slotsKeyed p m := by
  induction m with
  | nil => simp [slotsKeyed, deliverSlots]
  | cons e rest ih =>
    obtain ⟨k, t⟩ := e
    rw [deliverSlots_cons]
    by_cases hpu : p = u ∧ 0 < n
    · rw [if_pos hpu] at ih ⊢
      obtain ⟨rfl, hn⟩ := hpu
      by_cases hk : k = p
      · rw [if_pos ⟨hk, hn⟩, slotsKeyed_cons, if_pos hk, slotsKeyed_cons, if_pos hk, ih]
        rfl
      · rw [if_neg (fun h => hk h.1), slotsKeyed_cons, if_neg hk, slotsKeyed_cons, if_neg hk, ih]
    · rw [if_neg hpu] at ih ⊢
      by_cases hk : k = u ∧ 0 < n
      · have hkp : ¬ k = p := by
          intro h; apply hpu; rw [← h]; exact hk
        rw [if_pos hk, slotsKeyed_cons, if_neg hkp, slotsKeyed_cons, if_neg hkp, ih]
      · rw [if_neg hk]
        by_cases hkp : k = p
        · rw [slotsKeyed_cons, if_pos hkp, slotsKeyed_cons, if_pos hkp, ih]
        · rw [slotsKeyed_cons, if_neg hkp, slotsKeyed_cons, if_neg hkp, ih]

end Takion

namespace Takion

/-! ## The forward sweep keeps every edge in step -/

theorem forwardSources_of_sameShape {a b : UnitManager} (h : SameShape a b) (u : UnitId) :
    forwardSources b u = forwardSources a u := by
  have := h.units_shape_eq u
  unfold forwardSources
  cases ha : at? a.m_unitMap u <;> cases hb : at? b.m_unitMap u <;>
    simp [ha, hb, unitShape] at this ⊢
  exact this.1

theorem outputVector_of_sameShape {a b : UnitManager} (h : SameShape a b) (u : UnitId) :
    outputVector b u = outputVector a u := by
  unfold outputVector
  rw [h.1]

theorem ForwardWired_of_sameShape {a b : UnitManager} (hw : ForwardWired a)
    (h : SameShape a b) : ForwardWired b where
  ids := by rw [h.1]; exact hw.ids
  nodup := fun p => by rw [outputVector_of_sameShape h]; exact hw.nodup p
  source := fun p c hc hs => by
    rw [outputVector_of_sameShape h] at hc
    rw [forwardSources_of_sameShape h]
    exact hw.source p c hc hs
  sink := fun p c hs hc => by
    rw [outputVector_of_sameShape h] at hc
    rw [forwardSources_of_sameShape h]
    exact hw.sink p c hs hc

theorem edgeSlots_eq_nil_of_not_mem (um : UnitManager) (p c : UnitId)
    (h : p ∉ forwardSources um c) : edgeSlots um p c = [] := by
  unfold edgeSlots
  unfold forwardSources at h
  cases hc : at? um.m_unitMap c with
  | none => rfl
  | some cu =>
    simp only [hc] at h
    exact (slotsKeyed_eq_nil_iff p _).mpr h

theorem ForwardSynced_edgeInv {um : UnitManager} (h : ForwardSynced um) : ForwardEdgeInv um := by
  intro p c hc out hout t ht
  have := h p c hc out hout t ht
  omega

/-- The state after `Forward(); UpdateForwardState()` of the unit stored under
`key`: only the output of `key` has changed, its version is one higher. -/
theorem compute_forward_facts (ops : UnitOps) (um : UnitManager) (key : UnitId)
    (unit : ComputableUnit) (hunit : at? um.m_unitMap key = some unit) :
    (∀ p, outputVector
        { um with
          m_unitMap := setAt um.m_unitMap key (UpdateForwardState (unitForward ops key unit)) } p
      = outputVector um p) ∧
    (∀ p c, edgeSlots
        { um with
          m_unitMap := setAt um.m_unitMap key (UpdateForwardState (unitForward ops key unit)) }
        p c
      = edgeSlots um p c) ∧
    (∀ p, p ≠ key → forwardOutput
        { um with
          m_unitMap := setAt um.m_unitMap key (UpdateForwardState (unitForward ops key unit)) } p
      = forwardOutput um p) ∧
    forwardOutput
        { um with
          m_unitMap := setAt um.m_unitMap key (UpdateForwardState (unitForward ops key unit)) }
        key
      = some { Data := ops.ForwardData key unit, State := unit.ForwardOutput.State + 1 } ∧
    forwardOutput um key = some unit.ForwardOutput := by
  refine ⟨fun p => rfl, fun p c => ?_, fun p hp => ?_, ?_, ?_⟩
  · unfold edgeSlots
    by_cases hc : c = key
    · subst hc
      simp only [at?_setAt_self _ _ _ _ hunit, hunit]
      rfl
    · simp only [at?_setAt_of_ne _ _ _ _ hc]
  · unfold forwardOutput
    simp only [at?_setAt_of_ne _ _ _ _ hp]
  · unfold forwardOutput
    simp only [at?_setAt_self _ _ _ _ hunit]
    rfl
  · unfold forwardOutput
    rw [hunit]; rfl

/-- The state after `m_forwardCopy(key)`: outputs are untouched, and the slots
keyed by `key` in a unit listed `n > 0` times have received the data and `n`
version steps. -/
theorem copy_forward_facts (um um' : UnitManager) (key : UnitId)
    (h : m_forwardCopy um key = some um') :
    ∃ subject, at? um.m_unitMap key = some subject ∧
      (∀ p, outputVector um' p = outputVector um p) ∧
      (∀ p, forwardOutput um' p = forwardOutput um p) ∧
      (∀ p c, edgeSlots um' p c =
        if p = key ∧ 0 < (outputVector um key).count c then
          (edgeSlots um p c).map (fun t =>
            { Data := subject.ForwardOutput.Data,
              State := t.State + (outputVector um key).count c })
        else edgeSlots um p c) := by
  obtain ⟨md, subject, hmd, hsub, hmeta, hat⟩ := m_forwardCopy_some um um' key h
  have hvec : outputVector um key = md.OutputUnitVector := by simp [outputVector, hmd]
  refine ⟨subject, hsub, fun p => ?_, fun p => ?_, fun p c => ?_⟩
  · unfold outputVector; rw [hmeta]
  · unfold forwardOutput
    rw [hat p]
    cases at? um.m_unitMap p <;> rfl
  · unfold edgeSlots
    rw [hat c, hvec]
    cases hc : at? um.m_unitMap c with
    | none => simp
    | some cu =>
      simp only [Option.map_some']
      exact slotsKeyed_deliverSlots key p subject.ForwardOutput _ cu.ForwardInputMap

end Takion

namespace Takion

theorem ForwardSyncedBut_edgeInv {um : UnitManager} {key : UnitId} {δ : Nat}
    (h : ForwardSyncedBut um key δ) (hδ : δ ≤ 1) : ForwardEdgeInv um := by
  intro p c hc out hout t ht
  have := h p c hc out hout t ht
  split_ifs at this <;> omega

theorem ForwardSyncedBut.synced {um : UnitManager} {key : UnitId}
    (h : ForwardSyncedBut um key 0) : ForwardSynced um := by
  intro p c hc out hout t ht
  have := h p c hc out hout t ht
  split_ifs at this <;> omega

theorem ForwardSynced_but {um : UnitManager} (h : ForwardSynced um) (key : UnitId) :
    ForwardSyncedBut um key 0 := by
  intro p c hc out hout t ht
  have := h p c hc out hout t ht
  split_ifs <;> omega

/-- The first `if` of the loop body of `Forward`: afterwards the edges out of
`key` are at most one version behind, all others in step. -/
theorem forwardComputePhase_facts (ops : UnitOps) (cycle : Nat) (um₀ : UnitManager)
    (key : UnitId) (unit : ComputableUnit) (s : Run × Bool)
    (hunit : at? s.1.um.m_unitMap key = some unit)
    (hs : SameShape um₀ s.1.um ∧ ForwardSynced s.1.um ∧ ∀ st ∈ s.1.log, ForwardStepGood st) :
    SameShape um₀ (forwardComputePhase ops cycle key unit s).1.um ∧
    (∃ δ, δ ≤ 1 ∧ ForwardSyncedBut (forwardComputePhase ops cycle key unit s).1.um key δ) ∧
    ∀ st ∈ (forwardComputePhase ops cycle key unit s).1.log, ForwardStepGood st := by
  obtain ⟨hshape, hsync, hlog⟩ := hs
  unfold forwardComputePhase
  by_cases hr : ops.IsForwardReady key unit cycle = true
  · rw [if_pos hr]
    obtain ⟨hvec, hslots, hout, houtk, houtk0⟩ := compute_forward_facts ops s.1.um key unit hunit
    have hbut : ForwardSyncedBut
        { s.1.um with
          m_unitMap :=
            setAt s.1.um.m_unitMap key (UpdateForwardState (unitForward ops key unit)) }
        key 1 := by
      intro p c hc out ho t ht
      rw [hvec] at hc
      rw [hslots] at ht
      by_cases hp : p = key
      · subst hp
        rw [houtk] at ho
        cases ho
        have := hsync p c hc _ houtk0 t ht
        simp only [if_true]
        omega
      · rw [hout p hp] at ho
        have := hsync p c hc out ho t ht
        simp only [hp, if_false]
        omega
    refine ⟨hshape.same_trans ⟨rfl, ?_⟩, ⟨1, Nat.le_refl 1, hbut⟩, ?_⟩
    · exact shape_setAt _ _ unit _ hunit (unitShape_update_forward ops key unit)
    · intro st hst
      simp only [Run.step, List.mem_append, List.mem_singleton] at hst
      rcases hst with hst | rfl
      · exact hlog st hst
      · refine ⟨(ForwardSynced_edgeInv hsync), (ForwardSyncedBut_edgeInv hbut (Nat.le_refl 1)), ?_⟩
        intro p c _
        left
        exact hslots p c
  · rw [if_neg hr]
    exact ⟨hshape, ⟨0, Nat.zero_le 1, (ForwardSynced_but hsync key)⟩, hlog⟩

/-- The second `if` of the loop body of `Forward`: when it is done without
raising, every edge is in step again. -/
theorem forwardCopyPhase_facts (um₀ : UnitManager) (hw : ForwardWired um₀) (key : UnitId)
    (s : Run × Bool) (δ : Nat) (hδ : δ ≤ 1)
    (hshape : SameShape um₀ s.1.um) (hbut : ForwardSyncedBut s.1.um key δ)
    (hlog : ∀ st ∈ s.1.log, ForwardStepGood st) :
    match forwardCopyPhase key s with
    | .error r => ∀ st ∈ r.log, ForwardStepGood st
    | .ok s' =>
      SameShape um₀ s'.1.um ∧ ForwardSynced s'.1.um ∧ ∀ st ∈ s'.1.log, ForwardStepGood st := by
  have hw' := ForwardWired_of_sameShape hw hshape
  unfold forwardCopyPhase
  cases hready : m_isForwardCopyReady s.1.um key with
  | none => simpa using hlog
  | some b =>
    cases b with
    | false =>
      simp only
      refine ⟨hshape, ?_, hlog⟩
      obtain ⟨md, hmd, hcase⟩ := m_isForwardCopyReady_false _ _ hready
      have hid := hw'.ids key md hmd
      have hvec : outputVector s.1.um key = md.OutputUnitVector := by simp [outputVector, hmd]
      intro p c hc out hout t ht
      have hb := hbut p c hc out hout t ht
      by_cases hp : p = key
      · subst hp
        rcases hcase with hsink | ⟨subject, hsub, c', hc', cc, hcc, e, he, hek, hne⟩
        · rw [hid] at hsink
          have := edgeSlots_eq_nil_of_not_mem _ _ _ (hw'.sink p c hsink hc)
          rw [this] at ht
          simp at ht
        · -- a slot that is not exactly one behind: so none is behind at all
          have hmem : e.2 ∈ edgeSlots s.1.um p c' := by
            unfold edgeSlots
            rw [hcc]
            rw [mem_slotsKeyed]
            rw [← hek]
            exact he
          have hout' : forwardOutput s.1.um p = some subject.ForwardOutput := by
            simp [forwardOutput, hsub]
          have hb' := hbut p c' (by rw [hvec]; exact hc') _ hout' e.2 hmem
          simp only [if_true] at hb hb'
          have hδ0 : δ = 0 := by
            rcases Nat.le_one_iff_eq_zero_or_eq_one.mp hδ with h0 | h1
            · exact h0
            · exfalso; apply hne; omega
          omega
      · simp only [hp, if_false] at hb
        omega
    | true =>
      obtain ⟨md, subject, hmd, hsub, _, hall⟩ := m_isForwardCopyReady_true _ _ hready
      have hvec : outputVector s.1.um key = md.OutputUnitVector := by simp [outputVector, hmd]
      have hout1 : forwardOutput s.1.um key = some subject.ForwardOutput := by
        simp [forwardOutput, hsub]
      cases hcopy : m_forwardCopy s.1.um key with
      | none => simpa using hlog
      | some um' =>
        simp only
        obtain ⟨subject', hsub', hvec', hout', hslots'⟩ := copy_forward_facts _ _ _ hcopy
        rw [hsub] at hsub'
        cases hsub'
        -- the slots out of `key`, in a unit listed in its output vector
        have hone : ∀ c, c ∈ outputVector s.1.um key → (outputVector s.1.um key).count c = 1 :=
          fun c hc => List.count_eq_one_of_mem (hw'.nodup key) hc
        have hbehind : ∀ c, c ∈ outputVector s.1.um key → ∀ t ∈ edgeSlots s.1.um key c,
            subject.ForwardOutput.State = t.State + 1 := by
          intro c hc t ht
          rw [hvec] at hc
          obtain ⟨cc, hcc, hcheck⟩ := hall c hc
          unfold edgeSlots at ht
          rw [hcc, mem_slotsKeyed] at ht
          exact hcheck (key, t) ht rfl
        have hsynced : ForwardSynced um' := by
          intro p c hc out hout t ht
          rw [hvec'] at hc
          rw [hout'] at hout
          rw [hslots'] at ht
          by_cases hp : p = key
          · subst hp
            rw [hone c hc] at ht
            simp only [Nat.lt_one_iff, Nat.pos_of_ne_zero, and_self, if_true, List.mem_map] at ht
            obtain ⟨t₀, ht₀, rfl⟩ := ht
            rw [hout1] at hout
            cases hout
            simp only
            exact (hbehind c hc t₀ ht₀).symm
          · simp only [hp, false_and, if_false] at ht
            have := hbut p c hc out hout t ht
            simp only [hp, if_false] at this
            omega
        refine ⟨hshape.same_trans (SameShape_m_forwardCopy _ _ _ hcopy), hsynced, ?_⟩
        intro st hst
        simp only [Run.step, List.mem_append, List.mem_singleton] at hst
        rcases hst with hst | rfl
        · exact hlog st hst
        · refine ⟨(ForwardSyncedBut_edgeInv hbut hδ), (ForwardSynced_edgeInv hsynced), ?_⟩
          intro p c hc
          simp only at hc ⊢
          by_cases hp : p = key
          · subst hp
            right
            refine ⟨rfl, subject.ForwardOutput, by rw [hout']; exact hout1, ?_, ?_⟩
            · rw [hslots', hone c hc]
              simp
            · intro t ht
              exact hsynced p c (by rw [hvec']; exact hc) _ (by rw [hout']; exact hout1) t ht
          · left
            rw [hslots']
            simp [hp]

/-- A visit of `Forward` that does not raise leaves every edge in step, and
every step it takes is good. -/
theorem forwardVisit_keeps_sync (ops : UnitOps) (cycle : Nat) (um₀ : UnitManager)
    (hw : ForwardWired um₀) (key : UnitId) (s : Run × Bool)
    (hs : SameShape um₀ s.1.um ∧ ForwardSynced s.1.um ∧ ∀ st ∈ s.1.log, ForwardStepGood st) :
    match forwardVisit ops cycle key s with
    | .error r => ∀ st ∈ r.log, ForwardStepGood st
    | .ok s' =>
      SameShape um₀ s'.1.um ∧ ForwardSynced s'.1.um ∧ ∀ st ∈ s'.1.log, ForwardStepGood st := by
  unfold forwardVisit
  cases hunit : at? s.1.um.m_unitMap key with
  | none => simpa using hs.2.2
  | some unit =>
    simp only
    obtain ⟨h1, ⟨δ, hδ, h2⟩, h3⟩ := forwardComputePhase_facts ops cycle um₀ key unit s hunit hs
    exact forwardCopyPhase_facts um₀ hw key _ δ hδ h1 h2 h3

end Takion

namespace Takion

theorem at?_seedForward (m : List (UnitId × ComputableUnit)) (c : UnitId) :
    at? (seedForward m) c =
      (at? m c).map (fun cu =>
        if c.Type_.BaseType = UnitBaseType.Source then
          { cu with ForwardInputMap := bumpAll cu.ForwardInputMap }
        else cu) := by
  induction m with
  | nil => rfl
  | cons e rest ih =>
    obtain ⟨k, v⟩ := e
    by_cases hs : k.Type_.BaseType = UnitBaseType.Source
    · by_cases hk : k = c
      · subst hk; simp [seedForward, hs, at?]
      · simp [seedForward, hs, at?, hk, ih]
    · by_cases hk : k = c
      · subst hk; simp [seedForward, hs, at?]
      · simp [seedForward, hs, at?, hk, ih]

/-- Seeding leaves every forward edge as it is: a Source unit is the consumer of
none. -/
theorem seedForward_facts (um : UnitManager) (hw : ForwardWired um) :
    (∀ p, forwardOutput { um with m_unitMap := seedForward um.m_unitMap } p = forwardOutput um p) ∧
    (∀ p c, c ∈ outputVector um p →
      edgeSlots { um with m_unitMap := seedForward um.m_unitMap } p c = edgeSlots um p c) := by
  constructor
  · intro p
    unfold forwardOutput
    simp only [at?_seedForward]
    cases at? um.m_unitMap p with
    | none => rfl
    | some cu => by_cases hs : p.Type_.BaseType = UnitBaseType.Source <;> simp [hs]
  · intro p c hc
    by_cases hs : c.Type_.BaseType = UnitBaseType.Source
    · have hno := hw.source p c hc hs
      rw [edgeSlots_eq_nil_of_not_mem _ _ _ hno]
      apply edgeSlots_eq_nil_of_not_mem
      have hshape : SameShape um { um with m_unitMap := seedForward um.m_unitMap } :=
        ⟨rfl, shape_seedForward _⟩
      rw [forwardSources_of_sameShape hshape]
      exact hno
    · unfold edgeSlots
      simp only [at?_seedForward]
      cases at? um.m_unitMap c with
      | none => rfl
      | some cu => simp [hs]

/-- The forward half of C2: from a wired graph whose edges are in step, every
step of every run of `Forward`, finished or not, keeps every edge within one
version and changes a consumer slot only by a copy of exactly one version. -/
theorem Forward_steps_good (ops : UnitOps) (cycle fuel : Nat) (um : UnitManager)
    (hw : ForwardWired um) (hsync : ForwardSynced um) :
    ∀ st ∈ (Forward ops cycle fuel um).run.log, ForwardStepGood st := by
  obtain ⟨hout, hslots⟩ := seedForward_facts um hw
  have hshape : SameShape um { um with m_unitMap := seedForward um.m_unitMap } :=
    ⟨rfl, shape_seedForward _⟩
  have hsynced : ForwardSynced { um with m_unitMap := seedForward um.m_unitMap } := by
    intro p c hc out ho t ht
    have hc' : c ∈ outputVector um p := hc
    rw [hout] at ho
    rw [hslots p c hc'] at ht
    exact hsync p c hc' out ho t ht
  have hstart : SameShape um (forwardStart um).um ∧ ForwardSynced (forwardStart um).um ∧
      ∀ st ∈ (forwardStart um).log, ForwardStepGood st := by
    refine ⟨hshape, hsynced, ?_⟩
    intro st hst
    simp only [forwardStart, Run.step, List.nil_append, List.mem_singleton] at hst
    subst hst
    exact ⟨(ForwardSynced_edgeInv hsync), (ForwardSynced_edgeInv hsynced), fun p c hc => Or.inl (hslots p c hc)⟩
  have := sweepLoop_invariant (forwardVisit ops cycle)
    (fun r => SameShape um r.um ∧ ForwardSynced r.um ∧ ∀ st ∈ r.log, ForwardStepGood st)
    (fun r => ∀ st ∈ r.log, ForwardStepGood st)
    (fun key s hs => forwardVisit_keeps_sync ops cycle um hw key s hs) fuel (forwardStart um)
    hstart
  unfold Forward
  cases h : sweepLoop (forwardVisit ops cycle) fuel (forwardStart um) with
  | returned r => simp only [h] at this; exact this.2.2
  | running r => simp only [h] at this; exact this.2.2
  | threw r => simp only [h] at this; exact this

end Takion

namespace Takion

/-! ## What the backward copy does, read off its result -/

theorem at?_eq_none_of_not_mem_keys {α : Type} (m : List (UnitId × α)) (k : UnitId)
    (h : k ∉ keys m) : at? m k = none := by
  cases hk : at? m k with
  | none => rfl
  | some v =>
    exfalso
    apply h
    rw [← at?_isSome_iff_mem_keys, hk]
    rfl

theorem mem_of_at?_eq_some {α : Type} (m : List (UnitId × α)) (k : UnitId) (v : α)
    (h : at? m k = some v) : (k, v) ∈ m := by
  induction m with
  | nil => simp [at?] at h
  | cons e rest ih =>
    obtain ⟨k', v'⟩ := e
    by_cases hk : k' = k
    · simp only [at?, hk, if_true, Option.some.injEq] at h
      subst h; subst hk
      exact List.mem_cons_self _ _
    · simp only [at?, hk, if_false] at h
      exact List.mem_cons_of_mem _ (ih h)

theorem at?_eq_some_of_mem_nodup {α : Type} (m : List (UnitId × α)) (k : UnitId) (v : α)
    (hn : (keys m).Nodup) (h : (k, v) ∈ m) : at? m k = some v := by
  induction m with
  | nil => simp at h
  | cons e rest ih =>
    obtain ⟨k', v'⟩ := e
    simp only [keys, List.map_cons, List.nodup_cons] at hn
    rcases List.mem_cons.mp h with heq | hmem
    · cases heq
      simp [at?]
    · have hk : ¬ k' = k := by
        intro hk
        subst hk
        apply hn.1
        exact List.mem_map_of_mem Prod.fst hmem
      simp only [at?, hk, if_false]
      exact ih hn.2 hmem

theorem backwardCopyLoop_some (u : UnitId) (bom : List (UnitId × Tensor)) :
    ∀ unitMap unitMap' : List (UnitId × ComputableUnit),
      backwardCopyLoop u bom unitMap = some unitMap' → (keys bom).Nodup →
      ∀ k, at? unitMap' k =
        (at? unitMap k).map (fun cu =>
          match at? bom k with
          | some out =>
            { cu with BackwardInputMap := copyIntoSlots u out cu.BackwardInputMap }
          | none => cu) := by
  induction bom with
  | nil =>
    intro unitMap unitMap' h _ k
    simp only [backwardCopyLoop, Option.some.injEq] at h
    subst h
    cases hk : at? unitMap k <;> simp [at?]
  | cons e rest ih =>
    obtain ⟨t, out⟩ := e
    intro unitMap unitMap' h hn k
    simp only [keys, List.map_cons, List.nodup_cons] at hn
    cases ht : at? unitMap t with
    | none => simp [backwardCopyLoop, ht] at h
    | some tu =>
      simp only [backwardCopyLoop, ht] at h
      rw [ih _ _ h hn.2 k]
      by_cases hk : k = t
      · subst hk
        rw [at?_setAt_self _ _ _ _ ht, ht, at?_eq_none_of_not_mem_keys rest k hn.1]
        simp [at?]
      · rw [at?_setAt_of_ne _ _ _ _ hk]
        have htk : ¬ t = k := fun h => hk h.symm
        simp [at?, htk]

theorem m_backwardCopy_some (um um' : UnitManager) (u : UnitId)
    (h : m_backwardCopy um u = some um') (hn : (backwardTargets um u).Nodup) :
    ∃ subject, at? um.m_unitMap u = some subject ∧
      um'.m_unitMetaDataMap = um.m_unitMetaDataMap ∧
      ∀ k, at? um'.m_unitMap k =
        (at? um.m_unitMap k).map (fun cu =>
          match at? subject.BackwardOutputMap k with
          | some out =>
            { cu with BackwardInputMap := copyIntoSlots u out cu.BackwardInputMap }
          | none => cu) := by
  unfold m_backwardCopy at h
  cases hsub : at? um.m_unitMap u with
  | none => simp [hsub] at h
  | some subject =>
    cases hloop : backwardCopyLoop u subject.BackwardOutputMap um.m_unitMap with
    | none => simp [hsub, hloop] at h
    | some unitMap =>
      simp only [hsub, hloop, Option.some.injEq] at h
      subst h
      have hn' : (keys subject.BackwardOutputMap).Nodup := by
        simpa [backwardTargets, hsub] using hn
      exact ⟨subject, rfl, rfl, backwardCopyLoop_some _ _ _ _ hloop hn'⟩

/-- The inner loop of `m_isBackwardCopyReady`, run to its end: every entry keyed
by the subject is exactly one version behind, and the flag is still unset only
if it was unset and there is no such entry. -/
theorem backwardSlotsReady_some (u : UnitId) (o : Nat) (m : List (UnitId × Tensor)) :
    ∀ flag b, backwardSlotsReady u o flag m = some b →
      (∀ d ∈ m, d.1 = u → o = d.2.State + 1) ∧ (b = false → flag = false ∧ u ∉ keys m) := by
  induction m with
  | nil =>
    intro flag b h
    simp only [backwardSlotsReady, Option.some.injEq] at h
    subst h
    simp [keys]
  | cons e rest ih =>
    obtain ⟨k, t⟩ := e
    intro flag b h
    by_cases hk : k = u
    · by_cases ho : o = t.State + 1
      · simp only [backwardSlotsReady, hk, if_true, ho, ne_eq, not_true_eq_false, if_false] at h
        rw [← ho] at h
        obtain ⟨h1, h2⟩ := ih true b h
        refine ⟨?_, ?_⟩
        · intro d hd hdu
          rcases List.mem_cons.mp hd with rfl | hmem
          · exact ho
          · exact h1 d hmem hdu
        · intro hb
          have := (h2 hb).1
          cases this
      · simp [backwardSlotsReady, hk, ho] at h
    · simp only [backwardSlotsReady, hk, if_false] at h
      obtain ⟨h1, h2⟩ := ih flag b h
      refine ⟨?_, ?_⟩
      · intro d hd hdu
        rcases List.mem_cons.mp hd with rfl | hmem
        · exact absurd hdu hk
        · exact h1 d hmem hdu
      · intro hb
        obtain ⟨hf, hnot⟩ := h2 hb
        refine ⟨hf, ?_⟩
        simp only [keys, List.map_cons, List.mem_cons, not_or]
        exact ⟨fun h => hk h.symm, hnot⟩

theorem backwardSlotsReady_none (u : UnitId) (o : Nat) (m : List (UnitId × Tensor)) :
    ∀ flag, backwardSlotsReady u o flag m = none →
      ∃ d ∈ m, d.1 = u ∧ o ≠ d.2.State + 1 := by
  induction m with
  | nil => intro flag h; simp [backwardSlotsReady] at h
  | cons e rest ih =>
    obtain ⟨k, t⟩ := e
    intro flag h
    by_cases hk : k = u
    · by_cases ho : o = t.State + 1
      · simp only [backwardSlotsReady, hk, if_true, ho, ne_eq, not_true_eq_false, if_false] at h
        rw [← ho] at h
        obtain ⟨d, hd, h1, h2⟩ := ih true h
        exact ⟨d, List.mem_cons_of_mem _ hd, h1, h2⟩
      · exact ⟨(k, t), List.mem_cons_self _ _, hk, ho⟩
    · simp only [backwardSlotsReady, hk, if_false] at h
      obtain ⟨d, hd, h1, h2⟩ := ih flag h
      exact ⟨d, List.mem_cons_of_mem _ hd, h1, h2⟩

theorem isBackwardCopyReadyLoop_some (unitMap : List (UnitId × ComputableUnit)) (u : UnitId)
    (bom : List (UnitId × Tensor)) :
    ∀ flag b, isBackwardCopyReadyLoop unitMap u flag bom = some b →
      (b = true → ∀ e ∈ bom, ∃ target, at? unitMap e.1 = some target ∧
        ∀ d ∈ target.BackwardInputMap, d.1 = u → e.2.State = d.2.State + 1) ∧
      (b = false →
        (∃ e ∈ bom, ∃ target, at? unitMap e.1 = some target ∧
          ∃ d ∈ target.BackwardInputMap, d.1 = u ∧ e.2.State ≠ d.2.State + 1) ∨
        (flag = false ∧ ∀ e ∈ bom, ∀ target, at? unitMap e.1 = some target →
          u ∉ keys target.BackwardInputMap)) := by
  induction bom with
  | nil =>
    intro flag b h
    simp only [isBackwardCopyReadyLoop, Option.some.injEq] at h
    subst h
    refine ⟨fun _ e he => by simp at he, fun hb => Or.inr ⟨hb, fun e he => by simp at he⟩⟩
  | cons e rest ih =>
    obtain ⟨t, out⟩ := e
    intro flag b h
    cases ht : at? unitMap t with
    | none => simp [isBackwardCopyReadyLoop, ht] at h
    | some target =>
      cases hin : backwardSlotsReady u out.State flag target.BackwardInputMap with
      | none =>
        simp only [isBackwardCopyReadyLoop, ht, hin, Option.some.injEq] at h
        subst h
        obtain ⟨d, hd, hdu, hne⟩ := backwardSlotsReady_none _ _ _ _ hin
        constructor
        · intro hb; cases hb
        · intro _
          left
          exact ⟨(t, out), List.mem_cons_self _ _, target, ht, d, hd, hdu, hne⟩
      | some flag' =>
        simp only [isBackwardCopyReadyLoop, ht, hin] at h
        obtain ⟨hall, hflag⟩ := backwardSlotsReady_some _ _ _ _ _ hin
        obtain ⟨ih1, ih2⟩ := ih flag' b h
        refine ⟨fun hb e he => ?_, fun hb => ?_⟩
        · rcases List.mem_cons.mp he with rfl | hmem
          · exact ⟨target, ht, hall⟩
          · exact ih1 hb e hmem
        · rcases ih2 hb with ⟨e, he, rest'⟩ | ⟨hf', hnone⟩
          · exact Or.inl ⟨e, List.mem_cons_of_mem _ he, rest'⟩
          · obtain ⟨hf, hnot⟩ := hflag hf'
            refine Or.inr ⟨hf, fun e he target' htarget' => ?_⟩
            rcases List.mem_cons.mp he with rfl | hmem
            · rw [ht] at htarget'
              cases htarget'
              exact hnot
            · exact hnone e hmem target' htarget'

theorem m_isBackwardCopyReady_true (um : UnitManager) (u : UnitId)
    (h : m_isBackwardCopyReady um u = some true) :
    ∃ subject, at? um.m_unitMap u = some subject ∧
      ∀ e ∈ subject.BackwardOutputMap, ∃ target, at? um.m_unitMap e.1 = some target ∧
        ∀ d ∈ target.BackwardInputMap, d.1 = u → e.2.State = d.2.State + 1 := by
  unfold m_isBackwardCopyReady at h
  cases hmd : at? um.m_unitMetaDataMap u with
  | none => simp [hmd] at h
  | some md =>
    by_cases hs : md.Id.Type_.BaseType = UnitBaseType.Source
    · simp [hmd, hs] at h
    · cases hsub : at? um.m_unitMap u with
      | none => simp [hmd, hs, hsub] at h
      | some subject =>
        simp only [hmd, hs, hsub, if_false] at h
        exact ⟨subject, rfl, (isBackwardCopyReadyLoop_some _ _ _ _ _ h).1 rfl⟩

theorem m_isBackwardCopyReady_false (um : UnitManager) (u : UnitId)
    (h : m_isBackwardCopyReady um u = some false) :
    ∃ md, at? um.m_unitMetaDataMap u = some md ∧
      (md.Id.Type_.BaseType = UnitBaseType.Source ∨
        ∃ subject, at? um.m_unitMap u = some subject ∧
          ((∃ e ∈ subject.BackwardOutputMap, ∃ target, at? um.m_unitMap e.1 = some target ∧
            ∃ d ∈ target.BackwardInputMap, d.1 = u ∧ e.2.State ≠ d.2.State + 1) ∨
          (∀ e ∈ subject.BackwardOutputMap, ∀ target, at? um.m_unitMap e.1 = some target →
            u ∉ keys target.BackwardInputMap))) := by
  unfold m_isBackwardCopyReady at h
  cases hmd : at? um.m_unitMetaDataMap u with
  | none => simp [hmd] at h
  | some md =>
    by_cases hs : md.Id.Type_.BaseType = UnitBaseType.Source
    · exact ⟨md, rfl, Or.inl hs⟩
    · cases hsub : at? um.m_unitMap u with
      | none => simp [hmd, hs, hsub] at h
      | some subject =>
        simp only [hmd, hs, hsub, if_false] at h
        refine ⟨md, rfl, Or.inr ⟨subject, rfl, ?_⟩⟩
        rcases (isBackwardCopyReadyLoop_some _ _ _ _ _ h).2 rfl with hm | ⟨_, hnone⟩
        · exact Or.inl hm
        · exact Or.inr hnone

end Takion

namespace Takion

/-! ## The backward sweep keeps every edge in step -/

theorem BackwardWired_of_sameShape {a b : UnitManager} (hw : BackwardWired a)
    (h : SameShape a b) : BackwardWired b where
  ids := by rw [h.1]; exact hw.ids
  nodup := fun u => by rw [backwardTargets_of_sameShape h]; exact hw.nodup u
  sink := fun u t ht hs => by
    rw [backwardTargets_of_sameShape h] at ht
    rw [backwardSources_of_sameShape h]
    exact hw.sink u t ht hs
  source := fun u t hs ht => by
    rw [backwardTargets_of_sameShape h] at ht
    rw [backwardSources_of_sameShape h]
    exact hw.source u t hs ht

theorem backEdgeSlots_eq_nil_of_not_mem (um : UnitManager) (u t : UnitId)
    (h : u ∉ backwardSources um t) : backEdgeSlots um u t = [] := by
  unfold backEdgeSlots
  unfold backwardSources at h
  cases ht : at? um.m_unitMap t with
  | none => rfl
  | some target =>
    simp only [ht] at h
    exact (slotsKeyed_eq_nil_iff u _).mpr h

theorem mem_backwardTargets_of_mem {um : UnitManager} {u t : UnitId} {out : Tensor}
    (h : (t, out) ∈ backwardOutputs um u) : t ∈ backwardTargets um u := by
  unfold backwardOutputs at h
  unfold backwardTargets
  cases hu : at? um.m_unitMap u with
  | none => simp [hu] at h
  | some subject =>
    simp only [hu] at h ⊢
    exact List.mem_map_of_mem Prod.fst h

theorem BackwardSynced_edgeInv {um : UnitManager} (h : BackwardSynced um) :
    BackwardEdgeInv um := by
  intro u t out hout d hd
  have := h u t out hout d hd
  omega

theorem BackwardSyncedBut_edgeInv {um : UnitManager} {key : UnitId} {δ : Nat}
    (h : BackwardSyncedBut um key δ) (hδ : δ ≤ 1) : BackwardEdgeInv um := by
  intro u t out hout d hd
  have := h u t out hout d hd
  split_ifs at this <;> omega

theorem BackwardSynced_but {um : UnitManager} (h : BackwardSynced um) (key : UnitId) :
    BackwardSyncedBut um key 0 := by
  intro u t out hout d hd
  have := h u t out hout d hd
  split_ifs <;> omega

/-- The state after `Backward(); UpdateBackwardState()` of the unit stored under
`key`: only the backward outputs of `key` have changed, each version is one
higher. -/
theorem compute_backward_facts (ops : UnitOps) (um : UnitManager) (key : UnitId)
    (unit : ComputableUnit) (hunit : at? um.m_unitMap key = some unit) :
    (∀ u t, backEdgeSlots
        { um with
          m_unitMap := setAt um.m_unitMap key (UpdateBackwardState (unitBackward ops key unit)) }
        u t
      = backEdgeSlots um u t) ∧
    (∀ u, u ≠ key → backwardOutputs
        { um with
          m_unitMap := setAt um.m_unitMap key (UpdateBackwardState (unitBackward ops key unit)) }
        u
      = backwardOutputs um u) ∧
    (∀ t out, (t, out) ∈ backwardOutputs
        { um with
          m_unitMap := setAt um.m_unitMap key (UpdateBackwardState (unitBackward ops key unit)) }
        key →
      ∃ out₀, (t, out₀) ∈ backwardOutputs um key ∧ out.State = out₀.State + 1) := by
  refine ⟨fun u t => ?_, fun u hu => ?_, fun t out hout => ?_⟩
  · unfold backEdgeSlots
    by_cases ht : t = key
    · subst ht
      simp only [at?_setAt_self _ _ _ _ hunit, hunit]
      rfl
    · simp only [at?_setAt_of_ne _ _ _ _ ht]
  · unfold backwardOutputs
    simp only [at?_setAt_of_ne _ _ _ _ hu]
  · unfold backwardOutputs at hout ⊢
    simp only [at?_setAt_self _ _ _ _ hunit, hunit] at hout ⊢
    simp only [UpdateBackwardState, unitBackward, List.map_map, List.mem_map,
      Function.comp_apply, Prod.mk.injEq] at hout
    obtain ⟨e, he, rfl, rfl⟩ := hout
    exact ⟨e.2, he, rfl⟩

theorem slotsKeyed_copyIntoSlots (u p : UnitId) (src : Tensor) (m : List (UnitId × Tensor)) :
    slotsKeyed p (copyIntoSlots u src m) =
      if p = u then (slotsKeyed p m).map (fun t => { Data := src.Data, State := t.State + 1 })
      else slotsKeyed p m := by
  rw [copyIntoSlots_eq_deliverSlots, slotsKeyed_deliverSlots]
  simp

/-- The state after `m_backwardCopy(key)`: the backward outputs are untouched,
and the slots keyed by `key` in a target have received the data of the output
for that target and one version step. -/
theorem copy_backward_facts (um um' : UnitManager) (key : UnitId)
    (h : m_backwardCopy um key = some um') (hn : (backwardTargets um key).Nodup) :
    ∃ subject, at? um.m_unitMap key = some subject ∧
      (∀ u, backwardOutputs um' u = backwardOutputs um u) ∧
      (∀ u t, backEdgeSlots um' u t =
        match at? subject.BackwardOutputMap t with
        | some out =>
          if u = key then
            (backEdgeSlots um u t).map (fun d => { Data := out.Data, State := d.State + 1 })
          else backEdgeSlots um u t
        | none => backEdgeSlots um u t) := by
  obtain ⟨subject, hsub, _, hat⟩ := m_backwardCopy_some um um' key h hn
  refine ⟨subject, hsub, fun u => ?_, fun u t => ?_⟩
  · unfold backwardOutputs
    rw [hat u]
    cases hu : at? um.m_unitMap u with
    | none => rfl
    | some cu => cases hb : at? subject.BackwardOutputMap u <;> simp [hb]
  · unfold backEdgeSlots
    rw [hat t]
    cases ht : at? um.m_unitMap t with
    | none => cases hb : at? subject.BackwardOutputMap t <;> simp
    | some tu =>
      cases hb : at? subject.BackwardOutputMap t with
      | none => simp
      | some out =>
        simp only [Option.map_some']
        exact slotsKeyed_copyIntoSlots key u out tu.BackwardInputMap

/-- The first `if` of the loop body of `Backward`. -/
theorem backwardComputePhase_facts (ops : UnitOps) (cycle : Nat) (um₀ : UnitManager)
    (key : UnitId) (unit : ComputableUnit) (s : Run × Bool)
    (hunit : at? s.1.um.m_unitMap key = some unit)
    (hs : SameShape um₀ s.1.um ∧ BackwardSynced s.1.um ∧
      ∀ st ∈ s.1.log, BackwardStepGood st) :
    SameShape um₀ (backwardComputePhase ops cycle key unit s).1.um ∧
    (∃ δ, δ ≤ 1 ∧ BackwardSyncedBut (backwardComputePhase ops cycle key unit s).1.um key δ) ∧
    ∀ st ∈ (backwardComputePhase ops cycle key unit s).1.log, BackwardStepGood st := by
  obtain ⟨hshape, hsync, hlog⟩ := hs
  unfold backwardComputePhase
  by_cases hr : ops.IsBackwardReady key unit cycle = true
  · rw [if_pos hr]
    obtain ⟨hslots, hout, houtk⟩ := compute_backward_facts ops s.1.um key unit hunit
    have hbut : BackwardSyncedBut
        { s.1.um with
          m_unitMap :=
            setAt s.1.um.m_unitMap key (UpdateBackwardState (unitBackward ops key unit)) }
        key 1 := by
      intro u t out ho d hd
      rw [hslots] at hd
      by_cases hu : u = key
      · subst hu
        obtain ⟨out₀, hmem, hst⟩ := houtk t out ho
        have := hsync u t out₀ hmem d hd
        simp only [if_true]
        omega
      · rw [hout u hu] at ho
        have := hsync u t out ho d hd
        simp only [hu, if_false]
        omega
    refine ⟨hshape.same_trans ⟨rfl, ?_⟩, ⟨1, Nat.le_refl 1, hbut⟩, ?_⟩
    · exact shape_setAt _ _ unit _ hunit (unitShape_update_backward ops key unit)
    · intro st hst
      simp only [Run.step, List.mem_append, List.mem_singleton] at hst
      rcases hst with hst | rfl
      · exact hlog st hst
      · refine ⟨(BackwardSynced_edgeInv hsync), (BackwardSyncedBut_edgeInv hbut (Nat.le_refl 1)), ?_⟩
        intro u t _
        left
        exact hslots u t
  · rw [if_neg hr]
    exact ⟨hshape, ⟨0, Nat.zero_le 1, (BackwardSynced_but hsync key)⟩, hlog⟩

/-- The second `if` of the loop body of `Backward`: when it is done without
raising, every backward edge is in step again. -/
theorem backwardCopyPhase_facts (um₀ : UnitManager) (hw : BackwardWired um₀) (key : UnitId)
    (s : Run × Bool) (δ : Nat) (hδ : δ ≤ 1)
    (hshape : SameShape um₀ s.1.um) (hbut : BackwardSyncedBut s.1.um key δ)
    (hlog : ∀ st ∈ s.1.log, BackwardStepGood st) :
    match backwardCopyPhase key s with
    | .error r => ∀ st ∈ r.log, BackwardStepGood st
    | .ok s' =>
      SameShape um₀ s'.1.um ∧ BackwardSynced s'.1.um ∧
        ∀ st ∈ s'.1.log, BackwardStepGood st := by
  have hw' := BackwardWired_of_sameShape hw hshape
  unfold backwardCopyPhase
  cases hready : m_isBackwardCopyReady s.1.um key with
  | none => simpa using hlog
  | some b =>
    cases b with
    | false =>
      simp only
      refine ⟨hshape, ?_, hlog⟩
      obtain ⟨md, hmd, hcase⟩ := m_isBackwardCopyReady_false _ _ hready
      have hid := hw'.ids key md hmd
      intro u t out hout d hd
      have hb := hbut u t out hout d hd
      by_cases hu : u = key
      · subst hu
        rcases hcase with hsource | ⟨subject, hsub, hm | hnone⟩
        · rw [hid] at hsource
          have := backEdgeSlots_eq_nil_of_not_mem _ _ _
            (hw'.source u t hsource (mem_backwardTargets_of_mem hout))
          rw [this] at hd
          simp at hd
        · obtain ⟨e, he, target, htarget, d', hd', hdu, hne⟩ := hm
          have hmem : d'.2 ∈ backEdgeSlots s.1.um u e.1 := by
            unfold backEdgeSlots
            rw [htarget, mem_slotsKeyed, ← hdu]
            exact hd'
          have hout' : (e.1, e.2) ∈ backwardOutputs s.1.um u := by
            unfold backwardOutputs
            rw [hsub]
            exact he
          have hb' := hbut u e.1 e.2 hout' d'.2 hmem
          simp only [if_true] at hb hb'
          have hδ0 : δ = 0 := by
            rcases Nat.le_one_iff_eq_zero_or_eq_one.mp hδ with h0 | h1
            · exact h0
            · exfalso; apply hne; omega
          omega
        · exfalso
          unfold backwardOutputs at hout
          rw [hsub] at hout
          unfold backEdgeSlots at hd
          cases htarget : at? s.1.um.m_unitMap t with
          | none => simp [htarget] at hd
          | some target =>
            rw [htarget] at hd
            have := hnone (t, out) hout target htarget
            simp only [(slotsKeyed_eq_nil_iff u _).mpr this, List.not_mem_nil] at hd
      · simp only [hu, if_false] at hb
        omega
    | true =>
      obtain ⟨subject, hsub, hall⟩ := m_isBackwardCopyReady_true _ _ hready
      cases hcopy : m_backwardCopy s.1.um key with
      | none => simpa using hlog
      | some um' =>
        simp only
        obtain ⟨subject', hsub', hout', hslots'⟩ :=
          copy_backward_facts _ _ _ hcopy (hw'.nodup key)
        rw [hsub] at hsub'
        cases hsub'
        have hnodup : (keys subject.BackwardOutputMap).Nodup := by
          simpa [backwardTargets, hsub] using hw'.nodup key
        have hbehind : ∀ t out, (t, out) ∈ subject.BackwardOutputMap →
            ∀ d ∈ backEdgeSlots s.1.um key t, out.State = d.State + 1 := by
          intro t out hmem d hd
          obtain ⟨target, htarget, hcheck⟩ := hall (t, out) hmem
          unfold backEdgeSlots at hd
          simp only at htarget
          rw [htarget, mem_slotsKeyed] at hd
          exact hcheck (key, d) hd rfl
        have hsynced : BackwardSynced um' := by
          intro u t out hout d hd
          rw [hout'] at hout
          rw [hslots'] at hd
          by_cases hu : u = key
          · subst hu
            have hmem : (t, out) ∈ subject.BackwardOutputMap := by
              simpa [backwardOutputs, hsub] using hout
            rw [at?_eq_some_of_mem_nodup _ _ _ hnodup hmem] at hd
            simp only [if_true, List.mem_map] at hd
            obtain ⟨d₀, hd₀, rfl⟩ := hd
            simp only
            exact (hbehind t out hmem d₀ hd₀).symm
          · have hd' : d ∈ backEdgeSlots s.1.um u t := by
              cases hb : at? subject.BackwardOutputMap t with
              | none => simpa [hb] using hd
              | some o => simpa [hb, hu] using hd
            have := hbut u t out hout d hd'
            simp only [hu, if_false] at this
            omega
        refine ⟨hshape.same_trans (SameShape_m_backwardCopy _ _ _ hcopy), hsynced, ?_⟩
        intro st hst
        simp only [Run.step, List.mem_append, List.mem_singleton] at hst
        rcases hst with hst | rfl
        · exact hlog st hst
        · refine ⟨(BackwardSyncedBut_edgeInv hbut hδ), (BackwardSynced_edgeInv hsynced), ?_⟩
          intro u t ht
          simp only at ht ⊢
          by_cases hu : u = key
          · subst hu
            right
            have ht' : t ∈ keys subject.BackwardOutputMap := by
              simpa [backwardTargets, hsub] using ht
            obtain ⟨out, hout⟩ := Option.isSome_iff_exists.mp
              ((at?_isSome_iff_mem_keys _ _).mpr ht')
            have hmem := mem_of_at?_eq_some _ _ _ hout
            have hpost : (t, out) ∈ backwardOutputs um' u := by
              rw [hout']
              simpa [backwardOutputs, hsub] using hmem
            refine ⟨rfl, out, hpost, ?_, ?_⟩
            · rw [hslots', hout]
              simp
            · intro d hd
              exact hsynced u t out hpost d hd
          · left
            rw [hslots']
            cases hb : at? subject.BackwardOutputMap t <;> simp [hu]

/-- A visit of `Backward` that does not raise leaves every backward edge in
step, and every step it takes is good. -/
theorem backwardVisit_keeps_sync (ops : UnitOps) (cycle : Nat) (um₀ : UnitManager)
    (hw : BackwardWired um₀) (key : UnitId) (s : Run × Bool)
    (hs : SameShape um₀ s.1.um ∧ BackwardSynced s.1.um ∧
      ∀ st ∈ s.1.log, BackwardStepGood st) :
    match backwardVisit ops cycle key s with
    | .error r => ∀ st ∈ r.log, BackwardStepGood st
    | .ok s' =>
      SameShape um₀ s'.1.um ∧ BackwardSynced s'.1.um ∧
        ∀ st ∈ s'.1.log, BackwardStepGood st := by
  unfold backwardVisit
  cases hunit : at? s.1.um.m_unitMap key with
  | none => simpa using hs.2.2
  | some unit =>
    simp only
    obtain ⟨h1, ⟨δ, hδ, h2⟩, h3⟩ := backwardComputePhase_facts ops cycle um₀ key unit s hunit hs
    exact backwardCopyPhase_facts um₀ hw key _ δ hδ h1 h2 h3

theorem at?_seedBackward (m : List (UnitId × ComputableUnit)) (c : UnitId) :
    at? (seedBackward m) c =
      (at? m c).map (fun cu =>
        if c.Type_.BaseType = UnitBaseType.Sink then
          { cu with BackwardInputMap := bumpAll cu.BackwardInputMap }
        else cu) := by
  induction m with
  | nil => rfl
  | cons e rest ih =>
    obtain ⟨k, v⟩ := e
    by_cases hs : k.Type_.BaseType = UnitBaseType.Sink
    · by_cases hk : k = c
      · subst hk; simp [seedBackward, hs, at?]
      · simp [seedBackward, hs, at?, hk, ih]
    · by_cases hk : k = c
      · subst hk; simp [seedBackward, hs, at?]
      · simp [seedBackward, hs, at?, hk, ih]

/-- Seeding leaves every backward edge as it is: a Sink unit is the consumer of
none. -/
theorem seedBackward_facts (um : UnitManager) (hw : BackwardWired um) :
    (∀ u, backwardOutputs { um with m_unitMap := seedBackward um.m_unitMap } u
      = backwardOutputs um u) ∧
    (∀ u t, t ∈ backwardTargets um u →
      backEdgeSlots { um with m_unitMap := seedBackward um.m_unitMap } u t
        = backEdgeSlots um u t) := by
  constructor
  · intro u
    unfold backwardOutputs
    simp only [at?_seedBackward]
    cases at? um.m_unitMap u with
    | none => rfl
    | some cu => by_cases hs : u.Type_.BaseType = UnitBaseType.Sink <;> simp [hs]
  · intro u t ht
    by_cases hs : t.Type_.BaseType = UnitBaseType.Sink
    · have hno := hw.sink u t ht hs
      rw [backEdgeSlots_eq_nil_of_not_mem _ _ _ hno]
      apply backEdgeSlots_eq_nil_of_not_mem
      have hshape : SameShape um { um with m_unitMap := seedBackward um.m_unitMap } :=
        ⟨rfl, shape_seedBackward _⟩
      rw [backwardSources_of_sameShape hshape]
      exact hno
    · unfold backEdgeSlots
      simp only [at?_seedBackward]
      cases at? um.m_unitMap t with
      | none => rfl
      | some cu => simp [hs]

/-- The backward half of C2. -/
theorem Backward_steps_good (ops : UnitOps) (cycle fuel : Nat) (um : UnitManager)
    (hw : BackwardWired um) (hsync : BackwardSynced um) :
    ∀ st ∈ (Backward ops cycle fuel um).run.log, BackwardStepGood st := by
  obtain ⟨hout, hslots⟩ := seedBackward_facts um hw
  have hshape : SameShape um { um with m_unitMap := seedBackward um.m_unitMap } :=
    ⟨rfl, shape_seedBackward _⟩
  have hsynced : BackwardSynced { um with m_unitMap := seedBackward um.m_unitMap } := by
    intro u t out ho d hd
    rw [hout] at ho
    rw [hslots u t (mem_backwardTargets_of_mem ho)] at hd
    exact hsync u t out ho d hd
  have hstart : SameShape um (backwardStart um).um ∧ BackwardSynced (backwardStart um).um ∧
      ∀ st ∈ (backwardStart um).log, BackwardStepGood st := by
    refine ⟨hshape, hsynced, ?_⟩
    intro st hst
    simp only [backwardStart, Run.step, List.nil_append, List.mem_singleton] at hst
    subst hst
    exact ⟨(BackwardSynced_edgeInv hsync), (BackwardSynced_edgeInv hsynced), fun u t ht => Or.inl (hslots u t ht)⟩
  have := sweepLoop_invariant (backwardVisit ops cycle)
    (fun r => SameShape um r.um ∧ BackwardSynced r.um ∧ ∀ st ∈ r.log, BackwardStepGood st)
    (fun r => ∀ st ∈ r.log, BackwardStepGood st)
    (fun key s hs => backwardVisit_keeps_sync ops cycle um hw key s hs) fuel
    (backwardStart um) hstart
  unfold Backward
  cases h : sweepLoop (backwardVisit ops cycle) fuel (backwardStart um) with
  | returned r => simp only [h] at this; exact this.2.2
  | running r => simp only [h] at this; exact this.2.2
  | threw r => simp only [h] at this; exact this

end Takion

namespace Takion

/-! ## Checking the wiring of a concrete graph -/

theorem mem_keys_of_mem_outputVector {um : UnitManager} {p c : UnitId}
    (h : c ∈ outputVector um p) : p ∈ keys um.m_unitMetaDataMap := by
  unfold outputVector at h
  cases hmd : at? um.m_unitMetaDataMap p with
  | none => simp [hmd] at h
  | some md =>
    rw [← at?_isSome_iff_mem_keys, hmd]
    rfl

theorem mem_keys_of_mem_backwardTargets {um : UnitManager} {u t : UnitId}
    (h : t ∈ backwardTargets um u) : u ∈ keys um.m_unitMap := by
  unfold backwardTargets at h
  cases hu : at? um.m_unitMap u with
  | none => simp [hu] at h
  | some subject =>
    rw [← at?_isSome_iff_mem_keys, hu]
    rfl

theorem outputVector_nodup_of_check (um : UnitManager)
    (h : ∀ e ∈ um.m_unitMetaDataMap, e.2.OutputUnitVector.Nodup) (p : UnitId) :
    (outputVector um p).Nodup := by
  unfold outputVector
  cases hmd : at? um.m_unitMetaDataMap p with
  | none => exact List.nodup_nil
  | some md => exact h (p, md) (mem_of_at?_eq_some _ _ _ hmd)

/-- The forward wiring of a graph, from checks over its finitely many entries. -/
theorem ForwardWired_of_check (um : UnitManager)
    (hids : ∀ e ∈ um.m_unitMetaDataMap, e.2.Id = e.1)
    (hnodup : ∀ e ∈ um.m_unitMetaDataMap, e.2.OutputUnitVector.Nodup)
    (hsource : ∀ p ∈ keys um.m_unitMetaDataMap, ∀ c ∈ outputVector um p,
      c.Type_.BaseType = UnitBaseType.Source → p ∉ forwardSources um c)
    (hsink : ∀ p ∈ keys um.m_unitMetaDataMap, p.Type_.BaseType = UnitBaseType.Sink →
      ∀ c ∈ outputVector um p, p ∉ forwardSources um c) : ForwardWired um where
  ids := fun k md h => hids (k, md) (mem_of_at?_eq_some _ _ _ h)
  nodup := outputVector_nodup_of_check um hnodup
  source := fun p c hc hs => hsource p (mem_keys_of_mem_outputVector hc) c hc hs
  sink := fun p c hs hc => hsink p (mem_keys_of_mem_outputVector hc) hs c hc

/-- The backward wiring of a graph, from checks over its finitely many entries. -/
theorem BackwardWired_of_check (um : UnitManager)
    (hids : ∀ e ∈ um.m_unitMetaDataMap, e.2.Id = e.1)
    (hnodup : ∀ e ∈ um.m_unitMap, (keys e.2.BackwardOutputMap).Nodup)
    (hsink : ∀ u ∈ keys um.m_unitMap, ∀ t ∈ backwardTargets um u,
      t.Type_.BaseType = UnitBaseType.Sink → u ∉ backwardSources um t)
    (hsource : ∀ u ∈ keys um.m_unitMap, u.Type_.BaseType = UnitBaseType.Source →
      ∀ t ∈ backwardTargets um u, u ∉ backwardSources um t) : BackwardWired um where
  ids := fun k md h => hids (k, md) (mem_of_at?_eq_some _ _ _ h)
  nodup := fun u => by
    unfold backwardTargets
    cases hu : at? um.m_unitMap u with
    | none => exact List.nodup_nil
    | some subject => exact hnodup (u, subject) (mem_of_at?_eq_some _ _ _ hu)
  sink := fun u t ht hs => hsink u (mem_keys_of_mem_backwardTargets ht) t ht hs
  source := fun u t hs ht => hsource u (mem_keys_of_mem_backwardTargets ht) hs t ht

theorem ForwardSynced_of_check (um : UnitManager)
    (h : ∀ p ∈ keys um.m_unitMetaDataMap, ∀ c ∈ outputVector um p,
      ∀ out ∈ (forwardOutput um p).toList, ∀ t ∈ edgeSlots um p c, t.State = out.State) :
    ForwardSynced um := by
  intro p c hc out hout t ht
  exact h p (mem_keys_of_mem_outputVector hc) c hc out (by simp [hout]) t ht

theorem BackwardSynced_of_check (um : UnitManager)
    (h : ∀ u ∈ keys um.m_unitMap, ∀ e ∈ backwardOutputs um u,
      ∀ d ∈ backEdgeSlots um u e.1, d.State = e.2.State) :
    BackwardSynced um := by
  intro u t out hout d hd
  exact h u (mem_keys_of_mem_backwardTargets (mem_backwardTargets_of_mem hout)) (t, out) hout d hd

theorem chainGraph_forwardWired : ForwardWired chainGraph :=
  ForwardWired_of_check chainGraph (by decide) (by decide) (by decide) (by decide)

theorem chainGraph_backwardWired : BackwardWired chainGraph :=
  BackwardWired_of_check chainGraph (by decide) (by decide) (by decide) (by decide)

theorem chainGraph_forwardSynced : ForwardSynced chainGraph :=
  ForwardSynced_of_check chainGraph (by decide)

theorem chainGraph_backwardSynced : BackwardSynced chainGraph :=
  BackwardSynced_of_check chainGraph (by decide)

/-- C2: take a wired graph (metadata under its own id, each consumer listed once,
Source units consumers of no forward edge and Sink units producers of none, and
the mirror conditions on the backward side) in a state where each consumer
input slot's version equals its producer's output version.  Whatever the
readiness predicates and kernels of the units, in every state before and after
every step of every run of `Forward` and of `Backward`, finished or not, every
edge satisfies `consumer version <= producer version <= consumer version + 1`;
and a step changes the consumer side of an edge only if it is the copy from
the producer of that edge, which raises each slot by exactly 1, to the
producer's version, and brings the producer's data. -/
theorem edges_within_one_version (ops : UnitOps) (cycle fuel : Nat) (um : UnitManager)
    (hfw : ForwardWired um) (hbw : BackwardWired um)
    (hfs : ForwardSynced um) (hbs : BackwardSynced um) :
    (∀ st ∈ (Forward ops cycle fuel um).run.log,
      ForwardEdgeInv st.pre ∧ ForwardEdgeInv st.post ∧ ForwardStepOk st) ∧
    (∀ st ∈ (Backward ops cycle fuel um).run.log,
      BackwardEdgeInv st.pre ∧ BackwardEdgeInv st.post ∧ BackwardStepOk st) :=
  ⟨Forward_steps_good ops cycle fuel um hfw hfs, Backward_steps_good ops cycle fuel um hbw hbs⟩

/-- Witness for C2 on the chain graph, for runs of up to 10 sweeps. -/
theorem edges_within_one_version_witness :
    (∀ st ∈ (Forward (specOps (fun _ _ => [1]) (fun _ _ _ => [2])) 0 10 chainGraph).run.log,
      ForwardEdgeInv st.pre ∧ ForwardEdgeInv st.post ∧ ForwardStepOk st) ∧
    (∀ st ∈ (Backward (specOps (fun _ _ => [1]) (fun _ _ _ => [2])) 0 10 chainGraph).run.log,
      BackwardEdgeInv st.pre ∧ BackwardEdgeInv st.post ∧ BackwardStepOk st) :=
  edges_within_one_version (specOps (fun _ _ => [1]) (fun _ _ _ => [2])) 0 10 chainGraph
    chainGraph_forwardWired chainGraph_backwardWired chainGraph_forwardSynced
    chainGraph_backwardSynced

end Takion

namespace Takion

/-- Counterexample to C2 as stated: in the fresh graph whose Source lists the
Sink twice every consumer slot's version equals its producer's output version
(all are `0`); `Forward` returns after two sweeps, and the slot of the edge
`Source → Sink` then has version `2` while the Source's output has version `1`:
the consumer's version exceeds the producer's, one copy having raised it by 2. -/
theorem Forward_twice_listed_overtakes :
    ForwardSynced twiceListedFresh ∧ BackwardSynced twiceListedFresh ∧
    uLoss ∈ outputVector twiceListedFresh uSrc ∧
    ∃ r, Forward exampleOps 0 2 twiceListedFresh = .returned r ∧
      edgeSlots r.um uSrc uLoss = [{ Data := [1], State := 2 }] ∧
      forwardOutput r.um uSrc = some { Data := [1], State := 1 } :=
  ⟨ForwardSynced_of_check _ (by decide), BackwardSynced_of_check _ (by decide), by decide,
    _, rfl, by decide, by decide⟩

end Takion

namespace Takion

/-! ## One forward pass computes every unit once -/

theorem forwardCount_append_singleton (log : List Step) (st : Step) (k : UnitId) :
    forwardCount (log ++ [st]) k
      = forwardCount log k + if st.event = Event.forward k then 1 else 0 := by
  unfold forwardCount
  rw [List.countP_append]
  by_cases h : st.event = Event.forward k
  · simp [h]
  · simp [h]

theorem allOneAhead_iff (n : Nat) (m : List (UnitId × Tensor)) :
    allOneAhead n m = true ↔ ∀ e ∈ m, e.2.State = n + 1 := by
  induction m with
  | nil => simp [allOneAhead]
  | cons e rest ih =>
    obtain ⟨k, t⟩ := e
    simp only [allOneAhead, Bool.and_eq_true, beq_iff_eq, ih, List.mem_cons, forall_eq_or_imp]

theorem mem_keys_iff_at? {α : Type} (m : List (UnitId × α)) (k : UnitId) :
    k ∈ keys m ↔ ∃ v, at? m k = some v := by
  rw [← at?_isSome_iff_mem_keys, Option.isSome_iff_exists]

theorem isForwardCopyReadyLoop_ne_none (unitMap : List (UnitId × ComputableUnit))
    (u : UnitId) (o : Nat) (vec : List UnitId) (h : ∀ c ∈ vec, c ∈ keys unitMap) :
    isForwardCopyReadyLoop unitMap u o vec ≠ none := by
  induction vec with
  | nil => simp [isForwardCopyReadyLoop]
  | cons c rest ih =>
    obtain ⟨cc, hcc⟩ := (mem_keys_iff_at? unitMap c).mp (h c (List.mem_cons_self _ _))
    simp only [isForwardCopyReadyLoop, hcc]
    by_cases hr : forwardSlotsReady u o cc.ForwardInputMap = true
    · rw [if_pos hr]
      exact ih (fun c' hc' => h c' (List.mem_cons_of_mem _ hc'))
    · rw [if_neg hr]
      simp

theorem forwardCopyLoop_ne_none (u : UnitId) (src : Tensor) (vec : List UnitId) :
    ∀ unitMap : List (UnitId × ComputableUnit), (∀ c ∈ vec, c ∈ keys unitMap) →
      forwardCopyLoop u src vec unitMap ≠ none := by
  induction vec with
  | nil => intro unitMap _; simp [forwardCopyLoop]
  | cons c rest ih =>
    intro unitMap h
    obtain ⟨cc, hcc⟩ := (mem_keys_iff_at? unitMap c).mp (h c (List.mem_cons_self _ _))
    simp only [forwardCopyLoop, hcc]
    apply ih
    intro c' hc'
    rw [keys_setAt]
    exact h c' (List.mem_cons_of_mem _ hc')

theorem m_forwardCopy_ne_none (um : UnitManager) (u : UnitId) (md : UnitMetaData)
    (subject : ComputableUnit) (hmd : at? um.m_unitMetaDataMap u = some md)
    (hsub : at? um.m_unitMap u = some subject)
    (h : ∀ c ∈ md.OutputUnitVector, c ∈ keys um.m_unitMap) :
    m_forwardCopy um u ≠ none := by
  unfold m_forwardCopy
  simp only [hmd, hsub]
  cases hloop : forwardCopyLoop u subject.ForwardOutput md.OutputUnitVector um.m_unitMap with
  | none => exact absurd hloop (forwardCopyLoop_ne_none _ _ _ _ h)
  | some unitMap => simp

theorem m_isForwardCopyReady_ne_none (um : UnitManager) (u : UnitId) (md : UnitMetaData)
    (subject : ComputableUnit) (hmd : at? um.m_unitMetaDataMap u = some md)
    (hsub : at? um.m_unitMap u = some subject)
    (h : ∀ c ∈ md.OutputUnitVector, c ∈ keys um.m_unitMap) :
    m_isForwardCopyReady um u ≠ none := by
  unfold m_isForwardCopyReady
  simp only [hmd, hsub]
  by_cases hs : md.Id.Type_.BaseType = UnitBaseType.Sink
  · rw [if_pos hs]; simp
  · rw [if_neg hs]
    exact isForwardCopyReadyLoop_ne_none _ _ _ _ h

theorem m_isForwardCopyReady_of_sink (um : UnitManager) (u : UnitId) (md : UnitMetaData)
    (hmd : at? um.m_unitMetaDataMap u = some md)
    (hs : md.Id.Type_.BaseType = UnitBaseType.Sink) :
    m_isForwardCopyReady um u = some false := by
  unfold m_isForwardCopyReady
  simp only [hmd]
  rw [if_pos hs]

theorem outputVector_eq_of_at? (um : UnitManager) (p : UnitId) (md : UnitMetaData)
    (h : at? um.m_unitMetaDataMap p = some md) : outputVector um p = md.OutputUnitVector := by
  simp [outputVector, h]

theorem forwardSources_eq_of_at? (um : UnitManager) (c : UnitId) (cu : ComputableUnit)
    (h : at? um.m_unitMap c = some cu) : forwardSources um c = keys cu.ForwardInputMap := by
  simp [forwardSources, h]

theorem mem_keys_of_mem_forwardSources {um : UnitManager} {p c : UnitId}
    (h : p ∈ forwardSources um c) : c ∈ keys um.m_unitMap := by
  unfold forwardSources at h
  cases hc : at? um.m_unitMap c with
  | none => simp [hc] at h
  | some cu => exact (mem_keys_iff_at? _ _).mpr ⟨cu, hc⟩

theorem exists_mem_of_mem_keys {α : Type} (m : List (UnitId × α)) (k : UnitId)
    (h : k ∈ keys m) : ∃ e ∈ m, e.1 = k := by
  simpa [keys] using h

theorem mem_keys_of_mem {α : Type} (m : List (UnitId × α)) (e : UnitId × α)
    (h : e ∈ m) : e.1 ∈ keys m :=
  List.mem_map_of_mem Prod.fst h

end Takion
namespace Takion

theorem forwardCount_step_forward (r : Run) (k j : UnitId) (um' : UnitManager) :
    forwardCount (r.step (.forward k) um').log j
      = forwardCount r.log j + if j = k then 1 else 0 := by
  simp only [Run.step, forwardCount_append_singleton]
  by_cases h : j = k
  · subst h; simp
  · have : ¬ Event.forward k = Event.forward j := fun h' => h (by cases h'; rfl)
    simp [h, this]

theorem forwardCount_step_forwardCopy (r : Run) (k j : UnitId) (um' : UnitManager) :
    forwardCount (r.step (.forwardCopy k) um').log j = forwardCount r.log j := by
  simp only [Run.step, forwardCount_append_singleton]
  have : ¬ Event.forwardCopy k = Event.forward j := fun h' => by cases h'
  simp [this]

/-- On an edge of a graph in step whose units have consumed their inputs, the
producer's output version is the consumer's last-consumed version. -/
theorem ForwardCompiled.edge_base {um : UnitManager} (hc : ForwardCompiled um)
    (hs : ForwardSynced um) (hk : ForwardConsumed um) {p c : UnitId}
    (hpc : c ∈ outputVector um p) {pu cu : ComputableUnit}
    (hpu : at? um.m_unitMap p = some pu) (hcu : at? um.m_unitMap c = some cu) :
    pu.ForwardOutput.State = cu.ForwardStateCount := by
  have hsrc := (hc.consumer p c hpc).2.2
  rw [forwardSources_eq_of_at? um c cu hcu] at hsrc
  obtain ⟨e, he, hep⟩ := exists_mem_of_mem_keys _ _ hsrc
  have hslot : e.2 ∈ edgeSlots um p c := by
    simp only [edgeSlots, hcu]
    rw [mem_slotsKeyed, ← hep]
    exact he
  have h1 := hs p c hpc pu.ForwardOutput (by simp [forwardOutput, hpu]) e.2 hslot
  have h2 := hk c cu hcu e he
  omega

/-- Between two visits no copy is pending: `m_isForwardCopyReady` is false. -/
theorem ForwardProgress.copy_not_ready {um₀ : UnitManager} (hc : ForwardCompiled um₀)
    (hs : ForwardSynced um₀) (hk : ForwardConsumed um₀) {r : Run}
    (hp : ForwardProgress um₀ r) {k : UnitId} (hkey : k ∈ keys um₀.m_unitMap) :
    m_isForwardCopyReady r.um k = some false := by
  obtain ⟨cu₀, hcu₀⟩ := (mem_keys_iff_at? _ _).mp hkey
  obtain ⟨cu, hcu, -, hout, -, -⟩ := hp.units k cu₀ hcu₀
  obtain ⟨md, hmd⟩ := (mem_keys_iff_at? _ _).mp (hc.declared k hkey)
  have hmd' : at? r.um.m_unitMetaDataMap k = some md := by rw [hp.metaData]; exact hmd
  have hid := hc.ids k md hmd
  have hov := outputVector_eq_of_at? um₀ k md hmd
  by_cases hsink : md.Id.Type_.BaseType = UnitBaseType.Sink
  · exact m_isForwardCopyReady_of_sink _ _ _ hmd' hsink
  · have hcons : ∀ c ∈ md.OutputUnitVector, c ∈ keys r.um.m_unitMap := by
      intro c hcv
      rw [hp.keysEq]
      rw [← hov] at hcv
      exact mem_keys_of_mem_forwardSources (hc.consumer k c hcv).2.2
    cases hready : m_isForwardCopyReady r.um k with
    | none => exact absurd hready (m_isForwardCopyReady_ne_none _ _ md cu hmd' hcu hcons)
    | some b =>
      cases b with
      | false => rfl
      | true =>
        exfalso
        obtain ⟨md', subject, hmd'', hsub, -, hall⟩ := m_isForwardCopyReady_true _ _ hready
        rw [hmd'] at hmd''
        cases hmd''
        rw [hcu] at hsub
        cases hsub
        have hne := hc.outputs k hkey (by rw [← hid]; exact hsink)
        rw [hov] at hne
        obtain ⟨c, hcv⟩ := List.exists_mem_of_ne_nil _ hne
        obtain ⟨cc, hcc, hslots⟩ := hall c hcv
        rw [← hov] at hcv
        obtain ⟨hnsrc, -, hsrc⟩ := hc.consumer k c hcv
        obtain ⟨cc₀, hcc₀⟩ := (mem_keys_iff_at? _ _).mp (mem_keys_of_mem_forwardSources hsrc)
        obtain ⟨cc', hcc', -, -, hkeys, hform⟩ := hp.units c cc₀ hcc₀
        rw [hcc] at hcc'
        cases hcc'
        rw [forwardSources_eq_of_at? um₀ c cc₀ hcc₀, ← hkeys] at hsrc
        obtain ⟨e, he, hek⟩ := exists_mem_of_mem_keys _ _ hsrc
        have h1 := hslots e he hek
        have h2 := hform e he
        rw [if_neg hnsrc, hek] at h2
        have h3 := hc.edge_base hs hk hcv hcu₀ hcc₀
        omega

end Takion
namespace Takion

theorem forwardComputePhase_eq (ops : UnitOps) (cycle : Nat) (key : UnitId)
    (unit : ComputableUnit) (s : Run × Bool) :
    forwardComputePhase ops cycle key unit s =
      if ops.IsForwardReady key unit cycle then
        (s.1.step (.forward key) (afterForward ops key unit s.1.um), false)
      else s := rfl

theorem at?_afterForward (ops : UnitOps) (um : UnitManager) (k j : UnitId)
    (cu : ComputableUnit) (hcu : at? um.m_unitMap k = some cu) :
    at? (afterForward ops k cu um).m_unitMap j =
      if j = k then some (UpdateForwardState (unitForward ops k cu)) else at? um.m_unitMap j := by
  by_cases h : j = k
  · subst h
    rw [if_pos rfl]
    exact at?_setAt_self _ _ _ _ hcu
  · rw [if_neg h]
    exact at?_setAt_of_ne _ _ _ _ h

/-- A ready unit has not been invoked yet. -/
theorem ForwardProgress.ready_fresh {um₀ : UnitManager} (hc : ForwardCompiled um₀) {r : Run}
    (hp : ForwardProgress um₀ r) {k : UnitId} {cu : ComputableUnit}
    (hcu : at? r.um.m_unitMap k = some cu)
    (hr : allOneAhead cu.ForwardStateCount cu.ForwardInputMap = true) :
    forwardCount r.log k = 0 := by
  have hkey : k ∈ keys um₀.m_unitMap := by
    rw [← hp.keysEq]; exact (mem_keys_iff_at? _ _).mpr ⟨cu, hcu⟩
  obtain ⟨cu₀, hcu₀⟩ := (mem_keys_iff_at? _ _).mp hkey
  obtain ⟨cu', hcu', hcount, -, hkeys, hform⟩ := hp.units k cu₀ hcu₀
  rw [hcu] at hcu'
  cases hcu'
  have hne : cu.ForwardInputMap ≠ [] := by
    intro h
    have h0 : keys cu₀.ForwardInputMap = [] := by rw [← hkeys, h]; rfl
    exact hc.inputs k cu₀ hcu₀ (by simpa [keys] using h0)
  obtain ⟨e, he⟩ := List.exists_mem_of_ne_nil _ hne
  have h1 := (allOneAhead_iff _ _).mp hr e he
  have h2 := hform e he
  have h3 := hp.atMostOnce e.1
  split_ifs at h2 <;> omega

/-- A unit that is not ready is not enabled. -/
theorem ForwardProgress.not_enabled {um₀ : UnitManager} {r : Run}
    (hp : ForwardProgress um₀ r) {k : UnitId} {cu : ComputableUnit}
    (hcu : at? r.um.m_unitMap k = some cu)
    (hr : ¬ allOneAhead cu.ForwardStateCount cu.ForwardInputMap = true) :
    ¬ Enabled um₀ r.log k := by
  rintro ⟨h0, hall⟩
  apply hr
  have hkey : k ∈ keys um₀.m_unitMap := by
    rw [← hp.keysEq]; exact (mem_keys_iff_at? _ _).mpr ⟨cu, hcu⟩
  obtain ⟨cu₀, hcu₀⟩ := (mem_keys_iff_at? _ _).mp hkey
  obtain ⟨cu', hcu', hcount, -, hkeys, hform⟩ := hp.units k cu₀ hcu₀
  rw [hcu] at hcu'
  cases hcu'
  rw [allOneAhead_iff]
  intro e he
  have h2 := hform e he
  by_cases hsrc : k.Type_.BaseType = UnitBaseType.Source
  · rw [if_pos hsrc] at h2; omega
  · rw [if_neg hsrc] at h2
    have hmem : e.1 ∈ forwardSources um₀ k := by
      rw [forwardSources_eq_of_at? um₀ k cu₀ hcu₀, ← hkeys]
      exact mem_keys_of_mem _ _ he
    have := hall hsrc e.1 hmem
    omega

/-- The state right after a ready unit ran: its own counters are up by one,
every input slot is as it was. -/
theorem ForwardProgress.midway (ops : UnitOps) {um₀ : UnitManager} {r : Run}
    (hp : ForwardProgress um₀ r) {k : UnitId} {cu : ComputableUnit}
    (hcu : at? r.um.m_unitMap k = some cu) :
    ∀ j cj₀, at? um₀.m_unitMap j = some cj₀ →
      ∃ cj, at? (afterForward ops k cu r.um).m_unitMap j = some cj ∧
        cj.ForwardStateCount
          = cj₀.ForwardStateCount + (forwardCount r.log j + if j = k then 1 else 0) ∧
        cj.ForwardOutput.State
          = cj₀.ForwardOutput.State + (forwardCount r.log j + if j = k then 1 else 0) ∧
        keys cj.ForwardInputMap = keys cj₀.ForwardInputMap ∧
        ∀ e ∈ cj.ForwardInputMap, e.2.State = cj₀.ForwardStateCount +
          (if j.Type_.BaseType = UnitBaseType.Source then 1 else forwardCount r.log e.1) := by
  intro j cj₀ hcj₀
  obtain ⟨cj, hcj, hcount, hout, hkeys, hform⟩ := hp.units j cj₀ hcj₀
  rw [at?_afterForward ops r.um k j cu hcu]
  by_cases hjk : j = k
  · subst hjk
    rw [hcu] at hcj
    cases hcj
    rw [if_pos rfl]
    refine ⟨_, rfl, ?_, ?_, ?_, ?_⟩
    · simp only [UpdateForwardState, unitForward, if_pos]; omega
    · simp only [UpdateForwardState, unitForward, if_pos]; omega
    · exact hkeys
    · exact hform
  · rw [if_neg hjk]
    refine ⟨cj, hcj, ?_, ?_, hkeys, hform⟩
    · rw [if_neg hjk]; omega
    · rw [if_neg hjk]; omega

end Takion
namespace Takion

/-- A slot of a unit other than a Source is never keyed by a Sink unit. -/
theorem ForwardCompiled.slot_not_sink {um₀ : UnitManager} (hc : ForwardCompiled um₀)
    {j p : UnitId} (hsrc : j.Type_.BaseType ≠ UnitBaseType.Source)
    (hmem : p ∈ forwardSources um₀ j) : p.Type_.BaseType ≠ UnitBaseType.Sink :=
  (hc.consumer p j (hc.producer p j hsrc hmem).2).2.1

theorem ForwardProgress.mem_keys {um₀ : UnitManager} {r : Run} (hp : ForwardProgress um₀ r)
    {k : UnitId} {cu : ComputableUnit} (hcu : at? r.um.m_unitMap k = some cu) :
    k ∈ keys um₀.m_unitMap := by
  rw [← hp.keysEq]; exact (mem_keys_iff_at? _ _).mpr ⟨cu, hcu⟩

/-- After a ready Sink unit ran, the pass is between two visits again. -/
theorem ForwardProgress.after_forward_sink (ops : UnitOps) {um₀ : UnitManager}
    (hc : ForwardCompiled um₀) {r : Run} (hp : ForwardProgress um₀ r) {k : UnitId}
    {cu : ComputableUnit} (hcu : at? r.um.m_unitMap k = some cu)
    (h0 : forwardCount r.log k = 0) (hsink : k.Type_.BaseType = UnitBaseType.Sink) :
    ForwardProgress um₀ (r.step (.forward k) (afterForward ops k cu r.um)) := by
  have hkey := hp.mem_keys hcu
  refine ⟨hp.metaData, ?_, ?_, ?_, ?_⟩
  · show keys (setAt _ _ _) = _
    rw [keys_setAt]; exact hp.keysEq
  · intro j
    rw [forwardCount_step_forward]
    by_cases hjk : j = k
    · subst hjk; rw [if_pos rfl, h0]
    · rw [if_neg hjk]; exact hp.atMostOnce j
  · intro j hj
    rw [forwardCount_step_forward]
    have hjk : j ≠ k := fun h => hj (h ▸ hkey)
    rw [if_neg hjk, hp.others j hj]
  · intro j cj₀ hcj₀
    obtain ⟨cj, hcj, hcount, hout, hkeys, hform⟩ := hp.midway ops hcu j cj₀ hcj₀
    refine ⟨cj, hcj, ?_, ?_, hkeys, ?_⟩
    · rw [forwardCount_step_forward]; exact hcount
    · rw [forwardCount_step_forward]; exact hout
    · intro e he
      rw [hform e he]
      by_cases hsrc : j.Type_.BaseType = UnitBaseType.Source
      · rw [if_pos hsrc, if_pos hsrc]
      · rw [if_neg hsrc, if_neg hsrc, forwardCount_step_forward]
        have hmem : e.1 ∈ forwardSources um₀ j := by
          rw [forwardSources_eq_of_at? um₀ j cj₀ hcj₀, ← hkeys]
          exact mem_keys_of_mem _ _ he
        have hek : e.1 ≠ k := fun h => hc.slot_not_sink hsrc hmem (h ▸ hsink)
        rw [if_neg hek]; rfl

/-- Right after a ready unit other than a Sink ran, its copy is ready. -/
theorem ForwardProgress.copy_ready_after_forward (ops : UnitOps) {um₀ : UnitManager}
    (hc : ForwardCompiled um₀) (hs : ForwardSynced um₀) (hk : ForwardConsumed um₀) {r : Run}
    (hp : ForwardProgress um₀ r) {k : UnitId} {cu : ComputableUnit}
    (hcu : at? r.um.m_unitMap k = some cu) (h0 : forwardCount r.log k = 0)
    (hnsink : k.Type_.BaseType ≠ UnitBaseType.Sink) :
    m_isForwardCopyReady (afterForward ops k cu r.um) k = some true := by
  have hkey := hp.mem_keys hcu
  obtain ⟨cu₀, hcu₀⟩ := (mem_keys_iff_at? _ _).mp hkey
  obtain ⟨md, hmd⟩ := (mem_keys_iff_at? _ _).mp (hc.declared k hkey)
  have hmd' : at? (afterForward ops k cu r.um).m_unitMetaDataMap k = some md := by
    show at? r.um.m_unitMetaDataMap k = some md
    rw [hp.metaData]; exact hmd
  have hid := hc.ids k md hmd
  have hov := outputVector_eq_of_at? um₀ k md hmd
  obtain ⟨ck, hck, -, hckout, -, -⟩ := hp.midway ops hcu k cu₀ hcu₀
  have hcons : ∀ c ∈ md.OutputUnitVector, c ∈ keys (afterForward ops k cu r.um).m_unitMap := by
    intro c hcv
    show c ∈ keys (setAt _ _ _)
    rw [keys_setAt, hp.keysEq]
    rw [← hov] at hcv
    exact mem_keys_of_mem_forwardSources (hc.consumer k c hcv).2.2
  cases hready : m_isForwardCopyReady (afterForward ops k cu r.um) k with
  | none => exact absurd hready (m_isForwardCopyReady_ne_none _ _ md ck hmd' hck hcons)
  | some b =>
    cases b with
    | true => rfl
    | false =>
      exfalso
      obtain ⟨md', hmd'', hcase⟩ := m_isForwardCopyReady_false _ _ hready
      rw [hmd'] at hmd''
      cases hmd''
      rcases hcase with hsink | ⟨subject, hsub, c, hcv, cc, hcc, e, he, hek, hne⟩
      · exact hnsink (by rw [← hid]; exact hsink)
      · rw [hck] at hsub
        cases hsub
        rw [← hov] at hcv
        obtain ⟨hnsrc, -, hsrc⟩ := hc.consumer k c hcv
        obtain ⟨cc₀, hcc₀⟩ := (mem_keys_iff_at? _ _).mp (mem_keys_of_mem_forwardSources hsrc)
        obtain ⟨cc', hcc', -, -, -, hform⟩ := hp.midway ops hcu c cc₀ hcc₀
        rw [hcc] at hcc'
        cases hcc'
        have h2 := hform e he
        rw [if_neg hnsrc, hek, h0] at h2
        have h3 := hc.edge_base hs hk hcv hcu₀ hcc₀
        rw [if_pos rfl, h0] at hckout
        omega

/-- After a ready unit other than a Sink ran and its output was copied, the pass
is between two visits again. -/
theorem ForwardProgress.after_forward_copy (ops : UnitOps) {um₀ : UnitManager}
    (hc : ForwardCompiled um₀) {r : Run} (hp : ForwardProgress um₀ r) {k : UnitId}
    {cu : ComputableUnit} (hcu : at? r.um.m_unitMap k = some cu)
    (h0 : forwardCount r.log k = 0) (um₂ : UnitManager)
    (hcopy : m_forwardCopy (afterForward ops k cu r.um) k = some um₂) :
    ForwardProgress um₀
      ((r.step (.forward k) (afterForward ops k cu r.um)).step (.forwardCopy k) um₂) := by
  have hkey := hp.mem_keys hcu
  obtain ⟨md, hmd⟩ := (mem_keys_iff_at? _ _).mp (hc.declared k hkey)
  have hov := outputVector_eq_of_at? um₀ k md hmd
  obtain ⟨md', subject, hmd', hsub, hmeta, hat⟩ := m_forwardCopy_some _ _ _ hcopy
  have hmd'' : at? (afterForward ops k cu r.um).m_unitMetaDataMap k = some md := by
    show at? r.um.m_unitMetaDataMap k = some md
    rw [hp.metaData]; exact hmd
  rw [hmd''] at hmd'
  cases hmd'
  refine ⟨?_, ?_, ?_, ?_, ?_⟩
  · show um₂.m_unitMetaDataMap = _
    rw [hmeta]; exact hp.metaData
  · show keys um₂.m_unitMap = _
    rw [(SameShape_m_forwardCopy _ _ _ hcopy).keys_eq]
    show keys (setAt _ _ _) = _
    rw [keys_setAt]; exact hp.keysEq
  · intro j
    rw [forwardCount_step_forwardCopy, forwardCount_step_forward]
    by_cases hjk : j = k
    · subst hjk; rw [if_pos rfl, h0]
    · rw [if_neg hjk]; exact hp.atMostOnce j
  · intro j hj
    rw [forwardCount_step_forwardCopy, forwardCount_step_forward]
    have hjk : j ≠ k := fun h => hj (h ▸ hkey)
    rw [if_neg hjk, hp.others j hj]
  · intro j cj₀ hcj₀
    obtain ⟨cj, hcj, hcount, hout, hkeys, hform⟩ := hp.midway ops hcu j cj₀ hcj₀
    have hat' := hat j
    rw [hcj] at hat'
    refine ⟨_, hat', ?_, ?_, ?_, ?_⟩
    · rw [forwardCount_step_forwardCopy, forwardCount_step_forward]; exact hcount
    · rw [forwardCount_step_forwardCopy, forwardCount_step_forward]; exact hout
    · show keys (deliverSlots _ _ _ _) = _
      rw [keys_deliverSlots]; exact hkeys
    · intro e' he'
      have he'' : e' ∈ deliverSlots k subject.ForwardOutput (md.OutputUnitVector.count j)
          cj.ForwardInputMap := he'
      unfold deliverSlots at he''
      obtain ⟨e, he, hee'⟩ := List.mem_map.mp he''
      have hfe := hform e he
      by_cases hsrc : j.Type_.BaseType = UnitBaseType.Source
      · have hnot : j ∉ md.OutputUnitVector := by
          intro hj
          rw [← hov] at hj
          exact (hc.consumer k j hj).1 hsrc
        have hcnt : md.OutputUnitVector.count j = 0 := List.count_eq_zero_of_not_mem hnot
        rw [hcnt] at hee'
        simp only [lt_irrefl, and_false, if_false] at hee'
        subst hee'
        rw [if_pos hsrc] at hfe ⊢
        exact hfe
      · rw [if_neg hsrc] at hfe ⊢
        rw [forwardCount_step_forwardCopy, forwardCount_step_forward]
        by_cases hek : e.1 = k
        · have hmem : k ∈ forwardSources um₀ j := by
            rw [forwardSources_eq_of_at? um₀ j cj₀ hcj₀, ← hkeys, ← hek]
            exact mem_keys_of_mem _ _ he
          have hj := (hc.producer k j hsrc hmem).2
          have hnd := hc.listedOnce k
          rw [hov] at hj hnd
          have hcnt : md.OutputUnitVector.count j = 1 := List.count_eq_one_of_mem hnd hj
          rw [hcnt] at hee'
          simp only [hek, Nat.lt_one_iff, and_self, if_true] at hee'
          subst hee'
          simp only [if_pos]
          rw [hek] at hfe
          omega
        · simp only [hek, false_and, if_false] at hee'
          subst hee'
          rw [if_neg hek]
          exact hfe

end Takion
namespace Takion

theorem Run.step_um (r : Run) (ev : Event) (um' : UnitManager) : (r.step ev um').um = um' := rfl

/-- One visit of the forward pass of a validly wired graph: it does not raise,
and either nothing changes (the unit is not enabled), or the unit runs for the
first time (and its output is copied unless it is a Sink). -/
theorem forwardVisit_progress (fd : UnitId → ComputableUnit → List Int)
    (bd : UnitId → ComputableUnit → UnitId → List Int) (cycle : Nat) {um₀ : UnitManager}
    (hc : ForwardCompiled um₀) (hs : ForwardSynced um₀) (hk : ForwardConsumed um₀)
    {k : UnitId} (hkey : k ∈ keys um₀.m_unitMap) (s : Run × Bool)
    (hp : ForwardProgress um₀ s.1) :
    ∃ s', forwardVisit (specOps fd bd) cycle k s = .ok s' ∧ ForwardProgress um₀ s'.1 ∧
      ((s' = s ∧ ¬ Enabled um₀ s.1.log k) ∨
       (s'.2 = false ∧ forwardCount s.1.log k = 0 ∧
         ∀ j, forwardCount s'.1.log j = forwardCount s.1.log j + if j = k then 1 else 0)) := by
  obtain ⟨cu₀, hcu₀⟩ := (mem_keys_iff_at? _ _).mp hkey
  obtain ⟨cu, hcu, -⟩ := hp.units k cu₀ hcu₀
  obtain ⟨md, hmd⟩ := (mem_keys_iff_at? _ _).mp (hc.declared k hkey)
  have hid := hc.ids k md hmd
  have hov := outputVector_eq_of_at? um₀ k md hmd
  unfold forwardVisit
  simp only [hcu]
  rw [forwardComputePhase_eq]
  by_cases hr : allOneAhead cu.ForwardStateCount cu.ForwardInputMap = true
  · have hr' : (specOps fd bd).IsForwardReady k cu cycle = true := hr
    rw [if_pos hr']
    have h0 := hp.ready_fresh hc hcu hr
    have hmd' : at? (afterForward (specOps fd bd) k cu s.1.um).m_unitMetaDataMap k = some md := by
      show at? s.1.um.m_unitMetaDataMap k = some md
      rw [hp.metaData]; exact hmd
    by_cases hsink : k.Type_.BaseType = UnitBaseType.Sink
    · have hready := m_isForwardCopyReady_of_sink _ _ _ hmd' (by rw [hid]; exact hsink)
      unfold forwardCopyPhase
      simp only [Run.step_um, hready]
      exact ⟨_, rfl, hp.after_forward_sink _ hc hcu h0 hsink,
        Or.inr ⟨rfl, h0, fun j => forwardCount_step_forward _ _ _ _⟩⟩
    · have hready := hp.copy_ready_after_forward (specOps fd bd) hc hs hk hcu h0 hsink
      obtain ⟨ck, hck, -⟩ := hp.midway (specOps fd bd) hcu k cu₀ hcu₀
      have hcons : ∀ c ∈ md.OutputUnitVector,
          c ∈ keys (afterForward (specOps fd bd) k cu s.1.um).m_unitMap := by
        intro c hcv
        show c ∈ keys (setAt _ _ _)
        rw [keys_setAt, hp.keysEq]
        rw [← hov] at hcv
        exact mem_keys_of_mem_forwardSources (hc.consumer k c hcv).2.2
      cases hcopy : m_forwardCopy (afterForward (specOps fd bd) k cu s.1.um) k with
      | none => exact absurd hcopy (m_forwardCopy_ne_none _ _ md ck hmd' hck hcons)
      | some um₂ =>
        unfold forwardCopyPhase
        simp only [Run.step_um, hready, hcopy]
        refine ⟨_, rfl, hp.after_forward_copy _ hc hcu h0 um₂ hcopy, Or.inr ⟨rfl, h0, ?_⟩⟩
        intro j
        rw [forwardCount_step_forwardCopy, forwardCount_step_forward]
  · have hr' : ¬ (specOps fd bd).IsForwardReady k cu cycle = true := hr
    rw [if_neg hr']
    have hready := hp.copy_not_ready hc hs hk hkey
    unfold forwardCopyPhase
    simp only [hready]
    exact ⟨s, rfl, hp, Or.inl ⟨rfl, hp.not_enabled hcu hr⟩⟩

theorem computed_lt_of_step (um₀ : UnitManager) (log log' : List Step) (k : UnitId)
    (hkey : k ∈ keys um₀.m_unitMap)
    (h : ∀ j, forwardCount log' j = forwardCount log j + if j = k then 1 else 0) :
    computed um₀ log < computed um₀ log' := by
  unfold computed
  apply List.sum_lt_sum
  · intro j _; rw [h j]; omega
  · exact ⟨k, hkey, by rw [h k, if_pos rfl]; omega⟩

theorem computed_le_length (um₀ : UnitManager) (log : List Step)
    (h : ∀ j, forwardCount log j ≤ 1) : computed um₀ log ≤ (keys um₀.m_unitMap).length := by
  unfold computed
  induction keys um₀.m_unitMap with
  | nil => simp
  | cons k rest ih =>
    simp only [List.map_cons, List.sum_cons, List.length_cons]
    have := h k
    omega

/-- One sweep of the forward pass of a validly wired graph: it does not raise,
and either nothing changes (no unit is enabled, `done` stays as it was), or
`done` is false and a unit ran for the first time. -/
theorem forwardSweep_progress (fd : UnitId → ComputableUnit → List Int)
    (bd : UnitId → ComputableUnit → UnitId → List Int) (cycle : Nat) {um₀ : UnitManager}
    (hc : ForwardCompiled um₀) (hs : ForwardSynced um₀) (hk : ForwardConsumed um₀) :
    ∀ l : List UnitId, (∀ k ∈ l, k ∈ keys um₀.m_unitMap) →
      ∀ s : Run × Bool, ForwardProgress um₀ s.1 →
        ∃ s', sweep (forwardVisit (specOps fd bd) cycle) l s = .ok s' ∧
          ForwardProgress um₀ s'.1 ∧
          ((s' = s ∧ ∀ k ∈ l, ¬ Enabled um₀ s.1.log k) ∨
           (s'.2 = false ∧ computed um₀ s.1.log < computed um₀ s'.1.log)) := by
  intro l
  induction l with
  | nil =>
    intro _ s hp
    exact ⟨s, rfl, hp, Or.inl ⟨rfl, fun k hk' => absurd hk' (List.not_mem_nil k)⟩⟩
  | cons k rest ih =>
    intro hl s hp
    obtain ⟨s₁, hv, hp₁, hcase₁⟩ :=
      forwardVisit_progress fd bd cycle hc hs hk (hl k (List.mem_cons_self _ _)) s hp
    obtain ⟨s', hsw, hp', hcase'⟩ :=
      ih (fun k' hk' => hl k' (List.mem_cons_of_mem _ hk')) s₁ hp₁
    refine ⟨s', by simp only [sweep, hv, hsw], hp', ?_⟩
    rcases hcase₁ with ⟨heq, hne⟩ | ⟨hflag, _, hfc⟩
    · subst heq
      rcases hcase' with ⟨heq', hall⟩ | hprog
      · left
        refine ⟨heq', ?_⟩
        intro k' hk'
        rcases List.mem_cons.mp hk' with h | h
        · subst h; exact hne
        · exact hall k' h
      · right; exact hprog
    · have hlt := computed_lt_of_step um₀ _ _ k (hl k (List.mem_cons_self _ _)) hfc
      right
      rcases hcase' with ⟨heq', -⟩ | ⟨hflag', hlt'⟩
      · subst heq'; exact ⟨hflag, hlt⟩
      · exact ⟨hflag', lt_trans hlt hlt'⟩

/-- The sweeps of the forward pass of a validly wired graph reach a sweep that
changes nothing, and `Forward` returns there. -/
theorem forwardLoop_returns (fd : UnitId → ComputableUnit → List Int)
    (bd : UnitId → ComputableUnit → UnitId → List Int) (cycle : Nat) {um₀ : UnitManager}
    (hc : ForwardCompiled um₀) (hs : ForwardSynced um₀) (hk : ForwardConsumed um₀) :
    ∀ (n : Nat) (r : Run), ForwardProgress um₀ r →
      (keys um₀.m_unitMap).length ≤ computed um₀ r.log + n →
      ∃ r', sweepLoop (forwardVisit (specOps fd bd) cycle) (n + 1) r = .returned r' ∧
        ForwardProgress um₀ r' ∧ ∀ k ∈ keys um₀.m_unitMap, ¬ Enabled um₀ r'.log k := by
  intro n
  induction n with
  | zero =>
    intro r hp hle
    obtain ⟨s', hsw, hp', hcase⟩ := forwardSweep_progress fd bd cycle hc hs hk
      (keys um₀.m_unitMap) (fun _ h => h) (r, true) hp
    rcases hcase with ⟨heq, hall⟩ | ⟨_, hlt⟩
    · subst heq
      refine ⟨r, ?_, hp, hall⟩
      simp only [sweepLoop, hp.keysEq, hsw]
    · exfalso
      have := computed_le_length um₀ s'.1.log hp'.atMostOnce
      simp only at hlt
      omega
  | succ n ih =>
    intro r hp hle
    obtain ⟨s', hsw, hp', hcase⟩ := forwardSweep_progress fd bd cycle hc hs hk
      (keys um₀.m_unitMap) (fun _ h => h) (r, true) hp
    rcases hcase with ⟨heq, hall⟩ | ⟨hflag, hlt⟩
    · subst heq
      refine ⟨r, ?_, hp, hall⟩
      simp only [sweepLoop, hp.keysEq, hsw]
    · obtain ⟨r', b⟩ := s'
      simp only at hflag hlt hp'
      subst hflag
      obtain ⟨r'', hloop, hp'', hall⟩ := ih r' hp' (by omega)
      refine ⟨r'', ?_, hp'', hall⟩
      rw [sweepLoop]
      simp only [hp.keysEq, hsw]
      exact hloop

/-- In an acyclic graph in which no unit is enabled, every unit has run. -/
theorem all_computed_of_none_enabled {um₀ : UnitManager} (hc : ForwardCompiled um₀)
    (ha : Acyclic um₀) {log : List Step} (hle : ∀ k, forwardCount log k ≤ 1)
    (hne : ∀ k ∈ keys um₀.m_unitMap, ¬ Enabled um₀ log k) :
    ∀ k ∈ keys um₀.m_unitMap, forwardCount log k = 1 := by
  obtain ⟨rank, hrank⟩ := ha
  have key : ∀ n k, rank k < n → k ∈ keys um₀.m_unitMap → forwardCount log k = 1 := by
    intro n
    induction n with
    | zero => intro k h; omega
    | succ n ih =>
      intro k hlt hkey
      by_contra h1
      apply hne k hkey
      refine ⟨by have := hle k; omega, ?_⟩
      intro hsrc p hp
      obtain ⟨hpkey, hlisted⟩ := hc.producer p k hsrc hp
      have := hrank p k hlisted
      exact ih p (by omega) hpkey
  intro k hkey
  exact key (rank k + 1) k (Nat.lt_succ_self _) hkey

end Takion
namespace Takion

theorem keys_seedForward (m : List (UnitId × ComputableUnit)) :
    keys (seedForward m) = keys m := by
  rw [← keys_shape, shape_seedForward, keys_shape]

theorem forwardCount_forwardStart (um : UnitManager) (k : UnitId) :
    forwardCount (forwardStart um).log k = 0 := by
  simp only [forwardStart, Run.step, forwardCount_append_singleton]
  have : ¬ Event.seed = Event.forward k := fun h => by cases h
  simp [this, forwardCount]

theorem mem_bumpAll (m : List (UnitId × Tensor)) (e : UnitId × Tensor) (h : e ∈ bumpAll m) :
    ∃ e₀ ∈ m, e.1 = e₀.1 ∧ e.2.State = e₀.2.State + 1 := by
  unfold bumpAll at h
  obtain ⟨e₀, he₀, rfl⟩ := List.mem_map.mp h
  exact ⟨e₀, he₀, rfl, rfl⟩

/-- After the seeding the pass is between two visits, no unit invoked. -/
theorem ForwardProgress.start {um₀ : UnitManager} (hk : ForwardConsumed um₀) :
    ForwardProgress um₀ (forwardStart um₀) := by
  refine ⟨rfl, ?_, ?_, ?_, ?_⟩
  · show keys (seedForward _) = _
    exact keys_seedForward _
  · intro k; rw [forwardCount_forwardStart]; omega
  · intro k _; exact forwardCount_forwardStart _ _
  · intro k cu₀ hcu₀
    have hat : at? (forwardStart um₀).um.m_unitMap k
        = (at? um₀.m_unitMap k).map (fun cu =>
            if k.Type_.BaseType = UnitBaseType.Source then
              { cu with ForwardInputMap := bumpAll cu.ForwardInputMap }
            else cu) := at?_seedForward _ _
    rw [hcu₀] at hat
    refine ⟨_, hat, ?_⟩
    simp only [forwardCount_forwardStart, add_zero]
    by_cases hsrc : k.Type_.BaseType = UnitBaseType.Source
    · simp only [if_pos hsrc, true_and]
      refine ⟨keys_bumpAll _, ?_⟩
      intro e he
      obtain ⟨e₀, he₀, -, hst⟩ := mem_bumpAll _ _ he
      rw [hst, hk k cu₀ hcu₀ e₀ he₀]
    · simp only [if_neg hsrc, true_and, add_zero]
      intro e he
      exact hk k cu₀ hcu₀ e he

theorem versions_succ (n : Nat) :
    ∀ l l' : List (UnitId × Tensor), keys l' = keys l →
      (∀ e ∈ l', e.2.State = n + 1) → (∀ e ∈ l, e.2.State = n) →
      l'.map (fun e => (e.1, e.2.State)) = l.map (fun e => (e.1, e.2.State + 1)) := by
  intro l
  induction l with
  | nil =>
    intro l' hkeys _ _
    cases l' with
    | nil => rfl
    | cons a rest => simp [keys] at hkeys
  | cons a rest ih =>
    intro l' hkeys h' h
    cases l' with
    | nil => simp [keys] at hkeys
    | cons a' rest' =>
      simp only [keys, List.map_cons, List.cons.injEq] at hkeys
      simp only [List.map_cons, List.cons.injEq, Prod.mk.injEq]
      refine ⟨⟨hkeys.1, ?_⟩, ?_⟩
      · rw [h' a' (List.mem_cons_self _ _), h a (List.mem_cons_self _ _)]
      · exact ih rest' hkeys.2 (fun e he => h' e (List.mem_cons_of_mem _ he))
          (fun e he => h e (List.mem_cons_of_mem _ he))

/-- A validly wired graph, from checks over its finitely many entries. -/
theorem ForwardCompiled_of_check (um : UnitManager)
    (hids : ∀ e ∈ um.m_unitMetaDataMap, e.2.Id = e.1)
    (hdeclared : ∀ k ∈ keys um.m_unitMap, k ∈ keys um.m_unitMetaDataMap)
    (hnodup : ∀ e ∈ um.m_unitMetaDataMap, e.2.OutputUnitVector.Nodup)
    (hconsumer : ∀ p ∈ keys um.m_unitMetaDataMap, ∀ c ∈ outputVector um p,
      c.Type_.BaseType ≠ UnitBaseType.Source ∧ p.Type_.BaseType ≠ UnitBaseType.Sink ∧
        p ∈ forwardSources um c)
    (hproducer : ∀ c ∈ keys um.m_unitMap, c.Type_.BaseType ≠ UnitBaseType.Source →
      ∀ p ∈ forwardSources um c, p ∈ keys um.m_unitMap ∧ c ∈ outputVector um p)
    (hinputs : ∀ e ∈ um.m_unitMap, e.2.ForwardInputMap ≠ [])
    (houtputs : ∀ p ∈ keys um.m_unitMap, p.Type_.BaseType ≠ UnitBaseType.Sink →
      outputVector um p ≠ []) : ForwardCompiled um where
  ids := fun k md h => hids (k, md) (mem_of_at?_eq_some _ _ _ h)
  declared := hdeclared
  listedOnce := outputVector_nodup_of_check um hnodup
  consumer := fun p c hc => hconsumer p (mem_keys_of_mem_outputVector hc) c hc
  producer := fun p c hsrc hp => hproducer c (mem_keys_of_mem_forwardSources hp) hsrc p hp
  inputs := fun c cu h => hinputs (c, cu) (mem_of_at?_eq_some _ _ _ h)
  outputs := houtputs

theorem Acyclic_of_check (um : UnitManager) (rank : UnitId → Nat)
    (h : ∀ p ∈ keys um.m_unitMetaDataMap, ∀ c ∈ outputVector um p, rank p < rank c) :
    Acyclic um :=
  ⟨rank, fun p c hc => h p (mem_keys_of_mem_outputVector hc) c hc⟩

theorem ForwardConsumed_of_check (um : UnitManager)
    (h : ∀ u ∈ um.m_unitMap, ∀ e ∈ u.2.ForwardInputMap, e.2.State = u.2.ForwardStateCount) :
    ForwardConsumed um :=
  fun c cu hcu e he => h (c, cu) (mem_of_at?_eq_some _ _ _ hcu) e he

theorem chainGraph_forwardCompiled : ForwardCompiled chainGraph :=
  ForwardCompiled_of_check chainGraph (by decide) (by decide) (by decide) (by decide)
    (by decide) (by decide) (by decide)

theorem chainGraph_acyclic : Acyclic chainGraph :=
  Acyclic_of_check chainGraph (fun k => k.Id) (by decide)

theorem chainGraph_forwardConsumed : ForwardConsumed chainGraph :=
  ForwardConsumed_of_check chainGraph (by decide)

end Takion

namespace Takion

/-- C1, as amended: take a validly wired compiled graph (`ForwardCompiled`)
whose edges are acyclic, in a state where each consumer input slot's version
equals its producer's output version and the consumer's last-consumed version,
and take unit readiness as in the spec.  Then, with enough sweeps,
`Forward(cycle)` returns; `Forward()` was invoked exactly once on every unit of
the graph (and on nothing else); on return every forward input slot of every
unit has the key it had and a version exactly 1 greater than before the call;
and the state on return is again one where each slot's version equals its
producer's output version and its consumer's last-consumed version. -/
theorem Forward_computes_each_unit_once (fd : UnitId → ComputableUnit → List Int)
    (bd : UnitId → ComputableUnit → UnitId → List Int) (cycle : Nat) (um : UnitManager)
    (hc : ForwardCompiled um) (ha : Acyclic um) (hs : ForwardSynced um)
    (hk : ForwardConsumed um) :
    ∃ fuel r, Forward (specOps fd bd) cycle fuel um = .returned r ∧
      (∀ k, forwardCount r.log k = if k ∈ keys um.m_unitMap then 1 else 0) ∧
      (∀ c cu, at? um.m_unitMap c = some cu →
        ∃ cu', at? r.um.m_unitMap c = some cu' ∧
          cu'.ForwardInputMap.map (fun e => (e.1, e.2.State))
            = cu.ForwardInputMap.map (fun e => (e.1, e.2.State + 1))) ∧
      ForwardSynced r.um ∧ ForwardConsumed r.um := by
  obtain ⟨r, hloop, hp, hnone⟩ := forwardLoop_returns fd bd cycle hc hs hk
    (keys um.m_unitMap).length (forwardStart um) (ForwardProgress.start hk) (by omega)
  have hall := all_computed_of_none_enabled hc ha hp.atMostOnce hnone
  have hslot : ∀ c cu₀, at? um.m_unitMap c = some cu₀ →
      ∃ cu, at? r.um.m_unitMap c = some cu ∧
        cu.ForwardStateCount = cu₀.ForwardStateCount + 1 ∧
        cu.ForwardOutput.State = cu₀.ForwardOutput.State + 1 ∧
        keys cu.ForwardInputMap = keys cu₀.ForwardInputMap ∧
        ∀ e ∈ cu.ForwardInputMap, e.2.State = cu₀.ForwardStateCount + 1 := by
    intro c cu₀ hcu₀
    have hckey : c ∈ keys um.m_unitMap := (mem_keys_iff_at? _ _).mpr ⟨cu₀, hcu₀⟩
    obtain ⟨cu, hcu, hcount, hout, hkeys, hform⟩ := hp.units c cu₀ hcu₀
    rw [hall c hckey] at hcount hout
    refine ⟨cu, hcu, hcount, hout, hkeys, ?_⟩
    intro e he
    rw [hform e he]
    by_cases hsrc : c.Type_.BaseType = UnitBaseType.Source
    · rw [if_pos hsrc]
    · rw [if_neg hsrc]
      have hmem : e.1 ∈ forwardSources um c := by
        rw [forwardSources_eq_of_at? um c cu₀ hcu₀, ← hkeys]
        exact mem_keys_of_mem _ _ he
      rw [hall e.1 (hc.producer e.1 c hsrc hmem).1]
  refine ⟨(keys um.m_unitMap).length + 1, r, hloop, ?_, ?_, ?_, ?_⟩
  · intro k
    by_cases hkey : k ∈ keys um.m_unitMap
    · rw [if_pos hkey]; exact hall k hkey
    · rw [if_neg hkey]; exact hp.others k hkey
  · intro c cu₀ hcu₀
    obtain ⟨cu, hcu, -, -, hkeys, hver⟩ := hslot c cu₀ hcu₀
    exact ⟨cu, hcu, versions_succ _ _ _ hkeys hver (hk c cu₀ hcu₀)⟩
  · intro p c hpc out hout t ht
    have hpc₀ : c ∈ outputVector um p := by
      unfold outputVector at hpc ⊢
      rw [hp.metaData] at hpc
      exact hpc
    have hsrc := (hc.consumer p c hpc₀).2.2
    obtain ⟨cc₀, hcc₀⟩ := (mem_keys_iff_at? _ _).mp (mem_keys_of_mem_forwardSources hsrc)
    obtain ⟨pu₀, hpu₀⟩ := (mem_keys_iff_at? _ _).mp
      (hc.producer p c (hc.consumer p c hpc₀).1 hsrc).1
    obtain ⟨cc, hcc, -, -, -, hver⟩ := hslot c cc₀ hcc₀
    obtain ⟨pu, hpu, -, hpout, -, -⟩ := hslot p pu₀ hpu₀
    simp only [forwardOutput, hpu, Option.map_some', Option.some.injEq] at hout
    subst hout
    simp only [edgeSlots, hcc] at ht
    rw [mem_slotsKeyed] at ht
    have h1 := hver _ ht
    have h2 := hc.edge_base hs hk hpc₀ hpu₀ hcc₀
    simp only at h1
    omega
  · intro c cu hcu e he
    have hckey : c ∈ keys um.m_unitMap := by
      rw [← hp.keysEq]; exact (mem_keys_iff_at? _ _).mpr ⟨cu, hcu⟩
    obtain ⟨cu₀, hcu₀⟩ := (mem_keys_iff_at? _ _).mp hckey
    obtain ⟨cu', hcu', hcount, -, -, hver⟩ := hslot c cu₀ hcu₀
    rw [hcu] at hcu'
    cases hcu'
    rw [hver e he, hcount]

/-- Witness for C1 on the chain `Constant → Dense → MSE`. -/
theorem Forward_computes_each_unit_once_witness :
    ∃ fuel r, Forward exampleOps 0 fuel chainGraph = .returned r ∧
      (∀ k, forwardCount r.log k = if k ∈ keys chainGraph.m_unitMap then 1 else 0) ∧
      (∀ c cu, at? chainGraph.m_unitMap c = some cu →
        ∃ cu', at? r.um.m_unitMap c = some cu' ∧
          cu'.ForwardInputMap.map (fun e => (e.1, e.2.State))
            = cu.ForwardInputMap.map (fun e => (e.1, e.2.State + 1))) ∧
      ForwardSynced r.um ∧ ForwardConsumed r.um :=
  Forward_computes_each_unit_once (fun _ _ => [1]) (fun _ _ _ => [2]) 0 chainGraph
    chainGraph_forwardCompiled chainGraph_acyclic chainGraph_forwardSynced
    chainGraph_forwardConsumed

end Takion

namespace Takion

/-! ## A unit without consumers keeps the forward sweep going -/

theorem m_isForwardCopyReady_of_dangling (um : UnitManager) (k : UnitId) (md : UnitMetaData)
    (unit : ComputableUnit) (hmd : at? um.m_unitMetaDataMap k = some md)
    (hunit : at? um.m_unitMap k = some unit)
    (hns : md.Id.Type_.BaseType ≠ UnitBaseType.Sink) (hempty : md.OutputUnitVector = []) :
    m_isForwardCopyReady um k = some true := by
  unfold m_isForwardCopyReady
  simp only [hmd, hunit]
  rw [if_neg hns, hempty]
  rfl

/-- One visit of the forward sweep in a graph whose lookups succeed, whatever the
units do: it does not raise, the wiring stays, `done` is not set back to true,
and it is false after the visit of a unit that is not a Sink and lists no
consumer. -/
theorem forwardVisit_closed (ops : UnitOps) (cycle : Nat) {um₀ : UnitManager}
    (hcl : ForwardClosed um₀) {key : UnitId} (hkey : key ∈ keys um₀.m_unitMap)
    (s : Run × Bool) (hs : SameShape um₀ s.1.um) :
    ∃ s', forwardVisit ops cycle key s = .ok s' ∧ SameShape um₀ s'.1.um ∧
      (s.2 = false → s'.2 = false) ∧ (Dangling um₀ key → s'.2 = false) := by
  obtain ⟨md, hmd, hcons⟩ := hcl key hkey
  have hkey' : key ∈ keys s.1.um.m_unitMap := by rw [hs.keys_eq]; exact hkey
  obtain ⟨unit, hunit⟩ := (mem_keys_iff_at? _ _).mp hkey'
  unfold forwardVisit
  simp only [hunit]
  -- the state after the first `if`
  have h1 : ∃ s₁, forwardComputePhase ops cycle key unit s = s₁ ∧ SameShape um₀ s₁.1.um ∧
      (s.2 = false → s₁.2 = false) := by
    rw [forwardComputePhase_eq]
    by_cases hr : ops.IsForwardReady key unit cycle = true
    · rw [if_pos hr]
      refine ⟨_, rfl, ?_, fun _ => rfl⟩
      exact SameShape.same_trans hs
        ⟨rfl, shape_setAt _ _ unit _ hunit (unitShape_update_forward ops key unit)⟩
    · rw [if_neg hr]
      exact ⟨s, rfl, hs, fun h => h⟩
  obtain ⟨s₁, hs₁, hshape₁, hflag₁⟩ := h1
  rw [hs₁]
  have hmd₁ : at? s₁.1.um.m_unitMetaDataMap key = some md := by rw [hshape₁.1]; exact hmd
  have hkey₁ : key ∈ keys s₁.1.um.m_unitMap := by rw [hshape₁.keys_eq]; exact hkey
  obtain ⟨unit₁, hunit₁⟩ := (mem_keys_iff_at? _ _).mp hkey₁
  have hcons₁ : ∀ c ∈ md.OutputUnitVector, c ∈ keys s₁.1.um.m_unitMap := by
    intro c hc; rw [hshape₁.keys_eq]; exact hcons c hc
  unfold forwardCopyPhase
  cases hready : m_isForwardCopyReady s₁.1.um key with
  | none => exact absurd hready (m_isForwardCopyReady_ne_none _ _ md unit₁ hmd₁ hunit₁ hcons₁)
  | some b =>
    cases b with
    | false =>
      simp only
      refine ⟨s₁, rfl, hshape₁, hflag₁, ?_⟩
      rintro ⟨-, md', hmd', hns, hempty⟩
      rw [hmd] at hmd'
      cases hmd'
      rw [m_isForwardCopyReady_of_dangling _ _ md unit₁ hmd₁ hunit₁ hns hempty] at hready
      cases hready
    | true =>
      cases hcopy : m_forwardCopy s₁.1.um key with
      | none => exact absurd hcopy (m_forwardCopy_ne_none _ _ md unit₁ hmd₁ hunit₁ hcons₁)
      | some um' =>
        simp only
        exact ⟨_, rfl, SameShape.same_trans hshape₁ (SameShape_m_forwardCopy _ _ _ hcopy),
          fun _ => rfl, fun _ => rfl⟩

theorem forwardSweep_closed (ops : UnitOps) (cycle : Nat) {um₀ : UnitManager}
    (hcl : ForwardClosed um₀) :
    ∀ l : List UnitId, (∀ k ∈ l, k ∈ keys um₀.m_unitMap) →
      ∀ s : Run × Bool, SameShape um₀ s.1.um →
        ∃ s', sweep (forwardVisit ops cycle) l s = .ok s' ∧ SameShape um₀ s'.1.um ∧
          (s.2 = false → s'.2 = false) ∧ ((∃ k ∈ l, Dangling um₀ k) → s'.2 = false) := by
  intro l
  induction l with
  | nil =>
    intro _ s hs
    exact ⟨s, rfl, hs, fun h => h, fun ⟨k, hk, _⟩ => absurd hk (List.not_mem_nil k)⟩
  | cons k rest ih =>
    intro hl s hs
    obtain ⟨s₁, hv, hs₁, hflag₁, hd₁⟩ :=
      forwardVisit_closed ops cycle hcl (hl k (List.mem_cons_self _ _)) s hs
    obtain ⟨s', hsw, hs', hflag', hd'⟩ :=
      ih (fun k' hk' => hl k' (List.mem_cons_of_mem _ hk')) s₁ hs₁
    refine ⟨s', by simp only [sweep, hv, hsw], hs', fun h => hflag' (hflag₁ h), ?_⟩
    rintro ⟨k', hk', hdang⟩
    rcases List.mem_cons.mp hk' with h | h
    · subst h; exact hflag' (hd₁ hdang)
    · exact hd' ⟨k', h, hdang⟩

/-- In a graph whose lookups succeed and that has a unit, not a Sink, listing
no consumer, the loop of `Forward` is still running after any number of
sweeps, whatever the units do. -/
theorem forwardLoop_running_of_dangling (ops : UnitOps) (cycle : Nat) {um₀ : UnitManager}
    (hcl : ForwardClosed um₀) {k : UnitId} (hd : Dangling um₀ k) :
    ∀ (fuel : Nat) (r : Run), SameShape um₀ r.um →
      ∃ r', sweepLoop (forwardVisit ops cycle) fuel r = .running r' := by
  intro fuel
  induction fuel with
  | zero => intro r _; exact ⟨r, rfl⟩
  | succ n ih =>
    intro r hr
    obtain ⟨s', hsw, hs', -, hflag⟩ := forwardSweep_closed ops cycle hcl
      (keys r.um.m_unitMap) (fun k' hk' => by rw [← hr.keys_eq]; exact hk') (r, true) hr
    obtain ⟨r', b⟩ := s'
    have hb : b = false := hflag ⟨k, by rw [hr.keys_eq]; exact hd.1, hd⟩
    subst hb
    obtain ⟨r'', hloop⟩ := ih r' hs'
    refine ⟨r'', ?_⟩
    rw [sweepLoop]
    simp only [hsw]
    exact hloop

theorem Forward_running_of_dangling (ops : UnitOps) (cycle fuel : Nat) {um : UnitManager}
    (hcl : ForwardClosed um) {k : UnitId} (hd : Dangling um k) :
    ∃ r, Forward ops cycle fuel um = .running r :=
  forwardLoop_running_of_dangling ops cycle hcl hd fuel (forwardStart um)
    ⟨rfl, shape_seedForward _⟩

theorem ForwardClosed_of_check (um : UnitManager)
    (hdeclared : ∀ k ∈ keys um.m_unitMap, k ∈ keys um.m_unitMetaDataMap)
    (hcons : ∀ k ∈ keys um.m_unitMap, ∀ c ∈ outputVector um k, c ∈ keys um.m_unitMap) :
    ForwardClosed um := by
  intro k hk
  obtain ⟨md, hmd⟩ := (mem_keys_iff_at? _ _).mp (hdeclared k hk)
  refine ⟨md, hmd, ?_⟩
  have := hcons k hk
  rw [outputVector_eq_of_at? um k md hmd] at this
  exact this

end Takion

namespace Takion

/-- Counterexample to C1 as stated: the compiled graph `Constant → Dense` with no
loss is acyclic, every slot's version equals its producer's output version and
its unit's last-consumed version; but the `Dense` unit is not a Sink and lists
no consumer, so `m_isForwardCopyReady` holds for it at every visit, `done` is
reset in every sweep, and `Forward` never returns: whatever the units do and
whatever the number of sweeps, it is still running. -/
theorem Forward_dangling_never_returns :
    Acyclic danglingGraph ∧ ForwardSynced danglingGraph ∧ ForwardConsumed danglingGraph ∧
    ∀ (ops : UnitOps) (cycle fuel : Nat), ∃ r, Forward ops cycle fuel danglingGraph = .running r :=
  ⟨Acyclic_of_check _ (fun k => k.Id) (by decide), ForwardSynced_of_check _ (by decide),
    ForwardConsumed_of_check _ (by decide),
    fun ops cycle fuel =>
      Forward_running_of_dangling ops cycle fuel
        (ForwardClosed_of_check danglingGraph (by decide) (by decide))
        (show Dangling danglingGraph uDense from ⟨by decide, _, rfl, by decide, rfl⟩)⟩

end Takion

namespace Takion

/-! ## The optimizer name is examined at `Dense` entries only -/

theorem m_makeOptimizer_of_ne (optimizerName : String) (h : optimizerName ≠ "SGD") :
    m_makeOptimizer optimizerName = some CompileError.UnsupportedOptimizerType := by
  unfold m_makeOptimizer
  rw [if_neg h]

theorem compileEntry_dense_unsupported (factory : UnitFactory) (optimizerName : String)
    (md : UnitMetaData) (unitMap : List (UnitId × ComputableUnit))
    (h : optimizerName ≠ "SGD") (hd : md.Id.Type_.Name = "Dense") :
    compileEntry factory optimizerName md unitMap
      = .error CompileError.UnsupportedOptimizerType := by
  unfold compileEntry
  have h1 : ¬ md.Id.Type_.Name = "DataLoader" := by rw [hd]; decide
  simp only
  rw [if_neg h1, if_pos hd, m_makeOptimizer_of_ne optimizerName h]

theorem compileEntry_not_dense (factory : UnitFactory) (optimizerName other : String)
    (md : UnitMetaData) (unitMap : List (UnitId × ComputableUnit))
    (hd : md.Id.Type_.Name ≠ "Dense") :
    compileEntry factory optimizerName md unitMap = compileEntry factory other md unitMap := by
  unfold compileEntry
  simp only
  by_cases h1 : md.Id.Type_.Name = "DataLoader"
  · rw [if_pos h1, if_pos h1]
  · rw [if_neg h1, if_neg h1, if_neg hd, if_neg hd]

theorem compileLoop_dense_unsupported (factory : UnitFactory) (optimizerName : String)
    (h : optimizerName ≠ "SGD") :
    ∀ (entries : List (UnitId × UnitMetaData)) (unitMap : List (UnitId × ComputableUnit)),
      (∃ e ∈ entries, e.2.Id.Type_.Name = "Dense") →
      (compileLoop factory optimizerName entries unitMap).2 ≠ none := by
  intro entries
  induction entries with
  | nil => intro _ ⟨e, he, _⟩; exact absurd he (List.not_mem_nil e)
  | cons e rest ih =>
    intro unitMap hex
    obtain ⟨k, md⟩ := e
    by_cases hd : md.Id.Type_.Name = "Dense"
    · simp only [compileLoop, compileEntry_dense_unsupported factory optimizerName md unitMap h hd]
      simp
    · cases hce : compileEntry factory optimizerName md unitMap with
      | error err => simp only [compileLoop, hce]; simp
      | ok unitMap' =>
        simp only [compileLoop, hce]
        apply ih
        obtain ⟨e', he', hd'⟩ := hex
        rcases List.mem_cons.mp he' with heq | hmem
        · subst heq; exact absurd hd' hd
        · exact ⟨e', hmem, hd'⟩

theorem compileLoop_not_dense (factory : UnitFactory) (optimizerName other : String) :
    ∀ (entries : List (UnitId × UnitMetaData)) (unitMap : List (UnitId × ComputableUnit)),
      (∀ e ∈ entries, e.2.Id.Type_.Name ≠ "Dense") →
      compileLoop factory optimizerName entries unitMap
        = compileLoop factory other entries unitMap := by
  intro entries
  induction entries with
  | nil => intro _ _; rfl
  | cons e rest ih =>
    intro unitMap hall
    obtain ⟨k, md⟩ := e
    have hd : md.Id.Type_.Name ≠ "Dense" := hall (k, md) (List.mem_cons_self _ _)
    simp only [compileLoop, compileEntry_not_dense factory optimizerName other md unitMap hd]
    cases compileEntry factory other md unitMap with
    | error err => rfl
    | ok unitMap' =>
      exact ih unitMap' (fun e' he' => hall e' (List.mem_cons_of_mem _ he'))

end Takion

namespace Takion

/-- C11, as amended: for every declared graph and every optimizer name other
than `"SGD"`, `Compile` fails with an error when the graph has an entry of type
`Dense`; when it has none, the optimizer name is never examined and `Compile`
does exactly what it does with `"SGD"`. -/
theorem Compile_unsupported_optimizer (factory : UnitFactory) (optimizerName : String)
    (um : UnitManager) (h : optimizerName ≠ "SGD") :
    ((∃ e ∈ um.m_unitMetaDataMap, e.2.Id.Type_.Name = "Dense") →
      (Compile factory optimizerName um).2 ≠ none) ∧
    ((∀ e ∈ um.m_unitMetaDataMap, e.2.Id.Type_.Name ≠ "Dense") →
      Compile factory optimizerName um = Compile factory "SGD" um) := by
  constructor
  · intro hex
    exact compileLoop_dense_unsupported factory optimizerName h _ _ hex
  · intro hall
    simp only [Compile, compileLoop_not_dense factory optimizerName "SGD" _ _ hall]

/-- Witness for C11 (amended): the chain `Constant → Dense → MSE` does not
compile with the optimizer name `"Adam"`. -/
theorem Compile_unsupported_optimizer_witness :
    "Adam" ≠ "SGD" ∧ (Compile blankFactory "Adam" chainGraph).2 ≠ none :=
  ⟨by decide,
    (Compile_unsupported_optimizer blankFactory "Adam" chainGraph (by decide)).1
      ⟨(uDense, { Id := uDense, OutputUnitVector := [uLoss] }), by decide, rfl⟩⟩

/-- Counterexample to C11 as stated: the declared graph `Constant → ReLU → MSE`
has no `Dense` unit; with the optimizer name `"Adam"`, `Compile` returns
normally and has created the three units. -/
theorem Compile_ignores_optimizer_without_dense :
    "Adam" ≠ "SGD" ∧
    (Compile blankFactory "Adam" activationGraph).2 = none ∧
    keys (Compile blankFactory "Adam" activationGraph).1.m_unitMap = [uSrc, uReLU, uLoss] := by
  refine ⟨by decide, by decide, by decide⟩

end Takion

namespace CubbyDNN

/-! ## Identifiers handed back by the builder -/

theorem connectUnits_extends (ot dt : UnitType) (oi di idx : Nat) (e e' : Engine)
    (h : connectUnits ot oi dt di idx e = some e') : Extends e e' := by
  cases ho : (e.units ot)[oi]? with
  | none => simp [connectUnits, ho] at h
  | some origin =>
    cases hd : (e.units dt)[di]? with
    | none => simp [connectUnits, ho, hd] at h
    | some dest =>
      obtain ⟨e'', c, pred, hrun, hext, -⟩ := connectUnits_spec ot dt oi di idx e origin dest ho hd
      rw [hrun] at h
      cases h
      exact hext

theorem connectToHidden_extends (sid : Nat) :
    ∀ (P : List UnitIdentifier) (first : Nat) (e e' : Engine),
      (connectToHidden sid P first e = .ok e' ∨ connectToHidden sid P first e = .error e') →
      Extends e e' := by
  intro P
  induction P with
  | nil =>
    intro first e e' h
    rcases h with h | h
    · simp only [connectToHidden, Except.ok.injEq] at h
      subst h; exact Extends.extends_refl e
    · simp [connectToHidden] at h
  | cons p rest ih =>
    intro first e e' h
    unfold connectToHidden at h
    by_cases hs : p.Type_ = UnitType.Source
    · simp only [if_pos hs] at h
      cases hc : m_connectSourceToHidden p.ID sid first e with
      | none =>
        simp only [hc] at h
        rcases h with h | h
        · cases h
        · cases h; exact Extends.extends_refl e
      | some e₁ =>
        simp only [hc] at h
        exact Extends.extends_trans (connectUnits_extends _ _ _ _ _ _ _ hc) (ih _ _ _ h)
    · simp only [if_neg hs] at h
      by_cases hh : p.Type_ = UnitType.Hidden
      · simp only [if_pos hh] at h
        cases hc : m_connectHiddenToHidden p.ID sid first e with
        | none =>
          simp only [hc] at h
          rcases h with h | h
          · cases h
          · cases h; exact Extends.extends_refl e
        | some e₁ =>
          simp only [hc] at h
          exact Extends.extends_trans (connectUnits_extends _ _ _ _ _ _ _ hc) (ih _ _ _ h)
      · simp only [if_neg hh] at h
        exact ih _ _ _ h

theorem connectToSink_extends (sid : Nat) :
    ∀ (P : List UnitIdentifier) (first : Nat) (e e' : Engine),
      (connectToSink sid P first e = .ok e' ∨ connectToSink sid P first e = .error e') →
      Extends e e' := by
  intro P
  induction P with
  | nil =>
    intro first e e' h
    rcases h with h | h
    · simp only [connectToSink, Except.ok.injEq] at h
      subst h; exact Extends.extends_refl e
    · simp [connectToSink] at h
  | cons p rest ih =>
    intro first e e' h
    unfold connectToSink at h
    by_cases hh : p.Type_ = UnitType.Hidden
    · simp only [if_pos hh] at h
      cases hc : m_connectHiddenToSink p.ID sid first e with
      | none =>
        simp only [hc] at h
        rcases h with h | h
        · cases h
        · cases h; exact Extends.extends_refl e
      | some e₁ =>
        simp only [hc] at h
        exact Extends.extends_trans (connectUnits_extends _ _ _ _ _ _ _ hc) (ih _ _ _ h)
    · simp only [if_neg hh] at h
      exact ih _ _ _ h

/-- The last part of a builder call: whether it returns or raises, the engine it
leaves holds the units it was given, and what it returns is the identifier it
was given. -/
theorem connectAndReturn_extends (P : List UnitIdentifier) (id : UnitIdentifier) (e : Engine) :
    Extends e (connectAndReturn P id e).engine ∧
    ∀ e' id', connectAndReturn P id e = .ok e' id' → id' = id := by
  unfold connectAndReturn
  cases hc : m_connectWithPreviousUnit P id e with
  | error e₁ =>
    refine ⟨?_, fun e' id' h => by cases h⟩
    show Extends e e₁
    unfold m_connectWithPreviousUnit at hc
    by_cases hh : id.Type_ = UnitType.Hidden
    · rw [if_pos hh] at hc
      exact connectToHidden_extends _ _ _ _ _ (Or.inr hc)
    · rw [if_neg hh] at hc
      by_cases hk : id.Type_ = UnitType.Sink
      · rw [if_pos hk] at hc
        exact connectToSink_extends _ _ _ _ _ (Or.inr hc)
      · rw [if_neg hk] at hc
        cases hc
  | ok e₁ =>
    refine ⟨?_, fun e' id' h => by cases h; rfl⟩
    show Extends e e₁
    unfold m_connectWithPreviousUnit at hc
    by_cases hh : id.Type_ = UnitType.Hidden
    · rw [if_pos hh] at hc
      exact connectToHidden_extends _ _ _ _ _ (Or.inl hc)
    · rw [if_neg hh] at hc
      by_cases hk : id.Type_ = UnitType.Sink
      · rw [if_pos hk] at hc
        exact connectToSink_extends _ _ _ _ _ (Or.inl hc)
      · rw [if_neg hk] at hc
        cases hc
        exact Extends.extends_refl e

theorem Grows.grows_refl (e : Engine) : Grows e e :=
  ⟨fun _ _ u hu => ⟨u, [], hu, by simp, rfl, rfl, rfl⟩, ⟨[], by simp⟩⟩

theorem Grows.grows_trans {a b c : Engine} (h₁ : Grows a b) (h₂ : Grows b c) : Grows a c := by
  obtain ⟨hu₁, ⟨m₁, hc₁⟩⟩ := h₁
  obtain ⟨hu₂, ⟨m₂, hc₂⟩⟩ := h₂
  refine ⟨fun t i u hu => ?_, ⟨m₁ ++ m₂, by simp [hc₂, hc₁]⟩⟩
  obtain ⟨u₁, more₁, hu₁', ho₁, hs₁, hi₁, hv₁⟩ := hu₁ t i u hu
  obtain ⟨u₂, more₂, hu₂', ho₂, hs₂, hi₂, hv₂⟩ := hu₂ t i u₁ hu₁'
  exact ⟨u₂, more₁ ++ more₂, hu₂', by simp [ho₂, ho₁], hs₂.trans hs₁, hi₂.trans hi₁,
    hv₂.trans hv₁⟩

theorem Extends.grows {e e' : Engine} (h : Extends e e') : Grows e e' := ⟨h.1, h.2.2.1⟩

theorem Grows.length_le {e e' : Engine} (h : Grows e e') (t : UnitType) :
    (e.units t).length ≤ (e'.units t).length := by
  by_contra hlt
  push_neg at hlt
  have hpos : (e.units t).length - 1 < (e.units t).length := by omega
  obtain ⟨u', _, hu', _⟩ := h.1 t ((e.units t).length - 1) _ (List.getElem?_eq_getElem hpos)
  have := (List.getElem?_eq_some.mp hu').1
  omega

end CubbyDNN
namespace CubbyDNN

theorem Grows_of_append (e e' : Engine)
    (h : ∀ t, ∃ more, e'.units t = e.units t ++ more)
    (hc : e'.m_copyUnitVector = e.m_copyUnitVector) : Grows e e' := by
  refine ⟨fun t i u hu => ?_, ⟨[], by simp [hc]⟩⟩
  obtain ⟨more, hm⟩ := h t
  refine ⟨u, [], ?_, by simp, rfl, rfl, rfl⟩
  rw [hm]
  have hi : i < (e.units t).length := (List.getElem?_eq_some.mp hu).1
  rw [List.getElem?_append_left hi]
  exact hu

/-- What a builder call that appends one unit of kind `k` and then connects it
leaves and returns. -/
theorem connect_after_append (e e₁ : Engine) (k : UnitType) (P : List UnitIdentifier)
    (hg : Grows e e₁)
    (hlen : ∀ t, (e₁.units t).length = (e.units t).length + if t = k then 1 else 0) :
    Grows e (connectAndReturn P { Type_ := k, ID := (e.units k).length } e₁).engine ∧
    ∀ e' id, connectAndReturn P { Type_ := k, ID := (e.units k).length } e₁ = .ok e' id →
      id = { Type_ := k, ID := (e.units k).length } ∧
      (e'.units k).length = (e.units k).length + 1 ∧
      ∀ t, t ≠ k → (e'.units t).length = (e.units t).length := by
  obtain ⟨hext, hid⟩ := connectAndReturn_extends P { Type_ := k, ID := (e.units k).length } e₁
  refine ⟨Grows.grows_trans hg hext.grows, ?_⟩
  intro e' id hok
  rw [hok] at hext
  have hl := hext.2.1
  refine ⟨hid e' id hok, ?_, ?_⟩
  · rw [show (e'.units k).length = (e₁.units k).length from hl k, hlen k, if_pos rfl]
  · intro t ht
    rw [show (e'.units t).length = (e₁.units t).length from hl t, hlen t, if_neg ht]
    rfl

theorem Engine.call_spec (e : Engine) (c : BuilderCall) :
    Grows e (e.call c).engine ∧
    ∀ e' id, e.call c = .ok e' id →
      id = { Type_ := c.kind, ID := (e.units c.kind).length } ∧
      (e'.units c.kind).length = (e.units c.kind).length + 1 ∧
      ∀ t, t ≠ c.kind → (e'.units t).length = (e.units t).length := by
  cases c with
  | Source info n =>
    refine ⟨Grows_of_append _ _ (fun t => ?_) rfl, ?_⟩
    · cases t
      · exact ⟨[ComputeUnit.make [] info], rfl⟩
      all_goals exact ⟨[], by simp [Engine.call, Engine.Source, Result.engine, Engine.units]⟩
    · intro e' id h
      simp only [Engine.call, Engine.Source, Result.ok.injEq] at h
      obtain ⟨rfl, rfl⟩ := h
      refine ⟨rfl, by simp [BuilderCall.kind, Engine.units], ?_⟩
      intro t ht
      cases t <;> simp_all [BuilderCall.kind, Engine.units]
  | Constant info n =>
    refine ⟨Grows_of_append _ _ (fun t => ?_) rfl, ?_⟩
    · cases t
      · exact ⟨[ComputeUnit.make [] info], rfl⟩
      all_goals exact ⟨[], by simp [Engine.call, Engine.Constant, Result.engine, Engine.units]⟩
    · intro e' id h
      simp only [Engine.call, Engine.Constant, Result.ok.injEq] at h
      obtain ⟨rfl, rfl⟩ := h
      refine ⟨rfl, by simp [BuilderCall.kind, Engine.units], ?_⟩
      intro t ht
      cases t <;> simp_all [BuilderCall.kind, Engine.units]
  | Hidden P info n =>
    simp only [Engine.call, Engine.Hidden, BuilderCall.kind]
    cases collectInputInfo e P with
    | none => exact ⟨Grows.grows_refl e, fun e' id h => by cases h⟩
    | some infos =>
      simp only
      apply connect_after_append e _ UnitType.Hidden P
      · exact Grows_of_append _ _ (fun t => by
          cases t
          case Hidden => exact ⟨[ComputeUnit.make infos info], rfl⟩
          all_goals exact ⟨[], by simp [Engine.units]⟩) rfl
      · intro t; cases t <;> simp [Engine.units]
  | Multiply unitA unitB n =>
    simp only [Engine.call, Engine.Multiply, BuilderCall.kind]
    cases outputInfoOf e unitA with
    | none => exact ⟨Grows.grows_refl e, fun e' id h => by cases h⟩
    | some infoA =>
      cases outputInfoOf e unitB with
      | none => exact ⟨Grows.grows_refl e, fun e' id h => by cases h⟩
      | some infoB =>
        simp only
        by_cases h1 : (infoA.getD TensorInfo.default).GetShape.Col
            ≠ (infoB.getD TensorInfo.default).GetShape.Row
        · rw [if_pos h1]
          exact ⟨Grows.grows_refl e, fun e' id h => by cases h⟩
        · rw [if_neg h1]
          by_cases h2 : (infoA.getD TensorInfo.default).GetShape.BatchSize
              ≠ (infoB.getD TensorInfo.default).GetShape.BatchSize
          · rw [if_pos h2]
            exact ⟨Grows.grows_refl e, fun e' id h => by cases h⟩
          · rw [if_neg h2]
            apply connect_after_append e _ UnitType.Hidden [unitA, unitB]
            · exact Grows_of_append _ _ (fun t => by
                cases t
                case Hidden => exact ⟨[_], rfl⟩
                all_goals exact ⟨[], by simp [Engine.units]⟩) rfl
            · intro t; cases t <;> simp [Engine.units]
  | Sink P infos =>
    simp only [Engine.call, Engine.Sink, BuilderCall.kind]
    apply connect_after_append e _ UnitType.Sink P
    · exact Grows_of_append _ _ (fun t => by
        cases t
        case Sink => exact ⟨[ComputeUnit.make infos TensorInfo.default], rfl⟩
        all_goals exact ⟨[], by simp [Engine.units]⟩) rfl
    · intro t; cases t <;> simp [Engine.units]
  | OutputTest p =>
    simp only [Engine.call, Engine.OutputTest, BuilderCall.kind]
    cases (if p.Type_ = UnitType.Hidden then
        (e.m_hiddenUnitVector[p.ID]?).map (fun u => u.OutputTensorInfo)
      else (e.m_sourceUnitVector[p.ID]?).map (fun u => u.OutputTensorInfo)) with
    | none => exact ⟨Grows.grows_refl e, fun e' id h => by cases h⟩
    | some info =>
      simp only
      apply connect_after_append e _ UnitType.Sink [p]
      · exact Grows_of_append _ _ (fun t => by
          cases t
          case Sink => exact ⟨[ComputeUnit.make [info] TensorInfo.default], rfl⟩
          all_goals exact ⟨[], by simp [Engine.units]⟩) rfl
      · intro t; cases t <;> simp [Engine.units]

end CubbyDNN
namespace CubbyDNN

theorem handedBack_some (c : BuilderCall) (r : Result UnitIdentifier) (id : UnitIdentifier)
    (h : handedBack c r = some id) : ∃ e', r = .ok e' id := by
  cases c <;> cases r <;> simp [handedBack] at h <;> exact ⟨_, by rw [h]⟩

/-- A sequence of builder calls: the units of the start are kept, the
identifiers handed back are distinct, and each of them points into the final
engine, at or after the end of the collection as it was at the start. -/
theorem Engine.calls_spec (cs : List BuilderCall) :
    ∀ e : Engine, Grows e (e.calls cs).1 ∧ (e.calls cs).2.Nodup ∧
      ∀ id ∈ (e.calls cs).2, (e.units id.Type_).length ≤ id.ID ∧
        id.ID < ((e.calls cs).1.units id.Type_).length := by
  induction cs with
  | nil => intro e; exact ⟨Grows.grows_refl e, List.nodup_nil, fun id h => by simp [Engine.calls] at h⟩
  | cons c rest ih =>
    intro e
    obtain ⟨hg, hok⟩ := e.call_spec c
    obtain ⟨hg', hnd, hids⟩ := ih (e.call c).engine
    have hfinal : (e.calls (c :: rest)).1 = ((e.call c).engine.calls rest).1 := rfl
    have hlist : (e.calls (c :: rest)).2
        = (handedBack c (e.call c)).toList ++ ((e.call c).engine.calls rest).2 := rfl
    rw [hfinal, hlist]
    refine ⟨Grows.grows_trans hg hg', ?_, ?_⟩
    · cases hb : handedBack c (e.call c) with
      | none => simpa using hnd
      | some id₀ =>
        obtain ⟨e₁, hcall⟩ := handedBack_some _ _ _ hb
        obtain ⟨hid, hlen, -⟩ := hok e₁ id₀ hcall
        simp only [Option.toList, List.singleton_append, List.nodup_cons]
        refine ⟨?_, hnd⟩
        intro hmem
        have := (hids id₀ hmem).1
        rw [hcall] at this
        simp only [Result.engine] at this
        rw [hid] at this
        simp only at this
        omega
    · intro id hmem
      rcases List.mem_append.mp hmem with h | h
      · cases hb : handedBack c (e.call c) with
        | none => rw [hb] at h; simp at h
        | some id₀ =>
          rw [hb] at h
          simp only [Option.toList, List.mem_singleton] at h
          subst h
          obtain ⟨e₁, hcall⟩ := handedBack_some _ _ _ hb
          obtain ⟨hid, hlen, -⟩ := hok e₁ id hcall
          have hle := hg'.length_le id.Type_
          rw [hcall] at hle
          simp only [Result.engine] at hle
          have h1 : id.Type_ = c.kind := by rw [hid]
          have h2 : id.ID = (e.units c.kind).length := by rw [hid]
          rw [h1] at hle ⊢
          rw [hcall]
          simp only [Result.engine]
          omega
      · have := hids id h
        have hle := hg.length_le id.Type_
        omega

end CubbyDNN

namespace CubbyDNN

/-- C16: `Engine::Source` and `Engine::Constant` return on every engine and
every argument, and `Engine::Hidden`, `Engine::Multiply` and
`Engine::OutputTest` return whenever their lookups succeed (the predecessors
are units of the engine, of compatible shapes for `Multiply`); a call that
returns hands back `{kind, i}`, `i` being the size of the collection of that
kind before the call, which is one unit longer after it (the other collections
keep their size); after any sequence of builder calls the engine still holds
every unit it held at the index it had, with its state counter and tensor
descriptions; and the identifiers a sequence of calls hands back are pairwise
distinct. -/
theorem builder_identifiers_stable (e : Engine) :
    (∀ (info : TensorInfo) (n : Nat),
      e.Source info n
        = .ok { e with m_sourceUnitVector := e.m_sourceUnitVector ++ [ComputeUnit.make [] info] }
            { Type_ := .Source, ID := e.m_sourceUnitVector.length }) ∧
    (∀ (info : TensorInfo) (n : Nat),
      e.Constant info n
        = .ok { e with m_sourceUnitVector := e.m_sourceUnitVector ++ [ComputeUnit.make [] info] }
            { Type_ := .Source, ID := e.m_sourceUnitVector.length }) ∧
    (∀ (P : List UnitIdentifier) (info : TensorInfo) (n : Nat),
      (∀ p ∈ P, (p.Type_ = UnitType.Source ∨ p.Type_ = UnitType.Hidden) ∧
        p.ID < (e.units p.Type_).length) →
      ∃ e', e.Hidden P info n
        = .ok e' { Type_ := .Hidden, ID := e.m_hiddenUnitVector.length }) ∧
    (∀ (unitA unitB : UnitIdentifier) (n : Nat) (a b : ComputeUnit),
      (unitA.Type_ = UnitType.Source ∨ unitA.Type_ = UnitType.Hidden) →
      (unitB.Type_ = UnitType.Source ∨ unitB.Type_ = UnitType.Hidden) →
      (e.units unitA.Type_)[unitA.ID]? = some a → (e.units unitB.Type_)[unitB.ID]? = some b →
      a.OutputTensorInfo.GetShape.Col = b.OutputTensorInfo.GetShape.Row →
      a.OutputTensorInfo.GetShape.BatchSize = b.OutputTensorInfo.GetShape.BatchSize →
      ∃ e', e.Multiply unitA unitB n
        = .ok e' { Type_ := .Hidden, ID := e.m_hiddenUnitVector.length }) ∧
    (∀ p : UnitIdentifier,
      (p.Type_ = UnitType.Hidden → p.ID < e.m_hiddenUnitVector.length) →
      (p.Type_ ≠ UnitType.Hidden → p.ID < e.m_sourceUnitVector.length) →
      ∃ e', e.OutputTest p = .ok e' { Type_ := .Sink, ID := e.m_sinkUnitVector.length }) ∧
    (∀ c e' id, e.call c = .ok e' id →
      id = { Type_ := c.kind, ID := (e.units c.kind).length } ∧
      (e'.units c.kind).length = (e.units c.kind).length + 1 ∧
      ∀ t, t ≠ c.kind → (e'.units t).length = (e.units t).length) ∧
    (∀ cs, Grows e (e.calls cs).1) ∧
    (∀ cs, (e.calls cs).2.Nodup) := by
  refine ⟨fun _ _ => rfl, fun _ _ => rfl, ?_, ?_, ?_, fun c => (e.call_spec c).2,
    fun cs => (Engine.calls_spec cs e).1, fun cs => (Engine.calls_spec cs e).2.1⟩
  · intro P info n hP
    obtain ⟨infos, hinfos⟩ := collectInputInfo_valid e P hP
    obtain ⟨e', hrun, -, -⟩ := connect_new_hidden e (ComputeUnit.make infos info) P hP
    exact ⟨e', by simp only [Engine.Hidden, hinfos]; exact hrun⟩
  · intro unitA unitB n a b hA hB ha hb hcol hbatch
    have hP : ∀ p ∈ [unitA, unitB], (p.Type_ = UnitType.Source ∨ p.Type_ = UnitType.Hidden) ∧
        p.ID < (e.units p.Type_).length := by
      intro p hp
      simp only [List.mem_cons, List.mem_singleton, List.not_mem_nil, or_false] at hp
      rcases hp with rfl | rfl
      · exact ⟨hA, (List.getElem?_eq_some_iff.mp ha).1⟩
      · exact ⟨hB, (List.getElem?_eq_some_iff.mp hb).1⟩
    obtain ⟨e', hrun, -, -⟩ := connect_new_hidden e
      (ComputeUnit.make [a.OutputTensorInfo, b.OutputTensorInfo]
        { GetShape := a.OutputTensorInfo.GetShape.mul b.OutputTensorInfo.GetShape })
      [unitA, unitB] hP
    refine ⟨e', ?_⟩
    simp only [Engine.Multiply, outputInfoOf_valid e unitA a hA ha,
      outputInfoOf_valid e unitB b hB hb, Option.getD_some, hcol, hbatch, ne_eq,
      not_true_eq_false, if_false]
    exact hrun
  · intro p hhid hsrc
    by_cases hh : p.Type_ = UnitType.Hidden
    · have hvalid := hhid hh
      have hP : ∀ q ∈ [p], q.Type_ = UnitType.Hidden ∧ q.ID < e.m_hiddenUnitVector.length := by
        intro q hq
        simp only [List.mem_singleton] at hq
        subst hq
        exact ⟨hh, hvalid⟩
      obtain ⟨e', hrun, -, -⟩ := connect_new_sink e
        (ComputeUnit.make [(e.m_hiddenUnitVector[p.ID]).OutputTensorInfo] TensorInfo.default)
        [p] hP
      refine ⟨e', ?_⟩
      simp only [Engine.OutputTest, hh, if_true, List.getElem?_eq_getElem hvalid,
        Option.map_some']
      exact hrun
    · have hvalid := hsrc hh
      refine ⟨{ e with
        m_sinkUnitVector := e.m_sinkUnitVector ++
          [ComputeUnit.make [(e.m_sourceUnitVector[p.ID]).OutputTensorInfo]
            TensorInfo.default] }, ?_⟩
      simp [Engine.OutputTest, hh, List.getElem?_eq_getElem hvalid, connectAndReturn,
        m_connectWithPreviousUnit, connectToSink]

/-- Witness for C16: `Source` and `Constant` on the empty engine hand back
`{Source, 0}`; `Hidden` on the engine with one Source unit, `Multiply` on the
engine with two Source units of shapes `(2, 3)` and `(3, 4)`, hand back
`{Hidden, 0}`; `OutputTest` on the engine with a Source and a Hidden unit hands
back `{Sink, 0}`; the `Source` call makes the Source collection one unit
longer. -/
theorem builder_identifiers_stable_witness :
    Engine.init.Source info23 1 = .ok engineS { Type_ := .Source, ID := 0 } ∧
    Engine.init.Constant info23 1 = .ok engineS { Type_ := .Source, ID := 0 } ∧
    (∃ e', engineS.Hidden [{ Type_ := .Source, ID := 0 }] info23 1
      = .ok e' { Type_ := .Hidden, ID := 0 }) ∧
    (∃ e', engineSS.Multiply { Type_ := .Source, ID := 0 } { Type_ := .Source, ID := 1 } 1
      = .ok e' { Type_ := .Hidden, ID := 0 }) ∧
    (∃ e', engineSH.OutputTest { Type_ := .Hidden, ID := 0 }
      = .ok e' { Type_ := .Sink, ID := 0 }) ∧
    (engineS.units (BuilderCall.Source info23 1).kind).length
      = (Engine.init.units (BuilderCall.Source info23 1).kind).length + 1 :=
  ⟨(builder_identifiers_stable Engine.init).1 info23 1,
   (builder_identifiers_stable Engine.init).2.1 info23 1,
   (builder_identifiers_stable engineS).2.2.1 [{ Type_ := .Source, ID := 0 }] info23 1
     (by decide),
   (builder_identifiers_stable engineSS).2.2.2.1 { Type_ := .Source, ID := 0 }
     { Type_ := .Source, ID := 1 } 1 (ComputeUnit.make [] info23) (ComputeUnit.make [] info34)
     (by decide) (by decide) (by decide) (by decide) (by decide) (by decide),
   (builder_identifiers_stable engineSH).2.2.2.2.1 { Type_ := .Hidden, ID := 0 }
     (fun _ => by decide) (fun h => absurd rfl h),
   ((builder_identifiers_stable Engine.init).2.2.2.2.2.1 (.Source info23 1) engineS
     { Type_ := .Source, ID := 0 } rfl).2.1⟩

end CubbyDNN

/-! # The graph backend: `mat_mul` and `mat_add` -/

namespace cubby_dnn

/-! ## Indexing with a `long` -/

theorem atLong_natCast {α : Type} (l : List α) (i : Nat) : atLong l (i : Int) = l[i]? := by
  unfold atLong
  have : ¬ ((i : Int) < 0) := by omega
  rw [if_neg this]
  simp

theorem atLong_eq_some {α : Type} (l : List α) (i : Int) (h0 : 0 ≤ i)
    (hlt : i < (l.length : Int)) : ∃ x, atLong l i = some x ∧ l[i.toNat]? = some x := by
  unfold atLong
  have : ¬ (i < 0) := by omega
  rw [if_neg this]
  have hi : i.toNat < l.length := by omega
  exact ⟨l[i.toNat], List.getElem?_eq_getElem hi, List.getElem?_eq_getElem hi⟩

theorem setLong_eq_some {α : Type} (l : List α) (i : Int) (x : α) (h0 : 0 ≤ i)
    (hlt : i < (l.length : Int)) : setLong l i x = some (l.set i.toNat x) := by
  unfold setLong
  have : ¬ (i < 0) := by omega
  have hi : i.toNat < l.length := by omega
  rw [if_neg this, if_pos hi]

theorem setLong_length {α : Type} (l l' : List α) (i : Int) (x : α)
    (h : setLong l i x = some l') : l'.length = l.length := by
  unfold setLong at h
  by_cases h0 : i < 0
  · rw [if_pos h0] at h; cases h
  · rw [if_neg h0] at h
    by_cases hi : i.toNat < l.length
    · rw [if_pos hi] at h; cases h; simp
    · rw [if_neg hi] at h; cases h

theorem length_emplace_until (n : Nat) (row : List Int) :
    n ≤ (emplace_until n row).length := by
  simp only [emplace_until, List.length_append, List.length_replicate]
  omega

/-! ## What the adjacency update leaves alone -/

theorem link_inputs_keeps (operation_id : Int) (ids : List Int) :
    ∀ g g' : Graph,
      (link_inputs operation_id ids g = .ok g' ∨ link_inputs operation_id ids g = .error g') →
      g'.tensor_object_vector = g.tensor_object_vector ∧
      g'.operation_vector = g.operation_vector ∧
      g'.adjacency_matrix.length = g.adjacency_matrix.length := by
  induction ids with
  | nil =>
    intro g g' h
    rcases h with h | h
    · simp only [link_inputs, Except.ok.injEq] at h; subst h; exact ⟨rfl, rfl, rfl⟩
    · simp [link_inputs] at h
  | cons tid rest ih =>
    intro g g' h
    unfold link_inputs at h
    cases ho : atLong g.tensor_object_vector tid with
    | none =>
      simp only [ho] at h
      rcases h with h | h
      · cases h
      · cases h; exact ⟨rfl, rfl, rfl⟩
    | some object =>
      simp only [ho] at h
      cases hr : atLong g.adjacency_matrix object.information.from_ with
      | none =>
        simp only [hr] at h
        rcases h with h | h
        · cases h
        · cases h; exact ⟨rfl, rfl, rfl⟩
      | some row =>
        simp only [hr] at h
        cases hs : setLong row operation_id tid with
        | none =>
          simp only [hs] at h
          rcases h with h | h
          · cases h
          · cases h; exact ⟨rfl, rfl, rfl⟩
        | some row' =>
          simp only [hs] at h
          cases hm : setLong g.adjacency_matrix object.information.from_ row' with
          | none =>
            simp only [hm] at h
            rcases h with h | h
            · cases h
            · cases h; exact ⟨rfl, rfl, rfl⟩
          | some matrix =>
            simp only [hm] at h
            obtain ⟨h1, h2, h3⟩ := ih _ _ h
            exact ⟨h1, h2, h3.trans (setLong_length _ _ _ _ hm)⟩

theorem add_operation_to_adjacency_eq (g : Graph) (operation_id : Int) :
    add_operation_to_adjacency g operation_id =
      match atLong g.operation_vector operation_id with
      | none => .error (with_new_row g)
      | some op => link_inputs operation_id op.input_tensor_vector (with_new_row g) := by
  simp [add_operation_to_adjacency, with_new_row, default_graph_size]

theorem add_operation_to_adjacency_keeps (g g' : Graph) (operation_id : Int)
    (h : add_operation_to_adjacency g operation_id = .ok g' ∨
      add_operation_to_adjacency g operation_id = .error g') :
    g'.tensor_object_vector = g.tensor_object_vector ∧
    g'.operation_vector = g.operation_vector ∧
    g'.adjacency_matrix.length = g.adjacency_matrix.length + 1 := by
  rw [add_operation_to_adjacency_eq] at h
  have hlen : (with_new_row g).adjacency_matrix.length = g.adjacency_matrix.length + 1 := by
    simp [with_new_row]
  cases ho : atLong g.operation_vector operation_id with
  | none =>
    simp only [ho] at h
    rcases h with h | h
    · cases h
    · cases h; exact ⟨rfl, rfl, hlen⟩
  | some op =>
    simp only [ho] at h
    obtain ⟨h1, h2, h3⟩ := link_inputs_keeps _ _ _ _ h
    exact ⟨h1, h2, h3.trans hlen⟩

theorem add_output_tensor_at_keeps (g g' : Graph) (operation_id tensor_id : Int)
    (h : add_output_tensor_at g operation_id tensor_id = some g') :
    g'.tensor_object_vector = g.tensor_object_vector ∧
    g'.operation_vector.length = g.operation_vector.length ∧
    g'.adjacency_matrix = g.adjacency_matrix := by
  unfold add_output_tensor_at at h
  cases ho : atLong g.operation_vector operation_id with
  | none => simp [ho] at h
  | some op =>
    simp only [ho] at h
    cases hs : setLong g.operation_vector operation_id
        { op with output_tensor_vector := op.output_tensor_vector ++ [tensor_id] } with
    | none => simp [hs] at h
    | some v =>
      simp only [hs, Option.some.injEq] at h
      subst h
      exact ⟨rfl, setLong_length _ _ _ _ hs, rfl⟩

/-- Two tensor objects are registered whether the call returns or raises. -/
theorem store_and_link_objects (kind : operation_kind) (new_shape : tensor_shape)
    (this_id : Int) (tensor1 tensor2 : tensor) (name : String) (d1 d2 : tensor_object)
    (g : Graph) :
    (store_and_link kind new_shape this_id tensor1 tensor2 name d1 d2 g).graph.tensor_object_vector
      = g.tensor_object_vector ++ [d1, d2] := by
  unfold store_and_link
  simp only
  split
  · simp [add_tensor_object]
  · rename_i g₃ h₃
    obtain ⟨ho₃, -, -⟩ := add_output_tensor_at_keeps _ _ _ _ h₃
    split
    · rw [ho₃]; simp [add_tensor_object]
    · rename_i g₄ h₄
      obtain ⟨ho₄, -, -⟩ := add_output_tensor_at_keeps _ _ _ _ h₄
      split
      · rename_i g₅ h₅
        obtain ⟨ho₅, -, -⟩ := add_operation_to_adjacency_keeps _ _ _ (Or.inr h₅)
        simp only [ho₅, add_operation, ho₄, ho₃]
        simp [add_tensor_object]
      · rename_i g₅ h₅
        obtain ⟨ho₅, -, -⟩ := add_operation_to_adjacency_keeps _ _ _ (Or.inl h₅)
        simp only [ho₅, add_operation, ho₄, ho₃]
        simp [add_tensor_object]

/-! ## When the lookups succeed -/

theorem add_output_tensor_at_ne_none (g : Graph) (operation_id tensor_id : Int)
    (h0 : 0 ≤ operation_id) (hlt : operation_id < (g.operation_vector.length : Int)) :
    add_output_tensor_at g operation_id tensor_id ≠ none := by
  unfold add_output_tensor_at
  obtain ⟨op, hop, -⟩ := atLong_eq_some g.operation_vector operation_id h0 hlt
  simp only [hop, setLong_eq_some _ _ _ h0 hlt]
  simp

theorem link_inputs_ok (n : Nat) (ids : List Int) :
    ∀ g : Graph, (∀ row ∈ g.adjacency_matrix, n < row.length) →
      (∀ tid ∈ ids, ∃ obj, atLong g.tensor_object_vector tid = some obj ∧
        0 ≤ obj.information.from_ ∧
        obj.information.from_ < (g.adjacency_matrix.length : Int)) →
      ∃ g', link_inputs n ids g = .ok g' := by
  induction ids with
  | nil => intro g _ _; exact ⟨g, rfl⟩
  | cons tid rest ih =>
    intro g hrows hids
    obtain ⟨obj, hobj, h0, hlt⟩ := hids tid (List.mem_cons_self _ _)
    obtain ⟨row, hrow, hrow'⟩ := atLong_eq_some g.adjacency_matrix _ h0 hlt
    have hmem : row ∈ g.adjacency_matrix := List.getElem?_mem hrow'
    have hn := hrows row hmem
    have hset := setLong_eq_some row (n : Int) tid (by omega) (by omega)
    have hset' := setLong_eq_some g.adjacency_matrix obj.information.from_
      (row.set (n : Int).toNat tid) h0 hlt
    unfold link_inputs
    simp only [hobj, hrow, hset, hset']
    apply ih
    · intro r hr
      simp only at hr
      rcases List.mem_or_eq_of_mem_set hr with h | h
      · exact hrows r h
      · rw [h]; simpa using hn
    · intro tid' htid'
      obtain ⟨obj', hobj', h0', hlt'⟩ := hids tid' (List.mem_cons_of_mem _ htid')
      exact ⟨obj', hobj', h0', by simpa using hlt'⟩

theorem add_operation_to_adjacency_ok (g : Graph) (n : Nat) (op : operation)
    (hop : g.operation_vector[n]? = some op) (hn : n ≤ g.adjacency_matrix.length)
    (hin : ∀ tid ∈ op.input_tensor_vector, ∃ obj,
      atLong g.tensor_object_vector tid = some obj ∧ 0 ≤ obj.information.from_ ∧
      obj.information.from_ ≤ (g.adjacency_matrix.length : Int)) :
    ∃ g', add_operation_to_adjacency g (n : Int) = .ok g' := by
  rw [add_operation_to_adjacency_eq, atLong_natCast, hop]
  simp only
  apply link_inputs_ok
  · intro row hrow
    simp only [with_new_row, List.mem_append, List.mem_map, List.mem_singleton] at hrow
    rcases hrow with ⟨r, _, rfl⟩ | rfl
    · have := length_emplace_until (g.adjacency_matrix.length + 1) r
      omega
    · simp; omega
  · intro tid htid
    obtain ⟨obj, hobj, h0, hle⟩ := hin tid htid
    refine ⟨obj, hobj, h0, ?_⟩
    simp only [with_new_row, List.length_append, List.length_map, List.length_singleton]
    push_cast
    omega

theorem getElem?_append_pair_fst {α : Type} (l : List α) (a b : α) :
    (l ++ [a, b])[l.length]? = some a := by
  rw [List.getElem?_append_right (Nat.le_refl _)]
  simp

theorem getElem?_append_pair_snd {α : Type} (l : List α) (a b : α) :
    (l ++ [a, b])[l.length + 1]? = some b := by
  rw [List.getElem?_append_right (Nat.le_add_right _ _)]
  simp

/-- The registration, when the tensors come from registered operations and every
operation has its adjacency row: it returns, the two objects are the last of
the object vector, the new operation is the last of the operation vector, and
the matrix has one more row. -/
theorem store_and_link_spec (kind : operation_kind) (new_shape : tensor_shape)
    (tensor1 tensor2 : tensor) (name : String) (d1 d2 : tensor_object) (g : Graph)
    (h1 : 0 ≤ tensor1.from_ ∧ tensor1.from_ < (g.operation_vector.length : Int))
    (h2 : 0 ≤ tensor2.from_ ∧ tensor2.from_ < (g.operation_vector.length : Int))
    (hd1 : d1.information.from_ = tensor1.from_) (hd2 : d2.information.from_ = tensor2.from_)
    (hadj : g.operation_vector.length ≤ g.adjacency_matrix.length) :
    ∃ g', store_and_link kind new_shape (g.operation_vector.length : Int) tensor1 tensor2 name
        d1 d2 g =
        { result := some { from_ := g.operation_vector.length, to_vector := [],
                           _mutable := false, shape := new_shape }
          tensor1 := tensor1, tensor2 := tensor2, graph := g' } ∧
      g'.tensor_object_vector = g.tensor_object_vector ++ [d1, d2] ∧
      g'.operation_vector.length = g.operation_vector.length + 1 ∧
      g'.operation_vector[g.operation_vector.length]? =
        some { kind := kind, id := g.operation_vector.length, name := name
               input_tensor_vector :=
                 [(g.tensor_object_vector.length : Int),
                  ((g.tensor_object_vector.length + 1 : Nat) : Int)]
               output_tensor_vector := [] } ∧
      g'.adjacency_matrix.length = g.adjacency_matrix.length + 1 := by
  have hid1 : (add_tensor_object g d1).2 = (g.tensor_object_vector.length : Int) := by
    simp [add_tensor_object]
  have hid2 : (add_tensor_object (add_tensor_object g d1).1 d2).2
      = ((g.tensor_object_vector.length + 1 : Nat) : Int) := by
    simp [add_tensor_object]
    omega
  unfold store_and_link
  simp only
  split
  · rename_i h₃
    exact absurd h₃ (add_output_tensor_at_ne_none _ _ _ h1.1 (by simpa [add_tensor_object] using h1.2))
  · rename_i g₃ h₃
    obtain ⟨ho₃, hl₃, ha₃⟩ := add_output_tensor_at_keeps _ _ _ _ h₃
    have hl₃' : g₃.operation_vector.length = g.operation_vector.length := by
      rw [hl₃]; simp [add_tensor_object]
    split
    · rename_i h₄
      exact absurd h₄ (add_output_tensor_at_ne_none _ _ _ h2.1 (by rw [hl₃']; exact h2.2))
    · rename_i g₄ h₄
      obtain ⟨ho₄, hl₄, ha₄⟩ := add_output_tensor_at_keeps _ _ _ _ h₄
      have hl₄' : g₄.operation_vector.length = g.operation_vector.length := hl₄.trans hl₃'
      have hobj₄ : g₄.tensor_object_vector = g.tensor_object_vector ++ [d1, d2] := by
        rw [ho₄, ho₃]; simp [add_tensor_object]
      have hadj₄ : g₄.adjacency_matrix = g.adjacency_matrix := by
        rw [ha₄, ha₃]; simp [add_tensor_object]
      have hopn : ∀ op : operation,
          (add_operation g₄ op).operation_vector[g.operation_vector.length]? = some op := by
        intro op
        simp only [add_operation]
        rw [← hl₄', List.getElem?_append_right (Nat.le_refl _)]
        simp
      split
      · rename_i g₅ h₅
        exfalso
        rw [hid1, hid2] at h₅
        obtain ⟨g', hok⟩ := add_operation_to_adjacency_ok
          (add_operation g₄
            { kind := kind, id := g.operation_vector.length, name := name
              input_tensor_vector :=
                [(g.tensor_object_vector.length : Int),
                 ((g.tensor_object_vector.length + 1 : Nat) : Int)]
              output_tensor_vector := [] })
          g.operation_vector.length _ (hopn _)
          (by simp only [add_operation]; rw [hadj₄]; exact hadj)
          (by
            intro tid htid
            simp only [List.mem_cons, List.mem_singleton, List.not_mem_nil, or_false] at htid
            simp only [add_operation, hobj₄, hadj₄]
            rcases htid with rfl | rfl
            · refine ⟨d1, ?_, by rw [hd1]; exact h1.1, by rw [hd1]; omega⟩
              rw [atLong_natCast]; exact getElem?_append_pair_fst _ _ _
            · refine ⟨d2, ?_, by rw [hd2]; exact h2.1, by rw [hd2]; omega⟩
              rw [atLong_natCast]; exact getElem?_append_pair_snd _ _ _)
        rw [hok] at h₅
        cases h₅
      · rename_i g₅ h₅
        obtain ⟨ho₅, hv₅, ha₅⟩ := add_operation_to_adjacency_keeps _ _ _ (Or.inl h₅)
        refine ⟨g₅, rfl, ?_, ?_, ?_, ?_⟩
        · rw [ho₅]; exact hobj₄
        · rw [hv₅]; simp [add_operation, hl₄']
        · rw [hv₅, hid1, hid2]; exact hopn _
        · rw [ha₅]; simp only [add_operation]; rw [hadj₄]

theorem tensor_data_pair_info (ops : ShapeOps) (tensor1 tensor2 : tensor) (this_id : Int) :
    (tensor_data_pair ops tensor1 tensor2 this_id).1.information.from_ = tensor1.from_ ∧
    (tensor_data_pair ops tensor1 tensor2 this_id).1.information.to_ = this_id ∧
    (tensor_data_pair ops tensor1 tensor2 this_id).1.shape = tensor1.shape ∧
    (tensor_data_pair ops tensor1 tensor2 this_id).2.information.from_ = tensor2.from_ ∧
    (tensor_data_pair ops tensor1 tensor2 this_id).2.information.to_ = this_id ∧
    (tensor_data_pair ops tensor1 tensor2 this_id).2.shape = tensor2.shape := by
  unfold tensor_data_pair
  simp only
  cases tensor1._mutable <;> cases tensor2._mutable <;>
    simp [tensor_object.make, tensor_object.set_constant]

/-- What `register_binary` does when the tensors come from registered operations
and every operation has its adjacency row. -/
theorem register_binary_spec (ops : ShapeOps) (kind : operation_kind)
    (new_shape : tensor_shape) (tensor1 tensor2 : tensor) (name : String) (g : Graph)
    (h1 : 0 ≤ tensor1.from_ ∧ tensor1.from_ < (g.operation_vector.length : Int))
    (h2 : 0 ≤ tensor2.from_ ∧ tensor2.from_ < (g.operation_vector.length : Int))
    (hadj : g.operation_vector.length ≤ g.adjacency_matrix.length) :
    ∃ g' o1 o2, register_binary ops kind new_shape tensor1 tensor2 name g =
        { result := some { from_ := g.operation_vector.length, to_vector := [],
                           _mutable := false, shape := new_shape }
          tensor1 := tensor1.add_to g.operation_vector.length
          tensor2 := tensor2.add_to g.operation_vector.length
          graph := g' } ∧
      g'.tensor_object_vector = g.tensor_object_vector ++ [o1, o2] ∧
      (o1.information.from_ = tensor1.from_ ∧ o1.information.to_ = (g.operation_vector.length : Int) ∧
        o1.shape = tensor1.shape) ∧
      (o2.information.from_ = tensor2.from_ ∧ o2.information.to_ = (g.operation_vector.length : Int) ∧
        o2.shape = tensor2.shape) ∧
      g'.operation_vector.length = g.operation_vector.length + 1 ∧
      g'.operation_vector[g.operation_vector.length]? =
        some { kind := kind, id := g.operation_vector.length, name := name
               input_tensor_vector :=
                 [(g.tensor_object_vector.length : Int),
                  ((g.tensor_object_vector.length + 1 : Nat) : Int)]
               output_tensor_vector := [] } ∧
      g'.adjacency_matrix.length = g.adjacency_matrix.length + 1 := by
  obtain ⟨i1, i2, i3, i4, i5, i6⟩ := tensor_data_pair_info ops
    (tensor1.add_to g.operation_vector.length) (tensor2.add_to g.operation_vector.length)
    g.operation_vector.length
  obtain ⟨g', hrun, hobj, hlen, hop, hadj'⟩ := store_and_link_spec kind new_shape
    (tensor1.add_to g.operation_vector.length) (tensor2.add_to g.operation_vector.length) name
    _ _ g h1 h2 i1 i4 hadj
  exact ⟨g', _, _, hrun, hobj, ⟨i1, i2, i3⟩, ⟨i4, i5, i6⟩, hlen, hop, hadj'⟩

theorem register_binary_ne (ops : ShapeOps) (kind : operation_kind)
    (new_shape : tensor_shape) (tensor1 tensor2 : tensor) (name : String) (g : Graph) :
    (register_binary ops kind new_shape tensor1 tensor2 name g).graph ≠ g := by
  intro h
  have := store_and_link_objects kind new_shape (operation_vector_size g)
    (tensor1.add_to (operation_vector_size g)) (tensor2.add_to (operation_vector_size g)) name
    (tensor_data_pair ops (tensor1.add_to (operation_vector_size g))
      (tensor2.add_to (operation_vector_size g)) (operation_vector_size g)).1
    (tensor_data_pair ops (tensor1.add_to (operation_vector_size g))
      (tensor2.add_to (operation_vector_size g)) (operation_vector_size g)).2 g
  have hg : (register_binary ops kind new_shape tensor1 tensor2 name g).graph.tensor_object_vector
      = g.tensor_object_vector := by rw [h]
  unfold register_binary at hg
  simp only at hg
  rw [this] at hg
  have := congrArg List.length hg
  simp at this

/-- C19, as amended: `mat_add` returns the default tensor (which is invalid, the default
shape being empty) and leaves the graph, hence the operation list, the
tensor-object list and the adjacency matrix, unchanged exactly when an input is
invalid or the two shapes differ, and then the input tensors are untouched too.
Otherwise, for inputs that come from registered operations in a graph where
every operation has its adjacency row, it returns a tensor of the inputs' common
shape coming from the new operation, whose id is the previous number of
operations; exactly one operation is added, the last, with the two new tensor
objects as inputs; exactly two tensor objects are added, both directed to that
operation; and the matrix has one more row. -/
theorem mat_add_registers (ops : ShapeOps) (tensor1 tensor2 : tensor) (name : String)
    (g : Graph) :
    (((mat_add ops tensor1 tensor2 name g).result = some get_default_tensor ∧
        (mat_add ops tensor1 tensor2 name g).graph = g) ↔
      (tensor1.is_valid ops = false ∨ tensor2.is_valid ops = false ∨
        tensor1.shape ≠ tensor2.shape)) ∧
    ((tensor1.is_valid ops = false ∨ tensor2.is_valid ops = false ∨
        tensor1.shape ≠ tensor2.shape) →
      mat_add ops tensor1 tensor2 name g =
        { result := some get_default_tensor, tensor1 := tensor1, tensor2 := tensor2,
          graph := g }) ∧
    (ops.empty tensor_shape.default = true → get_default_tensor.is_valid ops = false) ∧
    (tensor1.is_valid ops = true → tensor2.is_valid ops = true →
      tensor1.shape = tensor2.shape →
      (0 ≤ tensor1.from_ ∧ tensor1.from_ < (g.operation_vector.length : Int)) →
      (0 ≤ tensor2.from_ ∧ tensor2.from_ < (g.operation_vector.length : Int)) →
      g.operation_vector.length ≤ g.adjacency_matrix.length →
      ∃ g' o1 o2, mat_add ops tensor1 tensor2 name g =
          { result := some { from_ := g.operation_vector.length, to_vector := [],
                             _mutable := false, shape := tensor1.shape }
            tensor1 := tensor1.add_to g.operation_vector.length
            tensor2 := tensor2.add_to g.operation_vector.length
            graph := g' } ∧
        g'.tensor_object_vector = g.tensor_object_vector ++ [o1, o2] ∧
        (o1.information.from_ = tensor1.from_ ∧
          o1.information.to_ = (g.operation_vector.length : Int) ∧
          o1.shape = tensor1.shape) ∧
        (o2.information.from_ = tensor2.from_ ∧
          o2.information.to_ = (g.operation_vector.length : Int) ∧
          o2.shape = tensor2.shape) ∧
        g'.operation_vector.length = g.operation_vector.length + 1 ∧
        g'.operation_vector[g.operation_vector.length]? =
          some { kind := .mat_add_op, id := g.operation_vector.length, name := name
                 input_tensor_vector :=
                   [(g.tensor_object_vector.length : Int),
                    ((g.tensor_object_vector.length + 1 : Nat) : Int)]
                 output_tensor_vector := [] } ∧
        g'.adjacency_matrix.length = g.adjacency_matrix.length + 1) := by
  have hrej : (tensor1.is_valid ops = false ∨ tensor2.is_valid ops = false ∨
      tensor1.shape ≠ tensor2.shape) →
      mat_add ops tensor1 tensor2 name g =
        { result := some get_default_tensor, tensor1 := tensor1, tensor2 := tensor2,
          graph := g } := by
    intro h
    unfold mat_add
    by_cases hv : (!tensor1.is_valid ops || !tensor2.is_valid ops) = true
    · rw [if_pos hv]
    · rw [if_neg hv]
      have hs : tensor1.shape ≠ tensor2.shape := by
        rcases h with h | h | h
        · simp [h] at hv
        · simp [h] at hv
        · exact h
      rw [if_pos hs]
  have hacc : tensor1.is_valid ops = true → tensor2.is_valid ops = true →
      tensor1.shape = tensor2.shape →
      mat_add ops tensor1 tensor2 name g
        = register_binary ops .mat_add_op tensor1.shape tensor1 tensor2 name g := by
    intro hv1 hv2 hs
    unfold mat_add
    have hv : ¬ (!tensor1.is_valid ops || !tensor2.is_valid ops) = true := by simp [hv1, hv2]
    have hs' : ¬ tensor1.shape ≠ tensor2.shape := fun h => h hs
    rw [if_neg hv, if_neg hs']
  refine ⟨⟨?_, fun h => by rw [hrej h]; exact ⟨rfl, rfl⟩⟩, hrej, ?_, ?_⟩
  · rintro ⟨-, hg⟩
    by_contra hnot
    push_neg at hnot
    obtain ⟨hv1, hv2, hs⟩ := hnot
    rw [hacc (by simpa using hv1) (by simpa using hv2) hs] at hg
    exact register_binary_ne _ _ _ _ _ _ _ hg
  · intro h
    simp [tensor.is_valid, get_default_tensor, h]
  · intro hv1 hv2 hs h1 h2 hadj
    rw [hacc hv1 hv2 hs]
    exact register_binary_spec ops .mat_add_op tensor1.shape tensor1 tensor2 name g h1 h2 hadj

/-- Witness for C19: adding two `2 x 3` tensors that come from the two
registered operations of `twoSources`. -/
theorem mat_add_registers_witness :
    ∃ g' o1 o2, mat_add exampleShapeOps tensorA tensorD "sum" twoSources =
        { result := some { from_ := twoSources.operation_vector.length, to_vector := [],
                           _mutable := false, shape := tensorA.shape }
          tensor1 := tensorA.add_to twoSources.operation_vector.length
          tensor2 := tensorD.add_to twoSources.operation_vector.length
          graph := g' } ∧
      g'.tensor_object_vector = twoSources.tensor_object_vector ++ [o1, o2] ∧
      (o1.information.from_ = tensorA.from_ ∧
        o1.information.to_ = (twoSources.operation_vector.length : Int) ∧
        o1.shape = tensorA.shape) ∧
      (o2.information.from_ = tensorD.from_ ∧
        o2.information.to_ = (twoSources.operation_vector.length : Int) ∧
        o2.shape = tensorD.shape) ∧
      g'.operation_vector.length = twoSources.operation_vector.length + 1 ∧
      g'.operation_vector[twoSources.operation_vector.length]? =
        some { kind := .mat_add_op, id := twoSources.operation_vector.length, name := "sum"
               input_tensor_vector :=
                 [(twoSources.tensor_object_vector.length : Int),
                  ((twoSources.tensor_object_vector.length + 1 : Nat) : Int)]
               output_tensor_vector := [] } ∧
      g'.adjacency_matrix.length = twoSources.adjacency_matrix.length + 1 :=
  (mat_add_registers exampleShapeOps tensorA tensorD "sum" twoSources).2.2.2
    (by decide) (by decide) (by decide) (by decide) (by decide) (by decide)

/-- Counterexample to C19 as stated: two valid tensors of the same shape `2 x 3`,
the second coming from an operation that is not in the operation list; `mat_add`
neither returns the default tensor nor registers an operation: it raises at
`get_operation`, after the two tensor objects have been stored.  And with both
tensors coming from registered operations but no adjacency row for them, it
raises in `add_operation_to_adjacency`, after the operation has been stored. -/
theorem mat_add_raises_off_graph :
    tensorA.is_valid exampleShapeOps = true ∧ tensorE.is_valid exampleShapeOps = true ∧
    tensorA.shape = tensorE.shape ∧
    (mat_add exampleShapeOps tensorA tensorE "sum" twoSources).result = none ∧
    (mat_add exampleShapeOps tensorA tensorE "sum" twoSources).graph.operation_vector.length
      = twoSources.operation_vector.length ∧
    (mat_add exampleShapeOps tensorA tensorE "sum" twoSources).graph.tensor_object_vector.length
      = twoSources.tensor_object_vector.length + 2 ∧
    tensorD.is_valid exampleShapeOps = true ∧ tensorA.shape = tensorD.shape ∧
    (mat_add exampleShapeOps tensorA tensorD "sum" twoSourcesNoRows).result = none ∧
    (mat_add exampleShapeOps tensorA tensorD "sum" twoSourcesNoRows).graph.operation_vector.length
      = twoSourcesNoRows.operation_vector.length + 1 := by
  refine ⟨by decide, by decide, by decide, by decide, by decide, by decide, by decide,
    by decide, by decide, by decide⟩

/-- C18, as amended: `mat_mul` accepts two tensors only when both are valid, the
number of columns of the first equals the number of rows of the second and their
dimensions are equal; for every other pair of inputs it returns the default
tensor (which is invalid, the default shape being empty), leaves the input
tensors untouched and registers no operation, no tensor object and no adjacency
row: the graph is as it was.  When the condition holds, for inputs that come
from registered operations in a graph where every operation has its adjacency
row, it registers the product: a tensor of shape `rows(first) x cols(second)`
coming from the new operation. -/
theorem mat_mul_accepts (ops : ShapeOps) (tensor1 tensor2 : tensor) (name : String)
    (g : Graph) :
    (mat_mul ops tensor1 tensor2 name g =
        { result := some get_default_tensor, tensor1 := tensor1, tensor2 := tensor2,
          graph := g } ↔
      ¬ (tensor1.is_valid ops = true ∧ tensor2.is_valid ops = true ∧
        tensor1.shape.cols = tensor2.shape.rows ∧
        tensor1.shape.dimension = tensor2.shape.dimension)) ∧
    ((mat_mul ops tensor1 tensor2 name g).graph ≠ g →
      tensor1.is_valid ops = true ∧ tensor2.is_valid ops = true ∧
        tensor1.shape.cols = tensor2.shape.rows ∧
        tensor1.shape.dimension = tensor2.shape.dimension) ∧
    (ops.empty tensor_shape.default = true → get_default_tensor.is_valid ops = false) ∧
    (tensor1.is_valid ops = true → tensor2.is_valid ops = true →
      tensor1.shape.cols = tensor2.shape.rows →
      tensor1.shape.dimension = tensor2.shape.dimension →
      (0 ≤ tensor1.from_ ∧ tensor1.from_ < (g.operation_vector.length : Int)) →
      (0 ≤ tensor2.from_ ∧ tensor2.from_ < (g.operation_vector.length : Int)) →
      g.operation_vector.length ≤ g.adjacency_matrix.length →
      ∃ g' o1 o2, mat_mul ops tensor1 tensor2 name g =
          { result := some { from_ := g.operation_vector.length, to_vector := [],
                             _mutable := false,
                             shape := { rows := tensor1.shape.rows, cols := tensor2.shape.cols,
                                        dimension := tensor1.shape.dimension } }
            tensor1 := tensor1.add_to g.operation_vector.length
            tensor2 := tensor2.add_to g.operation_vector.length
            graph := g' } ∧
        g'.tensor_object_vector = g.tensor_object_vector ++ [o1, o2] ∧
        g'.operation_vector.length = g.operation_vector.length + 1 ∧
        g'.operation_vector[g.operation_vector.length]? =
          some { kind := .mat_mul_op, id := g.operation_vector.length, name := name
                 input_tensor_vector :=
                   [(g.tensor_object_vector.length : Int),
                    ((g.tensor_object_vector.length + 1 : Nat) : Int)]
                 output_tensor_vector := [] } ∧
        g'.adjacency_matrix.length = g.adjacency_matrix.length + 1) := by
  have hrej : ¬ (tensor1.is_valid ops = true ∧ tensor2.is_valid ops = true ∧
        tensor1.shape.cols = tensor2.shape.rows ∧
        tensor1.shape.dimension = tensor2.shape.dimension) →
      mat_mul ops tensor1 tensor2 name g =
        { result := some get_default_tensor, tensor1 := tensor1, tensor2 := tensor2,
          graph := g } := by
    intro h
    unfold mat_mul
    by_cases hv : (!tensor1.is_valid ops || !tensor2.is_valid ops) = true
    · rw [if_pos hv]
    · rw [if_neg hv]
      have hv' : tensor1.is_valid ops = true ∧ tensor2.is_valid ops = true := by
        simpa using hv
      have hs : tensor1.shape.cols ≠ tensor2.shape.rows ∨
          tensor1.shape.dimension ≠ tensor2.shape.dimension := by
        by_contra hn
        push_neg at hn
        exact h ⟨hv'.1, hv'.2, hn.1, hn.2⟩
      rw [if_pos hs]
  have hacc : tensor1.is_valid ops = true → tensor2.is_valid ops = true →
      tensor1.shape.cols = tensor2.shape.rows →
      tensor1.shape.dimension = tensor2.shape.dimension →
      mat_mul ops tensor1 tensor2 name g
        = register_binary ops .mat_mul_op
            { rows := tensor1.shape.rows, cols := tensor2.shape.cols,
              dimension := tensor1.shape.dimension } tensor1 tensor2 name g := by
    intro hv1 hv2 hc hd
    unfold mat_mul
    have hv : ¬ (!tensor1.is_valid ops || !tensor2.is_valid ops) = true := by simp [hv1, hv2]
    have hs : ¬ (tensor1.shape.cols ≠ tensor2.shape.rows ∨
        tensor1.shape.dimension ≠ tensor2.shape.dimension) := by
      push_neg; exact ⟨hc, hd⟩
    rw [if_neg hv, if_neg hs]
  have hchanged : (mat_mul ops tensor1 tensor2 name g).graph ≠ g →
      tensor1.is_valid ops = true ∧ tensor2.is_valid ops = true ∧
        tensor1.shape.cols = tensor2.shape.rows ∧
        tensor1.shape.dimension = tensor2.shape.dimension := by
    intro hne
    by_contra hnot
    rw [hrej hnot] at hne
    exact hne rfl
  refine ⟨⟨?_, hrej⟩, hchanged, ?_, ?_⟩
  · intro heq hcond
    have hg : (mat_mul ops tensor1 tensor2 name g).graph = g := by rw [heq]
    rw [hacc hcond.1 hcond.2.1 hcond.2.2.1 hcond.2.2.2] at hg
    exact register_binary_ne _ _ _ _ _ _ _ hg
  · intro h
    simp [tensor.is_valid, get_default_tensor, h]
  · intro hv1 hv2 hc hd h1 h2 hadj
    rw [hacc hv1 hv2 hc hd]
    obtain ⟨g', o1, o2, hrun, hobj, -, -, hlen, hop, hadj'⟩ :=
      register_binary_spec ops .mat_mul_op
        { rows := tensor1.shape.rows, cols := tensor2.shape.cols,
          dimension := tensor1.shape.dimension } tensor1 tensor2 name g h1 h2 hadj
    exact ⟨g', o1, o2, hrun, hobj, hlen, hop, hadj'⟩

/-- Witness for C18 (amended): a `2 x 3` tensor times a `5 x 2` tensor is
refused (3 columns against 5 rows), although the rows of the first are as many
as the columns of the second. -/
theorem mat_mul_accepts_witness :
    mat_mul exampleShapeOps tensorA tensorC "product" twoSources =
      { result := some get_default_tensor, tensor1 := tensorA, tensor2 := tensorC,
        graph := twoSources } :=
  (mat_mul_accepts exampleShapeOps tensorA tensorC "product" twoSources).1.2 (by decide)

/-- Counterexample to C18 as stated: the first tensor is `2 x 3`, the second
`3 x 4`, both valid, of dimension 1; the number of rows of the first (2) is not
the number of columns of the second (4), and yet `mat_mul` accepts the pair: it
returns a valid `2 x 4` tensor and registers an operation, two tensor objects
and an adjacency row. -/
theorem mat_mul_accepts_cols_rows :
    tensorA.is_valid exampleShapeOps = true ∧ tensorB.is_valid exampleShapeOps = true ∧
    tensorA.shape.rows ≠ tensorB.shape.cols ∧
    (mat_mul exampleShapeOps tensorA tensorB "product" twoSources).result
      = some { from_ := 2, to_vector := [], _mutable := false,
               shape := { rows := 2, cols := 4, dimension := 1 } } ∧
    (mat_mul exampleShapeOps tensorA tensorB "product" twoSources).graph.operation_vector.length
      = twoSources.operation_vector.length + 1 ∧
    (mat_mul exampleShapeOps tensorA tensorB "product" twoSources).graph.tensor_object_vector.length
      = twoSources.tensor_object_vector.length + 2 ∧
    (mat_mul exampleShapeOps tensorA tensorB "product" twoSources).graph.adjacency_matrix.length
      = twoSources.adjacency_matrix.length + 1 := by
  refine ⟨by decide, by decide, by decide, by decide, by decide, by decide, by decide⟩

end cubby_dnn

/-! # The asynchronous variants of `SoftMax` -/

namespace Takion.Graph

/-- C12: from every state of a `SoftMax` unit, whatever the arithmetic and the
tensor kernels are, `AsyncForward` with a fresh promise leaves the unit in the
state `Forward` leaves it in (the same `ForwardOutput` in particular) and the
promise holding `true`; on the CPU `Backward` returns and `AsyncBackward`
leaves the unit in the same state (the same backward output and the same
scratch tensor `backwardTemp`) and the promise holding `true`; on any other
device both raise, from the same state of the unit, and the promise holds no
value. -/
theorem SoftMax_async_matches_sync {T Tn : Type} (k : Kernels T Tn) (s : SoftMax Tn) :
    s.AsyncForward k none = .ok (s.Forward k, some true) ∧
    (s.m_device.Type_ = DeviceType.CPU →
      ∃ s', s.Backward k = .ok s' ∧ s.AsyncBackward k none = .ok (s', some true)) ∧
    (s.m_device.Type_ ≠ DeviceType.CPU →
      ∃ s', s.Backward k = .error s' ∧ s.AsyncBackward k none = .error (s', none)) := by
  refine ⟨rfl, ?_, ?_⟩
  · intro h
    unfold SoftMax.Backward SoftMax.AsyncBackward
    rw [if_pos h, if_pos h]
    exact ⟨_, rfl, rfl⟩
  · intro h
    unfold SoftMax.Backward SoftMax.AsyncBackward
    rw [if_neg h, if_neg h]
    exact ⟨_, rfl, rfl⟩

/-- Witness for C12: the example unit on the CPU, where `Backward` returns, and
the same unit on another device, where it raises. -/
theorem SoftMax_async_matches_sync_witness :
    exampleSoftMax.m_device.Type_ = DeviceType.CPU ∧
    (∃ s', exampleSoftMax.Backward exampleKernels = .ok s' ∧
      exampleSoftMax.AsyncBackward exampleKernels none = .ok (s', some true)) ∧
    exampleSoftMaxOther.m_device.Type_ ≠ DeviceType.CPU ∧
    (∃ s', exampleSoftMaxOther.Backward exampleKernels = .error s' ∧
      exampleSoftMaxOther.AsyncBackward exampleKernels none = .error (s', none)) :=
  ⟨by decide,
   (SoftMax_async_matches_sync exampleKernels exampleSoftMax).2.1 (by decide),
   by decide,
   (SoftMax_async_matches_sync exampleKernels exampleSoftMaxOther).2.2 (by decide)⟩

end Takion.Graph

/-! # The task queue between one producer and one consumer -/

namespace CubbyDNN

/-- What has been received, what is in the queue and what is still to be sent
make up, in this order, the same sequence before and after a step. -/
theorem Channel.step_content {α : Type} (ch : Channel α) (p : Party) :
    (ch.step p).received ++ (ch.step p).queue.items ++ (ch.step p).toSend =
      ch.received ++ ch.queue.items ++ ch.toSend := by
  cases p with
  | producer =>
    unfold Channel.step
    cases hs : ch.toSend with
    | nil => simp [hs]
    | cons x rest =>
      simp only []
      unfold SpinLockQueue.Enqueue
      by_cases hfull : ch.queue.items.length < ch.queue.capacity
      · simp [hfull]
      · simp [hfull, hs]
  | consumer =>
    unfold Channel.step SpinLockQueue.Dequeue
    cases hq : ch.queue.items with
    | nil => simp [hq]
    | cons x rest => simp

/-- A step keeps the capacity, and keeps the queue within it. -/
theorem Channel.step_bounded {α : Type} (ch : Channel α) (p : Party)
    (h : ch.queue.items.length ≤ ch.queue.capacity) :
    (ch.step p).queue.capacity = ch.queue.capacity ∧
      (ch.step p).queue.items.length ≤ ch.queue.capacity := by
  cases p with
  | producer =>
    unfold Channel.step
    cases hs : ch.toSend with
    | nil => simp [h]
    | cons x rest =>
      simp only []
      unfold SpinLockQueue.Enqueue
      by_cases hfull : ch.queue.items.length < ch.queue.capacity
      · simp [hfull]; omega
      · simp [hfull, h]
  | consumer =>
    unfold Channel.step SpinLockQueue.Dequeue
    cases hq : ch.queue.items with
    | nil => simp [hq]
    | cons x rest =>
      simp only []
      rw [hq] at h
      simp at h ⊢
      omega

/-- The same over a whole schedule. -/
theorem Channel.run_content {α : Type} (schedule : List Party) (ch : Channel α)
    (h : ch.queue.items.length ≤ ch.queue.capacity) :
    (ch.run schedule).received ++ (ch.run schedule).queue.items ++ (ch.run schedule).toSend =
        ch.received ++ ch.queue.items ++ ch.toSend ∧
      (ch.run schedule).queue.capacity = ch.queue.capacity ∧
      (ch.run schedule).queue.items.length ≤ ch.queue.capacity := by
  induction schedule generalizing ch with
  | nil => exact ⟨rfl, rfl, h⟩
  | cons p rest ih =>
    have hb := ch.step_bounded p h
    have hc := ch.step_content p
    have := ih (ch.step p) (by rw [hb.1]; exact hb.2)
    unfold Channel.run at this ⊢
    rw [List.foldl_cons]
    rw [hb.1, hc] at this
    exact this

/-- On a full queue the producer makes no progress, however often it is
scheduled. -/
theorem Channel.producer_blocked {α : Type} (ch : Channel α)
    (hfull : ch.queue.items.length = ch.queue.capacity) (n : Nat) :
    ch.run (List.replicate n Party.producer) = ch := by
  induction n with
  | zero => rfl
  | succ n ih =>
    unfold Channel.run at ih ⊢
    rw [List.replicate_succ, List.foldl_cons]
    have hstep : ch.step Party.producer = ch := by
      unfold Channel.step
      cases hs : ch.toSend with
      | nil => rfl
      | cons x rest =>
        simp only []
        unfold SpinLockQueue.Enqueue
        simp [hfull]
    rw [hstep]
    exact ih

/-- Taking turns, with room for one element at least, moves one element per
turn from the producer to the consumer. -/
theorem Channel.run_alternate {α : Type} (capacity : Nat) (hcap : 0 < capacity)
    (toSend received : List α) :
    ({ toSend := toSend, queue := { capacity := capacity, items := [] },
       received := received } : Channel α).run (alternate toSend.length) =
      { toSend := [], queue := { capacity := capacity, items := [] },
        received := received ++ toSend } := by
  induction toSend generalizing received with
  | nil => simp [alternate, Channel.run]
  | cons x rest ih =>
    have := ih (received ++ [x])
    unfold Channel.run at this ⊢
    simp only [List.length_cons, alternate, List.foldl_cons]
    have h1 :
        Channel.step
          { toSend := x :: rest, queue := { capacity := capacity, items := [] },
            received := received } Party.producer =
        { toSend := rest, queue := { capacity := capacity, items := [x] },
          received := received } := by
      simp [Channel.step, SpinLockQueue.Enqueue, hcap]
    have h2 :
        Channel.step
          { toSend := rest, queue := { capacity := capacity, items := [x] },
            received := received } Party.consumer =
        { toSend := rest, queue := { capacity := capacity, items := [] },
          received := received ++ [x] } := by
      simp [Channel.step, SpinLockQueue.Dequeue]
    rw [h1, h2, this]
    simp

/-- C20, on the queue modelled from the spec: with one producer enqueueing the
elements of `toSend` in order and one consumer dequeueing, under every schedule
and at every moment the elements received, those in the queue and those not yet
sent are, in this order, exactly `toSend` (so what is dequeued is a prefix of
`toSend`: every element at most once, in enqueue order), and the queue never
holds more than `capacity` elements; when it holds `capacity` of them the
pending `Enqueue` does not complete however often the producer is scheduled,
and it completes right after a `Dequeue` has removed one; and if the two
threads take turns every element is dequeued. -/
theorem queue_spsc_fifo {α : Type} (capacity : Nat) (toSend : List α) (schedule : List Party) :
    (((Channel.start capacity toSend).run schedule).received ++
        ((Channel.start capacity toSend).run schedule).queue.items ++
        ((Channel.start capacity toSend).run schedule).toSend = toSend) ∧
    ((Channel.start capacity toSend).run schedule).queue.items.length ≤ capacity ∧
    (∀ x rest, ((Channel.start capacity toSend).run schedule).toSend = x :: rest →
      ((Channel.start capacity toSend).run schedule).queue.items.length = capacity →
      (∀ n, ((Channel.start capacity toSend).run schedule).run (List.replicate n Party.producer)
          = (Channel.start capacity toSend).run schedule) ∧
      (0 < capacity →
        ((((Channel.start capacity toSend).run schedule).step Party.consumer).step
          Party.producer).toSend = rest)) ∧
    (0 < capacity →
      ((Channel.start capacity toSend).run (alternate toSend.length)).received = toSend) := by
  have hinv := Channel.run_content schedule (Channel.start capacity toSend)
    (by simp [Channel.start])
  refine ⟨?_, ?_, ?_, ?_⟩
  · rw [hinv.1]; simp [Channel.start]
  · exact hinv.2.2
  · intro x rest hsend hfull
    have hcapEq : ((Channel.start capacity toSend).run schedule).queue.capacity = capacity :=
      hinv.2.1
    refine ⟨fun n => Channel.producer_blocked _ (by rw [hfull, hcapEq]) n, ?_⟩
    intro hcap
    generalize (Channel.start capacity toSend).run schedule = ch at hsend hfull hcapEq
    obtain ⟨ts, ⟨cap, items⟩, rc⟩ := ch
    simp only at hsend hfull hcapEq
    subst hsend hcapEq
    cases items with
    | nil => simp at hfull; omega
    | cons y ys =>
      simp only [List.length_cons] at hfull
      simp [Channel.step, SpinLockQueue.Dequeue, SpinLockQueue.Enqueue, ← hfull]
  · intro hcap
    have := Channel.run_alternate capacity hcap toSend []
    unfold Channel.start
    rw [this]
    simp

/-- Witness for C20: a queue of capacity 2 and three tasks; after two steps of
the producer the queue is full, the third `Enqueue` is pending and completes
after a `Dequeue`. -/
theorem queue_spsc_fifo_witness :
    ((Channel.start 2 [10, 20, 30]).run [Party.producer, Party.producer]).toSend = [30] ∧
    ((Channel.start 2 [10, 20, 30]).run [Party.producer, Party.producer]).queue.items.length = 2 ∧
    ((∀ n, ((Channel.start 2 [10, 20, 30]).run [Party.producer, Party.producer]).run
          (List.replicate n Party.producer)
        = (Channel.start 2 [10, 20, 30]).run [Party.producer, Party.producer]) ∧
      ((0 : Nat) < 2 →
        ((((Channel.start 2 [10, 20, 30]).run [Party.producer, Party.producer]).step
          Party.consumer).step Party.producer).toSend = [])) :=
  ⟨by decide, by decide,
   (queue_spsc_fifo 2 [10, 20, 30] [Party.producer, Party.producer]).2.2.1 30 []
     (by decide) (by decide)⟩

end CubbyDNN

/-! # The worker loop and the `Join` tasks -/

namespace CubbyDNN

/-- A property that holds at the start and is kept by every step holds after
every schedule. -/
theorem ParState.run_induction (cfg : Config) (P : ParState → Prop)
    (hstep : ∀ s a, P s → P (s.step cfg a)) (schedule : List Actor) (s : ParState) (h : P s) :
    P (s.run cfg schedule) := by
  induction schedule generalizing s with
  | nil => exact h
  | cons a rest ih =>
    unfold ParState.run
    rw [List.foldl_cons]
    exact ih (s.step cfg a) (hstep s a h)

end CubbyDNN

namespace CubbyDNN

theorem joinsEnqueued_cons (e : Event) (log : List Event) :
    joinsEnqueued (e :: log) = joinsEnqueued log +
      (match e with
        | .enqueued t => if t.Type_ = TaskType.Join then 1 else 0
        | _ => 0) := by
  unfold joinsEnqueued
  rw [List.countP_cons]
  cases e <;> simp

/-- A step of a worker leaves the calling thread where it is, the pool at its
size, and enqueues nothing. -/
theorem ParState.workerStep_frame (s : ParState) (worker : Nat) :
    (s.workerStep worker).main = s.main ∧
    (s.workerStep worker).m_mainThreadPool.length = s.m_mainThreadPool.length ∧
    joinsEnqueued (s.workerStep worker).log = joinsEnqueued s.log := by
  unfold ParState.workerStep
  cases hth : s.m_mainThreadPool[worker]? with
  | none => simp
  | some th =>
    cases th with
    | dequeue =>
      simp only []
      cases hq : s.m_taskQueue.Dequeue with
      | none => simp
      | some p => simp [joinsEnqueued_cons]
    | compute t => simp [joinsEnqueued_cons]
    | signal t => simp [joinsEnqueued_cons]
    | release t => simp [joinsEnqueued_cons]
    | exited => simp

end CubbyDNN

namespace CubbyDNN

theorem ReleaseUnit_active (e : Engine) (id : UnitIdentifier) :
    (ReleaseUnit e id).m_active = e.m_active := by
  unfold ReleaseUnit
  cases id.Type_ <;> simp [Engine.updateUnit]

/-- A step of a worker leaves `m_active` as it is, and a thread that has left
`m_run` where it is. -/
theorem ParState.workerStep_exited (s : ParState) (worker : Nat) :
    (s.workerStep worker).engine.m_active = s.engine.m_active ∧
    ∀ j : Nat, s.m_mainThreadPool[j]? = some Thread.exited →
      (s.workerStep worker).m_mainThreadPool[j]? = some Thread.exited := by
  unfold ParState.workerStep
  cases hth : s.m_mainThreadPool[worker]? with
  | none => simp
  | some th =>
    have hne : ∀ j : Nat, s.m_mainThreadPool[j]? = some Thread.exited → th ≠ Thread.exited →
        ∀ x, (s.m_mainThreadPool.set worker x)[j]? = some Thread.exited := by
      intro j hj hth' x
      have hjw : worker ≠ j := by
        intro hEq
        subst hEq
        rw [hth] at hj
        exact hth' (Option.some.inj hj)
      rw [List.getElem?_set_ne hjw]
      exact hj
    cases th with
    | dequeue =>
      simp only []
      cases hq : s.m_taskQueue.Dequeue with
      | none => simp
      | some p => exact ⟨rfl, fun j hj => hne j hj (by simp) _⟩
    | compute t => exact ⟨rfl, fun j hj => hne j hj (by simp) _⟩
    | signal t => exact ⟨rfl, fun j hj => hne j hj (by simp) _⟩
    | release t =>
      refine ⟨?_, fun j hj => hne j hj (by simp) _⟩
      simp only []
      cases t.closures with
      | none => rfl
      | some p => exact ReleaseUnit_active _ _
    | exited => simp

/-- Every step keeps what holds throughout a run of `Abort`. -/
theorem AbortInv.abort_step (cfg : Config) (size : Nat) (s : ParState) (a : Actor)
    (h : AbortInv size s) : AbortInv size (s.step cfg a) := by
  cases a with
  | worker w =>
    obtain ⟨hm, hl, -⟩ := s.workerStep_frame w
    obtain ⟨hact, hex⟩ := s.workerStep_exited w
    unfold ParState.step
    refine ⟨by rw [hl]; exact h.size_eq, by rw [hm]; exact h.position, ?_, ?_⟩
    · intro index hi j hj
      exact hex j (h.joined index (by rw [← hm]; exact hi) j hj)
    · intro hret
      obtain ⟨ha, hall⟩ := h.all_joined (by rw [← hm]; exact hret)
      refine ⟨by rw [hact]; exact ha, ?_⟩
      intro th hth
      obtain ⟨j, hj⟩ := List.getElem?_of_mem hth
      have hjlt : j < s.m_mainThreadPool.length := by
        have := (List.getElem?_eq_some.mp hj).1
        rw [hl] at this
        exact this
      have hold : s.m_mainThreadPool[j]? = some Thread.exited := by
        rw [List.getElem?_eq_getElem hjlt]
        exact congrArg some (hall _ (List.getElem_mem hjlt))
      have := hex j hold
      rw [hj] at this
      exact Option.some.inj this
  | main =>
    obtain ⟨hs, hp, hj, ha⟩ := h
    unfold ParState.step ParState.mainStep
    rcases hp with ⟨count, hm⟩ | ⟨index, hm⟩ | hm
    · rw [hm]
      simp only []
      split
      · split
        · exact ⟨hs, Or.inl ⟨count, hm⟩, hj, ha⟩
        · exact ⟨hs, Or.inl ⟨count + 1, rfl⟩, by simp, by simp⟩
      · exact ⟨hs, Or.inr (Or.inl ⟨0, rfl⟩), by simp, by simp⟩
    · rw [hm]
      simp only []
      split
      · rename_i hnone
        refine ⟨hs, Or.inr (Or.inr rfl), by simp, ?_⟩
        intro _
        refine ⟨rfl, ?_⟩
        intro th hth
        obtain ⟨j, hjth⟩ := List.getElem?_of_mem hth
        simp only [] at hjth
        have hjlt : j < index := by
          have h1 := (List.getElem?_eq_some.mp hjth).1
          have h2 := List.getElem?_eq_none_iff.mp hnone
          omega
        have := hj index hm j hjlt
        rw [hjth] at this
        exact Option.some.inj this
      · rename_i thread hsome
        split
        · rename_i hex
          refine ⟨hs, Or.inr (Or.inl ⟨index + 1, rfl⟩), ?_, by simp⟩
          intro index' hi' j hjlt
          simp only [Main.abortJoin.injEq] at hi'
          subst hi'
          by_cases hji : j = index
          · subst hji; rw [hsome, hex]
          · exact hj index hm j (by omega)
        · exact ⟨hs, Or.inr (Or.inl ⟨index, hm⟩), hj, ha⟩
    · rw [hm]
      exact ⟨hs, Or.inr (Or.inr hm), hj, ha⟩

end CubbyDNN

namespace CubbyDNN

end CubbyDNN

namespace CubbyDNN

/-! ## Progress of the loops that enqueue the `Join` tasks -/

theorem mainSteps_append (first second : List Actor) :
    mainSteps (first ++ second) = mainSteps first + mainSteps second := by
  induction first with
  | nil => simp [mainSteps]
  | cons a rest ih =>
    cases a with
    | main =>
      show mainSteps (rest ++ second) + 1 = mainSteps rest + 1 + mainSteps second
      omega
    | worker w =>
      show mainSteps (rest ++ second) = mainSteps rest + mainSteps second
      exact ih

/-- Past the loop that enqueues the `Join` tasks. -/
theorem ShutdownRoom.past (s : ParState) (h : ShutdownRoom s) (hleft : enqueuesLeft s = 0) :
    (∃ index, s.main = Main.abortJoin index) ∨ s.main = Main.returned := by
  unfold ShutdownRoom at h
  unfold enqueuesLeft at hleft
  cases hmain : s.main <;> rw [hmain] at h hleft <;> simp only at h hleft <;>
    first
    | exact h.elim
    | omega
    | exact Or.inl ⟨_, rfl⟩
    | exact Or.inr rfl

end CubbyDNN

namespace CubbyDNN

end CubbyDNN

/-! # The barrier between the two scans of a round -/

namespace CubbyDNN

theorem SpinLockQueue.Enqueue_items {α : Type} (q q' : SpinLockQueue α) (x : α)
    (h : q.Enqueue x = some q') : q'.items = q.items ++ [x] := by
  unfold SpinLockQueue.Enqueue at h
  split at h
  · cases h; rfl
  · cases h

theorem SpinLockQueue.Dequeue_items {α : Type} (q q' : SpinLockQueue α) (x : α)
    (h : q.Dequeue = some (x, q')) : q.items = x :: q'.items := by
  unfold SpinLockQueue.Dequeue at h
  split at h
  · cases h
  · rename_i y rest hitems
    cases h
    exact hitems

/-- Every step of every thread is one of the moves. -/
theorem ParState.step_moves (cfg : Config) (s : ParState) (a : Actor) :
    Moves cfg s (s.step cfg a) := by
  cases a with
  | main =>
    unfold ParState.step ParState.mainStep
    cases hm : s.main with
    | spawn count =>
      simp only []
      split
      · exact Moves.spawned count hm
      · exact Moves.started count hm
    | complete call =>
      simp only []
      split
      · exact Moves.left _ (Or.inr (Or.inr rfl)) (by rw [hm]; rfl)
      · exact Moves.entered call hm
    | scan call index desired =>
      simp only []
      split
      · rename_i hend
        exact Moves.scannedAll call index desired hm hend
      · rename_i type unit hget
        split
        · exact Moves.foundReady call index desired type unit hm hget
        · exact Moves.foundIdle call index desired type unit hm hget
    | enqueue call index desired t =>
      simp only []
      split
      · exact Moves.stay
      · rename_i q hq
        exact Moves.enqueuedTask call index desired t q hm
          (SpinLockQueue.Enqueue_items _ _ _ hq)
    | wait call desired =>
      simp only []
      split
      · rename_i hc
        exact Moves.passedBarrier call desired hm hc
      · exact Moves.stay
    | join count =>
      simp only []
      split
      · split
        · exact Moves.stay
        · rename_i q hq
          exact Moves.enqueuedJoin _ q (Or.inl ⟨_, rfl⟩) (SpinLockQueue.Enqueue_items _ _ _ hq)
            (by rw [hm]; rfl)
      · exact Moves.left _ (Or.inl rfl) (by rw [hm]; rfl)
    | abortEnqueue count =>
      simp only []
      split
      · split
        · exact Moves.stay
        · rename_i q hq
          exact Moves.enqueuedJoin _ q (Or.inr ⟨_, rfl⟩) (SpinLockQueue.Enqueue_items _ _ _ hq)
            (by rw [hm]; rfl)
      · exact Moves.left _ (Or.inr (Or.inl ⟨0, rfl⟩)) (by rw [hm]; rfl)
    | abortJoin index =>
      simp only []
      split
      · exact Moves.aborted (by rw [hm]; rfl)
      · split
        · exact Moves.left _ (Or.inr (Or.inl ⟨_, rfl⟩)) (by rw [hm]; rfl)
        · exact Moves.stay
    | returned => exact Moves.stay
  | worker w =>
    show Moves cfg s (s.workerStep w)
    unfold ParState.workerStep
    split
    · exact Moves.stay
    · rename_i hth
      split
      · exact Moves.stay
      · rename_i t q hq
        exact Moves.took w t q hth (SpinLockQueue.Dequeue_items _ _ _ hq)
    · rename_i t hth
      exact Moves.ran w t hth
    · rename_i t hth
      exact Moves.signalled w t hth
    · rename_i t hth
      exact Moves.released w t hth
    · exact Moves.stay

end CubbyDNN

namespace CubbyDNN

theorem joinTask_call : joinTask.call = none := rfl

theorem unitTask_call (type : TaskType) (unit : UnitIdentifier) (call : Nat) :
    (unitTask type unit call).call = some call := rfl

theorem weight_of_call (t : TaskWrapper) (c : Nat) (h : t.call = some c) : t.weight c = 1 := by
  simp [TaskWrapper.weight, h]

theorem weight_of_ne (t : TaskWrapper) (c : Nat) (h : t.call ≠ some c) : t.weight c = 0 := by
  simp [TaskWrapper.weight, h]

theorem weight_joinTask (c : Nat) : joinTask.weight c = 0 := by
  simp [TaskWrapper.weight, joinTask_call]

theorem enqueuedCount_cons (e : Event) (log : List Event) (c : Nat) :
    enqueuedCount (e :: log) c =
      (match e with
        | .enqueued t => t.weight c
        | _ => 0) + enqueuedCount log c := by
  simp [enqueuedCount]

theorem signalledCount_cons (e : Event) (log : List Event) (c : Nat) :
    signalledCount (e :: log) c =
      (match e with
        | .signalled _ t => t.weight c
        | _ => 0) + signalledCount log c := by
  simp [signalledCount]

/-- No task of an invocation was enqueued: its count is 0. -/
theorem enqueuedCount_eq_zero (log : List Event) (c : Nat)
    (h : ∀ t, Event.enqueued t ∈ log → t.call ≠ some c) : enqueuedCount log c = 0 := by
  induction log with
  | nil => rfl
  | cons e rest ih =>
    rw [enqueuedCount_cons, ih (fun t ht => h t (List.mem_cons_of_mem _ ht))]
    cases e with
    | enqueued t => simp [weight_of_ne t c (h t (List.mem_cons_self _ _))]
    | _ => rfl

theorem sum_map_set {α : Type} (f : α → Nat) (l : List α) (w : Nat) (x old : α)
    (h : l[w]? = some old) : ((l.set w x).map f).sum + f old = (l.map f).sum + f x := by
  induction l generalizing w with
  | nil => simp at h
  | cons a rest ih =>
    cases w with
    | zero =>
      simp at h
      subst h
      simp only [List.set_cons_zero, List.map_cons, List.sum_cons]
      omega
    | succ w =>
      simp at h
      have := ih w h
      simp only [List.set_cons_succ, List.map_cons, List.sum_cons]
      omega

theorem le_sum_map_of_mem {α : Type} (f : α → Nat) (l : List α) (a : α) (h : a ∈ l) :
    f a ≤ (l.map f).sum := by
  induction l with
  | nil => simp at h
  | cons b rest ih =>
    simp only [List.map_cons, List.sum_cons]
    rcases List.mem_cons.mp h with rfl | h
    · omega
    · have := ih h
      omega

/-- No task of an invocation is pending: none is in the queue or held by a
worker that has not signalled. -/
theorem ParState.not_holds_of_pending (s : ParState) (c : Nat) (h : s.pending c = 0)
    (t : TaskWrapper) (ht : t.call = some c) : ¬ s.Holds t := by
  unfold ParState.pending at h
  intro hh
  rcases hh with hq | ⟨w, hw | hw⟩
  · have := le_sum_map_of_mem (TaskWrapper.weight c) _ t hq
    rw [weight_of_call t c ht] at this
    omega
  · have := le_sum_map_of_mem (Thread.weight c) _ _ (List.getElem?_mem hw)
    simp only [Thread.weight, weight_of_call t c ht] at this
    omega
  · have := le_sum_map_of_mem (Thread.weight c) _ _ (List.getElem?_mem hw)
    simp only [Thread.weight, weight_of_call t c ht] at this
    omega

theorem fetch_add_apply (count : Nat → Nat) (t : TaskWrapper) (c : Nat) :
    (match t.closures with
      | some (_, call) => fetch_add count call
      | none => count) c = count c + t.weight c := by
  unfold TaskWrapper.weight TaskWrapper.call fetch_add
  cases h : t.closures with
  | none => simp
  | some p =>
    obtain ⟨u, call⟩ := p
    simp only [Option.map_some', Option.some.injEq]
    by_cases hc : c = call
    · subst hc; simp
    · have : ¬ call = c := fun h => hc h.symm
      simp [hc, this]

end CubbyDNN

namespace CubbyDNN

/-- A task of type `Join` in the queue adds to no counter. -/
theorem RoundInv.join_weight {s : ParState} (h : RoundInv s) (t : TaskWrapper)
    (ht : t ∈ s.m_taskQueue.items) (hj : t.Type_ = TaskType.Join) (c : Nat) :
    t.weight c = 0 := by
  apply weight_of_ne
  intro hc
  have hne : t.call ≠ none := by rw [hc]; simp
  exact (h.typed t c (h.held t hne (Or.inl ht)) hc).1 hj

/-- Every move keeps the count of the tasks that have not signalled. -/
theorem RoundInv.counted_moves {cfg : Config} {s s' : ParState} (h : RoundInv s)
    (hmv : Moves cfg s s') (c : Nat) : s'.count c + s'.pending c = enqueuedCount s'.log c := by
  have h0 := h.counted c
  unfold ParState.pending at h0 ⊢
  cases hmv with
  | stay => exact h0
  | spawned k hm => simpa [Thread.weight] using h0
  | started k hm => exact h0
  | entered c' hm => exact h0
  | scannedAll c' i d hm hend => exact h0
  | foundReady c' i d type unit hm hget => simpa [enqueuedCount_cons] using h0
  | foundIdle c' i d type unit hm hget => simpa [enqueuedCount_cons] using h0
  | enqueuedTask c' i d t q hm hq =>
    simp only [enqueuedCount_cons, hq, List.map_append, List.sum_append, List.map_cons,
      List.map_nil, List.sum_cons, List.sum_nil]
    omega
  | passedBarrier c' d hm hcount => simpa [enqueuedCount_cons] using h0
  | enqueuedJoin m q hm hq =>
    simp only [enqueuedCount_cons, hq, List.map_append, List.sum_append, List.map_cons,
      List.map_nil, List.sum_cons, List.sum_nil, weight_joinTask]
    omega
  | left m hm => exact h0
  | aborted => exact h0
  | took w t q hth hq =>
    have hset := sum_map_set (Thread.weight c) s.m_mainThreadPool w
      (if t.Type_ ≠ TaskType.Join then Thread.compute t else Thread.exited) _ hth
    rw [hq] at h0
    simp only [List.map_cons, List.sum_cons] at h0
    simp only [enqueuedCount_cons]
    by_cases hj : t.Type_ = TaskType.Join
    · have hw := h.join_weight t (by rw [hq]; exact List.mem_cons_self _ _) hj c
      simp only [hj, ne_eq, not_true_eq_false, if_false, Thread.weight] at hset ⊢
      omega
    · simp only [hj, ne_eq, not_false_eq_true, if_true, Thread.weight] at hset ⊢
      omega
  | ran w t hth =>
    have hset := sum_map_set (Thread.weight c) s.m_mainThreadPool w (Thread.signal t) _ hth
    simp only [Thread.weight] at hset
    simp only [enqueuedCount_cons]
    omega
  | signalled w t hth =>
    have hset := sum_map_set (Thread.weight c) s.m_mainThreadPool w (Thread.release t) _ hth
    simp only [Thread.weight] at hset
    simp only [enqueuedCount_cons, fetch_add_apply]
    omega
  | released w t hth =>
    have hset := sum_map_set (Thread.weight c) s.m_mainThreadPool w Thread.dequeue _ hth
    simp only [Thread.weight] at hset
    simp only [enqueuedCount_cons]
    omega

/-- Every move keeps each counter equal to the number of signals. -/
theorem RoundInv.signalled_moves {cfg : Config} {s s' : ParState} (h : RoundInv s)
    (hmv : Moves cfg s s') (c : Nat) : s'.count c = signalledCount s'.log c := by
  have h0 := h.signalled_eq c
  cases hmv with
  | stay => exact h0
  | signalled w t hth => simp only [signalledCount_cons, fetch_add_apply]; omega
  | _ => simpa [signalledCount_cons] using h0

end CubbyDNN

namespace CubbyDNN

/-- The tasks a scan function declares are not of type `Join`, and of type
`Copy` exactly in `m_executeCopyUnits`. -/
theorem scanList_type (e : Engine) (c : Nat) (type : TaskType) (unit : UnitIdentifier)
    (h : (type, unit) ∈ scanList e c) :
    type ≠ TaskType.Join ∧ (type = TaskType.Copy ↔ c % 2 = 1) := by
  unfold scanList at h
  split at h
  · rename_i hc
    simp only [List.mem_append, List.mem_map] at h
    rcases h with (⟨u, -, hu⟩ | ⟨u, -, hu⟩) | ⟨u, -, hu⟩ <;>
      · cases hu
        refine ⟨by simp, ?_⟩
        constructor
        · intro h; cases h
        · intro h; omega
  · rename_i hc
    simp only [List.mem_map] at h
    obtain ⟨u, -, hu⟩ := h
    cases hu
    refine ⟨by simp, ?_⟩
    constructor
    · intro _; omega
    · intro _; rfl

/-- Every move keeps `desired` equal to the number of tasks enqueued by the
invocation the calling thread is in. -/
theorem RoundInv.desired_moves {cfg : Config} {s s' : ParState} (h : RoundInv s)
    (hmv : Moves cfg s s') (c d : Nat) (hd : s'.main.desired = some (c, d)) :
    enqueuedCount s'.log c = d := by
  cases hmv with
  | stay => exact h.desired_eq c d hd
  | spawned k hm => simp [Main.desired] at hd
  | started k hm => simp [Main.desired] at hd
  | entered c' hm =>
    simp only [Main.desired, Option.some.injEq, Prod.mk.injEq] at hd
    obtain ⟨rfl, rfl⟩ := hd
    apply enqueuedCount_eq_zero
    intro t ht hc
    have := h.below t c' ht hc
    rw [hm] at this
    simp [Main.Below] at this
  | scannedAll c' i d' hm hend =>
    simp only [Main.desired, Option.some.injEq, Prod.mk.injEq] at hd
    obtain ⟨rfl, rfl⟩ := hd
    exact h.desired_eq c' d' (by rw [hm]; rfl)
  | foundReady c' i d' type unit hm hget =>
    simp only [Main.desired, Option.some.injEq, Prod.mk.injEq] at hd
    obtain ⟨rfl, rfl⟩ := hd
    simpa [enqueuedCount_cons] using h.desired_eq c' d' (by rw [hm]; rfl)
  | foundIdle c' i d' type unit hm hget =>
    simp only [Main.desired, Option.some.injEq, Prod.mk.injEq] at hd
    obtain ⟨rfl, rfl⟩ := hd
    simpa [enqueuedCount_cons] using h.desired_eq c' d' (by rw [hm]; rfl)
  | enqueuedTask c' i d' t q hm hq =>
    simp only [Main.desired, Option.some.injEq, Prod.mk.injEq] at hd
    obtain ⟨rfl, rfl⟩ := hd
    have h1 := h.desired_eq c' d' (by rw [hm]; rfl)
    have h2 := weight_of_call t c' (h.declared c' i d' t hm).1
    simp only [enqueuedCount_cons]
    omega
  | passedBarrier c' d' hm hcount =>
    by_cases hpar : c' % 2 = 0
    · simp only [hpar, if_true, Main.desired, Option.some.injEq, Prod.mk.injEq] at hd
      obtain ⟨rfl, rfl⟩ := hd
      rw [enqueuedCount_cons]
      simp only [Nat.zero_add]
      apply enqueuedCount_eq_zero
      intro t ht hc
      have := h.below t (c' + 1) ht hc
      rw [hm] at this
      simp [Main.Below] at this
    · simp [hpar, Main.desired] at hd
  | enqueuedJoin m q hm hq =>
    rcases hm with ⟨k, rfl⟩ | ⟨k, rfl⟩ <;> simp [Main.desired] at hd
  | left m hm =>
    rcases hm with rfl | ⟨k, rfl⟩ | rfl <;> simp [Main.desired] at hd
  | aborted => simp [Main.desired] at hd
  | took w t q hth hq => simpa [enqueuedCount_cons] using h.desired_eq c d hd
  | ran w t hth => simpa [enqueuedCount_cons] using h.desired_eq c d hd
  | signalled w t hth => simpa [enqueuedCount_cons] using h.desired_eq c d hd
  | released w t hth => simpa [enqueuedCount_cons] using h.desired_eq c d hd

/-- Every move keeps the tasks enqueued within the invocations entered. -/
theorem RoundInv.below_moves {cfg : Config} {s s' : ParState} (h : RoundInv s)
    (hmv : Moves cfg s s') (t : TaskWrapper) (c : Nat) (ht : Event.enqueued t ∈ s'.log)
    (hc : t.call = some c) : s'.main.Below c := by
  cases hmv with
  | stay => exact h.below t c ht hc
  | spawned k hm => have := h.below t c ht hc; rw [hm] at this; exact this.elim
  | started k hm => have := h.below t c ht hc; rw [hm] at this; exact this.elim
  | entered c' hm =>
    have := h.below t c ht hc
    rw [hm] at this
    simp only [Main.Below] at this ⊢
    omega
  | scannedAll c' i d' hm hend =>
    have := h.below t c ht hc
    rw [hm] at this
    exact this
  | foundReady c' i d' type unit hm hget =>
    have := h.below t c (by simpa using ht) hc
    rw [hm] at this
    exact this
  | foundIdle c' i d' type unit hm hget =>
    have := h.below t c (by simpa using ht) hc
    rw [hm] at this
    exact this
  | enqueuedTask c' i d' t' q hm hq =>
    simp only [List.mem_cons, Event.enqueued.injEq] at ht
    rcases ht with rfl | ht
    · have := (h.declared c' i d' t hm).1
      rw [hc] at this
      cases this
      simp [Main.Below]
    · have := h.below t c ht hc
      rw [hm] at this
      exact this
  | passedBarrier c' d' hm hcount =>
    have := h.below t c (by simpa using ht) hc
    rw [hm] at this
    simp only [Main.Below] at this
    by_cases hpar : c' % 2 = 0
    · simp only [hpar, if_true, Main.Below]; omega
    · simp only [hpar, if_false, Main.Below]; omega
  | enqueuedJoin m q hm hq =>
    rcases hm with ⟨k, rfl⟩ | ⟨k, rfl⟩ <;> simp [Main.Below]
  | left m hm =>
    rcases hm with rfl | ⟨k, rfl⟩ | rfl <;> simp [Main.Below]
  | aborted => simp [Main.Below]
  | took w t' q hth hq => exact h.below t c (by simpa using ht) hc
  | ran w t' hth => exact h.below t c (by simpa using ht) hc
  | signalled w t' hth => exact h.below t c (by simpa using ht) hc
  | released w t' hth => exact h.below t c (by simpa using ht) hc

/-- Every move keeps the invocations that left their waiting loop behind the
calling thread. -/
theorem RoundInv.past_moves {cfg : Config} {s s' : ParState} (h : RoundInv s)
    (hmv : Moves cfg s s') (c : Nat) (hp : Event.passed c ∈ s'.log) : s'.main.Past c := by
  cases hmv with
  | stay => exact h.past c hp
  | spawned k hm => have := h.past c hp; rw [hm] at this; exact this.elim
  | started k hm => have := h.past c hp; rw [hm] at this; exact this.elim
  | entered c' hm =>
    have := h.past c hp
    rw [hm] at this
    exact this
  | scannedAll c' i d' hm hend =>
    have := h.past c hp
    rw [hm] at this
    exact this
  | foundReady c' i d' type unit hm hget =>
    have := h.past c (by simpa using hp)
    rw [hm] at this
    exact this
  | foundIdle c' i d' type unit hm hget =>
    have := h.past c (by simpa using hp)
    rw [hm] at this
    exact this
  | enqueuedTask c' i d' t' q hm hq =>
    have := h.past c (by simpa using hp)
    rw [hm] at this
    exact this
  | passedBarrier c' d' hm hcount =>
    simp only [List.mem_cons, Event.passed.injEq] at hp
    have hlt : c < c' + 1 := by
      rcases hp with rfl | hp
      · omega
      · have := h.past c hp
        rw [hm] at this
        simp only [Main.Past] at this
        omega
    by_cases hpar : c' % 2 = 0
    · simpa [hpar, Main.Past] using hlt
    · simpa [hpar, Main.Past] using hlt
  | enqueuedJoin m q hm hq =>
    rcases hm with ⟨k, rfl⟩ | ⟨k, rfl⟩ <;> simp [Main.Past]
  | left m hm =>
    rcases hm with rfl | ⟨k, rfl⟩ | rfl <;> simp [Main.Past]
  | aborted => simp [Main.Past]
  | took w t' q hth hq => exact h.past c (by simpa using hp)
  | ran w t' hth => exact h.past c (by simpa using hp)
  | signalled w t' hth => exact h.past c (by simpa using hp)
  | released w t' hth => exact h.past c (by simpa using hp)

end CubbyDNN

namespace CubbyDNN

/-- Every move keeps the types of the tasks enqueued. -/
theorem RoundInv.typed_moves {cfg : Config} {s s' : ParState} (h : RoundInv s)
    (hmv : Moves cfg s s') (t : TaskWrapper) (c : Nat) (ht : Event.enqueued t ∈ s'.log)
    (hc : t.call = some c) :
    t.Type_ ≠ TaskType.Join ∧ (t.Type_ = TaskType.Copy ↔ c % 2 = 1) := by
  cases hmv with
  | stay => exact h.typed t c ht hc
  | enqueuedTask c' i d' t' q hm hq =>
    simp only [List.mem_cons, Event.enqueued.injEq] at ht
    rcases ht with rfl | ht
    · have hd := h.declared c' i d' t hm
      have : c' = c := by
        have := hd.1
        rw [hc] at this
        exact (Option.some.inj this).symm
      subst this
      exact hd.2
    · exact h.typed t c ht hc
  | enqueuedJoin m q hm hq =>
    simp only [List.mem_cons, Event.enqueued.injEq] at ht
    rcases ht with rfl | ht
    · rw [joinTask_call] at hc; cases hc
    · exact h.typed t c ht hc
  | _ => exact h.typed t c (by simpa using ht) hc

/-- Every move keeps the task the calling thread is about to enqueue one that
its invocation declared. -/
theorem RoundInv.declared_moves {cfg : Config} {s s' : ParState} (h : RoundInv s)
    (hmv : Moves cfg s s') (c i d : Nat) (t : TaskWrapper)
    (hm' : s'.main = Main.enqueue c i d t) :
    t.call = some c ∧ t.Type_ ≠ TaskType.Join ∧ (t.Type_ = TaskType.Copy ↔ c % 2 = 1) := by
  cases hmv with
  | stay => exact h.declared c i d t hm'
  | foundReady c' i' d' type unit hm hget =>
    simp only [Main.enqueue.injEq] at hm'
    obtain ⟨rfl, rfl, rfl, rfl⟩ := hm'
    exact ⟨rfl, scanList_type s.engine c' type unit (List.getElem?_mem hget)⟩
  | passedBarrier c' d' hm hcount =>
    by_cases hpar : c' % 2 = 0 <;> simp [hpar] at hm'
  | enqueuedJoin m q hm hq =>
    rcases hm with ⟨k, rfl⟩ | ⟨k, rfl⟩ <;> simp at hm'
  | left m hm =>
    rcases hm with rfl | ⟨k, rfl⟩ | rfl <;> simp at hm'
  | took w t' q hth hq => exact h.declared c i d t hm'
  | ran w t' hth => exact h.declared c i d t hm'
  | signalled w t' hth => exact h.declared c i d t hm'
  | released w t' hth => exact h.declared c i d t hm'
  | _ => simp at hm'

/-- Every move keeps the preceding invocation of `m_executeComputeUnits` behind
an invocation of `m_executeCopyUnits`. -/
theorem RoundInv.previous_moves {cfg : Config} {s s' : ParState} (h : RoundInv s)
    (hmv : Moves cfg s s') (c : Nat) (hcur : s'.main.current = some c) (hodd : c % 2 = 1) :
    Event.passed (c - 1) ∈ s'.log := by
  cases hmv with
  | stay => exact h.previous c hcur hodd
  | spawned k hm => simp [Main.current] at hcur
  | started k hm =>
    simp only [Main.current, Option.some.injEq] at hcur
    omega
  | entered c' hm =>
    simp only [Main.current, Option.some.injEq] at hcur
    subst hcur
    exact h.previous c' (by rw [hm]; rfl) hodd
  | scannedAll c' i d' hm hend =>
    simp only [Main.current, Option.some.injEq] at hcur
    subst hcur
    exact h.previous c' (by rw [hm]; rfl) hodd
  | foundReady c' i d' type unit hm hget =>
    simp only [Main.current, Option.some.injEq] at hcur
    subst hcur
    exact List.mem_cons_of_mem _ (h.previous c' (by rw [hm]; rfl) hodd)
  | foundIdle c' i d' type unit hm hget =>
    simp only [Main.current, Option.some.injEq] at hcur
    subst hcur
    exact List.mem_cons_of_mem _ (h.previous c' (by rw [hm]; rfl) hodd)
  | enqueuedTask c' i d' t' q hm hq =>
    simp only [Main.current, Option.some.injEq] at hcur
    subst hcur
    exact List.mem_cons_of_mem _ (h.previous c' (by rw [hm]; rfl) hodd)
  | passedBarrier c' d' hm hcount =>
    by_cases hpar : c' % 2 = 0
    · simp only [hpar, if_true, Main.current, Option.some.injEq] at hcur
      subst hcur
      simp
    · simp only [hpar, if_false, Main.current, Option.some.injEq] at hcur
      omega
  | enqueuedJoin m q hm hq =>
    rcases hm with ⟨k, rfl⟩ | ⟨k, rfl⟩ <;> simp [Main.current] at hcur
  | left m hm =>
    rcases hm with rfl | ⟨k, rfl⟩ | rfl <;> simp [Main.current] at hcur
  | aborted => simp [Main.current] at hcur
  | took w t' q hth hq => exact List.mem_cons_of_mem _ (h.previous c hcur hodd)
  | ran w t' hth => exact List.mem_cons_of_mem _ (h.previous c hcur hodd)
  | signalled w t' hth => exact List.mem_cons_of_mem _ (h.previous c hcur hodd)
  | released w t' hth => exact List.mem_cons_of_mem _ (h.previous c hcur hodd)

end CubbyDNN

namespace CubbyDNN

theorem getElem?_set_cases {α : Type} (l : List α) (w j : Nat) (x y : α)
    (h : (l.set w x)[j]? = some y) : (j = w ∧ y = x) ∨ (j ≠ w ∧ l[j]? = some y) := by
  rw [List.getElem?_set] at h
  by_cases hjw : w = j
  · subst hjw
    left
    simp only [if_true] at h
    split at h
    · exact ⟨rfl, (Option.some.inj h).symm⟩
    · cases h
  · right
    rw [if_neg hjw] at h
    exact ⟨fun h' => hjw h'.symm, h⟩

theorem getElem?_append_dequeue (l : List Thread) (j : Nat) (y : Thread)
    (h : (l ++ [Thread.dequeue])[j]? = some y) (hy : y ≠ Thread.dequeue) : l[j]? = some y := by
  by_cases hj : j < l.length
  · rw [List.getElem?_append_left hj] at h
    exact h
  · rw [List.getElem?_append_right (by omega)] at h
    cases hk : j - l.length with
    | zero => rw [hk] at h; simp at h; exact absurd h.symm hy
    | succ k => rw [hk] at h; simp at h

/-- Every move keeps the tasks in the queue, and those a worker is about to
run, among the tasks that were enqueued. -/
theorem RoundInv.held_moves {cfg : Config} {s s' : ParState} (h : RoundInv s)
    (hmv : Moves cfg s s') (t : TaskWrapper) (hne : t.call ≠ none)
    (hh : t ∈ s'.m_taskQueue.items ∨
      ∃ w : Nat, s'.m_mainThreadPool[w]? = some (Thread.compute t)) :
    Event.enqueued t ∈ s'.log := by
  cases hmv with
  | stay => exact h.held t hne hh
  | spawned k hm =>
    refine h.held t hne ?_
    rcases hh with hq | ⟨w, hw⟩
    · exact Or.inl hq
    · exact Or.inr ⟨w, getElem?_append_dequeue _ _ _ hw (by simp)⟩
  | started k hm => exact h.held t hne hh
  | entered c' hm => exact h.held t hne hh
  | scannedAll c' i d' hm hend => exact h.held t hne hh
  | foundReady c' i d' type unit hm hget => exact List.mem_cons_of_mem _ (h.held t hne hh)
  | foundIdle c' i d' type unit hm hget => exact List.mem_cons_of_mem _ (h.held t hne hh)
  | enqueuedTask c' i d' t' q hm hq =>
    rcases hh with hin | hw
    · simp only [hq, List.mem_append, List.mem_singleton] at hin
      rcases hin with hin | rfl
      · exact List.mem_cons_of_mem _ (h.held t hne (Or.inl hin))
      · exact List.mem_cons_self _ _
    · exact List.mem_cons_of_mem _ (h.held t hne (Or.inr hw))
  | passedBarrier c' d' hm hcount => exact List.mem_cons_of_mem _ (h.held t hne hh)
  | enqueuedJoin m q hm hq =>
    rcases hh with hin | hw
    · simp only [hq, List.mem_append, List.mem_singleton] at hin
      rcases hin with hin | rfl
      · exact List.mem_cons_of_mem _ (h.held t hne (Or.inl hin))
      · exact absurd joinTask_call hne
    · exact List.mem_cons_of_mem _ (h.held t hne (Or.inr hw))
  | left m hm => exact h.held t hne hh
  | aborted => exact h.held t hne hh
  | took w t' q hth hq =>
    apply List.mem_cons_of_mem
    rcases hh with hin | ⟨j, hj⟩
    · exact h.held t hne (Or.inl (by rw [hq]; exact List.mem_cons_of_mem _ hin))
    · rcases getElem?_set_cases _ _ _ _ _ hj with ⟨-, hx⟩ | ⟨-, hold⟩
      · by_cases hjn : t'.Type_ = TaskType.Join
        · simp [hjn] at hx
        · simp only [hjn, ne_eq, not_false_eq_true, if_true, Thread.compute.injEq] at hx
          subst hx
          exact h.held t hne (Or.inl (by rw [hq]; exact List.mem_cons_self _ _))
      · exact h.held t hne (Or.inr ⟨j, hold⟩)
  | ran w t' hth =>
    apply List.mem_cons_of_mem
    rcases hh with hin | ⟨j, hj⟩
    · exact h.held t hne (Or.inl hin)
    · rcases getElem?_set_cases _ _ _ _ _ hj with ⟨-, hx⟩ | ⟨-, hold⟩
      · cases hx
      · exact h.held t hne (Or.inr ⟨j, hold⟩)
  | signalled w t' hth =>
    apply List.mem_cons_of_mem
    rcases hh with hin | ⟨j, hj⟩
    · exact h.held t hne (Or.inl hin)
    · rcases getElem?_set_cases _ _ _ _ _ hj with ⟨-, hx⟩ | ⟨-, hold⟩
      · cases hx
      · exact h.held t hne (Or.inr ⟨j, hold⟩)
  | released w t' hth =>
    apply List.mem_cons_of_mem
    rcases hh with hin | ⟨j, hj⟩
    · exact h.held t hne (Or.inl hin)
    · rcases getElem?_set_cases _ _ _ _ _ hj with ⟨-, hx⟩ | ⟨-, hold⟩
      · cases hx
      · exact h.held t hne (Or.inr ⟨j, hold⟩)

end CubbyDNN

namespace CubbyDNN

/-- A task held by a worker other than `w` is still held after the position of
`w` has changed. -/
theorem holds_set_ne (pool : List Thread) (w j : Nat) (x th : Thread) (hj : pool[j]? = some th)
    (hne : j ≠ w) : (pool.set w x)[j]? = some th := by
  rw [List.getElem?_set_ne (fun h => hne h.symm)]
  exact hj

/-- Every move keeps every enqueued task either pending or signalled. -/
theorem RoundInv.progress_moves {cfg : Config} {s s' : ParState} (h : RoundInv s)
    (hmv : Moves cfg s s') (t : TaskWrapper) (c : Nat) (ht : Event.enqueued t ∈ s'.log)
    (hc : t.call = some c) : s'.Holds t ∨ ∃ w, Event.signalled w t ∈ s'.log := by
  cases hmv with
  | stay => exact h.progress t c ht hc
  | spawned k hm =>
    rcases h.progress t c ht hc with hh | hs
    · left
      rcases hh with hq | ⟨w, hw | hw⟩
      · exact Or.inl hq
      · refine Or.inr ⟨w, Or.inl ?_⟩
        have hlt := (List.getElem?_eq_some.mp hw).1
        show (s.m_mainThreadPool ++ [Thread.dequeue])[w]? = _
        rw [List.getElem?_append_left hlt]
        exact hw
      · refine Or.inr ⟨w, Or.inr ?_⟩
        have hlt := (List.getElem?_eq_some.mp hw).1
        show (s.m_mainThreadPool ++ [Thread.dequeue])[w]? = _
        rw [List.getElem?_append_left hlt]
        exact hw
    · exact Or.inr hs
  | started k hm => exact h.progress t c ht hc
  | entered c' hm => exact h.progress t c ht hc
  | scannedAll c' i d' hm hend => exact h.progress t c ht hc
  | foundReady c' i d' type unit hm hget =>
    rcases h.progress t c (by simpa using ht) hc with hh | ⟨w, hs⟩
    · exact Or.inl hh
    · exact Or.inr ⟨w, List.mem_cons_of_mem _ hs⟩
  | foundIdle c' i d' type unit hm hget =>
    rcases h.progress t c (by simpa using ht) hc with hh | ⟨w, hs⟩
    · exact Or.inl hh
    · exact Or.inr ⟨w, List.mem_cons_of_mem _ hs⟩
  | enqueuedTask c' i d' t' q hm hq =>
    simp only [List.mem_cons, Event.enqueued.injEq] at ht
    rcases ht with rfl | ht
    · left
      left
      show t ∈ q.items
      rw [hq]
      simp
    · rcases h.progress t c ht hc with hh | ⟨w, hs⟩
      · left
        rcases hh with hin | hw
        · left
          show t ∈ q.items
          rw [hq]
          exact List.mem_append_left _ hin
        · exact Or.inr hw
      · exact Or.inr ⟨w, List.mem_cons_of_mem _ hs⟩
  | passedBarrier c' d' hm hcount =>
    rcases h.progress t c (by simpa using ht) hc with hh | ⟨w, hs⟩
    · exact Or.inl hh
    · exact Or.inr ⟨w, List.mem_cons_of_mem _ hs⟩
  | enqueuedJoin m q hm hq =>
    simp only [List.mem_cons, Event.enqueued.injEq] at ht
    rcases ht with rfl | ht
    · rw [joinTask_call] at hc; cases hc
    · rcases h.progress t c ht hc with hh | ⟨w, hs⟩
      · left
        rcases hh with hin | hw
        · left
          show t ∈ q.items
          rw [hq]
          exact List.mem_append_left _ hin
        · exact Or.inr hw
      · exact Or.inr ⟨w, List.mem_cons_of_mem _ hs⟩
  | left m hm => exact h.progress t c ht hc
  | aborted => exact h.progress t c ht hc
  | took w t' q hth hq =>
    have ht' : Event.enqueued t ∈ s.log := by simpa using ht
    rcases h.progress t c ht' hc with hh | ⟨j, hs⟩
    · left
      rcases hh with hin | ⟨j, hj | hj⟩
      · rw [hq] at hin
        rcases List.mem_cons.mp hin with rfl | hin
        · right
          have hty := (h.typed t c ht' hc).1
          refine ⟨w, Or.inl ?_⟩
          have hlt := (List.getElem?_eq_some.mp hth).1
          show (s.m_mainThreadPool.set w _)[w]? = _
          rw [List.getElem?_set_self hlt]
          simp [hty]
        · exact Or.inl hin
      · have hjw : j ≠ w := by
          intro hEq; subst hEq; rw [hth] at hj; cases hj
        exact Or.inr ⟨j, Or.inl (holds_set_ne _ _ _ _ _ hj hjw)⟩
      · have hjw : j ≠ w := by
          intro hEq; subst hEq; rw [hth] at hj; cases hj
        exact Or.inr ⟨j, Or.inr (holds_set_ne _ _ _ _ _ hj hjw)⟩
    · exact Or.inr ⟨j, List.mem_cons_of_mem _ hs⟩
  | ran w t' hth =>
    have ht' : Event.enqueued t ∈ s.log := by simpa using ht
    rcases h.progress t c ht' hc with hh | ⟨j, hs⟩
    · left
      rcases hh with hin | ⟨j, hj | hj⟩
      · exact Or.inl hin
      · by_cases hjw : j = w
        · subst hjw
          rw [hth] at hj
          cases hj
          have hlt := (List.getElem?_eq_some.mp hth).1
          exact Or.inr ⟨j, Or.inr (List.getElem?_set_self hlt)⟩
        · exact Or.inr ⟨j, Or.inl (holds_set_ne _ _ _ _ _ hj hjw)⟩
      · have hjw : j ≠ w := by
          intro hEq; subst hEq; rw [hth] at hj; cases hj
        exact Or.inr ⟨j, Or.inr (holds_set_ne _ _ _ _ _ hj hjw)⟩
    · exact Or.inr ⟨j, List.mem_cons_of_mem _ hs⟩
  | signalled w t' hth =>
    have ht' : Event.enqueued t ∈ s.log := by simpa using ht
    rcases h.progress t c ht' hc with hh | ⟨j, hs⟩
    · rcases hh with hin | ⟨j, hj | hj⟩
      · exact Or.inl (Or.inl hin)
      · have hjw : j ≠ w := by
          intro hEq; subst hEq; rw [hth] at hj; cases hj
        exact Or.inl (Or.inr ⟨j, Or.inl (holds_set_ne _ _ _ _ _ hj hjw)⟩)
      · by_cases hjw : j = w
        · subst hjw
          rw [hth] at hj
          cases hj
          exact Or.inr ⟨j, List.mem_cons_self _ _⟩
        · exact Or.inl (Or.inr ⟨j, Or.inr (holds_set_ne _ _ _ _ _ hj hjw)⟩)
    · exact Or.inr ⟨j, List.mem_cons_of_mem _ hs⟩
  | released w t' hth =>
    have ht' : Event.enqueued t ∈ s.log := by simpa using ht
    rcases h.progress t c ht' hc with hh | ⟨j, hs⟩
    · left
      rcases hh with hin | ⟨j, hj | hj⟩
      · exact Or.inl hin
      · have hjw : j ≠ w := by
          intro hEq; subst hEq; rw [hth] at hj; cases hj
        exact Or.inr ⟨j, Or.inl (holds_set_ne _ _ _ _ _ hj hjw)⟩
      · have hjw : j ≠ w := by
          intro hEq; subst hEq; rw [hth] at hj; cases hj
        exact Or.inr ⟨j, Or.inr (holds_set_ne _ _ _ _ _ hj hjw)⟩
    · exact Or.inr ⟨j, List.mem_cons_of_mem _ hs⟩

/-- Every move keeps the order of the log. -/
theorem RoundInv.ordered_moves {cfg : Config} {s s' : ParState} (h : RoundInv s)
    (hmv : Moves cfg s s') : Ordered s'.log := by
  cases hmv with
  | stay => exact h.ordered
  | spawned k hm => exact h.ordered
  | started k hm => exact h.ordered
  | entered c' hm => exact h.ordered
  | scannedAll c' i d' hm hend => exact h.ordered
  | foundReady c' i d' type unit hm hget => exact ⟨trivial, h.ordered⟩
  | foundIdle c' i d' type unit hm hget => exact ⟨trivial, h.ordered⟩
  | enqueuedTask c' i d' t' q hm hq =>
    refine ⟨?_, h.ordered⟩
    intro call hcall
    have hd := (h.declared c' i d' t' hm).1
    have : call = c' := by rw [hd] at hcall; exact (Option.some.inj hcall).symm
    subst this
    constructor
    · intro hp
      have := h.past call hp
      rw [hm] at this
      simp [Main.Past] at this
    · intro hodd
      exact h.previous call (by rw [hm]; rfl) hodd
  | passedBarrier c' d' hm hcount =>
    refine ⟨?_, h.ordered⟩
    have h1 := h.signalled_eq c'
    have h2 := h.desired_eq c' d' (by rw [hm]; rfl)
    have h3 := h.counted c'
    refine ⟨by omega, ?_⟩
    intro t ht hc
    rcases h.progress t c' ht hc with hh | hs
    · exact absurd hh (s.not_holds_of_pending c' (by omega) t hc)
    · exact hs
  | enqueuedJoin m q hm hq =>
    refine ⟨?_, h.ordered⟩
    intro call hcall
    rw [joinTask_call] at hcall
    cases hcall
  | left m hm => exact h.ordered
  | aborted => exact h.ordered
  | took w t' q hth hq => exact ⟨trivial, h.ordered⟩
  | ran w t' hth =>
    refine ⟨?_, h.ordered⟩
    intro hne
    exact h.held t' hne (Or.inr ⟨w, hth⟩)
  | signalled w t' hth => exact ⟨trivial, h.ordered⟩
  | released w t' hth => exact ⟨trivial, h.ordered⟩

/-- Every move keeps what holds throughout a run of `ExecuteParallel`. -/
theorem RoundInv.all_moves {cfg : Config} {s s' : ParState} (h : RoundInv s)
    (hmv : Moves cfg s s') : RoundInv s' :=
  ⟨h.counted_moves hmv, h.signalled_moves hmv, h.desired_moves hmv, h.below_moves hmv,
   h.past_moves hmv, h.progress_moves hmv, h.held_moves hmv, h.typed_moves hmv,
   h.declared_moves hmv, h.previous_moves hmv, h.ordered_moves hmv⟩

/-- It holds when `ExecuteParallel` is entered with no task of a unit in the
queue and every pool thread waiting for a task, gone, or about to release the
unit of a task of an earlier call. -/
theorem RoundInv.at_entry (e : Engine) (queue : SpinLockQueue TaskWrapper) (pool : List Thread)
    (hq : ∀ t ∈ queue.items, t.closures = none)
    (hp : ∀ th ∈ pool, th = Thread.dequeue ∨ th = Thread.exited ∨ ∃ t, th = Thread.release t) :
    RoundInv (ExecuteParallel e queue pool) := by
  have hqsum : ∀ c, (queue.items.map (TaskWrapper.weight c)).sum = 0 := by
    intro c
    apply List.sum_eq_zero
    intro x hx
    obtain ⟨t, ht, rfl⟩ := List.mem_map.mp hx
    simp [TaskWrapper.weight, TaskWrapper.call, hq t ht]
  have hpsum : ∀ c, (pool.map (Thread.weight c)).sum = 0 := by
    intro c
    apply List.sum_eq_zero
    intro x hx
    obtain ⟨th, hth, rfl⟩ := List.mem_map.mp hx
    rcases hp th hth with rfl | rfl | ⟨t, rfl⟩ <;> rfl
  refine ⟨?_, ?_, ?_, ?_, ?_, ?_, ?_, ?_, ?_, ?_, ?_⟩
  · intro c
    simp [ExecuteParallel, ParState.pending, enqueuedCount, hqsum, hpsum]
  · intro c; rfl
  · intro c d hd; simp [ExecuteParallel, Main.desired] at hd
  · intro t c ht; simp [ExecuteParallel] at ht
  · intro c hc; simp [ExecuteParallel] at hc
  · intro t c ht; simp [ExecuteParallel] at ht
  · intro t hne hh
    exfalso
    rcases hh with hin | ⟨w, hw⟩
    · exact hne (by simp [TaskWrapper.call, hq t hin])
    · rcases hp _ (List.getElem?_mem hw) with h | h | ⟨t, h⟩ <;> cases h
  · intro t c ht; simp [ExecuteParallel] at ht
  · intro c i d t hm; simp [ExecuteParallel] at hm
  · intro c hc; simp [ExecuteParallel, Main.current] at hc
  · trivial

end CubbyDNN

namespace CubbyDNN

theorem scanList_of_frame {e e' : Engine}
    (h : e'.m_sourceUnitVector.length = e.m_sourceUnitVector.length ∧
      e'.m_hiddenUnitVector.length = e.m_hiddenUnitVector.length ∧
      e'.m_sinkUnitVector.length = e.m_sinkUnitVector.length ∧
      e'.m_copyUnitVector.length = e.m_copyUnitVector.length) (c : Nat) :
    scanList e' c = scanList e c := by
  unfold scanList
  rw [h.1, h.2.1, h.2.2.1, h.2.2.2]

/-- No move changes the lists the scan functions go through. -/
theorem Moves.scanList_eq {cfg : Config} {s s' : ParState} (hmv : Moves cfg s s') (c : Nat) :
    scanList s'.engine c = scanList s.engine c := by
  cases hmv with
  | released w t hth =>
    simp only []
    cases t.closures with
    | none => rfl
    | some p =>
      have := frame_ReleaseUnit s.engine p.1
      simp only [Engine.frame, Prod.mk.injEq] at this
      exact scanList_of_frame ⟨this.1, this.2.1, this.2.2.1, this.2.2.2.1⟩ c
  | _ => rfl

theorem scannedUnits_cons (e : Event) (log : List Event) (c : Nat) :
    scannedUnits (e :: log) c =
      (match e with
        | .scanned c' unit _ => if c' = c then [unit] else []
        | _ => []) ++ scannedUnits log c := by
  unfold scannedUnits
  rw [List.filterMap_cons]
  cases e with
  | scanned c' unit r => by_cases h : c' = c <;> simp [h]
  | _ => simp

theorem readyUnits_cons (e : Event) (log : List Event) (c : Nat) :
    readyUnits (e :: log) c =
      (match e with
        | .scanned c' unit true => if c' = c then [unit] else []
        | _ => []) ++ readyUnits log c := by
  unfold readyUnits
  rw [List.filterMap_cons]
  cases e with
  | scanned c' unit r =>
    cases r
    · simp
    · by_cases h : c' = c <;> simp [h]
  | _ => simp

theorem enqueuedUnits_cons (e : Event) (log : List Event) (c : Nat) :
    enqueuedUnits (e :: log) c =
      (match e with
        | .enqueued t => (t.unitOf c).toList
        | _ => []) ++ enqueuedUnits log c := by
  unfold enqueuedUnits
  rw [List.filterMap_cons]
  cases e with
  | enqueued t => cases h : t.unitOf c <;> simp [h]
  | _ => simp

theorem unitOf_unitTask (type : TaskType) (unit : UnitIdentifier) (c c' : Nat) :
    (unitTask type unit c).unitOf c' = if c = c' then some unit else none := rfl

theorem unitOf_joinTask (c : Nat) : joinTask.unitOf c = none := rfl

theorem tested_of_desired (m : Main) (size c : Nat) (h : m.desired = none) :
    m.tested size c = 0 := by
  cases m <;> simp [Main.desired] at h <;> rfl

theorem pendingUnit_of_desired (m : Main) (c : Nat) (h : m.desired = none) :
    m.pendingUnit c = [] := by
  cases m <;> simp [Main.desired] at h <;> rfl

end CubbyDNN

namespace CubbyDNN

/-- Every move keeps the units found ready matched by the tasks enqueued. -/
theorem ScanInv.ready_moves {cfg : Config} {s s' : ParState} (h : ScanInv s)
    (hmv : Moves cfg s s') (c : Nat) :
    readyUnits s'.log c = s'.main.pendingUnit c ++ enqueuedUnits s'.log c := by
  have h0 := h.ready_eq c
  cases hmv with
  | stay => exact h0
  | spawned k hm => rw [hm] at h0; exact h0
  | started k hm => rw [hm] at h0; exact h0
  | entered c' hm => rw [hm] at h0; exact h0
  | scannedAll c' i d hm hend => rw [hm] at h0; exact h0
  | foundReady c' i d type unit hm hget =>
    rw [hm] at h0
    simp only [Main.pendingUnit, List.nil_append] at h0
    simp only [readyUnits_cons, enqueuedUnits_cons, Main.pendingUnit, unitOf_unitTask, h0,
      List.nil_append]
    by_cases hc : c' = c <;> simp [hc]
  | foundIdle c' i d type unit hm hget =>
    rw [hm] at h0
    simpa [readyUnits_cons, enqueuedUnits_cons, Main.pendingUnit] using h0
  | enqueuedTask c' i d t q hm hq =>
    rw [hm] at h0
    simpa [readyUnits_cons, enqueuedUnits_cons, Main.pendingUnit] using h0
  | passedBarrier c' d hm hcount =>
    rw [hm] at h0
    by_cases hpar : c' % 2 = 0 <;>
      simpa [readyUnits_cons, enqueuedUnits_cons, Main.pendingUnit, hpar] using h0
  | enqueuedJoin m q hm hq hold =>
    rw [pendingUnit_of_desired _ c hold] at h0
    rcases hm with ⟨k, rfl⟩ | ⟨k, rfl⟩ <;>
      simpa [readyUnits_cons, enqueuedUnits_cons, Main.pendingUnit, unitOf_joinTask] using h0
  | left m hm hold =>
    rw [pendingUnit_of_desired _ c hold] at h0
    rcases hm with rfl | ⟨k, rfl⟩ | rfl <;> simpa [Main.pendingUnit] using h0
  | aborted hold =>
    rw [pendingUnit_of_desired _ c hold] at h0
    simpa [Main.pendingUnit] using h0
  | took w t q hth hq => simpa [readyUnits_cons, enqueuedUnits_cons] using h0
  | ran w t hth => simpa [readyUnits_cons, enqueuedUnits_cons] using h0
  | signalled w t hth => simpa [readyUnits_cons, enqueuedUnits_cons] using h0
  | released w t hth => simpa [readyUnits_cons, enqueuedUnits_cons] using h0

end CubbyDNN

namespace CubbyDNN

theorem take_succ_of_getElem? {α : Type} (l : List α) (i : Nat) (x : α) (h : l[i]? = some x) :
    l.take (i + 1) = l.take i ++ [x] := by
  rw [List.take_succ, h]
  rfl

theorem take_of_getElem?_none {α : Type} (l : List α) (i : Nat) (h : l[i]? = none) :
    l.take i = l.take l.length := by
  have := List.getElem?_eq_none_iff.mp h
  rw [List.take_of_length_le this, List.take_length]

/-- Every move keeps the units tested the first ones of the list. -/
theorem ScanInv.scanned_moves {cfg : Config} {s s' : ParState} (h : ScanInv s)
    (hr : RoundInv s) (hmv : Moves cfg s s') (c : Nat) :
    scannedUnits s'.log c =
      (((scanList s'.engine c).take (s'.scanProgress c)).map Prod.snd).reverse := by
  have h0 := h.scanned_eq c
  have hsl := hmv.scanList_eq c
  have hpast := hr.past c
  unfold ParState.scanProgress at h0 ⊢
  rw [hsl]
  cases hmv with
  | stay => exact h0
  | spawned k hm => rw [hm] at h0; exact h0
  | started k hm => rw [hm] at h0; exact h0
  | entered c' hm =>
    rw [hm] at h0
    simp only [Main.tested] at h0 ⊢
    by_cases hc : c' = c <;> simpa [hc] using h0
  | scannedAll c' i d hm hend =>
    rw [hm] at h0
    simp only [Main.tested] at h0 ⊢
    by_cases hc : c' = c
    · subst hc
      simp only [if_true] at h0 ⊢
      by_cases hp : Event.passed c' ∈ s.log
      · simpa [hp] using h0
      · simp only [hp, if_false] at h0 ⊢
        rw [← take_of_getElem?_none _ _ hend]
        exact h0
    · simpa [hc] using h0
  | foundReady c' i d type unit hm hget =>
    rw [hm] at h0 hpast
    simp only [Main.tested, Main.Past] at h0 hpast ⊢
    by_cases hc : c' = c
    · subst hc
      have hnp : Event.passed c' ∉ s.log := fun hp => Nat.lt_irrefl _ (hpast hp)
      simp only [hnp, if_false, if_true] at h0
      simp only [if_true, scannedUnits_cons]
      rw [if_neg (by simp [hnp]), take_succ_of_getElem? _ _ _ hget, h0]
      simp
    · simpa [hc, scannedUnits_cons] using h0
  | foundIdle c' i d type unit hm hget =>
    rw [hm] at h0 hpast
    simp only [Main.tested, Main.Past] at h0 hpast ⊢
    by_cases hc : c' = c
    · subst hc
      have hnp : Event.passed c' ∉ s.log := fun hp => Nat.lt_irrefl _ (hpast hp)
      simp only [hnp, if_false, if_true] at h0
      simp only [if_true, scannedUnits_cons]
      rw [if_neg (by simp [hnp]), take_succ_of_getElem? _ _ _ hget, h0]
      simp
    · simpa [hc, scannedUnits_cons] using h0
  | enqueuedTask c' i d t q hm hq =>
    rw [hm] at h0
    simpa [Main.tested, scannedUnits_cons] using h0
  | passedBarrier c' d hm hcount =>
    rw [hm] at h0 hpast
    simp only [Main.tested, Main.Past] at h0 hpast
    simp only [scannedUnits_cons, List.mem_cons, Event.passed.injEq, List.nil_append]
    by_cases hc : c' = c
    · subst hc
      have hnp : Event.passed c' ∉ s.log := fun hp => Nat.lt_irrefl _ (hpast hp)
      simpa [hnp] using h0
    · have hc' : ¬ c = c' := fun h => hc h.symm
      by_cases hp : Event.passed c ∈ s.log
      · simpa [hp, hc'] using h0
      · simp only [hp, hc, hc', if_false, false_or] at h0 ⊢
        rw [h0]
        by_cases hpar : c' % 2 = 0 <;> simp [hpar, Main.tested]
  | enqueuedJoin m q hm hq hold =>
    rw [tested_of_desired _ _ c hold] at h0
    rcases hm with ⟨k, rfl⟩ | ⟨k, rfl⟩ <;> simpa [Main.tested, scannedUnits_cons] using h0
  | left m hm hold =>
    rw [tested_of_desired _ _ c hold] at h0
    rcases hm with rfl | ⟨k, rfl⟩ | rfl <;> simpa [Main.tested] using h0
  | aborted hold =>
    rw [tested_of_desired _ _ c hold] at h0
    simpa [Main.tested] using h0
  | took w t q hth hq => simpa [scannedUnits_cons] using h0
  | ran w t hth => simpa [scannedUnits_cons] using h0
  | signalled w t hth => simpa [scannedUnits_cons] using h0
  | released w t hth => simpa [scannedUnits_cons] using h0

/-- Every move keeps what holds of the scans. -/
theorem ScanInv.scan_moves {cfg : Config} {s s' : ParState} (h : ScanInv s) (hr : RoundInv s)
    (hmv : Moves cfg s s') : ScanInv s' :=
  ⟨h.ready_moves hmv, h.scanned_moves hr hmv⟩

/-- It holds when `ExecuteParallel` is entered. -/
theorem ScanInv.at_spawn (e : Engine) (queue : SpinLockQueue TaskWrapper) (pool : List Thread) :
    ScanInv (ExecuteParallel e queue pool) := by
  refine ⟨fun c => rfl, fun c => ?_⟩
  simp [ExecuteParallel, ParState.scanProgress, scannedUnits, Main.tested]

end CubbyDNN

namespace CubbyDNN

theorem Ordered_suffix (later earlier : List Event) (h : Ordered (later ++ earlier)) :
    Ordered earlier := by
  induction later with
  | nil => exact h
  | cons e rest ih => exact ih h.2

theorem Ordered_follows (later earlier : List Event) (e : Event)
    (h : Ordered (later ++ e :: earlier)) : e.Follows earlier :=
  (Ordered_suffix later (e :: earlier) h).1

/-- In an ordered log no task of an invocation is enqueued after the invocation
has left its waiting loop. -/
theorem Ordered_enqueued_before (later earlier : List Event) (c : Nat) (t : TaskWrapper)
    (h : Ordered (later ++ Event.passed c :: earlier))
    (ht : Event.enqueued t ∈ later ++ Event.passed c :: earlier) (hc : t.call = some c) :
    Event.enqueued t ∈ earlier := by
  rcases List.mem_append.mp ht with hl | hr
  · exfalso
    obtain ⟨a, b, rfl⟩ := List.append_of_mem hl
    rw [List.append_assoc, List.cons_append] at h
    exact (Ordered_follows a _ _ h c hc).1 (by simp)
  · simpa using hr

/-- In an ordered log every task of an invocation has signalled before the
invocation leaves its waiting loop. -/
theorem Ordered_signalled_before (later earlier : List Event) (c : Nat) (t : TaskWrapper)
    (h : Ordered (later ++ Event.passed c :: earlier))
    (ht : Event.enqueued t ∈ later ++ Event.passed c :: earlier) (hc : t.call = some c) :
    ∃ w, Event.signalled w t ∈ earlier :=
  (Ordered_follows later earlier _ h).2 t (Ordered_enqueued_before later earlier c t h ht hc) hc

theorem enqueuedCount_append (later earlier : List Event) (c : Nat) :
    enqueuedCount (later ++ earlier) c = enqueuedCount later c + enqueuedCount earlier c := by
  simp [enqueuedCount]

/-- In an ordered log the tasks of an invocation are all enqueued before it
leaves its waiting loop. -/
theorem Ordered_count_before (later earlier : List Event) (c : Nat)
    (h : Ordered (later ++ Event.passed c :: earlier)) :
    enqueuedCount (later ++ Event.passed c :: earlier) c = enqueuedCount earlier c := by
  rw [enqueuedCount_append, enqueuedCount_cons]
  have : enqueuedCount later c = 0 := by
    apply enqueuedCount_eq_zero
    intro t ht hc
    obtain ⟨a, b, rfl⟩ := List.append_of_mem ht
    rw [List.append_assoc, List.cons_append] at h
    exact (Ordered_follows a _ _ h c hc).1 (by simp)
  rw [this]
  simp

/-- What holds throughout a run of `ExecuteParallel`, under every schedule. -/
theorem ExecuteParallel_invariant (cfg : Config) (e : Engine)
    (queue : SpinLockQueue TaskWrapper) (pool : List Thread) (schedule : List Actor)
    (hq : ∀ t ∈ queue.items, t.closures = none)
    (hp : ∀ th ∈ pool, th = Thread.dequeue ∨ th = Thread.exited ∨ ∃ t, th = Thread.release t) :
    RoundInv ((ExecuteParallel e queue pool).run cfg schedule) ∧
    ScanInv ((ExecuteParallel e queue pool).run cfg schedule) ∧
    ∀ c, scanList ((ExecuteParallel e queue pool).run cfg schedule).engine c = scanList e c :=
  ParState.run_induction cfg
    (fun s => RoundInv s ∧ ScanInv s ∧ ∀ c, scanList s.engine c = scanList e c)
    (fun s a h =>
      ⟨h.1.all_moves (s.step_moves cfg a), h.2.1.scan_moves h.1 (s.step_moves cfg a),
       fun c => ((s.step_moves cfg a).scanList_eq c).trans (h.2.2 c)⟩)
    schedule _ ⟨RoundInv.at_entry e queue pool hq hp, ScanInv.at_spawn e queue pool, fun _ => rfl⟩

end CubbyDNN

namespace CubbyDNN

/-- C15: in every run of `ExecuteParallel` entered with no task of a unit in the
queue and every pool thread waiting, gone or about to release the unit of a
task of an earlier call, under every schedule and at every moment: (1) an invocation of a scan function that has left its waiting loop has
tested every unit of its list once, in order, and has enqueued one task for
each unit it found ready and no other; (2) when it left the loop, as many of
its tasks had signalled as it has enqueued in the whole run, and each of them
had signalled; (3) a task is of type `Copy` exactly when an invocation of
`m_executeCopyUnits` (an odd one) enqueued it, and it was enqueued after the
`m_executeComputeUnits` of the same round had left its waiting loop; (4) by the
time the closure of a `Copy` task runs, every task the `m_executeComputeUnits`
of the same round has enqueued in the whole run has signalled. -/
theorem round_barrier (cfg : Config) (e : Engine) (queue : SpinLockQueue TaskWrapper)
    (pool : List Thread) (schedule : List Actor) (s : ParState)
    (hq : ∀ t ∈ queue.items, t.closures = none)
    (hp : ∀ th ∈ pool, th = Thread.dequeue ∨ th = Thread.exited ∨ ∃ t, th = Thread.release t)
    (hs : s = (ExecuteParallel e queue pool).run cfg schedule) :
    (∀ c, Event.passed c ∈ s.log →
      scannedUnits s.log c = ((scanList e c).map Prod.snd).reverse ∧
      enqueuedUnits s.log c = readyUnits s.log c) ∧
    (∀ later earlier c, s.log = later ++ Event.passed c :: earlier →
      signalledCount earlier c = enqueuedCount s.log c ∧
      ∀ t, Event.enqueued t ∈ s.log → t.call = some c → ∃ w, Event.signalled w t ∈ earlier) ∧
    (∀ later earlier t c, s.log = later ++ Event.enqueued t :: earlier → t.call = some c →
      (t.Type_ = TaskType.Copy ↔ c % 2 = 1) ∧
      (c % 2 = 1 → Event.passed (c - 1) ∈ earlier)) ∧
    (∀ later earlier w t c, s.log = later ++ Event.computed w t :: earlier →
      t.Type_ = TaskType.Copy → t.call = some c →
      ∀ t' c', Event.enqueued t' ∈ s.log → t'.call = some c' → t'.Type_ ≠ TaskType.Copy →
        c' / 2 = c / 2 → ∃ w', Event.signalled w' t' ∈ earlier) := by
  obtain ⟨hr, hsc, hsl⟩ := ExecuteParallel_invariant cfg e queue pool schedule hq hp
  rw [← hs] at hr hsc hsl
  have hord := hr.ordered
  refine ⟨?_, ?_, ?_, ?_⟩
  · intro c hpassed
    constructor
    · have := hsc.scanned_eq c
      unfold ParState.scanProgress at this
      rw [if_pos hpassed, List.take_length, hsl c] at this
      exact this
    · have hre := hsc.ready_eq c
      have hpend : s.main.pendingUnit c = [] := by
        cases hm : s.main with
        | enqueue c' i d t =>
          simp only [Main.pendingUnit]
          cases hu : t.unitOf c with
          | none => rfl
          | some u =>
            exfalso
            have hcall : t.call = some c := by
              unfold TaskWrapper.unitOf at hu
              unfold TaskWrapper.call
              cases hcl : t.closures with
              | none => rw [hcl] at hu; cases hu
              | some p =>
                rw [hcl] at hu
                simp only [] at hu
                split at hu
                · rename_i hpc; simp [hpc]
                · cases hu
            have hd := (hr.declared c' i d t hm).1
            rw [hcall] at hd
            have hcc : c = c' := Option.some.inj hd
            have hpa := hr.past c hpassed
            rw [hm] at hpa
            simp only [Main.Past] at hpa
            omega
        | _ => rfl
      rw [hpend] at hre
      exact hre.symm
  · intro later earlier c hlog
    rw [hlog] at hord
    have hf := Ordered_follows later earlier _ hord
    refine ⟨?_, ?_⟩
    · rw [hlog, Ordered_count_before later earlier c hord]
      exact hf.1
    · intro t ht hc
      rw [hlog] at ht
      exact Ordered_signalled_before later earlier c t hord ht hc
  · intro later earlier t c hlog hc
    have hmem : Event.enqueued t ∈ s.log := by rw [hlog]; simp
    refine ⟨(hr.typed t c hmem hc).2, ?_⟩
    rw [hlog] at hord
    exact (Ordered_follows later earlier _ hord c hc).2
  · intro later earlier w t c hlog hcopy hc t' c' ht' hc' hncopy hround
    have hne : t.call ≠ none := by rw [hc]; simp
    have hord' := hord
    rw [hlog] at hord'
    have hin : Event.enqueued t ∈ earlier := Ordered_follows later earlier _ hord' hne
    have hmem : Event.enqueued t ∈ s.log := by
      rw [hlog]
      exact List.mem_append_right _ (List.mem_cons_of_mem _ hin)
    have hodd : c % 2 = 1 := (hr.typed t c hmem hc).2.mp hcopy
    have heven : ¬ c' % 2 = 1 := fun h => hncopy ((hr.typed t' c' ht' hc').2.mpr h)
    have hcc : c' = c - 1 := by omega
    subst hcc
    obtain ⟨m1, m2, hsplit⟩ := List.append_of_mem hin
    have hord2 : Ordered (m1 ++ Event.enqueued t :: m2) := by
      rw [← hsplit]
      exact (Ordered_suffix later _ hord').2
    have hpassed : Event.passed (c - 1) ∈ m2 := (Ordered_follows m1 m2 _ hord2 c hc).2 hodd
    obtain ⟨n1, n2, hsplit2⟩ := List.append_of_mem hpassed
    have hwhole : s.log =
        (later ++ Event.computed w t :: m1 ++ Event.enqueued t :: n1) ++
          Event.passed (c - 1) :: n2 := by
      rw [hlog, hsplit, hsplit2]
      simp
    have hord3 := hord
    rw [hwhole] at hord3 ht'
    obtain ⟨w', hw'⟩ := Ordered_signalled_before _ n2 (c - 1) t' hord3 ht' hc'
    refine ⟨w', ?_⟩
    rw [hsplit, hsplit2]
    simp [hw']

/-- Witness for C15: on the graph `Source → Hidden → Sink` with one worker, in
the run of `exampleBarrier` the task of the first copy unit runs last, and the
task of the source unit, enqueued by the scan of the compute units of the same
round, has signalled before. -/
theorem round_barrier_witness :
    (∀ t ∈ m_taskQueue.items, t.closures = none) ∧
    (∀ th ∈ ([] : List Thread),
      th = Thread.dequeue ∨ th = Thread.exited ∨ ∃ t, th = Thread.release t) ∧
    ((ExecuteParallel engineSHK m_taskQueue []).run exampleRound exampleBarrier).log =
      [] ++ Event.computed 0 exampleCopyTask ::
        ((ExecuteParallel engineSHK m_taskQueue []).run exampleRound exampleBarrier).log.tail ∧
    Event.enqueued exampleSourceTask ∈
      ((ExecuteParallel engineSHK m_taskQueue []).run exampleRound exampleBarrier).log ∧
    ∃ w', Event.signalled w' exampleSourceTask ∈
      ((ExecuteParallel engineSHK m_taskQueue []).run exampleRound exampleBarrier).log.tail :=
  ⟨by simp [m_taskQueue], by simp, by decide, by decide,
   (round_barrier exampleRound engineSHK m_taskQueue [] exampleBarrier _ (by simp [m_taskQueue])
      (by simp) rfl).2.2.2 [] _ 0 exampleCopyTask 1 (by decide) rfl rfl exampleSourceTask 0
      (by decide) rfl (by decide) (by decide)⟩

end CubbyDNN

/-! # The parallel executor against the cooperative one -/

namespace CubbyDNN

set_option maxRecDepth 100000 in
/-- C17 fails on the code: on the graph `Source → Hidden → Sink`, units ready as
the spec says, `Execute(1)` returns with `StateNum = 1` in all five units;
`ExecuteParallel(1, 1)`, the calling thread and the worker taking turns, returns
with the source unit and its copy unit at 3 and the hidden unit and its copy
unit at 2, since its scans enqueue a ready unit whatever its `StateNum`; and
when the calling thread leaves the waiting loop between the signal and the
`ReleaseUnit()` of the source task, the copy unit is found not ready, the
source unit runs again and again (it is at 3 after twenty more turns, every
other unit at 0) and the call has not returned. -/
theorem ExecuteParallel_differs_from_Execute :
    (Engine.Execute specBehaviour 9 engineSHK 1).map (fun s => s.engine.stateNums) =
      some [some 1, some 1, some 1, some 1, some 1] ∧
    ((ExecuteParallel engineSHK m_taskQueue []).run exampleRound (turns 60)).main =
      Main.returned ∧
    ((ExecuteParallel engineSHK m_taskQueue []).run exampleRound (turns 60)).engine.stateNums =
      [some 3, some 2, some 1, some 3, some 2] ∧
    Event.scanned 1 { Type_ := .Copy, ID := 0 } false ∈
      ((ExecuteParallel engineSHK m_taskQueue []).run exampleRound exampleRace).log ∧
    ((ExecuteParallel engineSHK m_taskQueue []).run exampleRound
      (exampleRace ++ turns 20)).main ≠ Main.returned ∧
    ((ExecuteParallel engineSHK m_taskQueue []).run exampleRound
      (exampleRace ++ turns 20)).engine.stateNums =
      [some 3, some 0, some 0, some 0, some 0] := by
  refine ⟨by decide, by decide, by decide, by decide, by decide, by decide⟩

end CubbyDNN

namespace cubby_dnn

/-! ## Which tensor object `mat_mul` and `mat_add` mark constant -/

/-- C28. The tensor objects `mat_mul` and `mat_add` build: the object for the
first tensor is constant as soon as either tensor is not mutable, and the
object for the second tensor is never constant.  So `mat_add` on a mutable
first and a constant second tensor, and `mat_mul` likewise, store a constant
object for the first and a mutable object for the second, where the claim has
it the other way round. -/
theorem tensor_data_pair_constant :
    (∀ (ops : ShapeOps) (tensor1 tensor2 : tensor) (this_id : Int),
      (tensor_data_pair ops tensor1 tensor2 this_id).1.information._mutable
          = (tensor1._mutable && tensor2._mutable) ∧
        (tensor_data_pair ops tensor1 tensor2 this_id).2.information._mutable = true) ∧
    (tensorA._mutable = true ∧ tensorD._mutable = false ∧ tensorF._mutable = false) ∧
    ((mat_add exampleShapeOps tensorA tensorD "add" twoSources).result.isSome = true ∧
      (mat_add exampleShapeOps tensorA tensorD "add" twoSources).graph.tensor_object_vector.map
          (fun o => (o.information.from_, o.information._mutable))
        = [(0, false), (1, true)]) ∧
    ((mat_mul exampleShapeOps tensorA tensorF "mul" twoSources).result.isSome = true ∧
      (mat_mul exampleShapeOps tensorA tensorF "mul" twoSources).graph.tensor_object_vector.map
          (fun o => (o.information.from_, o.information._mutable))
        = [(0, false), (1, true)]) := by
  refine ⟨?_, by decide, by decide, by decide⟩
  intro ops tensor1 tensor2 this_id
  cases h1 : tensor1._mutable <;> cases h2 : tensor2._mutable <;>
    simp [tensor_data_pair, tensor_object.make, tensor_object.set_constant, h1, h2]

end cubby_dnn

namespace cubby_dnn

/-! ## `reshape` and `one_hot` on a size that does not match -/

theorem store_and_link_unary_objects (new_shape : tensor_shape) (this_id : Int)
    (tensor1 : tensor) (name : String) (d1 : tensor_object) (printed : Bool) (g : Graph) :
    (store_and_link_unary new_shape this_id tensor1 name d1 printed g).graph.tensor_object_vector
      = g.tensor_object_vector ++ [d1] := by
  unfold store_and_link_unary
  simp only
  split
  · simp [add_tensor_object]
  · rename_i g₂ h₂
    obtain ⟨ho₂, -, -⟩ := add_output_tensor_at_keeps _ _ _ _ h₂
    split
    · rename_i g₃ h₃
      obtain ⟨ho₃, -, -⟩ := add_operation_to_adjacency_keeps _ _ _ (Or.inr h₃)
      simp only [ho₃, add_operation, ho₂]
      simp [add_tensor_object]
    · rename_i g₃ h₃
      obtain ⟨ho₃, -, -⟩ := add_operation_to_adjacency_keeps _ _ _ (Or.inl h₃)
      simp only [ho₃, add_operation, ho₂]
      simp [add_tensor_object]

theorem store_and_link_unary_result (new_shape : tensor_shape) (this_id : Int)
    (tensor1 : tensor) (name : String) (d1 : tensor_object) (printed : Bool) (g : Graph)
    (hid : 0 ≤ this_id) :
    (store_and_link_unary new_shape this_id tensor1 name d1 printed g).result
        ≠ some get_default_tensor ∧
      (store_and_link_unary new_shape this_id tensor1 name d1 printed g).print_error
        = printed := by
  unfold store_and_link_unary
  simp only
  split
  · simp
  · split
    · simp
    · refine ⟨?_, rfl⟩
      simp only [ne_eq, Option.some.injEq, get_default_tensor]
      intro h
      have := congrArg tensor.from_ h
      simp only at this
      omega

/-- C27. `reshape` and `one_hot` on a valid tensor whose shape passes
`check_shape` and whose size differs from the size asked for: the error is
printed, and the call goes on as for matching sizes: it stores a tensor object
for the argument in the graph and does not return the default tensor.  On the
`2 x 3` tensor of the example graph, `reshape` to `5 x 2` and `one_hot` to size
`4` register operation `2` and return its output tensor. -/
theorem reshape_size_mismatch_registers :
    (∀ (ops : ShapeOps) (check_shape : tensor_shape → String → Bool) (tensor1 : tensor)
        (shape : tensor_shape) (name : String) (g : Graph),
      tensor1.is_valid ops = true → check_shape tensor1.shape name = true →
      tensor1.get_data_size ops ≠ ops.size shape →
        (reshape ops check_shape tensor1 shape name g).print_error = true ∧
        (reshape ops check_shape tensor1 shape name g).result ≠ some get_default_tensor ∧
        (reshape ops check_shape tensor1 shape name g).graph.tensor_object_vector.length
          = g.tensor_object_vector.length + 1) ∧
    (∀ (ops : ShapeOps) (check_shape : tensor_shape → String → Bool) (tensor1 : tensor)
        (size : Nat) (name : String) (g : Graph),
      tensor1.is_valid ops = true → check_shape tensor1.shape name = true →
      tensor1.get_data_size ops ≠ size →
        (one_hot ops check_shape tensor1 size name g).print_error = true ∧
        (one_hot ops check_shape tensor1 size name g).result ≠ some get_default_tensor ∧
        (one_hot ops check_shape tensor1 size name g).graph.tensor_object_vector.length
          = g.tensor_object_vector.length + 1) ∧
    (tensorA.get_data_size exampleShapeOps = 6 ∧
      exampleShapeOps.size { rows := 5, cols := 2, dimension := 1 } = 10 ∧
      (reshape exampleShapeOps (fun _ _ => true) tensorA { rows := 5, cols := 2, dimension := 1 }
          "r" twoSources).result
        = some { from_ := 2, to_vector := [], _mutable := false,
                 shape := { rows := 5, cols := 2, dimension := 1 } } ∧
      (reshape exampleShapeOps (fun _ _ => true) tensorA { rows := 5, cols := 2, dimension := 1 }
          "r" twoSources).graph.operation_vector.map (fun op => (op.kind, op.id))
        = [(.other, 0), (.other, 1), (.reshape_op, 2)]) ∧
    ((one_hot exampleShapeOps (fun _ _ => true) tensorA 4 "h" twoSources).result
        = some { from_ := 2, to_vector := [], _mutable := false,
                 shape := { rows := 4, cols := 1, dimension := 1 } } ∧
      (one_hot exampleShapeOps (fun _ _ => true) tensorA 4 "h"
          twoSources).graph.operation_vector.map (fun op => (op.kind, op.id))
        = [(.other, 0), (.other, 1), (.reshape_op, 2)]) := by
  refine ⟨?_, ?_, by decide, by decide⟩
  · intro ops check_shape tensor1 shape name g hv hc hs
    have hid : (0 : Int) ≤ operation_vector_size g := by
      simp [operation_vector_size]
    unfold reshape
    rw [if_neg (by simp [hv]), if_neg (by simp [hc])]
    simp only
    obtain ⟨h1, h2⟩ := store_and_link_unary_result shape (operation_vector_size g)
      (tensor1.add_to (operation_vector_size g)) name
      (tensor_data_single ops (tensor1.add_to (operation_vector_size g)) (operation_vector_size g))
      (decide (tensor1.get_data_size ops ≠ ops.size shape)) g hid
    refine ⟨?_, h1, ?_⟩
    · rw [h2]; simpa using hs
    · rw [store_and_link_unary_objects]; simp
  · intro ops check_shape tensor1 size name g hv hc hs
    have hid : (0 : Int) ≤ operation_vector_size g := by
      simp [operation_vector_size]
    unfold one_hot
    rw [if_neg (by simp [hv]), if_neg (by simp [hc])]
    simp only
    obtain ⟨h1, h2⟩ := store_and_link_unary_result { rows := size, cols := 1, dimension := 1 }
      (operation_vector_size g) tensor1 name
      (tensor_data_single ops tensor1 (operation_vector_size g))
      (decide (tensor1.get_data_size ops ≠ size)) g hid
    refine ⟨?_, h1, ?_⟩
    · rw [h2]; simpa using hs
    · rw [store_and_link_unary_objects]; simp

end cubby_dnn

namespace Takion.Graph

/-! ## The backward pass of `SoftMax` -/

/-- C30. `SoftMax<T>::Backward` on the example unit (one batch of two
elements, `y = [4, 2]`, a single backward input `g = [3, 5]`): the backward
output is `[-20, -10]`, the term of the last input index alone, since `sum` is
set to zero and stored inside the loop over the input indices; the sum over
both input indices is `-56` at output index `0` and `-58` at output index `1`. -/
theorem SoftMax_Backward_keeps_last_term :
    (∃ s, SoftMax.Backward exampleKernels exampleSoftMax = .ok s ∧
      s.InternalTensorMap = [("backwardTemp", [3, 5])] ∧
      s.BackwardOutputMap = [(uSrc, [-20, -10])] ∧
      s.ForwardOutput = [4, 2]) ∧
    SoftMax.jacobianProduct exampleKernels [3, 5] [4, 2] 2 0 0 = -56 ∧
    SoftMax.jacobianProduct exampleKernels [3, 5] [4, 2] 2 0 1 = -58 ∧
    exampleKernels.mul 5 (exampleKernels.mul (exampleKernels.neg 2) 2) = -20 ∧
    exampleKernels.mul 5 (exampleKernels.mul 2 (exampleKernels.sub 1 2)) = -10 := by
  refine ⟨⟨_, rfl, by decide, by decide, by decide⟩, by decide, by decide, by decide, by decide⟩

end Takion.Graph

namespace Takion.InitializerOperations

/-! ## The positions `Zeros` and `Ones` write -/

/-- A loop whose every pass writes `value` at the positions `W a` and nothing
else writes `value` at the positions of all passes and nothing else. -/
theorem foldl_writes {α T : Type} (value : T) (step : (Nat → T) → α → (Nat → T))
    (W : α → Nat → Prop)
    (hstep : ∀ d a p, (W a p → step d a p = value) ∧ (¬ W a p → step d a p = d p)) :
    ∀ (l : List α) (d : Nat → T) (p : Nat),
      ((∃ a ∈ l, W a p) → l.foldl step d p = value) ∧
      ((¬ ∃ a ∈ l, W a p) → l.foldl step d p = d p) := by
  intro l
  induction l with
  | nil => intro d p; simp
  | cons a l ih =>
    intro d p
    rw [List.foldl_cons]
    obtain ⟨ih1, ih2⟩ := ih (step d a) p
    constructor
    · rintro ⟨a', ha', hw⟩
      by_cases hl : ∃ a ∈ l, W a p
      · exact ih1 hl
      · rw [ih2 hl]
        rcases List.mem_cons.1 ha' with rfl | hmem
        · exact (hstep d a' p).1 hw
        · exact absurd ⟨a', hmem, hw⟩ hl
    · intro hn
      have hl : ¬ ∃ a ∈ l, W a p := fun ⟨a', ha', hw⟩ => hn ⟨a', List.mem_cons_of_mem _ ha', hw⟩
      rw [ih2 hl]
      exact (hstep d a p).2 (fun hw => hn ⟨a, List.mem_cons_self _ _, hw⟩)

/-- The positions `fill` writes: column indices below both the column size and
the number of rows. -/
theorem fill_apply {T : Type} (value : T) (shape : Shape) (data : Nat → T) (padSize p : Nat) :
    ((∃ batchIdx < shape.NumMatrices, ∃ rowIdx < shape.NumRow,
        ∃ colIdx < (if padSize ≠ 0 then padSize else shape.NumCol),
          colIdx < shape.NumRow ∧
          p = batchIdx * (if padSize ≠ 0 then shape.NumRow * padSize
                else shape.NumRow * shape.NumCol) +
              rowIdx * (if padSize ≠ 0 then padSize else shape.NumCol) + colIdx) →
      fill value shape data padSize p = value) ∧
    ((¬ ∃ batchIdx < shape.NumMatrices, ∃ rowIdx < shape.NumRow,
        ∃ colIdx < (if padSize ≠ 0 then padSize else shape.NumCol),
          colIdx < shape.NumRow ∧
          p = batchIdx * (if padSize ≠ 0 then shape.NumRow * padSize
                else shape.NumRow * shape.NumCol) +
              rowIdx * (if padSize ≠ 0 then padSize else shape.NumCol) + colIdx) →
      fill value shape data padSize p = data p) := by
  generalize hm : (if padSize ≠ 0 then shape.NumRow * padSize
    else shape.NumRow * shape.NumCol) = matrixSize
  generalize hc : (if padSize ≠ 0 then padSize else shape.NumCol) = colSize
  have hfill : fill value shape data padSize =
      (List.range shape.NumMatrices).foldl
        (fun data batchIdx =>
          (List.range shape.NumRow).foldl
            (fun data rowIdx =>
              (List.range colSize).foldl
                (fun data colIdx =>
                  if colIdx < shape.NumRow then
                    assign data (batchIdx * matrixSize + rowIdx * colSize + colIdx) value
                  else data)
                data)
            data)
        data := by
    unfold fill
    simp only [hm, hc]
  rw [hfill]
  have hcol : ∀ (batchIdx rowIdx : Nat) (d : Nat → T) (p : Nat),
      ((∃ colIdx ∈ List.range colSize, colIdx < shape.NumRow ∧
          p = batchIdx * matrixSize + rowIdx * colSize + colIdx) →
        (List.range colSize).foldl
          (fun data colIdx =>
            if colIdx < shape.NumRow then
              assign data (batchIdx * matrixSize + rowIdx * colSize + colIdx) value
            else data) d p = value) ∧
      ((¬ ∃ colIdx ∈ List.range colSize, colIdx < shape.NumRow ∧
          p = batchIdx * matrixSize + rowIdx * colSize + colIdx) →
        (List.range colSize).foldl
          (fun data colIdx =>
            if colIdx < shape.NumRow then
              assign data (batchIdx * matrixSize + rowIdx * colSize + colIdx) value
            else data) d p = d p) := by
    intro batchIdx rowIdx d p
    refine foldl_writes value _
      (fun colIdx p => colIdx < shape.NumRow ∧
        p = batchIdx * matrixSize + rowIdx * colSize + colIdx) ?_ _ d p
    intro d a q
    by_cases ha : a < shape.NumRow
    · simp only [if_pos ha, assign]
      constructor
      · rintro ⟨-, hq⟩; rw [if_pos hq]
      · intro hn; rw [if_neg (fun hq => hn ⟨ha, hq⟩)]
    · simp [ha]
  have hrow : ∀ (batchIdx : Nat) (d : Nat → T) (p : Nat),
      ((∃ rowIdx ∈ List.range shape.NumRow, ∃ colIdx ∈ List.range colSize,
          colIdx < shape.NumRow ∧ p = batchIdx * matrixSize + rowIdx * colSize + colIdx) →
        (List.range shape.NumRow).foldl
          (fun data rowIdx =>
            (List.range colSize).foldl
              (fun data colIdx =>
                if colIdx < shape.NumRow then
                  assign data (batchIdx * matrixSize + rowIdx * colSize + colIdx) value
                else data) data) d p = value) ∧
      ((¬ ∃ rowIdx ∈ List.range shape.NumRow, ∃ colIdx ∈ List.range colSize,
          colIdx < shape.NumRow ∧ p = batchIdx * matrixSize + rowIdx * colSize + colIdx) →
        (List.range shape.NumRow).foldl
          (fun data rowIdx =>
            (List.range colSize).foldl
              (fun data colIdx =>
                if colIdx < shape.NumRow then
                  assign data (batchIdx * matrixSize + rowIdx * colSize + colIdx) value
                else data) data) d p = d p) := by
    intro batchIdx d p
    exact foldl_writes value _
      (fun rowIdx p => ∃ colIdx ∈ List.range colSize,
        colIdx < shape.NumRow ∧ p = batchIdx * matrixSize + rowIdx * colSize + colIdx)
      (fun d a q => hcol batchIdx a d q) _ d p
  have hbatch := foldl_writes value
    (fun data batchIdx =>
      (List.range shape.NumRow).foldl
        (fun data rowIdx =>
          (List.range colSize).foldl
            (fun data colIdx =>
              if colIdx < shape.NumRow then
                assign data (batchIdx * matrixSize + rowIdx * colSize + colIdx) value
              else data) data) data)
    (fun batchIdx p => ∃ rowIdx ∈ List.range shape.NumRow, ∃ colIdx ∈ List.range colSize,
      colIdx < shape.NumRow ∧ p = batchIdx * matrixSize + rowIdx * colSize + colIdx)
    (fun d a q => hrow a d q) (List.range shape.NumMatrices) data p
  simp only [List.mem_range] at hbatch
  exact hbatch

/-- C29. The positions `Zeros` and `Ones` write are those of the column
indices below both the column size and the number of rows (the test in the
innermost loop reads `colIdx < shape.NumRow()`), and no other.  So on two rows
of three columns without padding the last column is left as it was, and on
three rows of two columns padded to four the first padding column is written
too. -/
theorem Zeros_Ones_written_positions :
    (∀ (shape : Shape) (data : Nat → Int) (padSize p : Nat),
      ((∃ batchIdx < shape.NumMatrices, ∃ rowIdx < shape.NumRow,
          ∃ colIdx < (if padSize ≠ 0 then padSize else shape.NumCol),
            colIdx < shape.NumRow ∧
            p = batchIdx * (if padSize ≠ 0 then shape.NumRow * padSize
                  else shape.NumRow * shape.NumCol) +
                rowIdx * (if padSize ≠ 0 then padSize else shape.NumCol) + colIdx) →
        Zeros shape data padSize p = 0 ∧ Ones shape data padSize p = 1) ∧
      ((¬ ∃ batchIdx < shape.NumMatrices, ∃ rowIdx < shape.NumRow,
          ∃ colIdx < (if padSize ≠ 0 then padSize else shape.NumCol),
            colIdx < shape.NumRow ∧
            p = batchIdx * (if padSize ≠ 0 then shape.NumRow * padSize
                  else shape.NumRow * shape.NumCol) +
                rowIdx * (if padSize ≠ 0 then padSize else shape.NumCol) + colIdx) →
        Zeros shape data padSize p = data p ∧ Ones shape data padSize p = data p)) ∧
    (List.range 7).map (Zeros shape2x3 (fun _ => (7 : Int)) 0) = [0, 0, 7, 0, 0, 7, 7] ∧
    (List.range 7).map (Ones shape2x3 (fun _ => (7 : Int)) 0) = [1, 1, 7, 1, 1, 7, 7] ∧
    (List.range 13).map (Zeros shape3x2 (fun _ => (7 : Int)) 4)
      = [0, 0, 0, 7, 0, 0, 0, 7, 0, 0, 0, 7, 7] ∧
    (List.range 13).map (Ones shape3x2 (fun _ => (7 : Int)) 4)
      = [1, 1, 1, 7, 1, 1, 1, 7, 1, 1, 1, 7, 7] := by
  refine ⟨?_, by decide, by decide, by decide, by decide⟩
  intro shape data padSize p
  exact ⟨fun h => ⟨(fill_apply 0 shape data padSize p).1 h, (fill_apply 1 shape data padSize p).1 h⟩,
    fun h => ⟨(fill_apply 0 shape data padSize p).2 h, (fill_apply 1 shape data padSize p).2 h⟩⟩

end Takion.InitializerOperations

/-! # Tasks enqueued by the parallel executor for units that are done -/

namespace CubbyDNN

set_option maxRecDepth 100000 in
/-- C26 fails on the code: in `ExecuteParallel(1, 1)` on the graph
`Source → Hidden → Sink`, every unit starting at `StateNum = 0`, the calling
thread and the worker taking turns, after sixteen turns the source unit has
`StateNum = 1 = epochs` and the third scan has found it ready: the next step of
the calling thread enqueues its task; after twenty-five turns the same happens
to the first copy unit; and when the call has returned the source unit is at
`StateNum = 3`. -/
theorem ExecuteParallel_enqueues_finished_unit :
    exampleRound.epochs = 1 ∧
    engineSHK.stateNums = [some 0, some 0, some 0, some 0, some 0] ∧
    (((ExecuteParallel engineSHK m_taskQueue []).run exampleRound (turns 16)).engine.stateNum
        { Type_ := .Source, ID := 0 } = some 1 ∧
      ((ExecuteParallel engineSHK m_taskQueue []).run exampleRound (turns 16)).m_taskQueue.items
        = [] ∧
      (((ExecuteParallel engineSHK m_taskQueue []).run exampleRound (turns 16)).step exampleRound
          Actor.main).m_taskQueue.items
        = [unitTask TaskType.ComputeSource { Type_ := .Source, ID := 0 } 2] ∧
      (((ExecuteParallel engineSHK m_taskQueue []).run exampleRound (turns 16)).step exampleRound
          Actor.main).log.head?
        = some (Event.enqueued (unitTask TaskType.ComputeSource { Type_ := .Source, ID := 0 } 2))) ∧
    (((ExecuteParallel engineSHK m_taskQueue []).run exampleRound (turns 25)).engine.stateNum
        { Type_ := .Copy, ID := 0 } = some 1 ∧
      (((ExecuteParallel engineSHK m_taskQueue []).run exampleRound (turns 25)).step exampleRound
          Actor.main).log.head?
        = some (Event.enqueued (unitTask TaskType.Copy { Type_ := .Copy, ID := 0 } 3))) ∧
    ((ExecuteParallel engineSHK m_taskQueue []).run exampleRound (turns 60)).main
      = Main.returned ∧
    ((ExecuteParallel engineSHK m_taskQueue []).run exampleRound (turns 60)).engine.stateNum
      { Type_ := .Source, ID := 0 } = some 3 := by
  refine ⟨by decide, by decide, ⟨by decide, by decide, by decide, by decide⟩,
    ⟨by decide, by decide⟩, by decide, by decide⟩

end CubbyDNN

/-! # The units `Execute` computes -/

namespace CubbyDNN

/-- `ReleaseUnit` raises the `StateNum` of its unit by one and leaves the others. -/
theorem stateNum_ReleaseUnit (e : Engine) (id id' : UnitIdentifier) :
    (ReleaseUnit e id).stateNum id' =
      if id' = id then (e.stateNum id).map (fun n => n + 1) else e.stateNum id' := by
  obtain ⟨t, i⟩ := id
  obtain ⟨t', i'⟩ := id'
  by_cases hi : i' = i
  · subst hi
    cases t <;> cases t' <;>
      simp [ReleaseUnit, Engine.stateNum, Engine.units, Engine.updateUnit, getElem?_updateAt] <;>
      rfl
  · cases t <;> cases t' <;>
      simp [ReleaseUnit, Engine.stateNum, Engine.units, Engine.updateUnit, getElem?_updateAt, hi]

/-- A property of the state of `Execute` that no loop body breaks holds when
`Execute` returns. -/
theorem executeLoop_invariant (beh : UnitBehaviour) (epochs : Nat) (Inv : ExecState → Prop)
    (hflag : ∀ s, Inv s → Inv { s with isFinished := true })
    (hunit : ∀ s id, Inv s → Inv (executeUnit beh epochs s id)) :
    ∀ (fuel : Nat) (s s' : ExecState), Inv s → executeLoop beh epochs fuel s = some s' →
      Inv s' := by
  have hfold : ∀ (l : List UnitIdentifier) (s : ExecState), Inv s →
      Inv (l.foldl (executeUnit beh epochs) s) := by
    intro l
    induction l with
    | nil => intro s h; exact h
    | cons id l ih => intro s h; exact ih _ (hunit s id h)
  have hsweep : ∀ s, Inv s → Inv (executeSweep beh epochs s) := by
    intro s h
    unfold executeSweep
    exact hfold _ _ (hfold _ _ (hfold _ _ (hfold _ _ (hflag s h))))
  intro fuel
  induction fuel with
  | zero => intro s s' _ h; simp [executeLoop] at h
  | succ fuel ih =>
    intro s s' hs h
    unfold executeLoop at h
    split at h
    · exact ih _ _ (hsweep s hs) h
    · cases h; exact hs

/-- Setting `m_maxEpochs` changes no `StateNum`. -/
theorem stateNum_maxEpochs (e : Engine) (epochs : Nat) (id : UnitIdentifier) :
    ({ e with m_maxEpochs := epochs } : Engine).stateNum id = e.stateNum id := by
  obtain ⟨t, i⟩ := id
  cases t <;> rfl

/-- What `Execute` keeps true, from the engine `e₀` it starts on: the engine is
`e₀` after one `ReleaseUnit` per computed unit, each unit was ready and below
`epochs` when it was computed, and each `StateNum` is the one of `e₀` plus the
number of times the unit was computed, at most `epochs` if it was so in `e₀`. -/
theorem executeLoop_trace (beh : UnitBehaviour) (epochs : Nat) (e₀ : Engine) (fuel : Nat)
    (s : ExecState)
    (h : executeLoop beh epochs fuel { engine := e₀, isFinished := false, computed := [] }
      = some s) :
    s.engine = s.computed.foldl ReleaseUnit e₀ ∧
    (∀ (i : Nat) (id : UnitIdentifier), s.computed[i]? = some id →
      beh.IsReady ((s.computed.take i).foldl ReleaseUnit e₀) id = true ∧
      ∃ n, ((s.computed.take i).foldl ReleaseUnit e₀).stateNum id = some n ∧ n < epochs) ∧
    (∀ (id : UnitIdentifier) (n : Nat), e₀.stateNum id = some n →
      ∃ n', s.engine.stateNum id = some n' ∧ n' = n + s.computed.count id ∧
        (n ≤ epochs → n' ≤ epochs)) := by
  refine executeLoop_invariant beh epochs
    (fun s => s.engine = s.computed.foldl ReleaseUnit e₀ ∧
      (∀ (i : Nat) (id : UnitIdentifier), s.computed[i]? = some id →
        beh.IsReady ((s.computed.take i).foldl ReleaseUnit e₀) id = true ∧
        ∃ n, ((s.computed.take i).foldl ReleaseUnit e₀).stateNum id = some n ∧ n < epochs) ∧
      (∀ (id : UnitIdentifier) (n : Nat), e₀.stateNum id = some n →
        ∃ n', s.engine.stateNum id = some n' ∧ n' = n + s.computed.count id ∧
          (n ≤ epochs → n' ≤ epochs)))
    (fun s hs => hs) ?_ fuel _ s ?_ h
  · intro s id ⟨heng, htrace, hnum⟩
    rcases executeUnit_cases beh epochs s id with ⟨hsame, -⟩ | ⟨n, hn, hlt, hready, hfire⟩
    · rw [hsame]; exact ⟨heng, htrace, hnum⟩
    · rw [hfire]
      refine ⟨?_, ?_, ?_⟩
      · simp only [List.foldl_append, List.foldl_cons, List.foldl_nil, ← heng]
      · intro i id' hi
        simp only at hi
        by_cases hlen : i < s.computed.length
        · rw [List.getElem?_append_left hlen] at hi
          have htake : (s.computed ++ [id]).take i = s.computed.take i :=
            List.take_append_of_le_length (Nat.le_of_lt hlen)
          simp only [htake]
          exact htrace i id' hi
        · have hile : s.computed.length ≤ i := Nat.le_of_not_lt hlen
          rw [List.getElem?_append_right hile] at hi
          have hi0 : i - s.computed.length = 0 := by
            by_contra hne
            obtain ⟨j, hj⟩ := Nat.exists_eq_succ_of_ne_zero hne
            rw [hj] at hi
            simp at hi
          rw [hi0] at hi
          simp only [List.getElem?_cons_zero, Option.some.injEq] at hi
          subst hi
          have hieq : i = s.computed.length := by omega
          have htake : (s.computed ++ [id]).take i = s.computed := by
            rw [hieq]; simp
          simp only [htake, ← heng]
          exact ⟨hready, n, hn, hlt⟩
      · intro id' n₀ h₀
        obtain ⟨n', hn', hcount, hle⟩ := hnum id' n₀ h₀
        simp only
        rw [stateNum_ReleaseUnit]
        by_cases hid : id' = id
        · subst hid
          rw [if_pos rfl, hn]
          rw [hn] at hn'
          cases hn'
          refine ⟨n + 1, rfl, ?_, fun _ => hlt⟩
          simp only [List.count_append, List.count_singleton, beq_self_eq_true, if_true]
          omega
        · rw [if_neg hid]
          refine ⟨n', hn', ?_, hle⟩
          have hne : (id == id') = false := by
            simpa using fun h => hid h.symm
          simp only [List.count_append, List.count_singleton, hne]
          simpa using hcount
  · refine ⟨rfl, ?_, ?_⟩
    · intro i id hi; simp at hi
    · intro id n hn; exact ⟨n, hn, by simp, fun h => h⟩

/-- C25. A call `Execute(epochs)` that has returned, with `computed` the units
it called `Compute()` on, in order: each of them was ready and had `StateNum`
below `epochs` in the engine as it was at that moment (the engine at entry
after one `ReleaseUnit` per earlier `Compute()`), the `ReleaseUnit` that
follows raises the `StateNum` of that unit by one and of no other unit; so the
`StateNum` of a unit after the call is the one before plus the number of times
it was computed, not lower than before, and at most `epochs` if it was so
before.  And `Execute` returns: some number of tests of the loop condition is
enough. -/
theorem Execute_computes_ready_below_epochs (beh : UnitBehaviour) (fuel : Nat) (e : Engine)
    (epochs : Nat) (s : ExecState) (h : Engine.Execute beh fuel e epochs = some s) :
    s.engine = s.computed.foldl ReleaseUnit { e with m_maxEpochs := epochs } ∧
    (∀ (i : Nat) (id : UnitIdentifier), s.computed[i]? = some id →
      beh.IsReady ((s.computed.take i).foldl ReleaseUnit { e with m_maxEpochs := epochs }) id
        = true ∧
      ∃ n, ((s.computed.take i).foldl ReleaseUnit { e with m_maxEpochs := epochs }).stateNum id
          = some n ∧
        n < epochs ∧
        (s.computed.take (i + 1)).foldl ReleaseUnit { e with m_maxEpochs := epochs } =
          ReleaseUnit
            ((s.computed.take i).foldl ReleaseUnit { e with m_maxEpochs := epochs }) id ∧
        ((s.computed.take (i + 1)).foldl ReleaseUnit
          { e with m_maxEpochs := epochs }).stateNum id = some (n + 1) ∧
        ∀ id', id' ≠ id →
          ((s.computed.take (i + 1)).foldl ReleaseUnit
            { e with m_maxEpochs := epochs }).stateNum id' =
          ((s.computed.take i).foldl ReleaseUnit
            { e with m_maxEpochs := epochs }).stateNum id') ∧
    (∀ (id : UnitIdentifier) (n : Nat), e.stateNum id = some n →
      ∃ n', s.engine.stateNum id = some n' ∧ n ≤ n' ∧ n' = n + s.computed.count id ∧
        (n ≤ epochs → n' ≤ epochs)) ∧
    (∃ fuel' s', Engine.Execute beh fuel' e epochs = some s') := by
  obtain ⟨heng, htrace, hnum⟩ :=
    executeLoop_trace beh epochs { e with m_maxEpochs := epochs } fuel s h
  refine ⟨heng, ?_, ?_, ?_⟩
  · intro i id hi
    obtain ⟨hready, n, hn, hlt⟩ := htrace i id hi
    have htake : (s.computed.take (i + 1)).foldl ReleaseUnit { e with m_maxEpochs := epochs } =
        ReleaseUnit
          ((s.computed.take i).foldl ReleaseUnit { e with m_maxEpochs := epochs }) id := by
      rw [List.take_succ, hi]
      simp [List.foldl_append]
    refine ⟨hready, n, hn, hlt, htake, ?_, ?_⟩
    · rw [htake, stateNum_ReleaseUnit, if_pos rfl, hn]; rfl
    · intro id' hid
      rw [htake, stateNum_ReleaseUnit, if_neg hid]
  · intro id n hn
    obtain ⟨n', hn', hcount, hle⟩ := hnum id n (by rw [stateNum_maxEpochs]; exact hn)
    exact ⟨n', hn', by omega, hcount, hle⟩
  · by_cases hactive : e.m_active = true
    · obtain ⟨s', hs', -⟩ := executeLoop_terminates beh epochs
        (deficit epochs { e with m_maxEpochs := epochs })
        { engine := { e with m_maxEpochs := epochs }, isFinished := false, computed := [] }
        (Nat.le_refl _) hactive rfl
      exact ⟨_, s', hs'⟩
    · refine ⟨1, ⟨{ e with m_maxEpochs := epochs }, false, []⟩, ?_⟩
      simp [Engine.Execute, executeLoop, hactive]

/-- The theorem on `Execute(5)` on the graph `Source → Hidden → Sink`. -/
theorem Execute_computes_ready_below_epochs_witness :
    ∃ s, Engine.Execute specBehaviour 9 engineSHK 5 = some s ∧
      (∀ (id : UnitIdentifier) (n : Nat), engineSHK.stateNum id = some n →
        ∃ n', s.engine.stateNum id = some n' ∧ n ≤ n' ∧ n' = n + s.computed.count id ∧
          (n ≤ 5 → n' ≤ 5)) := by
  cases h : Engine.Execute specBehaviour 9 engineSHK 5 with
  | none => exact absurd h (by decide)
  | some s =>
    exact ⟨s, rfl, (Execute_computes_ready_below_epochs specBehaviour 9 engineSHK 5 s h).2.2.1⟩

end CubbyDNN

/-! # Where the copies are called -/

namespace Takion

/-- Every `m_forwardCopy` in a run of `Forward` is called where
`m_isForwardCopyReady` holds. -/
theorem Forward_copies_gated (ops : UnitOps) (cycle fuel : Nat) (um : UnitManager) :
    ∀ st ∈ (Forward ops cycle fuel um).run.log, ∀ k, st.event = Event.forwardCopy k →
      m_isForwardCopyReady st.pre k = some true := by
  refine sweepLoop_invariant_run (forwardVisit ops cycle)
    (fun r => ∀ st ∈ r.log, ∀ k, st.event = Event.forwardCopy k →
      m_isForwardCopyReady st.pre k = some true) ?_ fuel (forwardStart um) ?_
  · intro key s hs
    unfold forwardVisit
    cases hunit : at? s.1.um.m_unitMap key with
    | none => exact hs
    | some unit =>
      simp only
      have hcomp : ∀ st ∈ (forwardComputePhase ops cycle key unit s).1.log, ∀ k,
          st.event = Event.forwardCopy k → m_isForwardCopyReady st.pre k = some true := by
        unfold forwardComputePhase
        split
        · intro st hst k hk
          simp only [Run.step, List.mem_append, List.mem_singleton] at hst
          rcases hst with hst | rfl
          · exact hs st hst k hk
          · simp at hk
        · exact hs
      generalize forwardComputePhase ops cycle key unit s = s₁ at hcomp
      unfold forwardCopyPhase
      cases hready : m_isForwardCopyReady s₁.1.um key with
      | none => exact hcomp
      | some b =>
        cases b with
        | false => exact hcomp
        | true =>
          simp only
          cases hcopy : m_forwardCopy s₁.1.um key with
          | none => exact hcomp
          | some um' =>
            intro st hst k hk
            simp only [Run.step, List.mem_append, List.mem_singleton] at hst
            rcases hst with hst | rfl
            · exact hcomp st hst k hk
            · simp only [Event.forwardCopy.injEq] at hk
              subst hk
              exact hready
  · intro st hst k hk
    simp only [forwardStart, Run.step, List.nil_append, List.mem_singleton] at hst
    subst hst
    simp at hk

/-- Every `m_backwardCopy` in a run of `Backward` is called where
`m_isBackwardCopyReady` holds. -/
theorem Backward_copies_gated (ops : UnitOps) (cycle fuel : Nat) (um : UnitManager) :
    ∀ st ∈ (Backward ops cycle fuel um).run.log, ∀ k, st.event = Event.backwardCopy k →
      m_isBackwardCopyReady st.pre k = some true := by
  refine sweepLoop_invariant_run (backwardVisit ops cycle)
    (fun r => ∀ st ∈ r.log, ∀ k, st.event = Event.backwardCopy k →
      m_isBackwardCopyReady st.pre k = some true) ?_ fuel (backwardStart um) ?_
  · intro key s hs
    unfold backwardVisit
    cases hunit : at? s.1.um.m_unitMap key with
    | none => exact hs
    | some unit =>
      simp only
      have hcomp : ∀ st ∈ (backwardComputePhase ops cycle key unit s).1.log, ∀ k,
          st.event = Event.backwardCopy k → m_isBackwardCopyReady st.pre k = some true := by
        unfold backwardComputePhase
        split
        · intro st hst k hk
          simp only [Run.step, List.mem_append, List.mem_singleton] at hst
          rcases hst with hst | rfl
          · exact hs st hst k hk
          · simp at hk
        · exact hs
      generalize backwardComputePhase ops cycle key unit s = s₁ at hcomp
      unfold backwardCopyPhase
      cases hready : m_isBackwardCopyReady s₁.1.um key with
      | none => exact hcomp
      | some b =>
        cases b with
        | false => exact hcomp
        | true =>
          simp only
          cases hcopy : m_backwardCopy s₁.1.um key with
          | none => exact hcomp
          | some um' =>
            intro st hst k hk
            simp only [Run.step, List.mem_append, List.mem_singleton] at hst
            rcases hst with hst | rfl
            · exact hcomp st hst k hk
            · simp only [Event.backwardCopy.injEq] at hk
              subst hk
              exact hready
  · intro st hst k hk
    simp only [backwardStart, Run.step, List.nil_append, List.mem_singleton] at hst
    subst hst
    simp at hk

/-- The second loop of `AsyncForward` calls `m_forwardCopy` on the keys it is
given, one after the other, until a call raises. -/
theorem asyncForwardCopy_events :
    ∀ (ks : List UnitId) (r : Run),
      ∃ n, n ≤ ks.length ∧
        (asyncForwardCopy ks r).run.log.map (fun st => st.event) =
          r.log.map (fun st => st.event) ++ (ks.take n).map Event.forwardCopy ∧
        (∀ r', asyncForwardCopy ks r = .returned r' → n = ks.length) := by
  intro ks
  induction ks with
  | nil => intro r; exact ⟨0, Nat.le_refl _, by simp [asyncForwardCopy, Outcome.run], fun _ _ => rfl⟩
  | cons key rest ih =>
    intro r
    unfold asyncForwardCopy
    cases hcopy : m_forwardCopy r.um key with
    | none =>
      refine ⟨0, Nat.zero_le _, by simp [Outcome.run], ?_⟩
      intro r' h; simp at h
    | some um' =>
      obtain ⟨n, hn, hlog, hret⟩ := ih (r.step (.forwardCopy key) um')
      refine ⟨n + 1, by simpa using hn, ?_, ?_⟩
      · simp only
        rw [hlog]
        simp [Run.step]
      · intro r' h
        simp only at h
        rw [hret r' h]; rfl

/-- The second loop of `AsyncBackward` calls `m_backwardCopy` on the keys it is
given, one after the other, until a call raises. -/
theorem asyncBackwardCopy_events :
    ∀ (ks : List UnitId) (r : Run),
      ∃ n, n ≤ ks.length ∧
        (asyncBackwardCopy ks r).run.log.map (fun st => st.event) =
          r.log.map (fun st => st.event) ++ (ks.take n).map Event.backwardCopy ∧
        (∀ r', asyncBackwardCopy ks r = .returned r' → n = ks.length) := by
  intro ks
  induction ks with
  | nil => intro r; exact ⟨0, Nat.le_refl _, by simp [asyncBackwardCopy, Outcome.run], fun _ _ => rfl⟩
  | cons key rest ih =>
    intro r
    unfold asyncBackwardCopy
    cases hcopy : m_backwardCopy r.um key with
    | none =>
      refine ⟨0, Nat.zero_le _, by simp [Outcome.run], ?_⟩
      intro r' h; simp at h
    | some um' =>
      obtain ⟨n, hn, hlog, hret⟩ := ih (r.step (.backwardCopy key) um')
      refine ⟨n + 1, by simpa using hn, ?_, ?_⟩
      · simp only
        rw [hlog]
        simp [Run.step]
      · intro r' h
        simp only at h
        rw [hret r' h]; rfl

/-- C24. `Forward` and `Backward` call `m_forwardCopy(u)`, respectively
`m_backwardCopy(u)`, only where `m_isForwardCopyReady(u)`, respectively
`m_isBackwardCopyReady(u)`, holds.  `AsyncForward` and `AsyncBackward` do not
test it: they call the copy on every unit they have dispatched.  On the chain
graph with the Source unit forward-ready, `AsyncForward` calls
`m_forwardCopy` on the Source unit where `m_isForwardCopyReady` is false, and
the input slot of the `Dense` unit goes to version `1` while the output of the
Source unit is at version `0`; with the Sink unit forward-ready it calls
`m_forwardCopy` on the Sink unit, for which `m_isForwardCopyReady` is never
true; with the Sink unit backward-ready `AsyncBackward` calls `m_backwardCopy`
on it where `m_isBackwardCopyReady` is false. -/
theorem async_copies_not_gated :
    (∀ (ops : UnitOps) (cycle fuel : Nat) (um : UnitManager),
      ∀ st ∈ (Forward ops cycle fuel um).run.log, ∀ k, st.event = Event.forwardCopy k →
        m_isForwardCopyReady st.pre k = some true) ∧
    (∀ (ops : UnitOps) (cycle fuel : Nat) (um : UnitManager),
      ∀ st ∈ (Backward ops cycle fuel um).run.log, ∀ k, st.event = Event.backwardCopy k →
        m_isBackwardCopyReady st.pre k = some true) ∧
    (∀ (ops : UnitOps) (order : List UnitId → List UnitId) (cycle : Nat) (um : UnitManager),
      ∃ n,
        (AsyncForward ops order cycle um).run.log.map (fun st => st.event) =
          ((order (asyncForwardDispatch ops cycle (keys um.m_unitMap) (um, [])).2).take n).map
            Event.forwardCopy ∧
        (∀ r, AsyncForward ops order cycle um = .returned r →
          n = (order (asyncForwardDispatch ops cycle (keys um.m_unitMap) (um, [])).2).length)) ∧
    (∀ (ops : UnitOps) (order : List UnitId → List UnitId) (cycle : Nat) (um : UnitManager),
      ∃ n,
        (AsyncBackward ops order cycle um).run.log.map (fun st => st.event) =
          ((order (asyncBackwardDispatch ops cycle (keys um.m_unitMap) (um, [])).2).take n).map
            Event.backwardCopy ∧
        (∀ r, AsyncBackward ops order cycle um = .returned r →
          n = (order (asyncBackwardDispatch ops cycle (keys um.m_unitMap) (um, [])).2).length)) ∧
    ((AsyncForward exampleOps id 0 seededChain).run.log.map
        (fun st => (st.event, m_isForwardCopyReady st.pre uSrc,
          (edgeSlots st.post uSrc uDense).map (fun t => t.State),
          (forwardOutput st.post uSrc).map (fun t => t.State)))
      = [(Event.forwardCopy uSrc, some false, [1], some 0)]) ∧
    ((AsyncForward exampleOps id 0 lossReadyChain).run.log.map
        (fun st => (st.event, m_isForwardCopyReady st.pre uLoss))
      = [(Event.forwardCopy uLoss, some false)]) ∧
    ((AsyncBackward exampleOps id 0 seededChainBackward).run.log.map
        (fun st => (st.event, m_isBackwardCopyReady st.pre uLoss))
      = [(Event.backwardCopy uLoss, some false)]) := by
  refine ⟨Forward_copies_gated, Backward_copies_gated, ?_, ?_, by decide, by decide, by decide⟩
  · intro ops order cycle um
    obtain ⟨n, -, hlog, hret⟩ := asyncForwardCopy_events
      (order (asyncForwardDispatch ops cycle (keys um.m_unitMap) (um, [])).2)
      { um := (asyncForwardDispatch ops cycle (keys um.m_unitMap) (um, [])).1, log := [] }
    exact ⟨n, by simpa [AsyncForward] using hlog, fun r h => hret r h⟩
  · intro ops order cycle um
    obtain ⟨n, -, hlog, hret⟩ := asyncBackwardCopy_events
      (order (asyncBackwardDispatch ops cycle (keys um.m_unitMap) (um, [])).2)
      { um := (asyncBackwardDispatch ops cycle (keys um.m_unitMap) (um, [])).1, log := [] }
    exact ⟨n, by simpa [AsyncBackward] using hlog, fun r h => hret r h⟩

end Takion

/-! # The forward copy fires once per produced version -/

namespace Takion

theorem SlotsNotLowered.lowered_refl (um : UnitManager) : SlotsNotLowered um um :=
  ⟨rfl, rfl, fun _ _ t ht => ⟨t, ht, Nat.le_refl _⟩⟩

theorem SlotsNotLowered.lowered_trans {a b c : UnitManager} (h₁ : SlotsNotLowered a b)
    (h₂ : SlotsNotLowered b c) : SlotsNotLowered a c := by
  refine ⟨h₂.1.trans h₁.1, h₂.2.1.trans h₁.2.1, ?_⟩
  intro p q t ht
  obtain ⟨t', ht', hle⟩ := h₁.2.2 p q t ht
  obtain ⟨t'', ht'', hle'⟩ := h₂.2.2 p q t' ht'
  exact ⟨t'', ht'', Nat.le_trans hle hle'⟩

/-- A change that keeps the metadata, the keys and every forward input map
lowers no slot. -/
theorem SlotsNotLowered_of_inputs_eq (um um' : UnitManager)
    (hmd : um'.m_unitMetaDataMap = um.m_unitMetaDataMap)
    (hkeys : keys um'.m_unitMap = keys um.m_unitMap)
    (hin : ∀ c, (at? um'.m_unitMap c).map (fun cu => cu.ForwardInputMap) =
      (at? um.m_unitMap c).map (fun cu => cu.ForwardInputMap)) :
    SlotsNotLowered um um' := by
  refine ⟨hmd, hkeys, ?_⟩
  intro p c t ht
  refine ⟨t, ?_, Nat.le_refl _⟩
  have hc := hin c
  unfold edgeSlots at ht ⊢
  cases h : at? um.m_unitMap c with
  | none => rw [h] at ht; simp at ht
  | some cu =>
    rw [h] at ht hc
    cases h' : at? um'.m_unitMap c with
    | none => rw [h'] at hc; simp at hc
    | some cu' =>
      rw [h'] at hc
      simp only [Option.map_some', Option.some.injEq] at hc
      simp only [hc]
      exact ht

/-- Replacing a unit by one with the same forward input map lowers no slot. -/
theorem SlotsNotLowered_setAt (um : UnitManager) (key : UnitId) (old new : ComputableUnit)
    (hold : at? um.m_unitMap key = some old)
    (hf : new.ForwardInputMap = old.ForwardInputMap) :
    SlotsNotLowered um { um with m_unitMap := setAt um.m_unitMap key new } := by
  refine SlotsNotLowered_of_inputs_eq _ _ rfl (keys_setAt _ _ _) ?_
  intro c
  by_cases hc : c = key
  · subst hc
    simp only [at?_setAt_self _ _ _ _ hold, hold, Option.map_some', hf]
  · simp only [at?_setAt_of_ne _ _ _ _ hc]

theorem SlotsNotLowered_seedForward (um : UnitManager) :
    SlotsNotLowered um { um with m_unitMap := seedForward um.m_unitMap } := by
  refine ⟨rfl, keys_seedForward _, ?_⟩
  intro p c t ht
  unfold edgeSlots at ht ⊢
  simp only [at?_seedForward]
  cases h : at? um.m_unitMap c with
  | none => rw [h] at ht; simp at ht
  | some cu =>
    rw [h] at ht
    simp only [Option.map_some']
    by_cases hs : c.Type_.BaseType = UnitBaseType.Source
    · simp only [if_pos hs]
      refine ⟨{ t with State := t.State + 1 }, ?_, Nat.le_succ _⟩
      rw [mem_slotsKeyed] at ht ⊢
      simp only [bumpAll, List.mem_map]
      exact ⟨(p, t), ht, rfl⟩
    · simp only [if_neg hs]
      exact ⟨t, ht, Nat.le_refl _⟩

theorem SlotsNotLowered_seedBackward (um : UnitManager) :
    SlotsNotLowered um { um with m_unitMap := seedBackward um.m_unitMap } := by
  refine SlotsNotLowered_of_inputs_eq _ _ rfl ?_ ?_
  · show keys (seedBackward um.m_unitMap) = keys um.m_unitMap
    rw [← keys_shape, shape_seedBackward, keys_shape]
  · intro c
    simp only [at?_seedBackward]
    cases h : at? um.m_unitMap c with
    | none => rfl
    | some cu =>
      simp only [Option.map_some']
      by_cases hs : c.Type_.BaseType = UnitBaseType.Sink
      · simp only [if_pos hs]
      · simp only [if_neg hs]

theorem SlotsNotLowered_m_forwardCopy (um um' : UnitManager) (key : UnitId)
    (h : m_forwardCopy um key = some um') : SlotsNotLowered um um' := by
  have hshape := SameShape_m_forwardCopy um um' key h
  obtain ⟨subject, -, -, -, hedge⟩ := copy_forward_facts um um' key h
  refine ⟨hshape.1, hshape.keys_eq, ?_⟩
  intro p c t ht
  rw [hedge p c]
  split
  · refine ⟨{ Data := subject.ForwardOutput.Data,
              State := t.State + (outputVector um key).count c }, ?_, Nat.le_add_right _ _⟩
    exact List.mem_map.2 ⟨t, ht, rfl⟩
  · exact ⟨t, ht, Nat.le_refl _⟩

/-- The loop of `m_backwardCopy` leaves every forward input map as it is. -/
theorem backwardCopyLoop_forward_inputs (u : UnitId) (bom : List (UnitId × Tensor)) :
    ∀ unitMap unitMap' : List (UnitId × ComputableUnit),
      backwardCopyLoop u bom unitMap = some unitMap' →
      ∀ c, (at? unitMap' c).map (fun cu => cu.ForwardInputMap) =
        (at? unitMap c).map (fun cu => cu.ForwardInputMap) := by
  induction bom with
  | nil =>
    intro unitMap unitMap' h c
    simp only [backwardCopyLoop, Option.some.injEq] at h
    rw [h]
  | cons e rest ih =>
    obtain ⟨unitId, outputTensor⟩ := e
    intro unitMap unitMap' h c
    unfold backwardCopyLoop at h
    cases hnext : at? unitMap unitId with
    | none => rw [hnext] at h; simp at h
    | some next =>
      rw [hnext] at h
      simp only at h
      rw [ih _ _ h c]
      by_cases hc : c = unitId
      · subst hc
        simp only [at?_setAt_self _ _ _ _ hnext, hnext, Option.map_some']
      · simp only [at?_setAt_of_ne _ _ _ _ hc]

theorem SlotsNotLowered_m_backwardCopy (um um' : UnitManager) (key : UnitId)
    (h : m_backwardCopy um key = some um') : SlotsNotLowered um um' := by
  have hshape := SameShape_m_backwardCopy um um' key h
  refine SlotsNotLowered_of_inputs_eq _ _ hshape.1 hshape.keys_eq ?_
  unfold m_backwardCopy at h
  cases hsub : at? um.m_unitMap key with
  | none => rw [hsub] at h; simp at h
  | some subject =>
    rw [hsub] at h
    simp only at h
    cases hloop : backwardCopyLoop key subject.BackwardOutputMap um.m_unitMap with
    | none => rw [hloop] at h; simp at h
    | some unitMap =>
      rw [hloop] at h
      simp only [Option.some.injEq] at h
      subst h
      exact backwardCopyLoop_forward_inputs key _ _ _ hloop

end Takion

namespace Takion

/-- No step of a run of `Forward` lowers a forward input slot. -/
theorem Forward_steps_not_lowered (ops : UnitOps) (cycle fuel : Nat) (um : UnitManager) :
    ∀ st ∈ (Forward ops cycle fuel um).run.log, SlotsNotLowered st.pre st.post := by
  refine sweepLoop_invariant_run (forwardVisit ops cycle)
    (fun r => ∀ st ∈ r.log, SlotsNotLowered st.pre st.post) ?_ fuel (forwardStart um) ?_
  · intro key s hs
    unfold forwardVisit
    cases hunit : at? s.1.um.m_unitMap key with
    | none => exact hs
    | some unit =>
      simp only
      have hcomp : ∀ st ∈ (forwardComputePhase ops cycle key unit s).1.log,
          SlotsNotLowered st.pre st.post := by
        unfold forwardComputePhase
        split
        · intro st hst
          simp only [Run.step, List.mem_append, List.mem_singleton] at hst
          rcases hst with hst | rfl
          · exact hs st hst
          · exact SlotsNotLowered_setAt _ key unit _ hunit rfl
        · exact hs
      generalize forwardComputePhase ops cycle key unit s = s₁ at hcomp
      unfold forwardCopyPhase
      cases hready : m_isForwardCopyReady s₁.1.um key with
      | none => exact hcomp
      | some b =>
        cases b with
        | false => exact hcomp
        | true =>
          simp only
          cases hcopy : m_forwardCopy s₁.1.um key with
          | none => exact hcomp
          | some um' =>
            intro st hst
            simp only [Run.step, List.mem_append, List.mem_singleton] at hst
            rcases hst with hst | rfl
            · exact hcomp st hst
            · exact SlotsNotLowered_m_forwardCopy _ _ key hcopy
  · intro st hst
    simp only [forwardStart, Run.step, List.nil_append, List.mem_singleton] at hst
    subst hst
    exact SlotsNotLowered_seedForward um

/-- No step of a run of `Backward` lowers a forward input slot. -/
theorem Backward_steps_not_lowered (ops : UnitOps) (cycle fuel : Nat) (um : UnitManager) :
    ∀ st ∈ (Backward ops cycle fuel um).run.log, SlotsNotLowered st.pre st.post := by
  refine sweepLoop_invariant_run (backwardVisit ops cycle)
    (fun r => ∀ st ∈ r.log, SlotsNotLowered st.pre st.post) ?_ fuel (backwardStart um) ?_
  · intro key s hs
    unfold backwardVisit
    cases hunit : at? s.1.um.m_unitMap key with
    | none => exact hs
    | some unit =>
      simp only
      have hcomp : ∀ st ∈ (backwardComputePhase ops cycle key unit s).1.log,
          SlotsNotLowered st.pre st.post := by
        unfold backwardComputePhase
        split
        · intro st hst
          simp only [Run.step, List.mem_append, List.mem_singleton] at hst
          rcases hst with hst | rfl
          · exact hs st hst
          · exact SlotsNotLowered_setAt _ key unit _ hunit rfl
        · exact hs
      generalize backwardComputePhase ops cycle key unit s = s₁ at hcomp
      unfold backwardCopyPhase
      cases hready : m_isBackwardCopyReady s₁.1.um key with
      | none => exact hcomp
      | some b =>
        cases b with
        | false => exact hcomp
        | true =>
          simp only
          cases hcopy : m_backwardCopy s₁.1.um key with
          | none => exact hcomp
          | some um' =>
            intro st hst
            simp only [Run.step, List.mem_append, List.mem_singleton] at hst
            rcases hst with hst | rfl
            · exact hcomp st hst
            · exact SlotsNotLowered_m_backwardCopy _ _ key hcopy
  · intro st hst
    simp only [backwardStart, Run.step, List.nil_append, List.mem_singleton] at hst
    subst hst
    exact SlotsNotLowered_seedBackward um

/-- A unit one of whose listed consumers holds a slot keyed by it that is not
behind its output is not ready for a forward copy. -/
theorem m_isForwardCopyReady_of_delivered (um : UnitManager) (u c : UnitId) (t out : Tensor)
    (hc : c ∈ outputVector um u) (ht : t ∈ edgeSlots um u c)
    (hout : forwardOutput um u = some out) (hle : out.State ≤ t.State)
    (hclosed : ∀ c ∈ outputVector um u, c ∈ keys um.m_unitMap) :
    m_isForwardCopyReady um u = some false := by
  cases hmd : at? um.m_unitMetaDataMap u with
  | none => simp [outputVector, hmd] at hc
  | some md =>
    have hvec : outputVector um u = md.OutputUnitVector := by simp [outputVector, hmd]
    cases hsub : at? um.m_unitMap u with
    | none => simp [forwardOutput, hsub] at hout
    | some subject =>
      have hne := m_isForwardCopyReady_ne_none um u md subject hmd hsub
        (fun c hc => hclosed c (hvec ▸ hc))
      cases hb : m_isForwardCopyReady um u with
      | none => exact absurd hb hne
      | some b =>
        cases b with
        | false => rfl
        | true =>
          exfalso
          obtain ⟨md', subject', hmd', hsub', -, hall⟩ := m_isForwardCopyReady_true um u hb
          rw [hmd] at hmd'; cases hmd'
          rw [hsub] at hsub'; cases hsub'
          obtain ⟨cc, hcc, hslots⟩ := hall c (hvec ▸ hc)
          simp only [edgeSlots, hcc] at ht
          rw [mem_slotsKeyed] at ht
          have := hslots (u, t) ht rfl
          simp only [forwardOutput, hsub, Option.map_some', Option.some.injEq] at hout
          subst hout
          simp only at this
          omega

end Takion

namespace Takion

/-- After `m_forwardCopy(u)` from a state where `u` was ready for it and some
listed consumer holds a slot keyed by `u`, that slot is not behind the output of
`u`, and so is any slot that takes its place as long as no slot is lowered. -/
theorem not_ready_after_copy (um um' um'' : UnitManager) (u : UnitId)
    (hready : m_isForwardCopyReady um u = some true)
    (hcopy : m_forwardCopy um u = some um')
    (hslot : ∃ c ∈ outputVector um u, edgeSlots um u c ≠ [])
    (hlow : SlotsNotLowered um' um'')
    (hver : (forwardOutput um'' u).map (fun t => t.State) =
      (forwardOutput um' u).map (fun t => t.State)) :
    m_isForwardCopyReady um'' u = some false := by
  obtain ⟨md, subject, hmd, hsub, -, hall⟩ := m_isForwardCopyReady_true um u hready
  obtain ⟨c, hc, hne⟩ := hslot
  obtain ⟨t, ht⟩ := List.exists_mem_of_ne_nil _ hne
  have hvec : outputVector um u = md.OutputUnitVector := by simp [outputVector, hmd]
  have hstate : subject.ForwardOutput.State = t.State + 1 := by
    obtain ⟨cc, hcc, hslots⟩ := hall c (hvec ▸ hc)
    have ht' := ht
    simp only [edgeSlots, hcc] at ht'
    rw [mem_slotsKeyed] at ht'
    exact hslots (u, t) ht' rfl
  obtain ⟨subject', hsub', hvec', hout', hedge⟩ := copy_forward_facts um um' u hcopy
  rw [hsub] at hsub'; cases hsub'
  have hcount : 0 < (outputVector um u).count c := List.count_pos_iff.2 hc
  have hmem' : Tensor.mk subject.ForwardOutput.Data (t.State + (outputVector um u).count c)
      ∈ edgeSlots um' u c := by
    rw [hedge u c, if_pos ⟨rfl, hcount⟩]
    exact List.mem_map.2 ⟨t, ht, rfl⟩
  obtain ⟨t'', ht'', hle⟩ := hlow.2.2 u c _ hmem'
  simp only at hle
  have hout : forwardOutput um' u = some subject.ForwardOutput := by
    rw [hout' u]; simp [forwardOutput, hsub]
  rw [hout] at hver
  cases hout'' : forwardOutput um'' u with
  | none => rw [hout''] at hver; simp at hver
  | some out'' =>
    rw [hout''] at hver
    simp only [Option.map_some', Option.some.injEq] at hver
    have hvec'' : outputVector um'' u = outputVector um u := by
      rw [← hvec' u]
      simp only [outputVector, hlow.1]
    refine m_isForwardCopyReady_of_delivered um'' u c t'' out'' (hvec'' ▸ hc) ht'' hout''
      (by omega) ?_
    intro c' hc'
    rw [hvec'', hvec] at hc'
    obtain ⟨cc, hcc, -⟩ := hall c' hc'
    rw [hlow.2.1, (SameShape_m_forwardCopy um um' u hcopy).keys_eq]
    exact (at?_isSome_iff_mem_keys _ _).1 (by simp [hcc])

/-- C23. When `m_isForwardCopyReady(u)` holds and some unit listed in the
`OutputUnitVector` of `u` holds a forward input slot keyed by `u`, then after
`m_forwardCopy(u)` the test `m_isForwardCopyReady(u)` is false, and it is false
in every later state in which the output of `u` has the same version, the
metadata and the compiled units are the same and no forward input slot has gone
back; no step of a run of `Forward` or of `Backward` takes a slot back. -/
theorem m_forwardCopy_once_per_version (um um' : UnitManager) (u : UnitId)
    (hready : m_isForwardCopyReady um u = some true)
    (hcopy : m_forwardCopy um u = some um')
    (hslot : ∃ c ∈ outputVector um u, edgeSlots um u c ≠ []) :
    m_isForwardCopyReady um' u = some false ∧
    (∀ um'', SlotsNotLowered um' um'' →
      (forwardOutput um'' u).map (fun t => t.State) =
        (forwardOutput um' u).map (fun t => t.State) →
      m_isForwardCopyReady um'' u = some false) ∧
    (∀ (ops : UnitOps) (cycle fuel : Nat) (um₀ : UnitManager),
      ∀ st ∈ (Forward ops cycle fuel um₀).run.log, SlotsNotLowered st.pre st.post) ∧
    (∀ (ops : UnitOps) (cycle fuel : Nat) (um₀ : UnitManager),
      ∀ st ∈ (Backward ops cycle fuel um₀).run.log, SlotsNotLowered st.pre st.post) ∧
    (∀ a, SlotsNotLowered a a) ∧
    (∀ a b c, SlotsNotLowered a b → SlotsNotLowered b c → SlotsNotLowered a c) :=
  ⟨not_ready_after_copy um um' um' u hready hcopy hslot (SlotsNotLowered.lowered_refl um') rfl,
    fun um'' hlow hver => not_ready_after_copy um um' um'' u hready hcopy hslot hlow hver,
    Forward_steps_not_lowered, Backward_steps_not_lowered,
    SlotsNotLowered.lowered_refl, fun _ _ _ h₁ h₂ => h₁.lowered_trans h₂⟩

/-- The theorem on the chain graph when the Source unit has computed: the copy
to the `Dense` unit is ready, and after it it is not. -/
theorem m_forwardCopy_once_per_version_witness :
    m_isForwardCopyReady sourceComputedChain uSrc = some true ∧
    ∃ um', m_forwardCopy sourceComputedChain uSrc = some um' ∧
      m_isForwardCopyReady um' uSrc = some false := by
  refine ⟨by decide, ?_⟩
  cases h : m_forwardCopy sourceComputedChain uSrc with
  | none => exact absurd h (by decide)
  | some um' =>
    exact ⟨um', rfl,
      (m_forwardCopy_once_per_version sourceComputedChain um' uSrc (by decide) h
        ⟨uDense, by decide, by decide⟩).1⟩

/-- C23 as worded fails on the code: in the graph `Constant → Dense` the `Dense`
unit is not a Sink and lists no consumer; `m_isForwardCopyReady` holds for it,
`m_forwardCopy` changes nothing, and `m_isForwardCopyReady` holds again. -/
theorem m_forwardCopy_dangling_stays_ready :
    m_isForwardCopyReady danglingGraph uDense = some true ∧
    ∃ um', m_forwardCopy danglingGraph uDense = some um' ∧
      forwardOutput um' uDense = forwardOutput danglingGraph uDense ∧
      m_isForwardCopyReady um' uDense = some true :=
  ⟨by decide, danglingGraph, by decide, rfl, by decide⟩

end Takion

/-! # The sweeps of `Forward` come to an end -/

namespace Takion

/-- A delivery from `j` does not change what `m_isForwardCopyReady` reads for
another unit `k`. -/
theorem forwardSlotsReady_deliverSlots_ne (j k : UnitId) (o : Nat) (src : Tensor) (n : Nat)
    (h : j ≠ k) (m : List (UnitId × Tensor)) :
    forwardSlotsReady k o (deliverSlots j src n m) = forwardSlotsReady k o m := by
  induction m with
  | nil => rfl
  | cons e rest ih =>
    obtain ⟨t, d⟩ := e
    rw [deliverSlots_cons]
    by_cases htj : t = j ∧ 0 < n
    · rw [if_pos htj]
      have htk : t ≠ k := fun hk => h (htj.1.symm.trans hk)
      simp only [forwardSlotsReady, if_neg htk, ih]
    · rw [if_neg htj]
      by_cases htk : t = k
      · simp only [forwardSlotsReady, if_pos htk, ih]
      · simp only [forwardSlotsReady, if_neg htk, ih]

/-- The loop of `m_isForwardCopyReady` gives the same on two unit maps in which
the consumers answer the inner loop alike. -/
theorem isForwardCopyReadyLoop_congr (m m' : List (UnitId × ComputableUnit)) (k : UnitId)
    (o : Nat) (vec : List UnitId)
    (h : ∀ c ∈ vec, (at? m' c).map (fun cu => forwardSlotsReady k o cu.ForwardInputMap) =
      (at? m c).map (fun cu => forwardSlotsReady k o cu.ForwardInputMap)) :
    isForwardCopyReadyLoop m' k o vec = isForwardCopyReadyLoop m k o vec := by
  induction vec with
  | nil => rfl
  | cons c rest ih =>
    have hc := h c (List.mem_cons_self _ _)
    have hrest := ih (fun c' hc' => h c' (List.mem_cons_of_mem _ hc'))
    unfold isForwardCopyReadyLoop
    cases h₁ : at? m c with
    | none =>
      rw [h₁] at hc
      cases h₂ : at? m' c with
      | none => rfl
      | some cc' => rw [h₂] at hc; simp at hc
    | some cc =>
      rw [h₁] at hc
      cases h₂ : at? m' c with
      | none => rw [h₂] at hc; simp at hc
      | some cc' =>
        rw [h₂] at hc
        simp only [Option.map_some', Option.some.injEq] at hc
        simp only [hc, hrest]

/-- The test `m_isForwardCopyReady(k)` gives the same in two states with the
same metadata, the same unit `k` and consumers that answer the inner loop
alike. -/
theorem m_isForwardCopyReady_congr (um um' : UnitManager) (k : UnitId)
    (hmd : um'.m_unitMetaDataMap = um.m_unitMetaDataMap)
    (hk : at? um'.m_unitMap k = at? um.m_unitMap k)
    (h : ∀ c o, (at? um'.m_unitMap c).map (fun cu => forwardSlotsReady k o cu.ForwardInputMap) =
      (at? um.m_unitMap c).map (fun cu => forwardSlotsReady k o cu.ForwardInputMap)) :
    m_isForwardCopyReady um' k = m_isForwardCopyReady um k := by
  unfold m_isForwardCopyReady
  rw [hmd, hk]
  cases at? um.m_unitMetaDataMap k with
  | none => rfl
  | some md =>
    simp only
    split
    · rfl
    · cases at? um.m_unitMap k with
      | none => rfl
      | some subject =>
        simp only
        exact isForwardCopyReadyLoop_congr _ _ k _ _ (fun c _ => h c _)

/-- The computation of `j` leaves every other unit at rest that was. -/
theorem ForwardQuiet_afterForward (ops : UnitOps) (um : UnitManager) (j k : UnitId)
    (unit : ComputableUnit) (hunit : at? um.m_unitMap j = some unit) (hne : k ≠ j)
    (hq : ForwardQuiet um k) : ForwardQuiet (afterForward ops j unit um) k := by
  have hk : at? (afterForward ops j unit um).m_unitMap k = at? um.m_unitMap k := by
    rw [at?_afterForward ops um j k unit hunit, if_neg hne]
  refine ⟨fun cu hcu => hq.1 cu (hk ▸ hcu), ?_⟩
  rw [m_isForwardCopyReady_congr um (afterForward ops j unit um) k rfl hk ?_]
  · exact hq.2
  · intro c o
    rw [at?_afterForward ops um j c unit hunit]
    by_cases hc : c = j
    · subst hc
      rw [if_pos rfl, hunit]
      rfl
    · rw [if_neg hc]

/-- The copy from `j` leaves every other unit at rest that was, if `j` does
not list it. -/
theorem ForwardQuiet_m_forwardCopy (um um' : UnitManager) (j k : UnitId)
    (hcopy : m_forwardCopy um j = some um') (hne : k ≠ j) (hnot : k ∉ outputVector um j)
    (hq : ForwardQuiet um k) : ForwardQuiet um' k := by
  obtain ⟨md, subject, hmd, -, hmeta, hat⟩ := m_forwardCopy_some um um' j hcopy
  have hvec : outputVector um j = md.OutputUnitVector := outputVector_eq_of_at? um j md hmd
  have hcount : md.OutputUnitVector.count k = 0 := List.count_eq_zero.2 (hvec ▸ hnot)
  have hk : at? um'.m_unitMap k = at? um.m_unitMap k := by
    rw [hat k, hcount]
    cases at? um.m_unitMap k with
    | none => rfl
    | some cu => simp only [Option.map_some', deliverSlots_zero]
  refine ⟨fun cu hcu => hq.1 cu (hk ▸ hcu), ?_⟩
  rw [m_isForwardCopyReady_congr um um' k hmeta hk ?_]
  · exact hq.2
  · intro c o
    rw [hat c]
    cases at? um.m_unitMap c with
    | none => rfl
    | some cu =>
      simp only [Option.map_some', Option.some.injEq]
      exact forwardSlotsReady_deliverSlots_ne j k o _ _ (fun h => hne h.symm) _

end Takion

namespace Takion

/-- The wiring conditions hold in every state with the same wiring. -/
theorem ForwardConnected_of_sameShape {a b : UnitManager} (h : SameShape a b)
    (hc : ForwardConnected a) : ForwardConnected b := by
  refine ⟨?_, ?_, ?_⟩
  · intro k hk
    rw [h.keys_eq] at hk
    obtain ⟨md, hmd, hvec⟩ := hc.closed k hk
    exact ⟨md, by rw [h.1]; exact hmd, fun c hcv => by rw [h.keys_eq]; exact hvec c hcv⟩
  · intro c cu hcu hnil
    have hshape := h.units_shape_eq c
    rw [hcu] at hshape
    cases hcu₀ : at? a.m_unitMap c with
    | none => rw [hcu₀] at hshape; simp at hshape
    | some cu₀ =>
      rw [hcu₀] at hshape
      simp only [Option.map_some', Option.some.injEq, unitShape, Prod.mk.injEq] at hshape
      have hkeys : keys cu₀.ForwardInputMap = [] := by rw [← hshape.1, hnil]; rfl
      apply hc.inputs c cu₀ hcu₀
      cases hm : cu₀.ForwardInputMap with
      | nil => rfl
      | cons e rest => rw [hm] at hkeys; simp [keys] at hkeys
  · intro k hk md hmd hns
    rw [h.keys_eq] at hk
    rw [h.1] at hmd
    obtain ⟨c, hcv, hne⟩ := hc.served k hk md hmd hns
    refine ⟨c, hcv, ?_⟩
    intro hnil
    apply hne
    apply edgeSlots_eq_nil_of_not_mem
    rw [← forwardSources_of_sameShape h c]
    intro hmem
    have hcu : ∃ cu, at? b.m_unitMap c = some cu := by
      cases hb : at? b.m_unitMap c with
      | none => simp [forwardSources, hb] at hmem
      | some cu => exact ⟨cu, rfl⟩
    obtain ⟨cu, hcu⟩ := hcu
    rw [forwardSources_eq_of_at? b c cu hcu] at hmem
    simp only [edgeSlots, hcu] at hnil
    exact (slotsKeyed_eq_nil_iff k cu.ForwardInputMap).1 hnil hmem

/-- The first half of a visit of `Forward`, readiness as in the spec: after it
the unit is not forward-ready, the other units at rest are still at rest, and
nothing has happened if the unit was not ready. -/
theorem forwardComputePhase_quiet (fd : UnitId → ComputableUnit → List Int)
    (bd : UnitId → ComputableUnit → UnitId → List Int) (cycle : Nat) {um₀ : UnitManager}
    (hcon : ForwardConnected um₀) (j : UnitId) (unit : ComputableUnit) (s : Run × Bool)
    (hs : SameShape um₀ s.1.um) (hunit : at? s.1.um.m_unitMap j = some unit) :
    SameShape um₀ (forwardComputePhase (specOps fd bd) cycle j unit s).1.um ∧
    (∀ cu, at? (forwardComputePhase (specOps fd bd) cycle j unit s).1.um.m_unitMap j = some cu →
      allOneAhead cu.ForwardStateCount cu.ForwardInputMap = false) ∧
    (∀ k, k ≠ j → ForwardQuiet s.1.um k →
      ForwardQuiet (forwardComputePhase (specOps fd bd) cycle j unit s).1.um k) ∧
    (allOneAhead unit.ForwardStateCount unit.ForwardInputMap = false →
      forwardComputePhase (specOps fd bd) cycle j unit s = s) := by
  rw [forwardComputePhase_eq]
  by_cases hr : allOneAhead unit.ForwardStateCount unit.ForwardInputMap = true
  · have hr' : (specOps fd bd).IsForwardReady j unit cycle = true := hr
    rw [if_pos hr']
    simp only [Run.step]
    refine ⟨?_, ?_, ?_, ?_⟩
    · exact ⟨hs.1, (shape_setAt _ j unit _ hunit
        (unitShape_update_forward (specOps fd bd) j unit)).trans hs.2⟩
    · intro cu hcu
      rw [at?_afterForward _ _ j j unit hunit, if_pos rfl] at hcu
      simp only [Option.some.injEq] at hcu
      subst hcu
      have hne := (ForwardConnected_of_sameShape hs hcon).inputs j unit hunit
      obtain ⟨e, he⟩ := List.exists_mem_of_ne_nil _ hne
      have hall := (allOneAhead_iff _ _).1 hr e he
      cases hb : allOneAhead (UpdateForwardState (unitForward (specOps fd bd) j unit)).ForwardStateCount
          (UpdateForwardState (unitForward (specOps fd bd) j unit)).ForwardInputMap with
      | false => rfl
      | true =>
        have := (allOneAhead_iff _ _).1 hb e he
        simp only [UpdateForwardState, unitForward] at this
        omega
    · intro k hk hq
      exact ForwardQuiet_afterForward _ _ j k unit hunit hk hq
    · intro hf; rw [hf] at hr; simp at hr
  · have hr' : ¬ (specOps fd bd).IsForwardReady j unit cycle = true := hr
    rw [if_neg hr']
    refine ⟨hs, ?_, fun _ _ hq => hq, fun _ => rfl⟩
    intro cu hcu
    rw [hunit] at hcu
    simp only [Option.some.injEq] at hcu
    subst hcu
    simpa using hr

end Takion

namespace Takion

/-- The second half of a visit of `Forward` in a connected graph without a
self-loop: after it `m_isForwardCopyReady` is false for the unit, the unit is
not forward-ready if it was not, the other units at rest that it does not list
are still at rest, and nothing has happened if the test was false. -/
theorem forwardCopyPhase_quiet {um₀ : UnitManager} (hcon : ForwardConnected um₀) (j : UnitId)
    (hj : j ∈ keys um₀.m_unitMap) (hself : j ∉ outputVector um₀ j) (s : Run × Bool)
    (hs : SameShape um₀ s.1.um)
    (hnr : ∀ cu, at? s.1.um.m_unitMap j = some cu →
      allOneAhead cu.ForwardStateCount cu.ForwardInputMap = false) :
    ∃ s', forwardCopyPhase j s = .ok s' ∧ SameShape um₀ s'.1.um ∧ ForwardQuiet s'.1.um j ∧
      (∀ k, k ≠ j → k ∉ outputVector um₀ j → ForwardQuiet s.1.um k → ForwardQuiet s'.1.um k) ∧
      (m_isForwardCopyReady s.1.um j = some false → s' = s) := by
  have hcon' := ForwardConnected_of_sameShape hs hcon
  have hj' : j ∈ keys s.1.um.m_unitMap := by rw [hs.keys_eq]; exact hj
  obtain ⟨md, hmd, hvec⟩ := hcon'.closed j hj'
  obtain ⟨unit, hunit⟩ := (mem_keys_iff_at? _ _).mp hj'
  have hov : outputVector s.1.um j = md.OutputUnitVector := outputVector_eq_of_at? _ j md hmd
  have hov₀ : outputVector s.1.um j = outputVector um₀ j := outputVector_of_sameShape hs j
  unfold forwardCopyPhase
  cases hready : m_isForwardCopyReady s.1.um j with
  | none => exact absurd hready (m_isForwardCopyReady_ne_none _ j md unit hmd hunit hvec)
  | some b =>
    cases b with
    | false =>
      exact ⟨s, rfl, hs, ⟨hnr, hready⟩, fun _ _ _ hq => hq, fun _ => rfl⟩
    | true =>
      simp only
      cases hcopy : m_forwardCopy s.1.um j with
      | none => exact absurd hcopy (m_forwardCopy_ne_none _ j md unit hmd hunit hvec)
      | some um' =>
        simp only
        have hs' : SameShape um₀ um' := hs.same_trans (SameShape_m_forwardCopy _ _ j hcopy)
        have hns : md.Id.Type_.BaseType ≠ UnitBaseType.Sink := by
          intro hsink
          rw [m_isForwardCopyReady_of_sink _ j md hmd hsink] at hready
          simp at hready
        obtain ⟨c, hc, hne⟩ := hcon'.served j hj' md hmd hns
        have hafter : m_isForwardCopyReady um' j = some false :=
          not_ready_after_copy s.1.um um' um' j hready hcopy ⟨c, hov ▸ hc, hne⟩
            (SlotsNotLowered.lowered_refl um') rfl
        have hunit' : at? um'.m_unitMap j = at? s.1.um.m_unitMap j := by
          obtain ⟨md', subject, hmd', -, -, hat⟩ := m_forwardCopy_some _ um' j hcopy
          rw [hmd] at hmd'; cases hmd'
          have hcount : md.OutputUnitVector.count j = 0 :=
            List.count_eq_zero.2 (by rw [← hov, hov₀]; exact hself)
          rw [hat j, hcount, hunit]
          simp only [Option.map_some', deliverSlots_zero]
        refine ⟨_, rfl, hs', ⟨?_, hafter⟩, ?_, ?_⟩
        · intro cu hcu
          exact hnr cu (by rw [← hunit']; exact hcu)
        · intro k hk hnot hq
          exact ForwardQuiet_m_forwardCopy _ um' j k hcopy hk (by rw [hov₀]; exact hnot) hq
        · intro h; simp at h

/-- A visit of `Forward` in a connected graph without a self-loop, readiness as
in the spec: no lookup fails; after the visit the unit is at rest; every other
unit at rest that it does not list is still at rest; and a visit of a unit at
rest changes nothing. -/
theorem forwardVisit_quiet (fd : UnitId → ComputableUnit → List Int)
    (bd : UnitId → ComputableUnit → UnitId → List Int) (cycle : Nat) {um₀ : UnitManager}
    (hcon : ForwardConnected um₀) (j : UnitId) (hj : j ∈ keys um₀.m_unitMap)
    (hself : j ∉ outputVector um₀ j) (s : Run × Bool) (hs : SameShape um₀ s.1.um) :
    ∃ s', forwardVisit (specOps fd bd) cycle j s = .ok s' ∧ SameShape um₀ s'.1.um ∧
      ForwardQuiet s'.1.um j ∧
      (∀ k, k ≠ j → k ∉ outputVector um₀ j → ForwardQuiet s.1.um k → ForwardQuiet s'.1.um k) ∧
      (ForwardQuiet s.1.um j → s' = s) := by
  have hj' : j ∈ keys s.1.um.m_unitMap := by rw [hs.keys_eq]; exact hj
  obtain ⟨unit, hunit⟩ := (mem_keys_iff_at? _ _).mp hj'
  obtain ⟨hs₁, hnr₁, hkeep₁, hnop₁⟩ :=
    forwardComputePhase_quiet fd bd cycle hcon j unit s hs hunit
  obtain ⟨s', hv, hs', hq', hkeep', hnop'⟩ :=
    forwardCopyPhase_quiet hcon j hj hself _ hs₁ hnr₁
  refine ⟨s', ?_, hs', hq', ?_, ?_⟩
  · unfold forwardVisit
    simp only [hunit]
    exact hv
  · intro k hk hnot hq
    exact hkeep' k hk hnot (hkeep₁ k hk hq)
  · intro hq
    have h₁ := hnop₁ (hq.1 unit hunit)
    rw [h₁] at hnop'
    exact hnop' hq.2

end Takion

namespace Takion

/-- One sweep of `Forward` over a connected graph whose edges go up in rank,
readiness as in the spec: no lookup fails; the units below rank `n`, if at rest,
stay at rest; the units of rank `n` that were visited before and are at rest
stay at rest, and those visited in this sweep are at rest after it; and a sweep
over units at rest changes nothing. -/
theorem forwardSweep_quiet (fd : UnitId → ComputableUnit → List Int)
    (bd : UnitId → ComputableUnit → UnitId → List Int) (cycle : Nat) {um₀ : UnitManager}
    (hcon : ForwardConnected um₀) (rank : UnitId → Nat)
    (hrank : ∀ p c, c ∈ outputVector um₀ p → rank p < rank c) (n : Nat) :
    ∀ (ks : List UnitId), (∀ k ∈ ks, k ∈ keys um₀.m_unitMap) →
      ∀ (done : List UnitId) (s : Run × Bool), SameShape um₀ s.1.um →
        (∀ k, rank k < n → k ∈ keys um₀.m_unitMap → ForwardQuiet s.1.um k) →
        (∀ k ∈ done, rank k = n → ForwardQuiet s.1.um k) →
        ∃ s', sweep (forwardVisit (specOps fd bd) cycle) ks s = .ok s' ∧
          SameShape um₀ s'.1.um ∧
          (∀ k, rank k < n → k ∈ keys um₀.m_unitMap → ForwardQuiet s'.1.um k) ∧
          (∀ k, (k ∈ done ∨ k ∈ ks) → rank k = n → ForwardQuiet s'.1.um k) ∧
          ((∀ k ∈ ks, ForwardQuiet s.1.um k) → s' = s) := by
  intro ks
  induction ks with
  | nil =>
    intro _ done s hs hlow hdone
    refine ⟨s, rfl, hs, hlow, ?_, fun _ => rfl⟩
    intro k hk hr
    rcases hk with hk | hk
    · exact hdone k hk hr
    · exact absurd hk (List.not_mem_nil k)
  | cons j rest ih =>
    intro hks done s hs hlow hdone
    have hj : j ∈ keys um₀.m_unitMap := hks j (List.mem_cons_self _ _)
    have hself : j ∉ outputVector um₀ j := fun h => Nat.lt_irrefl _ (hrank j j h)
    obtain ⟨s₁, hv, hs₁, hqj, hkeep, hnop⟩ :=
      forwardVisit_quiet fd bd cycle hcon j hj hself s hs
    have hlow₁ : ∀ k, rank k < n → k ∈ keys um₀.m_unitMap → ForwardQuiet s₁.1.um k := by
      intro k hk hkey
      by_cases hjn : rank j < n
      · rw [hnop (hlow j hjn hj)]; exact hlow k hk hkey
      · have hne : k ≠ j := fun h => hjn (h ▸ hk)
        have hnot : k ∉ outputVector um₀ j := fun h => by
          have := hrank j k h
          omega
        exact hkeep k hne hnot (hlow k hk hkey)
    have hdone₁ : ∀ k ∈ j :: done, rank k = n → ForwardQuiet s₁.1.um k := by
      intro k hk hr
      by_cases hkj : k = j
      · rw [hkj]; exact hqj
      · have hkd : k ∈ done := by
          rcases List.mem_cons.1 hk with h | h
          · exact absurd h hkj
          · exact h
        by_cases hjn : rank j < n
        · rw [hnop (hlow j hjn hj)]; exact hdone k hkd hr
        · have hnot : k ∉ outputVector um₀ j := fun h => by
            have := hrank j k h
            omega
          exact hkeep k hkj hnot (hdone k hkd hr)
    obtain ⟨s', hsw, hs', hlow', hdone', hnop'⟩ :=
      ih (fun k hk => hks k (List.mem_cons_of_mem _ hk)) (j :: done) s₁ hs₁ hlow₁ hdone₁
    refine ⟨s', by simp only [sweep, hv, hsw], hs', hlow', ?_, ?_⟩
    · intro k hk hr
      apply hdone' k _ hr
      rcases hk with hk | hk
      · exact Or.inl (List.mem_cons_of_mem _ hk)
      · rcases List.mem_cons.1 hk with h | h
        · exact Or.inl (h ▸ List.mem_cons_self _ _)
        · exact Or.inr h
    · intro hall
      have h₁ : s₁ = s := hnop (hall j (List.mem_cons_self _ _))
      subst h₁
      exact hnop' (fun k hk => hall k (List.mem_cons_of_mem _ hk))

/-- The sweeps of `Forward` over a connected graph whose edges go up in rank,
readiness as in the spec: when the units below rank `n` are at rest and every
rank is below `n + m`, the loop ends within `m + 1` sweeps. -/
theorem forwardLoop_quiet (fd : UnitId → ComputableUnit → List Int)
    (bd : UnitId → ComputableUnit → UnitId → List Int) (cycle : Nat) {um₀ : UnitManager}
    (hcon : ForwardConnected um₀) (rank : UnitId → Nat)
    (hrank : ∀ p c, c ∈ outputVector um₀ p → rank p < rank c) :
    ∀ (m n : Nat) (r : Run), (∀ k ∈ keys um₀.m_unitMap, rank k < n + m) →
      SameShape um₀ r.um →
      (∀ k, rank k < n → k ∈ keys um₀.m_unitMap → ForwardQuiet r.um k) →
      ∃ r', sweepLoop (forwardVisit (specOps fd bd) cycle) (m + 1) r = .returned r' := by
  intro m
  induction m with
  | zero =>
    intro n r hbound hs hlow
    obtain ⟨s', hsw, -, -, -, hnop⟩ :=
      forwardSweep_quiet fd bd cycle hcon rank hrank n (keys um₀.m_unitMap) (fun _ h => h) []
        (r, true) hs hlow (fun k hk => absurd hk (List.not_mem_nil k))
    have hall : ∀ k ∈ keys um₀.m_unitMap, ForwardQuiet r.um k :=
      fun k hk => hlow k (by simpa using hbound k hk) hk
    rw [hnop hall] at hsw
    refine ⟨r, ?_⟩
    simp only [sweepLoop, hs.keys_eq, hsw]
  | succ m ih =>
    intro n r hbound hs hlow
    obtain ⟨s', hsw, hs', hlow', hdone', -⟩ :=
      forwardSweep_quiet fd bd cycle hcon rank hrank n (keys um₀.m_unitMap) (fun _ h => h) []
        (r, true) hs hlow (fun k hk => absurd hk (List.not_mem_nil k))
    obtain ⟨r₁, b⟩ := s'
    cases b with
    | true =>
      refine ⟨r₁, ?_⟩
      simp only [sweepLoop, hs.keys_eq, hsw]
    | false =>
      obtain ⟨r', hloop⟩ := ih (n + 1) r₁ (fun k hk => by have := hbound k hk; omega) hs'
        (fun k hk hkey => by
          by_cases hlt : rank k < n
          · exact hlow' k hlt hkey
          · exact hdone' k (Or.inr hkey) (by omega))
      refine ⟨r', ?_⟩
      rw [sweepLoop]
      simp only [hs.keys_eq, hsw]
      exact hloop

end Takion

namespace Takion

/-- A visit of `Forward`, readiness as in the spec, to a unit that holds no
forward input slot: the unit is found ready, and `done` is reset. -/
theorem forwardVisit_inputless (fd : UnitId → ComputableUnit → List Int)
    (bd : UnitId → ComputableUnit → UnitId → List Int) (cycle : Nat) {um₀ : UnitManager}
    (key : UnitId) (hin : forwardSources um₀ key = []) (s s' : Run × Bool)
    (hs : SameShape um₀ s.1.um)
    (hv : forwardVisit (specOps fd bd) cycle key s = .ok s') : s'.2 = false := by
  unfold forwardVisit at hv
  cases hunit : at? s.1.um.m_unitMap key with
  | none => rw [hunit] at hv; simp at hv
  | some unit =>
    rw [hunit] at hv
    simp only at hv
    have hkeys : keys unit.ForwardInputMap = [] := by
      rw [← forwardSources_eq_of_at? _ key unit hunit, forwardSources_of_sameShape hs, hin]
    have hnil : unit.ForwardInputMap = [] := by
      cases hm : unit.ForwardInputMap with
      | nil => rfl
      | cons e rest => rw [hm] at hkeys; simp [keys] at hkeys
    have hr : (specOps fd bd).IsForwardReady key unit cycle = true := by
      show allOneAhead unit.ForwardStateCount unit.ForwardInputMap = true
      rw [hnil]; rfl
    rw [forwardComputePhase_eq, if_pos hr] at hv
    unfold forwardCopyPhase at hv
    simp only at hv
    split at hv
    · simp at hv
    · simp only [Except.ok.injEq] at hv
      rw [← hv]
    · split at hv
      · simp at hv
      · simp only [Except.ok.injEq] at hv
        rw [← hv]

/-- In a graph whose lookups succeed and that has a unit without a forward
input slot, the loop of `Forward`, readiness as in the spec, is still running
after any number of sweeps. -/
theorem forwardLoop_running_of_inputless (fd : UnitId → ComputableUnit → List Int)
    (bd : UnitId → ComputableUnit → UnitId → List Int) (cycle : Nat) {um₀ : UnitManager}
    (hcl : ForwardClosed um₀) {k : UnitId} (hk : k ∈ keys um₀.m_unitMap)
    (hin : forwardSources um₀ k = []) :
    ∀ (fuel : Nat) (r : Run), SameShape um₀ r.um →
      ∃ r', sweepLoop (forwardVisit (specOps fd bd) cycle) fuel r = .running r' := by
  have hsweep : ∀ l : List UnitId, (∀ k' ∈ l, k' ∈ keys um₀.m_unitMap) →
      ∀ s : Run × Bool, SameShape um₀ s.1.um →
        ∃ s', sweep (forwardVisit (specOps fd bd) cycle) l s = .ok s' ∧
          SameShape um₀ s'.1.um ∧ (s.2 = false → s'.2 = false) ∧ (k ∈ l → s'.2 = false) := by
    intro l
    induction l with
    | nil =>
      intro _ s hs
      exact ⟨s, rfl, hs, fun h => h, fun h => absurd h (List.not_mem_nil k)⟩
    | cons j rest ih =>
      intro hl s hs
      obtain ⟨s₁, hv, hs₁, hflag₁, -⟩ :=
        forwardVisit_closed (specOps fd bd) cycle hcl (hl j (List.mem_cons_self _ _)) s hs
      obtain ⟨s', hsw, hs', hflag', hk'⟩ :=
        ih (fun k' hk' => hl k' (List.mem_cons_of_mem _ hk')) s₁ hs₁
      refine ⟨s', by simp only [sweep, hv, hsw], hs', fun h => hflag' (hflag₁ h), ?_⟩
      intro hmem
      rcases List.mem_cons.mp hmem with h | h
      · subst h
        exact hflag' (forwardVisit_inputless fd bd cycle k hin s s₁ hs hv)
      · exact hk' h
  intro fuel
  induction fuel with
  | zero => intro r _; exact ⟨r, rfl⟩
  | succ n ih =>
    intro r hr
    obtain ⟨s', hsw, hs', -, hflag⟩ := hsweep (keys r.um.m_unitMap)
      (fun k' hk' => by rw [← hr.keys_eq]; exact hk') (r, true) hr
    obtain ⟨r', b⟩ := s'
    have hb : b = false := hflag (by rw [hr.keys_eq]; exact hk)
    subst hb
    obtain ⟨r'', hloop⟩ := ih r' hs'
    refine ⟨r'', ?_⟩
    rw [sweepLoop]
    simp only [hsw]
    exact hloop

/-- The wiring conditions, checked on the entries of the two maps. -/
theorem ForwardConnected_of_check (um : UnitManager)
    (hdeclared : ∀ k ∈ keys um.m_unitMap, k ∈ keys um.m_unitMetaDataMap)
    (hcons : ∀ k ∈ keys um.m_unitMap, ∀ c ∈ outputVector um k, c ∈ keys um.m_unitMap)
    (hin : ∀ u ∈ um.m_unitMap, u.2.ForwardInputMap ≠ [])
    (hserved : ∀ k ∈ keys um.m_unitMap, ∀ e ∈ um.m_unitMetaDataMap,
      e.2.Id.Type_.BaseType ≠ UnitBaseType.Sink → at? um.m_unitMetaDataMap k = some e.2 →
      ∃ c ∈ e.2.OutputUnitVector, edgeSlots um k c ≠ []) :
    ForwardConnected um := by
  refine ⟨ForwardClosed_of_check um hdeclared hcons, ?_, ?_⟩
  · intro c cu hcu
    exact hin (c, cu) (mem_of_at?_eq_some _ c cu hcu)
  · intro k hk md hmd hns
    exact hserved k hk (k, md) (mem_of_at?_eq_some _ k md hmd) hns hmd

end Takion

namespace Takion

/-- A visit of `Forward` that leaves `done` set has found the unit not
forward-ready and not ready for a copy, and has changed nothing. -/
theorem forwardVisit_done (ops : UnitOps) (cycle : Nat) (key : UnitId) (s s' : Run × Bool)
    (h : forwardVisit ops cycle key s = .ok s') (hdone : s'.2 = true) :
    s' = s ∧
    (∃ unit, at? s.1.um.m_unitMap key = some unit ∧ ops.IsForwardReady key unit cycle = false) ∧
    m_isForwardCopyReady s.1.um key = some false := by
  unfold forwardVisit at h
  cases hunit : at? s.1.um.m_unitMap key with
  | none => rw [hunit] at h; simp at h
  | some unit =>
    rw [hunit] at h
    simp only at h
    by_cases hr : ops.IsForwardReady key unit cycle = true
    · exfalso
      simp only [forwardComputePhase, if_pos hr] at h
      unfold forwardCopyPhase at h
      simp only at h
      split at h
      · simp at h
      · simp only [Except.ok.injEq] at h
        rw [← h] at hdone; simp at hdone
      · split at h
        · simp at h
        · simp only [Except.ok.injEq] at h
          rw [← h] at hdone; simp at hdone
    · simp only [forwardComputePhase, if_neg hr] at h
      unfold forwardCopyPhase at h
      split at h
      · simp at h
      · rename_i hready
        simp only [Except.ok.injEq] at h
        exact ⟨h.symm, ⟨unit, rfl, by simpa using hr⟩, hready⟩
      · split at h
        · simp at h
        · simp only [Except.ok.injEq] at h
          rw [← h] at hdone; simp at hdone

/-- A sweep of `Forward` that ends with `done` set has found no unit
forward-ready and no unit ready for a copy, and has changed nothing. -/
theorem forwardSweep_done (ops : UnitOps) (cycle : Nat) :
    ∀ (ks : List UnitId) (s s' : Run × Bool),
      sweep (forwardVisit ops cycle) ks s = .ok s' → s'.2 = true →
      s' = s ∧ ∀ k ∈ ks,
        (∃ unit, at? s.1.um.m_unitMap k = some unit ∧ ops.IsForwardReady k unit cycle = false) ∧
        m_isForwardCopyReady s.1.um k = some false := by
  intro ks
  induction ks with
  | nil =>
    intro s s' h _
    simp only [sweep, Except.ok.injEq] at h
    exact ⟨h.symm, fun k hk => absurd hk (List.not_mem_nil k)⟩
  | cons key rest ih =>
    intro s s' h hdone
    unfold sweep at h
    cases hv : forwardVisit ops cycle key s with
    | error r => rw [hv] at h; simp at h
    | ok s₁ =>
      rw [hv] at h
      simp only at h
      obtain ⟨heq, hrest⟩ := ih s₁ s' h hdone
      subst heq
      obtain ⟨heq', hkey⟩ := forwardVisit_done ops cycle key s s' hv hdone
      subst heq'
      refine ⟨rfl, ?_⟩
      intro k hk
      rcases List.mem_cons.1 hk with rfl | hk
      · exact hkey
      · exact hrest k hk

/-- When the sweeps of `Forward` end, the last sweep has found no unit
forward-ready and no unit ready for a copy. -/
theorem forwardLoop_done (ops : UnitOps) (cycle : Nat) :
    ∀ (fuel : Nat) (r r' : Run), sweepLoop (forwardVisit ops cycle) fuel r = .returned r' →
      ∀ k ∈ keys r'.um.m_unitMap,
        (∃ unit, at? r'.um.m_unitMap k = some unit ∧
          ops.IsForwardReady k unit cycle = false) ∧
        m_isForwardCopyReady r'.um k = some false := by
  intro fuel
  induction fuel with
  | zero => intro r r' h; simp [sweepLoop] at h
  | succ fuel ih =>
    intro r r' h
    unfold sweepLoop at h
    cases hs : sweep (forwardVisit ops cycle) (keys r.um.m_unitMap) (r, true) with
    | error e => rw [hs] at h; simp at h
    | ok s' =>
      obtain ⟨r₁, b⟩ := s'
      rw [hs] at h
      cases b with
      | false => simp only at h; exact ih r₁ r' h
      | true =>
        simp only [Outcome.returned.injEq] at h
        subst h
        obtain ⟨heq, hall⟩ := forwardSweep_done ops cycle _ _ _ hs rfl
        simp only [Prod.mk.injEq, and_true] at heq
        subst heq
        exact hall

/-- The wiring of the graph is the same at every point of a run of `Forward`
in which no lookup fails. -/
theorem Forward_sameShape (ops : UnitOps) (cycle fuel : Nat) {um : UnitManager}
    (hcl : ForwardClosed um) : SameShape um (Forward ops cycle fuel um).run.um := by
  refine sweepLoop_invariant_run (forwardVisit ops cycle) (fun r => SameShape um r.um) ?_ fuel
    (forwardStart um) ⟨rfl, shape_seedForward _⟩
  intro key s hs
  by_cases hkey : key ∈ keys um.m_unitMap
  · obtain ⟨s', hv, hs', -⟩ := forwardVisit_closed ops cycle hcl hkey s hs
    rw [hv]; exact hs'
  · have hnone : at? s.1.um.m_unitMap key = none := by
      apply at?_eq_none_of_not_mem_keys
      rw [hs.keys_eq]; exact hkey
    simp only [forwardVisit, hnone]
    exact hs

/-- The edges go up in rank as soon as those out of the units with metadata
do. -/
theorem rank_of_check (um : UnitManager) (rank : UnitId → Nat)
    (h : ∀ p ∈ keys um.m_unitMetaDataMap, ∀ c ∈ outputVector um p, rank p < rank c) :
    ∀ p c, c ∈ outputVector um p → rank p < rank c :=
  fun p c hc => h p (mem_keys_of_mem_outputVector hc) c hc

/-- C22, as amended: take a compiled graph whose edges are acyclic (they go up
in a rank that stays below `depth`), in which every lookup of the sweep
succeeds, every unit has a forward input slot and every unit other than a Sink
lists a consumer that holds a forward input slot keyed by it, in any state of
its counters, and take unit readiness as in the spec.  Then the sweep loop of
`Forward(cycle)` ends within `depth + 1` sweeps, and the last sweep has found
no unit forward-ready and no unit for which `m_isForwardCopyReady` holds.  The
second part holds for every graph and every behaviour of the units: whenever
`Forward` returns, no unit is forward-ready and `m_isForwardCopyReady` is false
for every unit. -/
theorem Forward_sweeps_terminate (fd : UnitId → ComputableUnit → List Int)
    (bd : UnitId → ComputableUnit → UnitId → List Int) (cycle : Nat) (um : UnitManager)
    (rank : UnitId → Nat) (depth : Nat) (hcon : ForwardConnected um)
    (hrank : ∀ p c, c ∈ outputVector um p → rank p < rank c)
    (hdepth : ∀ k ∈ keys um.m_unitMap, rank k < depth) :
    (∃ r, Forward (specOps fd bd) cycle (depth + 1) um = .returned r ∧
      ∀ k ∈ keys r.um.m_unitMap,
        (∃ unit, at? r.um.m_unitMap k = some unit ∧
          (specOps fd bd).IsForwardReady k unit cycle = false) ∧
        m_isForwardCopyReady r.um k = some false) ∧
    (∀ (ops : UnitOps) (fuel : Nat) (um₁ : UnitManager) (r : Run),
      Forward ops cycle fuel um₁ = .returned r →
      ∀ k ∈ keys r.um.m_unitMap,
        (∃ unit, at? r.um.m_unitMap k = some unit ∧ ops.IsForwardReady k unit cycle = false) ∧
        m_isForwardCopyReady r.um k = some false) := by
  obtain ⟨r, hloop⟩ := forwardLoop_quiet fd bd cycle hcon rank hrank depth 0 (forwardStart um)
    (fun k hk => by have := hdepth k hk; omega) ⟨rfl, shape_seedForward _⟩
    (fun k hk => absurd hk (Nat.not_lt_zero _))
  exact ⟨⟨r, hloop, forwardLoop_done (specOps fd bd) cycle _ _ r hloop⟩,
    fun ops fuel um₁ r h => forwardLoop_done ops cycle fuel _ r h⟩

/-- The theorem on the chain `Constant → Dense → MSE`, ranked by the
identifiers `0`, `1`, `2`: `Forward` returns within four sweeps, and no unit is
then forward-ready or ready for a copy. -/
theorem Forward_sweeps_terminate_witness :
    ∃ r, Forward exampleOps 0 4 chainGraph = .returned r ∧
      ∀ k ∈ keys r.um.m_unitMap,
        (∃ unit, at? r.um.m_unitMap k = some unit ∧
          exampleOps.IsForwardReady k unit 0 = false) ∧
        m_isForwardCopyReady r.um k = some false :=
  (Forward_sweeps_terminate (fun _ _ => [1]) (fun _ _ _ => [2]) 0 chainGraph (fun k => k.Id) 3
    (ForwardConnected_of_check chainGraph (by decide) (by decide) (by decide) (by decide))
    (rank_of_check chainGraph _ (by decide)) (by decide)).1

/-- C22 as worded fails on the code: the compiled graph `Constant → Dense` has
two units and acyclic edges, but its `Dense` unit is not a Sink and lists no
consumer: whatever the number of sweeps, `Forward` is still sweeping, in a state
where `m_isForwardCopyReady` holds for the `Dense` unit.  And with readiness as
in the spec a unit that holds no forward input slot is ready at every visit:
on the graph of one such Sink unit `Forward` is still sweeping after any number
of sweeps. -/
theorem Forward_acyclic_never_returns :
    (Acyclic danglingGraph ∧ (keys danglingGraph.m_unitMap).length = 2 ∧
      ∀ fuel : Nat, ∃ r, Forward exampleOps 0 fuel danglingGraph = .running r ∧
        m_isForwardCopyReady r.um uDense = some true) ∧
    (Acyclic inputlessGraph ∧ (keys inputlessGraph.m_unitMap).length = 1 ∧
      ∀ fuel : Nat, ∃ r, Forward exampleOps 0 fuel inputlessGraph = .running r) := by
  have hcl : ForwardClosed danglingGraph :=
    ForwardClosed_of_check danglingGraph (by decide) (by decide)
  refine ⟨⟨Acyclic_of_check _ (fun k => k.Id) (by decide), by decide, ?_⟩,
    ⟨Acyclic_of_check _ (fun k => k.Id) (by decide), by decide, ?_⟩⟩
  · intro fuel
    obtain ⟨r, hr⟩ := Forward_running_of_dangling exampleOps 0 fuel hcl
      (show Dangling danglingGraph uDense from ⟨by decide, _, rfl, by decide, rfl⟩)
    have hshape := Forward_sameShape exampleOps 0 fuel hcl
    rw [hr] at hshape
    simp only [Outcome.run] at hshape
    refine ⟨r, hr, ?_⟩
    have hkey : uDense ∈ keys r.um.m_unitMap := by rw [hshape.keys_eq]; decide
    obtain ⟨unit, hunit⟩ := (mem_keys_iff_at? _ _).mp hkey
    exact m_isForwardCopyReady_of_dangling r.um uDense
      { Id := uDense, OutputUnitVector := [] } unit (by rw [hshape.1]; decide) hunit
      (by decide) rfl
  · intro fuel
    exact forwardLoop_running_of_inputless (fun _ _ => [1]) (fun _ _ _ => [2]) 0
      (ForwardClosed_of_check inputlessGraph (by decide) (by decide))
      (show uLoss ∈ keys inputlessGraph.m_unitMap by decide) (by decide) fuel
      (forwardStart inputlessGraph) ⟨rfl, shape_seedForward _⟩

end Takion

namespace CubbyDNN

/-! ## The counter of `Sync` -/

theorem Sync.notified_eq (n : Int) (hn : 0 ≤ n) (k : Nat) :
    (Sync.make n).notified k
      = { m_resetVal := n, m_counter := max (n - k) 0, m_forceFinish := false } := by
  induction k with
  | zero => simp [Sync.notified, Sync.make, hn]
  | succ k ih =>
    rw [Sync.notified, ih]
    unfold Sync.NotifyFinish
    by_cases h : (k : Int) < n
    · have h1 : max (n - (k : Int)) 0 = n - k := max_eq_left (by omega)
      have h2 : max (n - ((k + 1 : Nat) : Int)) 0 = n - (k + 1 : Nat) :=
        max_eq_left (by push_cast; omega)
      simp only [h1, h2]
      rw [if_pos (by omega)]
      congr 1
      push_cast
      omega
    · have h1 : max (n - (k : Int)) 0 = 0 := max_eq_right (by omega)
      have h2 : max (n - ((k + 1 : Nat) : Int)) 0 = 0 := max_eq_right (by push_cast; omega)
      simp only [h1, h2]
      rw [if_neg (by omega)]

/-- Claim C36: a `Sync` constructed with `waitFor = n ≥ 0` has, after `k` calls
of `NotifyFinish` and no call of `ResetCounter` or `ForceFinish` in between, the
counter `max (n - k) 0`; the counter is `0`, and the condition
`WaitUntilAllFinish` waits for holds, exactly when `k ≥ n`; `NotifyFinish` never
makes a counter negative; and `ResetCounter` sets the counter back to `n`. -/
theorem Sync_counter_after_notifications (n : Int) (hn : 0 ≤ n) (k : Nat) :
    ((Sync.make n).notified k).m_counter = max (n - k) 0 ∧
    (((Sync.make n).notified k).m_counter = 0 ↔ n ≤ k) ∧
    (((Sync.make n).notified k).WaitUntilAllFinish = true ↔ n ≤ k) ∧
    0 ≤ ((Sync.make n).notified k).m_counter ∧
    (∀ s : Sync, 0 ≤ s.m_counter → 0 ≤ s.NotifyFinish.m_counter) ∧
    ((Sync.make n).notified k).ResetCounter.m_counter = n := by
  rw [Sync.notified_eq n hn k]
  refine ⟨rfl, ?_, ?_, le_max_right _ _, ?_, rfl⟩
  · show max (n - (k : Int)) 0 = 0 ↔ n ≤ k
    constructor
    · intro h
      have := le_max_left (n - (k : Int)) 0
      omega
    · intro h
      exact max_eq_right (by omega)
  · show ((max (n - (k : Int)) 0 == 0) || false) = true ↔ n ≤ k
    simp only [Bool.or_false, beq_iff_eq]
    constructor
    · intro h
      have := le_max_left (n - (k : Int)) 0
      omega
    · intro h
      exact max_eq_right (by omega)
  · intro s hs
    unfold Sync.NotifyFinish
    by_cases h : s.m_counter > 0
    · rw [if_pos h]
      show 0 ≤ s.m_counter - 1
      omega
    · rw [if_neg h]
      exact hs

/-- Witness for C36: three units to wait for, five notifications. -/
theorem Sync_counter_after_notifications_witness :
    (0 : Int) ≤ 3 ∧ ((Sync.make 3).notified 5).m_counter = 0 ∧
    ((Sync.make 3).notified 2).m_counter = 1 :=
  ⟨by decide, by
    have h := (Sync_counter_after_notifications 3 (by decide) 5).1
    rw [h]; decide,
   by
    have h := (Sync_counter_after_notifications 3 (by decide) 2).1
    rw [h]; decide⟩

end CubbyDNN

namespace Takion

/-! ## The outcomes of `Compile` -/

/-- The entry of a unit is handled without a raise exactly when its type name is
one of the five created kinds and, for `Dense`, the optimizer is `SGD`. -/
theorem compileEntry_returns_iff (factory : UnitFactory) (optimizerName : String)
    (md : UnitMetaData) (unitMap : List (UnitId × ComputableUnit)) :
    (∃ unitMap', compileEntry factory optimizerName md unitMap = .ok unitMap') ↔
      md.Id.Type_.Name ∈ ["Dense", "ReLU", "Sigmoid", "MSE", "Constant"] ∧
      (md.Id.Type_.Name = "Dense" → optimizerName = "SGD") := by
  unfold compileEntry m_makeOptimizer
  generalize md.Id.Type_.Name = name
  simp only
  by_cases h1 : name = "DataLoader"
  · subst h1
    rw [if_pos rfl]
    simp
  rw [if_neg h1]
  by_cases h2 : name = "Dense"
  · subst h2
    rw [if_pos rfl]
    by_cases ho : optimizerName = "SGD" <;> simp [ho]
  rw [if_neg h2]
  by_cases h3 : name = "Dropout"
  · subst h3
    rw [if_pos rfl]
    simp
  rw [if_neg h3]
  by_cases h4 : name = "ReLU"
  · subst h4
    rw [if_pos rfl]
    simp
  rw [if_neg h4]
  by_cases h5 : name = "Sigmoid"
  · subst h5
    rw [if_pos rfl]
    simp
  rw [if_neg h5]
  by_cases h6 : name = "Reshape"
  · subst h6
    rw [if_pos rfl]
    simp
  rw [if_neg h6]
  by_cases h7 : name = "MSE"
  · subst h7
    rw [if_pos rfl]
    simp
  rw [if_neg h7]
  by_cases h8 : name = "Constant"
  · subst h8
    rw [if_pos rfl]
    simp
  rw [if_neg h8]
  by_cases h9 : name = "Multiply"
  · subst h9
    rw [if_pos rfl]
    simp
  rw [if_neg h9]
  by_cases h10 : name = "Add"
  · subst h10
    rw [if_pos rfl]
    simp
  rw [if_neg h10]
  simp [h1, h2, h3, h4, h5, h6, h7, h8, h9, h10]

theorem compileEntry_not_implemented (factory : UnitFactory) (optimizerName : String)
    (md : UnitMetaData) (unitMap : List (UnitId × ComputableUnit))
    (h : compileEntry factory optimizerName md unitMap = .error CompileError.NotImplemented) :
    md.Id.Type_.Name ∈ ["DataLoader", "Dropout", "Reshape", "Multiply", "Add"] := by
  unfold compileEntry m_makeOptimizer at h
  revert h
  generalize md.Id.Type_.Name = name
  simp only
  by_cases h1 : name = "DataLoader"
  · subst h1
    rw [if_pos rfl]
    simp
  rw [if_neg h1]
  by_cases h2 : name = "Dense"
  · subst h2
    rw [if_pos rfl]
    by_cases ho : optimizerName = "SGD" <;> simp [ho]
  rw [if_neg h2]
  by_cases h3 : name = "Dropout"
  · subst h3
    rw [if_pos rfl]
    simp
  rw [if_neg h3]
  by_cases h4 : name = "ReLU"
  · subst h4
    rw [if_pos rfl]
    simp
  rw [if_neg h4]
  by_cases h5 : name = "Sigmoid"
  · subst h5
    rw [if_pos rfl]
    simp
  rw [if_neg h5]
  by_cases h6 : name = "Reshape"
  · subst h6
    rw [if_pos rfl]
    simp
  rw [if_neg h6]
  by_cases h7 : name = "MSE"
  · subst h7
    rw [if_pos rfl]
    simp
  rw [if_neg h7]
  by_cases h8 : name = "Constant"
  · subst h8
    rw [if_pos rfl]
    simp
  rw [if_neg h8]
  by_cases h9 : name = "Multiply"
  · subst h9
    rw [if_pos rfl]
    simp
  rw [if_neg h9]
  by_cases h10 : name = "Add"
  · subst h10
    rw [if_pos rfl]
    simp
  rw [if_neg h10]
  simp

theorem compileEntry_no_matching (factory : UnitFactory) (optimizerName : String)
    (md : UnitMetaData) (unitMap : List (UnitId × ComputableUnit))
    (h : compileEntry factory optimizerName md unitMap
      = .error CompileError.NoMatchingUnitType) :
    md.Id.Type_.Name ∉ ["DataLoader", "Dense", "Dropout", "ReLU", "Sigmoid", "Reshape", "MSE",
      "Constant", "Multiply", "Add"] := by
  unfold compileEntry m_makeOptimizer at h
  revert h
  generalize md.Id.Type_.Name = name
  simp only
  by_cases h1 : name = "DataLoader"
  · subst h1
    rw [if_pos rfl]
    simp
  rw [if_neg h1]
  by_cases h2 : name = "Dense"
  · subst h2
    rw [if_pos rfl]
    by_cases ho : optimizerName = "SGD" <;> simp [ho]
  rw [if_neg h2]
  by_cases h3 : name = "Dropout"
  · subst h3
    rw [if_pos rfl]
    simp
  rw [if_neg h3]
  by_cases h4 : name = "ReLU"
  · subst h4
    rw [if_pos rfl]
    simp
  rw [if_neg h4]
  by_cases h5 : name = "Sigmoid"
  · subst h5
    rw [if_pos rfl]
    simp
  rw [if_neg h5]
  by_cases h6 : name = "Reshape"
  · subst h6
    rw [if_pos rfl]
    simp
  rw [if_neg h6]
  by_cases h7 : name = "MSE"
  · subst h7
    rw [if_pos rfl]
    simp
  rw [if_neg h7]
  by_cases h8 : name = "Constant"
  · subst h8
    rw [if_pos rfl]
    simp
  rw [if_neg h8]
  by_cases h9 : name = "Multiply"
  · subst h9
    rw [if_pos rfl]
    simp
  rw [if_neg h9]
  by_cases h10 : name = "Add"
  · subst h10
    rw [if_pos rfl]
    simp
  rw [if_neg h10]
  simp [h1, h2, h3, h4, h5, h6, h7, h8, h9, h10]

theorem compileLoop_returns_iff (factory : UnitFactory) (optimizerName : String) :
    ∀ (entries : List (UnitId × UnitMetaData)) (unitMap : List (UnitId × ComputableUnit)),
      (compileLoop factory optimizerName entries unitMap).2 = none ↔
        ∀ e ∈ entries, e.2.Id.Type_.Name ∈ ["Dense", "ReLU", "Sigmoid", "MSE", "Constant"] ∧
          (e.2.Id.Type_.Name = "Dense" → optimizerName = "SGD") := by
  intro entries
  induction entries with
  | nil => intro unitMap; simp [compileLoop]
  | cons e rest ih =>
    obtain ⟨k, md⟩ := e
    intro unitMap
    have hentry := compileEntry_returns_iff factory optimizerName md unitMap
    cases hc : compileEntry factory optimizerName md unitMap with
    | error err =>
      rw [hc] at hentry
      simp only [compileLoop, hc]
      constructor
      · intro h; cases h
      · intro h
        have := hentry.2 (h (k, md) (List.mem_cons_self _ _))
        obtain ⟨m', hm'⟩ := this
        cases hm'
    | ok unitMap' =>
      rw [hc] at hentry
      simp only [compileLoop, hc]
      rw [ih unitMap']
      constructor
      · intro h e he
        rcases List.mem_cons.1 he with rfl | he
        · exact hentry.1 ⟨_, rfl⟩
        · exact h e he
      · intro h e he
        exact h e (List.mem_cons_of_mem _ he)

/-- Claim C35: construction of the units succeeding, `Compile` returns normally
exactly when the type name of every declared unit is one of `Dense`, `ReLU`,
`Sigmoid`, `MSE`, `Constant` and either no declared unit is `Dense` or the
optimizer name is `SGD`; when it raises "Not implemented", the unit it stopped
at is a `DataLoader`, `Dropout`, `Reshape`, `Multiply` or `Add`, and when it
raises "No matching unit type", the name of that unit is none of the ten. -/
theorem Compile_returns_iff (factory : UnitFactory) (optimizerName : String)
    (um : UnitManager) :
    ((Compile factory optimizerName um).2 = none ↔
      (∀ e ∈ um.m_unitMetaDataMap,
          e.2.Id.Type_.Name ∈ ["Dense", "ReLU", "Sigmoid", "MSE", "Constant"]) ∧
        ((∀ e ∈ um.m_unitMetaDataMap, e.2.Id.Type_.Name ≠ "Dense") ∨
          optimizerName = "SGD")) ∧
    ((Compile factory optimizerName um).2 = some CompileError.NotImplemented →
      ∃ pre bad post, um.m_unitMetaDataMap = pre ++ bad :: post ∧
        (∀ e ∈ pre, (createdUnit factory e.2).isSome) ∧
        bad.2.Id.Type_.Name ∈ ["DataLoader", "Dropout", "Reshape", "Multiply", "Add"]) ∧
    ((Compile factory optimizerName um).2 = some CompileError.NoMatchingUnitType →
      ∃ pre bad post, um.m_unitMetaDataMap = pre ++ bad :: post ∧
        (∀ e ∈ pre, (createdUnit factory e.2).isSome) ∧
        bad.2.Id.Type_.Name ∉ ["DataLoader", "Dense", "Dropout", "ReLU", "Sigmoid", "Reshape",
          "MSE", "Constant", "Multiply", "Add"]) := by
  refine ⟨?_, ?_, ?_⟩
  · show (compileLoop factory optimizerName um.m_unitMetaDataMap um.m_unitMap).2 = none ↔ _
    rw [compileLoop_returns_iff]
    constructor
    · intro h
      refine ⟨fun e he => (h e he).1, ?_⟩
      by_cases hd : ∃ e ∈ um.m_unitMetaDataMap, e.2.Id.Type_.Name = "Dense"
      · obtain ⟨e, he, hname⟩ := hd
        exact Or.inr ((h e he).2 hname)
      · left
        intro e he hname
        exact hd ⟨e, he, hname⟩
    · rintro ⟨hall, hor⟩ e he
      refine ⟨hall e he, fun hname => ?_⟩
      rcases hor with hno | hsgd
      · exact absurd hname (hno e he)
      · exact hsgd
  · intro h
    have h' : compileLoop factory optimizerName um.m_unitMetaDataMap um.m_unitMap
        = ((compileLoop factory optimizerName um.m_unitMetaDataMap um.m_unitMap).1,
            some CompileError.NotImplemented) := Prod.ext rfl h
    obtain ⟨pre, bad, post, hsplit, hpre, hbad, -⟩ := compileLoop_error _ _ _ _ _ _ h'
    exact ⟨pre, bad, post, hsplit, hpre, compileEntry_not_implemented _ _ _ _ hbad⟩
  · intro h
    have h' : compileLoop factory optimizerName um.m_unitMetaDataMap um.m_unitMap
        = ((compileLoop factory optimizerName um.m_unitMetaDataMap um.m_unitMap).1,
            some CompileError.NoMatchingUnitType) := Prod.ext rfl h
    obtain ⟨pre, bad, post, hsplit, hpre, hbad, -⟩ := compileLoop_error _ _ _ _ _ _ h'
    exact ⟨pre, bad, post, hsplit, hpre, compileEntry_no_matching _ _ _ _ hbad⟩

end Takion

namespace CubbyDNN

/-! ## `Execute` after `Abort` -/

theorem updateUnit_active (e : Engine) (t : UnitType) (i : Nat) (f : ComputeUnit → ComputeUnit) :
    (e.updateUnit t i f).m_active = e.m_active := by
  cases t <;> rfl

theorem connectUnits_active (originType : UnitType) (originID : Nat) (destType : UnitType)
    (destID destInputIndex : Nat) (e e' : Engine)
    (h : connectUnits originType originID destType destID destInputIndex e = some e') :
    e'.m_active = e.m_active := by
  unfold connectUnits at h
  split at h
  · cases h
    simp only [updateUnit_active]
  · cases h

/-- The engine an `Except` of the connecting loops carries. -/
theorem connectToHidden_active (subjectID : Nat) :
    ∀ (units : List UnitIdentifier) (inputIdx : Nat) (e : Engine),
      (∀ e', connectToHidden subjectID units inputIdx e = .ok e' → e'.m_active = e.m_active) ∧
      (∀ e', connectToHidden subjectID units inputIdx e = .error e' →
        e'.m_active = e.m_active) := by
  intro units
  induction units with
  | nil =>
    intro inputIdx e
    constructor <;> intro e' h <;> simp [connectToHidden] at h
    rw [h]
  | cons unit rest ih =>
    intro inputIdx e
    unfold connectToHidden
    by_cases h1 : unit.Type_ = UnitType.Source
    · rw [if_pos h1]
      cases hc : m_connectSourceToHidden unit.ID subjectID inputIdx e with
      | none =>
        constructor <;> intro e' h <;> simp at h
        rw [h]
      | some e₁ =>
        have ha := connectUnits_active _ _ _ _ _ _ _ hc
        simp only
        constructor
        · intro e' h; rw [← ha]; exact (ih _ _).1 e' h
        · intro e' h; rw [← ha]; exact (ih _ _).2 e' h
    · rw [if_neg h1]
      by_cases h2 : unit.Type_ = UnitType.Hidden
      · rw [if_pos h2]
        cases hc : m_connectHiddenToHidden unit.ID subjectID inputIdx e with
        | none =>
          constructor <;> intro e' h <;> simp at h
          rw [h]
        | some e₁ =>
          have ha := connectUnits_active _ _ _ _ _ _ _ hc
          simp only
          constructor
          · intro e' h; rw [← ha]; exact (ih _ _).1 e' h
          · intro e' h; rw [← ha]; exact (ih _ _).2 e' h
      · rw [if_neg h2]
        exact ih _ _

theorem connectToSink_active (subjectID : Nat) :
    ∀ (units : List UnitIdentifier) (inputIdx : Nat) (e : Engine),
      (∀ e', connectToSink subjectID units inputIdx e = .ok e' → e'.m_active = e.m_active) ∧
      (∀ e', connectToSink subjectID units inputIdx e = .error e' →
        e'.m_active = e.m_active) := by
  intro units
  induction units with
  | nil =>
    intro inputIdx e
    constructor <;> intro e' h <;> simp [connectToSink] at h
    rw [h]
  | cons unit rest ih =>
    intro inputIdx e
    unfold connectToSink
    by_cases h2 : unit.Type_ = UnitType.Hidden
    · rw [if_pos h2]
      cases hc : m_connectHiddenToSink unit.ID subjectID inputIdx e with
      | none =>
        constructor <;> intro e' h <;> simp at h
        rw [h]
      | some e₁ =>
        have ha := connectUnits_active _ _ _ _ _ _ _ hc
        simp only
        constructor
        · intro e' h; rw [← ha]; exact (ih _ _).1 e' h
        · intro e' h; rw [← ha]; exact (ih _ _).2 e' h
    · rw [if_neg h2]
      exact ih _ _

theorem connectAndReturn_active (previousUnitVector : List UnitIdentifier)
    (unitIdentifier : UnitIdentifier) (e : Engine) :
    (connectAndReturn previousUnitVector unitIdentifier e).engine.m_active = e.m_active := by
  unfold connectAndReturn m_connectWithPreviousUnit
  by_cases h1 : unitIdentifier.Type_ = UnitType.Hidden
  · rw [if_pos h1]
    cases hc : connectToHidden unitIdentifier.ID previousUnitVector 0 e with
    | ok e' => exact (connectToHidden_active _ _ _ _).1 e' hc
    | error e' => exact (connectToHidden_active _ _ _ _).2 e' hc
  · rw [if_neg h1]
    by_cases h2 : unitIdentifier.Type_ = UnitType.Sink
    · rw [if_pos h2]
      cases hc : connectToSink unitIdentifier.ID previousUnitVector 0 e with
      | ok e' => exact (connectToSink_active _ _ _ _).1 e' hc
      | error e' => exact (connectToSink_active _ _ _ _).2 e' hc
    · rw [if_neg h2]
      rfl

/-- No call of the builder writes `m_active`. -/
theorem Engine.call_active (e : Engine) (c : BuilderCall) :
    (e.call c).engine.m_active = e.m_active := by
  cases c with
  | Source info n => rfl
  | Constant info n => rfl
  | Hidden P info n =>
    show (e.Hidden P info n).engine.m_active = e.m_active
    unfold Engine.Hidden
    cases collectInputInfo e P with
    | none => rfl
    | some infos => exact connectAndReturn_active _ _ _
  | Multiply unitA unitB n =>
    show (e.Multiply unitA unitB n).engine.m_active = e.m_active
    unfold Engine.Multiply
    simp only
    split
    · split_ifs
      · rfl
      · rfl
      · exact connectAndReturn_active _ _ _
    · rfl
  | Sink P infos => exact connectAndReturn_active _ _ _
  | OutputTest p =>
    show (e.OutputTest p).engine.m_active = e.m_active
    unfold Engine.OutputTest
    simp only
    split
    · rfl
    · exact connectAndReturn_active _ _ _

/-- With `m_active` false the loop of `Execute` is left at its first test. -/
theorem Execute_inactive (beh : UnitBehaviour) (fuel : Nat) (e : Engine) (epochs : Nat)
    (h : e.m_active = false) :
    Engine.Execute beh (fuel + 1) e epochs
      = some { engine := { e with m_maxEpochs := epochs }, isFinished := false,
               computed := [] } := by
  unfold Engine.Execute executeLoop
  simp [h]

/-- A step of a thread leaves `m_active` false. -/
theorem ParState.step_inactive (cfg : Config) (s : ParState) (a : Actor)
    (h : s.engine.m_active = false) : (s.step cfg a).engine.m_active = false := by
  cases a with
  | main =>
    show (s.mainStep cfg).engine.m_active = false
    unfold ParState.mainStep
    split
    · split_ifs <;> exact h
    · split_ifs <;> exact h
    · split
      · exact h
      · split_ifs <;> exact h
    · split <;> exact h
    · split_ifs <;> exact h
    · split_ifs
      · split <;> exact h
      · exact h
    · split_ifs
      · split <;> exact h
      · exact h
    · split
      · rfl
      · split_ifs <;> exact h
    · exact h
  | worker index =>
    show (s.workerStep index).engine.m_active = false
    unfold ParState.workerStep
    split
    · exact h
    · split <;> exact h
    · exact h
    · exact h
    · dsimp only
      split
      · rw [ReleaseUnit_active]; exact h
      · exact h
    · exact h

/-- No operation of the engine sets `m_active` back to `true`. -/
theorem Engine.perform_inactive (e : Engine) (c : EngineCall) (h : e.m_active = false) :
    (e.perform c).m_active = false := by
  cases c with
  | build c => exact (Engine.call_active e c).trans h
  | Execute beh fuel epochs =>
    cases fuel with
    | zero => exact h
    | succ fuel =>
      show (match Engine.Execute beh (fuel + 1) e epochs with
        | some s => s.engine
        | none => e).m_active = false
      rw [Execute_inactive beh fuel e epochs h]
      exact h
  | ExecuteParallel cfg queue pool schedule =>
    exact ParState.run_induction cfg (fun s => s.engine.m_active = false)
      (fun s a hs => ParState.step_inactive cfg s a hs) schedule _ h
  | Abort cfg queue pool count schedule =>
    exact ParState.run_induction cfg (fun s => s.engine.m_active = false)
      (fun s a hs => ParState.step_inactive cfg s a hs) schedule _ h

theorem Engine.performAll_inactive (calls : List EngineCall) :
    ∀ e : Engine, e.m_active = false → (e.performAll calls).m_active = false := by
  induction calls with
  | nil => intro e h; exact h
  | cons c rest ih =>
    intro e h
    exact ih (e.perform c) (Engine.perform_inactive e c h)

/-- Claim C38: once `Abort()` has returned, whatever operations of the engine
follow (calls of the builder, of `Execute`, of `ExecuteParallel`, of `Abort`),
`m_active` is still `false`, and a later `Execute(epochs)` returns at the first
test of its loop: no unit has been computed or released and every `StateNum`
is what it was. -/
theorem Execute_after_Abort_computes_nothing (cfg : Config) (e : Engine)
    (queue : SpinLockQueue TaskWrapper) (pool : List Thread) (count : Nat → Nat)
    (schedule : List Actor)
    (hret : ((Abort e queue pool count).run cfg schedule).main = Main.returned)
    (calls : List EngineCall) (beh : UnitBehaviour) (fuel epochs : Nat) :
    (((Abort e queue pool count).run cfg schedule).engine.performAll calls).m_active = false ∧
    ∃ s, Engine.Execute beh (fuel + 1)
        (((Abort e queue pool count).run cfg schedule).engine.performAll calls) epochs = some s ∧
      s.computed = [] ∧
      s.engine = { ((Abort e queue pool count).run cfg schedule).engine.performAll calls with
        m_maxEpochs := epochs } ∧
      s.engine.m_active = false ∧
      ∀ id, s.engine.stateNum id
        = (((Abort e queue pool count).run cfg schedule).engine.performAll calls).stateNum id := by
  have ha : AbortInv pool.length ((Abort e queue pool count).run cfg schedule) :=
    ParState.run_induction cfg (AbortInv pool.length)
      (fun s a => AbortInv.abort_step cfg pool.length s a) schedule _
      ⟨rfl, Or.inl ⟨0, rfl⟩, by simp [Abort], by simp [Abort]⟩
  have h0 := (ha.all_joined hret).1
  have h1 := Engine.performAll_inactive calls _ h0
  refine ⟨h1, _, Execute_inactive beh fuel _ epochs h1, rfl, rfl, h1, ?_⟩
  intro id
  exact stateNum_maxEpochs _ epochs id

/-- Witness for C38: `Abort` with two workers waiting for a task, run to its
end, then a `Hidden` unit added and `ExecuteParallel` entered: `Execute(1)`
computes nothing. -/
theorem Execute_after_Abort_computes_nothing_witness :
    ((Abort engineS m_taskQueue examplePool (fun _ => 0)).run exampleConfig exampleAbort).main =
      Main.returned ∧
    ∃ s, Engine.Execute specBehaviour 1
        (((Abort engineS m_taskQueue examplePool (fun _ => 0)).run exampleConfig
          exampleAbort).engine.performAll
          [EngineCall.build (BuilderCall.Hidden [{ Type_ := .Source, ID := 0 }] info23 1),
           EngineCall.ExecuteParallel exampleConfig m_taskQueue [] [Actor.main, Actor.main]])
        1 = some s ∧ s.computed = [] :=
  ⟨by decide,
   let h := (Execute_after_Abort_computes_nothing exampleConfig engineS m_taskQueue examplePool
      (fun _ => 0) exampleAbort (by decide)
      [EngineCall.build (BuilderCall.Hidden [{ Type_ := .Source, ID := 0 }] info23 1),
       EngineCall.ExecuteParallel exampleConfig m_taskQueue [] [Actor.main, Actor.main]]
      specBehaviour 0 1).2
   ⟨h.choose, h.choose_spec.1, h.choose_spec.2.1⟩⟩

end CubbyDNN

namespace Takion

/-! ## The backward copy of a ready unit -/

theorem backwardCopyLoop_ne_none (u : UnitId) (bom : List (UnitId × Tensor)) :
    ∀ unitMap : List (UnitId × ComputableUnit), (∀ e ∈ bom, e.1 ∈ keys unitMap) →
      backwardCopyLoop u bom unitMap ≠ none := by
  induction bom with
  | nil => intro unitMap _; simp [backwardCopyLoop]
  | cons e rest ih =>
    obtain ⟨t, out⟩ := e
    intro unitMap h
    obtain ⟨cc, hcc⟩ := (mem_keys_iff_at? unitMap t).mp (h (t, out) (List.mem_cons_self _ _))
    simp only [backwardCopyLoop, hcc]
    apply ih
    intro e he
    rw [keys_setAt]
    exact h e (List.mem_cons_of_mem _ he)

theorem mem_copyIntoSlots (u : UnitId) (src : Tensor) (m : List (UnitId × Tensor))
    (d : UnitId × Tensor) (h : d ∈ copyIntoSlots u src m) :
    ∃ d₀ ∈ m, d.1 = d₀.1 ∧
      d.2 = if d₀.1 = u then { Data := src.Data, State := d₀.2.State + 1 } else d₀.2 := by
  induction m with
  | nil => simp [copyIntoSlots] at h
  | cons e rest ih =>
    obtain ⟨k, t⟩ := e
    unfold copyIntoSlots at h
    by_cases hk : k = u
    · rw [if_pos hk] at h
      rcases List.mem_cons.1 h with rfl | h
      · exact ⟨(k, t), List.mem_cons_self _ _, rfl, by simp [hk, copyAndBump]⟩
      · obtain ⟨d₀, hd₀, h1, h2⟩ := ih h
        exact ⟨d₀, List.mem_cons_of_mem _ hd₀, h1, h2⟩
    · rw [if_neg hk] at h
      rcases List.mem_cons.1 h with rfl | h
      · exact ⟨(k, t), List.mem_cons_self _ _, rfl, by simp [hk]⟩
      · obtain ⟨d₀, hd₀, h1, h2⟩ := ih h
        exact ⟨d₀, List.mem_cons_of_mem _ hd₀, h1, h2⟩

/-- With every slot keyed by the subject out of step, the inner loop of the
readiness test raises no flag. -/
theorem backwardSlotsReady_stale (u : UnitId) (o : Nat) (m : List (UnitId × Tensor))
    (h : ∀ d ∈ m, d.1 = u → o ≠ d.2.State + 1) :
    backwardSlotsReady u o false m = none ∨ backwardSlotsReady u o false m = some false := by
  induction m with
  | nil => right; rfl
  | cons e rest ih =>
    obtain ⟨k, t⟩ := e
    unfold backwardSlotsReady
    by_cases hk : k = u
    · rw [if_pos hk, if_pos (h (k, t) (List.mem_cons_self _ _) hk)]
      left; rfl
    · rw [if_neg hk]
      exact ih (fun d hd => h d (List.mem_cons_of_mem _ hd))

theorem isBackwardCopyReadyLoop_stale (unitMap : List (UnitId × ComputableUnit)) (u : UnitId)
    (bom : List (UnitId × Tensor))
    (h : ∀ e ∈ bom, ∃ target, at? unitMap e.1 = some target ∧
      ∀ d ∈ target.BackwardInputMap, d.1 = u → e.2.State ≠ d.2.State + 1) :
    isBackwardCopyReadyLoop unitMap u false bom = some false := by
  induction bom with
  | nil => rfl
  | cons e rest ih =>
    obtain ⟨t, out⟩ := e
    obtain ⟨target, htarget, hstale⟩ := h (t, out) (List.mem_cons_self _ _)
    unfold isBackwardCopyReadyLoop
    simp only [htarget]
    rcases backwardSlotsReady_stale u out.State target.BackwardInputMap hstale with h1 | h1
    · rw [h1]
    · rw [h1]
      exact ih (fun e he => h e (List.mem_cons_of_mem _ he))

/-- Claim C33: whenever `m_isBackwardCopyReady(u)` holds, `m_backwardCopy(u)`
returns; in every unit `d` of the `BackwardOutputMap` of `u`, each
`BackwardInputMap` entry keyed by `u` has its version raised by exactly `1` and
holds the data of the backward output slot of `u` for `d`; no other backward
input slot, and nothing else of any unit, has changed; and
`m_isBackwardCopyReady(u)` is `false` afterwards.  (The keys of the
`BackwardOutputMap`, a `std::unordered_map`, are distinct.) -/
theorem m_backwardCopy_of_ready (um : UnitManager) (u : UnitId)
    (hready : m_isBackwardCopyReady um u = some true)
    (hn : (backwardTargets um u).Nodup) :
    ∃ um' subject, m_backwardCopy um u = some um' ∧ at? um.m_unitMap u = some subject ∧
      (∀ d out, (d, out) ∈ subject.BackwardOutputMap →
        backEdgeSlots um' u d =
          (backEdgeSlots um u d).map (fun s => { Data := out.Data, State := s.State + 1 })) ∧
      (∀ p t, p ≠ u ∨ t ∉ keys subject.BackwardOutputMap →
        backEdgeSlots um' p t = backEdgeSlots um p t) ∧
      SameShape um um' ∧
      (∀ k, (at? um'.m_unitMap k).map
          (fun cu => (cu.ForwardInputMap, cu.ForwardOutput, cu.BackwardOutputMap,
            cu.ForwardStateCount, cu.BackwardStateCount)) =
        (at? um.m_unitMap k).map
          (fun cu => (cu.ForwardInputMap, cu.ForwardOutput, cu.BackwardOutputMap,
            cu.ForwardStateCount, cu.BackwardStateCount))) ∧
      m_isBackwardCopyReady um' u = some false := by
  obtain ⟨subject, hsub, htargets⟩ := m_isBackwardCopyReady_true um u hready
  have hkeys : backwardTargets um u = keys subject.BackwardOutputMap := by
    simp [backwardTargets, hsub]
  have hn' : (keys subject.BackwardOutputMap).Nodup := hkeys ▸ hn
  -- the copy returns
  have hloop : backwardCopyLoop u subject.BackwardOutputMap um.m_unitMap ≠ none := by
    apply backwardCopyLoop_ne_none
    intro e he
    obtain ⟨target, ht, -⟩ := htargets e he
    exact (mem_keys_iff_at? _ _).mpr ⟨target, ht⟩
  obtain ⟨unitMap', hmap'⟩ := Option.ne_none_iff_exists'.mp hloop
  have hcopy : m_backwardCopy um u = some { um with m_unitMap := unitMap' } := by
    simp [m_backwardCopy, hsub, hmap']
  obtain ⟨subject₁, hsub₁, hmd, hat⟩ := m_backwardCopy_some um _ u hcopy hn
  obtain ⟨subject₂, hsub₂, -, hslots⟩ := copy_backward_facts um _ u hcopy hn
  rw [hsub] at hsub₁ hsub₂
  cases hsub₁
  cases hsub₂
  refine ⟨_, subject, hcopy, hsub, ?_, ?_, SameShape_m_backwardCopy um _ u hcopy, ?_, ?_⟩
  · intro d out hmem
    rw [hslots u d, at?_eq_some_of_mem_nodup _ d out hn' hmem]
    simp
  · intro p t hpt
    rw [hslots p t]
    cases hbo : at? subject.BackwardOutputMap t with
    | none => rfl
    | some out =>
      rcases hpt with hp | ht
      · simp [hp]
      · exact absurd ((mem_keys_iff_at? _ _).mpr ⟨out, hbo⟩) ht
  · intro k
    rw [hat k]
    cases at? um.m_unitMap k with
    | none => rfl
    | some cu =>
      cases at? subject.BackwardOutputMap k <;> rfl
  · -- the readiness test afterwards
    have hmd' : ∃ md, at? um.m_unitMetaDataMap u = some md ∧
        md.Id.Type_.BaseType ≠ UnitBaseType.Source := by
      unfold m_isBackwardCopyReady at hready
      cases hm : at? um.m_unitMetaDataMap u with
      | none => rw [hm] at hready; cases hready
      | some md =>
        refine ⟨md, rfl, ?_⟩
        intro hs
        rw [hm] at hready
        simp [hs] at hready
    obtain ⟨md, hmdu, hns⟩ := hmd'
    have hsub' := hat u
    rw [hsub] at hsub'
    unfold m_isBackwardCopyReady
    simp only [hmdu, if_neg hns, hsub', Option.map_some']
    have hbom : ∀ cu : ComputableUnit,
        (match at? subject.BackwardOutputMap u with
          | some out =>
            { cu with BackwardInputMap := copyIntoSlots u out cu.BackwardInputMap }
          | none => cu).BackwardOutputMap = cu.BackwardOutputMap := by
      intro cu
      cases at? subject.BackwardOutputMap u <;> rfl
    rw [hbom subject]
    apply isBackwardCopyReadyLoop_stale
    intro e he
    obtain ⟨target, ht, hfresh⟩ := htargets e he
    have hate : at? subject.BackwardOutputMap e.1 = some e.2 :=
      at?_eq_some_of_mem_nodup _ e.1 e.2 hn' he
    refine ⟨_, by rw [hat e.1, ht, Option.map_some', hate], ?_⟩
    intro d hd hdu
    obtain ⟨d₀, hd₀, h1, h2⟩ := mem_copyIntoSlots u e.2 target.BackwardInputMap d hd
    have hd₀u : d₀.1 = u := h1 ▸ hdu
    rw [if_pos hd₀u] at h2
    rw [h2]
    have := hfresh d₀ hd₀ hd₀u
    show e.2.State ≠ d₀.2.State + 1 + 1
    omega

/-- Witness for C33: the chain graph when the Sink unit has run its backward
pass. -/
theorem m_backwardCopy_of_ready_witness :
    m_isBackwardCopyReady lossBackwardChain uLoss = some true ∧
    (backwardTargets lossBackwardChain uLoss).Nodup ∧
    ∃ um' subject, m_backwardCopy lossBackwardChain uLoss = some um' ∧
      at? lossBackwardChain.m_unitMap uLoss = some subject ∧
      m_isBackwardCopyReady um' uLoss = some false :=
  ⟨by decide, by decide,
   let h := m_backwardCopy_of_ready lossBackwardChain uLoss (by decide) (by decide)
   ⟨h.choose, h.choose_spec.choose, h.choose_spec.choose_spec.1,
     h.choose_spec.choose_spec.2.1, h.choose_spec.choose_spec.2.2.2.2.2.2⟩⟩

end Takion

namespace CubbyDNN

/-! ## Units that are never ready -/

end CubbyDNN

namespace CubbyDNN

end CubbyDNN

namespace cubby_dnn

namespace tensor_hpp

/-! ## Copying a tensor object -/

/-- Claim C32, which the copy constructor does not meet: the copy of an object
that holds data has no storage, so its `get_data_vector()` is empty and its
`get_data_shape()` is `tensor_shape()`, whatever the original held; only
`get_information()` agrees.  The copy of an object without storage, and the
object the move constructor builds, do agree with the original on all three.
On the example `add_tensor_object(const tensor_object&)` stores an object
without data where the original has the two elements `0, 0` and shape
`2 x 1`, and the overload taking an rvalue stores them. -/
theorem copy_constructor_drops_storage :
    (∀ (rhs : tensor_object) (d : data), rhs.tensor_storage = some d →
      rhs.copy.tensor_storage = none ∧ rhs.copy.get_data_vector = [] ∧
      rhs.copy.get_data_shape = tensor_shape.default ∧
      rhs.copy.get_information = rhs.get_information) ∧
    (∀ rhs : tensor_object, rhs.tensor_storage = none →
      rhs.copy.get_data_vector = rhs.get_data_vector ∧
      rhs.copy.get_data_shape = rhs.get_data_shape ∧
      rhs.copy.get_information = rhs.get_information) ∧
    (∀ rhs : tensor_object, rhs.move.get_data_vector = rhs.get_data_vector ∧
      rhs.move.get_data_shape = rhs.get_data_shape ∧
      rhs.move.get_information = rhs.get_information) ∧
    exampleObject.get_data_vector = [0, 0] ∧
    exampleObject.get_data_shape = { rows := 2, cols := 1, dimension := 1 } ∧
    (add_tensor_object [] exampleObject).2 = 0 ∧
    (add_tensor_object [] exampleObject).1.map tensor_object.get_data_vector = [[]] ∧
    (add_tensor_object [] exampleObject).1.map tensor_object.get_data_shape
      = [tensor_shape.default] ∧
    (add_tensor_object [] exampleObject).1.map tensor_object.get_information
      = [exampleObject.get_information] ∧
    (add_tensor_object_rvalue [] exampleObject).1.map tensor_object.get_data_vector
      = [[0, 0]] := by
  refine ⟨?_, ?_, ?_, by decide, by decide, by decide, by decide, by decide, by decide,
    by decide⟩
  · intro rhs d h
    simp [tensor_object.copy, tensor_object.get_data_vector, tensor_object.get_data_shape,
      tensor_object.get_information, h]
  · intro rhs h
    simp [tensor_object.copy, tensor_object.get_data_vector, tensor_object.get_data_shape,
      tensor_object.get_information, h, data.make]
  · intro rhs
    cases h : rhs.tensor_storage <;>
      simp [tensor_object.move, tensor_object.get_data_vector, tensor_object.get_data_shape,
        tensor_object.get_information, h]

end tensor_hpp

end cubby_dnn

namespace Takion.Graph

/-! ## The forward pass of `SoftMax` -/

theorem foldl_add_eq_sum (f : Nat → ℝ) (n : Nat) :
    (List.range n).foldl (fun sum idx => sum + f idx) 0 = Finset.sum (Finset.range n) f := by
  induction n with
  | zero => simp
  | succ n ih => rw [List.range_succ, List.foldl_append, ih, Finset.sum_range_succ]; rfl

theorem foldl_assign_segment {T : Type} (v : Nat → T) (base n : Nat) (out : Nat → T) :
    (List.range n).foldl (fun out idx => fun j => if j = base + idx then v (base + idx) else out j)
        out
      = fun p => if ∃ idx < n, p = base + idx then v p else out p := by
  induction n with
  | zero => simp
  | succ n ih =>
    rw [List.range_succ, List.foldl_append, ih]
    funext p
    simp only [List.foldl_cons, List.foldl_nil]
    by_cases hp : p = base + n
    · rw [if_pos hp, if_pos ⟨n, Nat.lt_succ_self n, hp⟩, hp]
    · rw [if_neg hp]
      by_cases hq : ∃ idx < n, p = base + idx
      · obtain ⟨idx, hidx, hpi⟩ := hq
        rw [if_pos ⟨idx, hidx, hpi⟩, if_pos ⟨idx, Nat.lt_succ_of_lt hidx, hpi⟩]
      · rw [if_neg hq, if_neg]
        rintro ⟨idx, hidx, hpi⟩
        rcases Nat.lt_succ_iff_lt_or_eq.1 hidx with h | h
        · exact hq ⟨idx, h, hpi⟩
        · exact hp (h ▸ hpi)

theorem foldl_batches {T : Type} (step : (Nat → T) → Nat → (Nat → T)) (v : Nat → T) (n : Nat)
    (hstep : ∀ out b p,
      step out b p = if ∃ idx < n, p = b * n + idx then v p else out p) :
    ∀ (B : Nat) (out : Nat → T) (p : Nat),
      (List.range B).foldl step out p
        = if ∃ b < B, ∃ idx < n, p = b * n + idx then v p else out p := by
  intro B
  induction B with
  | zero => intro out p; simp
  | succ B ih =>
    intro out p
    rw [List.range_succ, List.foldl_append]
    simp only [List.foldl_cons, List.foldl_nil]
    rw [hstep]
    by_cases hp : ∃ idx < n, p = B * n + idx
    · rw [if_pos hp, if_pos ⟨B, Nat.lt_succ_self B, hp⟩]
    · rw [if_neg hp, ih]
      by_cases hq : ∃ b < B, ∃ idx < n, p = b * n + idx
      · obtain ⟨b, hb, hidx⟩ := hq
        rw [if_pos ⟨b, hb, hidx⟩, if_pos ⟨b, Nat.lt_succ_of_lt hb, hidx⟩]
      · rw [if_neg hq, if_neg]
        rintro ⟨b, hb, hidx⟩
        rcases Nat.lt_succ_iff_lt_or_eq.1 hb with h | h
        · exact hq ⟨b, h, hidx⟩
        · exact hp (h ▸ hidx)

/-- What `Forward` writes, over the real numbers: at every index of a batch the
exponential of the input divided by the sum of the exponentials of the batch;
every other index is left as it was. -/
theorem SoftMax.Forward_real (size : Nat) (s : SoftMax (Nat → ℝ)) (p : Nat) :
    (SoftMax.Forward (fieldKernels ℝ Real.exp size) s).ForwardOutput p
      = if ∃ b < s.BatchSize, ∃ idx < size, p = b * size + idx then
          Real.exp ((subscript (fun _ => (0 : ℝ)) s.ForwardInputMap s.m_sourceUnitId).2 p /
            Finset.sum (Finset.range size) (fun j =>
              Real.exp ((subscript (fun _ => (0 : ℝ)) s.ForwardInputMap s.m_sourceUnitId).2
                (p / size * size + j))))
        else s.ForwardOutput p := by
  unfold SoftMax.Forward
  simp only [fieldKernels, functionKernels]
  apply foldl_batches
  intro out b p
  rw [foldl_add_eq_sum (fun idx =>
    Real.exp ((subscript (fun _ => (0 : ℝ)) s.ForwardInputMap s.m_sourceUnitId).2
      (b * size + idx)))]
  rw [foldl_assign_segment (fun q =>
    Real.exp ((subscript (fun _ => (0 : ℝ)) s.ForwardInputMap s.m_sourceUnitId).2 q /
      Finset.sum (Finset.range size) (fun j =>
        Real.exp ((subscript (fun _ => (0 : ℝ)) s.ForwardInputMap s.m_sourceUnitId).2
          (b * size + j)))))]
  simp only
  by_cases hp : ∃ idx < size, p = b * size + idx
  · rw [if_pos hp, if_pos hp]
    obtain ⟨idx, hidx, rfl⟩ := hp
    have hdiv : (b * size + idx) / size = b := by
      rw [Nat.mul_comm, Nat.mul_add_div (by omega), Nat.div_eq_of_lt hidx, Nat.add_zero]
    rw [hdiv]
  · rw [if_neg hp, if_neg hp]

/-- Claim C31, which `Forward` does not meet.  Over the real numbers the output
at `(b, i)` is `exp (x[b,i] / sum)`, where `sum` is the sum over `j < size` of
`exp x[b,j]`: the division is inside the exponential.  On one batch of two
zeros both outputs are `1` and add up to `2`, where `exp x / sum` is `1/2`.
With the integer stand-in (`exp` the power of two) the input `[1, 2]` has
`sum = 6` and gives `[1, 1]`. -/
theorem SoftMax_Forward_divides_inside_exp :
    (∀ (size : Nat) (s : SoftMax (Nat → ℝ)) (b i : Nat), b < s.BatchSize → i < size →
      (SoftMax.Forward (fieldKernels ℝ Real.exp size) s).ForwardOutput (b * size + i)
        = Real.exp
            ((subscript (fun _ => (0 : ℝ)) s.ForwardInputMap s.m_sourceUnitId).2 (b * size + i) /
              Finset.sum (Finset.range size) (fun j =>
                Real.exp ((subscript (fun _ => (0 : ℝ)) s.ForwardInputMap s.m_sourceUnitId).2
                  (b * size + j))))) ∧
    (SoftMax.Forward (fieldKernels ℝ Real.exp 2)
        (softMaxOn (0 : ℝ) 1 (fun _ => 0))).ForwardOutput 0 = 1 ∧
    (SoftMax.Forward (fieldKernels ℝ Real.exp 2)
        (softMaxOn (0 : ℝ) 1 (fun _ => 0))).ForwardOutput 1 = 1 ∧
    (SoftMax.Forward (fieldKernels ℝ Real.exp 2)
        (softMaxOn (0 : ℝ) 1 (fun _ => 0))).ForwardOutput 0 +
      (SoftMax.Forward (fieldKernels ℝ Real.exp 2)
        (softMaxOn (0 : ℝ) 1 (fun _ => 0))).ForwardOutput 1 = 2 ∧
    Real.exp 0 / (Real.exp 0 + Real.exp 0) = 1 / 2 ∧
    (SoftMax.Forward exampleKernels exampleSoftMax).ForwardOutput = [1, 1] := by
  have h0 : (SoftMax.Forward (fieldKernels ℝ Real.exp 2)
      (softMaxOn (0 : ℝ) 1 (fun _ => 0))).ForwardOutput 0 = 1 := by
    rw [SoftMax.Forward_real, if_pos ⟨0, by decide, 0, by decide, rfl⟩]
    simp [softMaxOn, subscript]
  have h1 : (SoftMax.Forward (fieldKernels ℝ Real.exp 2)
      (softMaxOn (0 : ℝ) 1 (fun _ => 0))).ForwardOutput 1 = 1 := by
    rw [SoftMax.Forward_real, if_pos ⟨0, by decide, 1, by decide, rfl⟩]
    simp [softMaxOn, subscript]
  refine ⟨?_, h0, h1, ?_, ?_, by decide⟩
  · intro size s b i hb hi
    rw [SoftMax.Forward_real, if_pos ⟨b, hb, i, hi, rfl⟩]
    have hdiv : (b * size + i) / size = b := by
      rw [Nat.mul_comm, Nat.mul_add_div (by omega), Nat.div_eq_of_lt hi, Nat.add_zero]
    rw [hdiv]
  · rw [h0, h1]; norm_num
  · rw [Real.exp_zero]; norm_num

end Takion.Graph

namespace cubby_dnn

/-! ## The adjacency matrix after builder calls -/

theorem atLong_some {α : Type} (l : List α) (i : Int) (x : α) (h : atLong l i = some x) :
    0 ≤ i ∧ l[i.toNat]? = some x := by
  unfold atLong at h
  by_cases hi : i < 0
  · rw [if_pos hi] at h; cases h
  · rw [if_neg hi] at h
    exact ⟨by omega, h⟩

theorem setLong_some {α : Type} (l l' : List α) (i : Int) (x : α)
    (h : setLong l i x = some l') : 0 ≤ i ∧ i.toNat < l.length ∧ l' = l.set i.toNat x := by
  unfold setLong at h
  by_cases hi : i < 0
  · rw [if_pos hi] at h; cases h
  · rw [if_neg hi] at h
    by_cases hlt : i.toNat < l.length
    · rw [if_pos hlt] at h
      cases h
      exact ⟨by omega, hlt, rfl⟩
    · rw [if_neg hlt] at h; cases h

theorem atLong_append {α : Type} (l more : List α) (i : Int) (x : α)
    (h : atLong l i = some x) : atLong (l ++ more) i = some x := by
  obtain ⟨h0, hx⟩ := atLong_some l i x h
  unfold atLong
  rw [if_neg (by omega)]
  have hlt : i.toNat < l.length := (List.getElem?_eq_some.mp hx).1
  rw [List.getElem?_append_left hlt]
  exact hx

theorem EntriesLinked.append (objects more : List tensor_object) (m : List (List Int))
    (h : EntriesLinked objects m) : EntriesLinked (objects ++ more) m := by
  intro f t row v hrow hv
  rcases h f t row v hrow hv with h1 | ⟨object, ho, hf, ht⟩
  · exact Or.inl h1
  · exact Or.inr ⟨object, atLong_append _ _ _ _ ho, hf, ht⟩

/-- Filling the rows up and adding a row of `unallocated_state` keeps the
entries linked. -/
theorem EntriesLinked.new_row (objects : List tensor_object) (m : List (List Int)) (k : Nat)
    (h : EntriesLinked objects m) :
    EntriesLinked objects
      (m.map (emplace_until k) ++ [List.replicate k unallocated_state]) := by
  intro f t row v hrow hv
  by_cases hf : f < m.length
  · rw [List.getElem?_append_left (by simpa using hf)] at hrow
    rw [List.getElem?_map] at hrow
    cases hm : m[f]? with
    | none => rw [hm] at hrow; cases hrow
    | some row₀ =>
      rw [hm] at hrow
      simp only [Option.map_some', Option.some.injEq] at hrow
      subst hrow
      unfold emplace_until at hv
      by_cases ht : t < row₀.length
      · rw [List.getElem?_append_left ht] at hv
        exact h f t row₀ v hm hv
      · rw [List.getElem?_append_right (by omega)] at hv
        exact Or.inl (List.eq_of_mem_replicate (List.getElem?_mem hv))
  · rw [List.getElem?_append_right (by simpa using hf)] at hrow
    have hmem : row ∈ [List.replicate k unallocated_state] := List.getElem?_mem hrow
    rw [List.mem_singleton] at hmem
    subst hmem
    exact Or.inl (List.eq_of_mem_replicate (List.getElem?_mem hv))

/-- The loop over the input tensors keeps the entries linked and the length of
every row, when every input tensor heads to the operation. -/
theorem link_inputs_linked (operation_id : Int) (k : Nat) (ids : List Int) :
    ∀ g g' : Graph, link_inputs operation_id ids g = .ok g' →
      (∀ tid ∈ ids, ∀ object, atLong g.tensor_object_vector tid = some object →
        object.information.to_ = operation_id) →
      EntriesLinked g.tensor_object_vector g.adjacency_matrix →
      (∀ row ∈ g.adjacency_matrix, row.length = k) →
      EntriesLinked g'.tensor_object_vector g'.adjacency_matrix ∧
        ∀ row ∈ g'.adjacency_matrix, row.length = k := by
  induction ids with
  | nil =>
    intro g g' h _ hl hr
    simp only [link_inputs, Except.ok.injEq] at h
    subst h
    exact ⟨hl, hr⟩
  | cons tid rest ih =>
    intro g g' h hto hl hr
    unfold link_inputs at h
    cases hobj : atLong g.tensor_object_vector tid with
    | none => rw [hobj] at h; cases h
    | some object =>
      rw [hobj] at h
      simp only at h
      cases hrow : atLong g.adjacency_matrix object.information.from_ with
      | none => rw [hrow] at h; cases h
      | some row =>
        rw [hrow] at h
        simp only at h
        cases hset : setLong row operation_id tid with
        | none => rw [hset] at h; cases h
        | some row' =>
          rw [hset] at h
          simp only at h
          cases hmat : setLong g.adjacency_matrix object.information.from_ row' with
          | none => rw [hmat] at h; cases h
          | some matrix =>
            rw [hmat] at h
            simp only at h
            obtain ⟨hf0, hrowget⟩ := atLong_some _ _ _ hrow
            obtain ⟨ht0, htlt, hrow'⟩ := setLong_some _ _ _ _ hset
            obtain ⟨-, hflt, hmatrix⟩ := setLong_some _ _ _ _ hmat
            have hto' := hto tid (List.mem_cons_self _ _) object hobj
            refine ih _ g' h (fun tid' hmem => hto tid' (List.mem_cons_of_mem _ hmem)) ?_ ?_
            · intro f t row₂ v hrow₂ hv
              simp only at hrow₂
              rw [hmatrix] at hrow₂
              by_cases hf : f = object.information.from_.toNat
              · subst hf
                rw [List.getElem?_set_self hflt] at hrow₂
                cases hrow₂
                rw [hrow'] at hv
                by_cases ht : t = operation_id.toNat
                · subst ht
                  rw [List.getElem?_set_self htlt] at hv
                  cases hv
                  refine Or.inr ⟨object, hobj, ?_, ?_⟩
                  · omega
                  · rw [hto']; omega
                · rw [List.getElem?_set_ne (fun h' => ht h'.symm)] at hv
                  exact hl _ t row v hrowget hv
              · rw [List.getElem?_set_ne (fun h' => hf h'.symm)] at hrow₂
                exact hl f t row₂ v hrow₂ hv
            · intro row₂ hmem
              simp only at hmem
              rw [hmatrix] at hmem
              rcases List.mem_or_eq_of_mem_set hmem with h1 | h1
              · exact hr row₂ h1
              · rw [h1, hrow', List.length_set]
                exact hr row (List.getElem?_mem hrowget)

theorem Adjacent.of_same (g g₁ : Graph) (more : List tensor_object) (hinv : Adjacent g)
    (hobj : g₁.tensor_object_vector = g.tensor_object_vector ++ more)
    (hops : g₁.operation_vector.length = g.operation_vector.length)
    (hm : g₁.adjacency_matrix = g.adjacency_matrix) : Adjacent g₁ := by
  obtain ⟨h1, h2, h3⟩ := hinv
  refine ⟨by rw [hm, hops]; exact h1, ?_, ?_⟩
  · rw [hm, hops]; exact h2
  · rw [hm, hobj]; exact EntriesLinked.append _ _ _ h3

/-- The step every builder function ends with: from a graph with the property,
the new operation carrying the next id and input tensors that head to it,
`add_operation` followed by `add_operation_to_adjacency` gives a graph with the
property, and the size returned is the number of operations. -/
theorem Adjacent.add_operation_step (g g' : Graph) (op : operation) (hinv : Adjacent g)
    (hid : op.id = (g.operation_vector.length : Int))
    (hin : ∀ tid ∈ op.input_tensor_vector, ∀ object,
      atLong g.tensor_object_vector tid = some object → object.information.to_ = op.id)
    (h : add_operation_to_adjacency (add_operation g op) op.id = .ok g') :
    Adjacent g' ∧ g'.operation_vector.length = g.operation_vector.length + 1 ∧
      g'.adjacency_matrix.length = g.operation_vector.length + 1 := by
  obtain ⟨h1, h2, h3⟩ := hinv
  have hkeep := add_operation_to_adjacency_keeps _ _ _ (Or.inl h)
  rw [add_operation_to_adjacency_eq] at h
  have hop : atLong (add_operation g op).operation_vector op.id = some op := by
    rw [hid, atLong_natCast]
    simp [add_operation]
  rw [hop] at h
  simp only at h
  have hlinked := link_inputs_linked op.id (g.operation_vector.length + 1)
    op.input_tensor_vector (with_new_row (add_operation g op)) g' h hin
    (by
      show EntriesLinked g.tensor_object_vector
        (g.adjacency_matrix.map (emplace_until (g.adjacency_matrix.length + 1)) ++
          [List.replicate (g.adjacency_matrix.length + 1) unallocated_state])
      exact EntriesLinked.new_row _ _ _ h3)
    (by
      intro row hrow
      change row ∈ g.adjacency_matrix.map (emplace_until (g.adjacency_matrix.length + 1)) ++
          [List.replicate (g.adjacency_matrix.length + 1) unallocated_state] at hrow
      rcases List.mem_append.1 hrow with hrow | hrow
      · obtain ⟨row₀, hmem, rfl⟩ := List.mem_map.1 hrow
        have := h2 row₀ hmem
        simp only [emplace_until, List.length_append, List.length_replicate]
        omega
      · rw [List.mem_singleton] at hrow
        subst hrow
        simp only [List.length_replicate]
        omega)
  obtain ⟨hk1, hk2, hk3⟩ := hkeep
  have hops : g'.operation_vector.length = g.operation_vector.length + 1 := by
    rw [hk2]; simp [add_operation]
  have hlen : g'.adjacency_matrix.length = g.operation_vector.length + 1 := by
    rw [hk3]
    show g.adjacency_matrix.length + 1 = _
    omega
  refine ⟨⟨by rw [hlen, hops], ?_, hlinked.1⟩, hops, hlen⟩
  intro row hrow
  rw [hops]
  exact hlinked.2 row hrow

end cubby_dnn

namespace cubby_dnn

theorem tensor_data_single_to (ops : ShapeOps) (tensor1 : tensor) (this_id : Int) :
    (tensor_data_single ops tensor1 this_id).information.to_ = this_id := by
  unfold tensor_data_single
  simp only
  split_ifs <;> rfl

/-- The registration of an operation with one input tensor keeps the
property. -/
theorem Adjacent.link_single (g g₂ g₃ : Graph) (d1 : tensor_object) (from_ : Int)
    (op : operation) (hinv : Adjacent g)
    (hd : d1.information.to_ = (g.operation_vector.length : Int))
    (h2 : add_output_tensor_at (add_tensor_object g d1).1 from_ (add_tensor_object g d1).2
      = some g₂)
    (hid : op.id = (g.operation_vector.length : Int))
    (hin : op.input_tensor_vector = [(add_tensor_object g d1).2])
    (h3 : add_operation_to_adjacency (add_operation g₂ op) op.id = .ok g₃) : Adjacent g₃ := by
  obtain ⟨k1, k2, k3⟩ := add_output_tensor_at_keeps _ _ _ _ h2
  have hobj : g₂.tensor_object_vector = g.tensor_object_vector ++ [d1] := by
    rw [k1]; rfl
  have hops : g₂.operation_vector.length = g.operation_vector.length := by
    rw [k2]; rfl
  have hinv₂ : Adjacent g₂ := Adjacent.of_same g g₂ [d1] hinv hobj hops (by rw [k3]; rfl)
  refine (Adjacent.add_operation_step g₂ g₃ op hinv₂ (by rw [hid, hops]) ?_ h3).1
  intro tid htid object hobject
  rw [hin, List.mem_singleton] at htid
  subst htid
  have hidx : (add_tensor_object g d1).2 = (g.tensor_object_vector.length : Int) := by
    simp [add_tensor_object]
  rw [hidx, atLong_natCast, hobj] at hobject
  rw [List.getElem?_append_right (Nat.le_refl _)] at hobject
  simp at hobject
  rw [← hobject, hd, hid]

/-- The registration of an operation with two input tensors keeps the
property. -/
theorem Adjacent.link_pair (g g₃ g₄ g₅ : Graph) (d1 d2 : tensor_object) (from1 from2 : Int)
    (op : operation) (hinv : Adjacent g)
    (hd1 : d1.information.to_ = (g.operation_vector.length : Int))
    (hd2 : d2.information.to_ = (g.operation_vector.length : Int))
    (h3 : add_output_tensor_at (add_tensor_object (add_tensor_object g d1).1 d2).1 from1
      (add_tensor_object g d1).2 = some g₃)
    (h4 : add_output_tensor_at g₃ from2 (add_tensor_object (add_tensor_object g d1).1 d2).2
      = some g₄)
    (hid : op.id = (g.operation_vector.length : Int))
    (hin : op.input_tensor_vector =
      [(add_tensor_object g d1).2, (add_tensor_object (add_tensor_object g d1).1 d2).2])
    (h5 : add_operation_to_adjacency (add_operation g₄ op) op.id = .ok g₅) : Adjacent g₅ := by
  obtain ⟨k1, k2, k3⟩ := add_output_tensor_at_keeps _ _ _ _ h3
  obtain ⟨l1, l2, l3⟩ := add_output_tensor_at_keeps _ _ _ _ h4
  have hobj : g₄.tensor_object_vector = g.tensor_object_vector ++ [d1, d2] := by
    rw [l1, k1]; simp [add_tensor_object]
  have hops : g₄.operation_vector.length = g.operation_vector.length := by
    rw [l2, k2]; rfl
  have hinv₄ : Adjacent g₄ :=
    Adjacent.of_same g g₄ [d1, d2] hinv hobj hops (by rw [l3, k3]; rfl)
  refine (Adjacent.add_operation_step g₄ g₅ op hinv₄ (by rw [hid, hops]) ?_ h5).1
  intro tid htid object hobject
  rw [hin] at htid
  have hidx1 : (add_tensor_object g d1).2 = (g.tensor_object_vector.length : Int) := by
    simp [add_tensor_object]
  have hidx2 : (add_tensor_object (add_tensor_object g d1).1 d2).2
      = ((g.tensor_object_vector.length + 1 : Nat) : Int) := by
    simp only [add_tensor_object, List.length_append, List.length_singleton]
    push_cast
    omega
  rcases List.mem_cons.1 htid with h | h
  · rw [h, hidx1, atLong_natCast, hobj, getElem?_append_pair_fst] at hobject
    cases hobject
    rw [hd1, hid]
  · rw [List.mem_singleton] at h
    rw [h, hidx2, atLong_natCast, hobj, getElem?_append_pair_snd] at hobject
    cases hobject
    rw [hd2, hid]

theorem placeholder_adjacent (check_shape : tensor_shape → String → Bool)
    (shape : tensor_shape) (name : String) (g : Graph) (hinv : Adjacent g)
    (h : (placeholder check_shape shape name g).result ≠ none) :
    Adjacent (placeholder check_shape shape name g).graph := by
  unfold placeholder at h ⊢
  by_cases hc : (!check_shape shape name) = true
  · rw [if_pos hc]; exact hinv
  · rw [if_neg hc] at h ⊢
    simp only at h ⊢
    cases hadj : add_operation_to_adjacency
        (add_operation g { kind := .other, id := operation_vector_size g, name := name
                           input_tensor_vector := [], output_tensor_vector := [] })
        (operation_vector_size g) with
    | error g' => rw [hadj] at h; exact absurd rfl h
    | ok g' =>
      exact (Adjacent.add_operation_step g g' _ hinv rfl (by simp) hadj).1

theorem variable_adjacent (check_shape : tensor_shape → String → Bool)
    (shape : tensor_shape) (trainable : Bool) (name : String) (g : Graph) (hinv : Adjacent g)
    (h : (variable_ check_shape shape trainable name g).result ≠ none) :
    Adjacent (variable_ check_shape shape trainable name g).graph := by
  unfold variable_ at h ⊢
  by_cases hc : (!check_shape shape name) = true
  · rw [if_pos hc]; exact hinv
  · rw [if_neg hc] at h ⊢
    simp only at h ⊢
    cases hadj : add_operation_to_adjacency
        (add_operation g { kind := .other, id := operation_vector_size g, name := name
                           input_tensor_vector := [], output_tensor_vector := [] })
        (operation_vector_size g) with
    | error g' => rw [hadj] at h; exact absurd rfl h
    | ok g' =>
      exact (Adjacent.add_operation_step g g' _ hinv rfl (by simp) hadj).1

theorem store_and_link_adjacent (kind : operation_kind) (new_shape : tensor_shape)
    (tensor1 tensor2 : tensor) (name : String) (d1 d2 : tensor_object) (g : Graph)
    (hinv : Adjacent g)
    (hd1 : d1.information.to_ = (g.operation_vector.length : Int))
    (hd2 : d2.information.to_ = (g.operation_vector.length : Int))
    (h : (store_and_link kind new_shape (operation_vector_size g) tensor1 tensor2 name d1 d2
      g).result ≠ none) :
    Adjacent (store_and_link kind new_shape (operation_vector_size g) tensor1 tensor2 name d1 d2
      g).graph := by
  revert h
  unfold store_and_link
  simp only
  cases h3 : add_output_tensor_at (add_tensor_object (add_tensor_object g d1).1 d2).1
      tensor1.from_ (add_tensor_object g d1).2 with
  | none => intro h; exact absurd rfl h
  | some g₃ =>
    simp only
    cases h4 : add_output_tensor_at g₃ tensor2.from_
        (add_tensor_object (add_tensor_object g d1).1 d2).2 with
    | none => intro h; exact absurd rfl h
    | some g₄ =>
      simp only
      cases h5 : add_operation_to_adjacency
          (add_operation g₄ { kind := kind, id := operation_vector_size g, name := name
                              input_tensor_vector :=
                                [(add_tensor_object g d1).2,
                                  (add_tensor_object (add_tensor_object g d1).1 d2).2]
                              output_tensor_vector := [] })
          (operation_vector_size g) with
      | error g₅ => intro h; exact absurd rfl h
      | ok g₅ =>
        intro _
        exact Adjacent.link_pair g g₃ g₄ g₅ d1 d2 _ _ _ hinv hd1 hd2 h3 h4 rfl rfl h5

theorem register_binary_adjacent (ops : ShapeOps) (kind : operation_kind)
    (new_shape : tensor_shape) (tensor1 tensor2 : tensor) (name : String) (g : Graph)
    (hinv : Adjacent g)
    (h : (register_binary ops kind new_shape tensor1 tensor2 name g).result ≠ none) :
    Adjacent (register_binary ops kind new_shape tensor1 tensor2 name g).graph := by
  unfold register_binary at h ⊢
  obtain ⟨-, h1, -, -, h2, -⟩ := tensor_data_pair_info ops
    (tensor1.add_to (operation_vector_size g)) (tensor2.add_to (operation_vector_size g))
    (operation_vector_size g)
  exact store_and_link_adjacent kind new_shape _ _ name _ _ g hinv h1 h2 h

theorem store_and_link_unary_adjacent (new_shape : tensor_shape) (tensor1 : tensor)
    (name : String) (d1 : tensor_object) (printed : Bool) (g : Graph) (hinv : Adjacent g)
    (hd1 : d1.information.to_ = (g.operation_vector.length : Int))
    (h : (store_and_link_unary new_shape (operation_vector_size g) tensor1 name d1 printed
      g).result ≠ none) :
    Adjacent (store_and_link_unary new_shape (operation_vector_size g) tensor1 name d1 printed
      g).graph := by
  revert h
  unfold store_and_link_unary
  simp only
  cases h2 : add_output_tensor_at (add_tensor_object g d1).1 tensor1.from_
      (add_tensor_object g d1).2 with
  | none => intro h; exact absurd rfl h
  | some g₂ =>
    simp only
    cases h3 : add_operation_to_adjacency
        (add_operation g₂ { kind := .reshape_op, id := operation_vector_size g, name := name
                            input_tensor_vector := [(add_tensor_object g d1).2]
                            output_tensor_vector := [] })
        (operation_vector_size g) with
    | error g₃ => intro h; exact absurd rfl h
    | ok g₃ =>
      intro _
      exact Adjacent.link_single g g₂ g₃ d1 _ _ hinv hd1 h2 rfl rfl h3

theorem mat_dot_adjacent (ops : ShapeOps) (tensor1 : tensor) (multiplier : Int)
    (name : String) (g : Graph) (hinv : Adjacent g)
    (h : (mat_dot ops tensor1 multiplier name g).result ≠ none) :
    Adjacent (mat_dot ops tensor1 multiplier name g).graph := by
  revert h
  unfold mat_dot
  by_cases hv : (!tensor1.is_valid ops) = true
  · rw [if_pos hv]; intro _; exact hinv
  · rw [if_neg hv]
    simp only
    cases h2 : add_output_tensor_at
        (add_tensor_object g (tensor_data_single ops (tensor1.add_to (operation_vector_size g))
          (operation_vector_size g))).1 (tensor1.add_to (operation_vector_size g)).from_
        (add_tensor_object g (tensor_data_single ops (tensor1.add_to (operation_vector_size g))
          (operation_vector_size g))).2 with
    | none => intro h; exact absurd rfl h
    | some g₂ =>
      simp only
      cases h3 : add_operation_to_adjacency
          (add_operation g₂ { kind := .other, id := operation_vector_size g, name := name
                              input_tensor_vector :=
                                [(add_tensor_object g (tensor_data_single ops
                                  (tensor1.add_to (operation_vector_size g))
                                  (operation_vector_size g))).2]
                              output_tensor_vector := [] })
          (operation_vector_size g) with
      | error g₃ => intro h; exact absurd rfl h
      | ok g₃ =>
        intro _
        exact Adjacent.link_single g g₂ g₃ _ _ _ hinv (tensor_data_single_to _ _ _) h2 rfl rfl h3

theorem wrapper_adjacent (ops : ShapeOps) (tensor1 : tensor) (name : String) (g : Graph)
    (hinv : Adjacent g) (h : (wrapper ops tensor1 name g).raised = false) :
    Adjacent (wrapper ops tensor1 name g).graph := by
  revert h
  unfold wrapper
  by_cases hv : (!tensor1.is_valid ops) = true
  · rw [if_pos hv]; intro _; exact hinv
  · rw [if_neg hv]
    simp only
    cases h2 : add_output_tensor_at
        (add_tensor_object g (tensor_data_single ops (tensor1.add_to (operation_vector_size g))
          (operation_vector_size g))).1 (tensor1.add_to (operation_vector_size g)).from_
        (add_tensor_object g (tensor_data_single ops (tensor1.add_to (operation_vector_size g))
          (operation_vector_size g))).2 with
    | none => intro h; cases h
    | some g₂ =>
      simp only
      cases h3 : add_operation_to_adjacency
          (add_operation g₂ { kind := .other, id := operation_vector_size g, name := name
                              input_tensor_vector :=
                                [(add_tensor_object g (tensor_data_single ops
                                  (tensor1.add_to (operation_vector_size g))
                                  (operation_vector_size g))).2]
                              output_tensor_vector := [] })
          (operation_vector_size g) with
      | error g₃ => intro h; cases h
      | ok g₃ =>
        intro _
        exact Adjacent.link_single g g₂ g₃ _ _ _ hinv (tensor_data_single_to _ _ _) h2 rfl rfl h3

end cubby_dnn

namespace cubby_dnn

theorem mat_mul_adjacent (ops : ShapeOps) (tensor1 tensor2 : tensor) (name : String)
    (g : Graph) (hinv : Adjacent g) (h : (mat_mul ops tensor1 tensor2 name g).result ≠ none) :
    Adjacent (mat_mul ops tensor1 tensor2 name g).graph := by
  revert h
  unfold mat_mul
  split_ifs
  · intro _; exact hinv
  · intro _; exact hinv
  · exact register_binary_adjacent ops _ _ tensor1 tensor2 name g hinv

theorem mat_add_adjacent (ops : ShapeOps) (tensor1 tensor2 : tensor) (name : String)
    (g : Graph) (hinv : Adjacent g) (h : (mat_add ops tensor1 tensor2 name g).result ≠ none) :
    Adjacent (mat_add ops tensor1 tensor2 name g).graph := by
  revert h
  unfold mat_add
  split_ifs
  · intro _; exact hinv
  · intro _; exact hinv
  · exact register_binary_adjacent ops _ _ tensor1 tensor2 name g hinv

theorem reshape_adjacent (ops : ShapeOps) (check_shape : tensor_shape → String → Bool)
    (tensor1 : tensor) (shape : tensor_shape) (name : String) (g : Graph) (hinv : Adjacent g)
    (h : (reshape ops check_shape tensor1 shape name g).result ≠ none) :
    Adjacent (reshape ops check_shape tensor1 shape name g).graph := by
  revert h
  unfold reshape
  split_ifs
  · intro _; exact hinv
  · intro _; exact hinv
  · exact store_and_link_unary_adjacent shape _ name _ _ g hinv (tensor_data_single_to _ _ _)

theorem one_hot_adjacent (ops : ShapeOps) (check_shape : tensor_shape → String → Bool)
    (tensor1 : tensor) (size : Nat) (name : String) (g : Graph) (hinv : Adjacent g)
    (h : (one_hot ops check_shape tensor1 size name g).result ≠ none) :
    Adjacent (one_hot ops check_shape tensor1 size name g).graph := by
  revert h
  unfold one_hot
  split_ifs
  · intro _; exact hinv
  · intro _; exact hinv
  · exact store_and_link_unary_adjacent _ _ name _ _ g hinv (tensor_data_single_to _ _ _)

theorem map_graph_eq_some {r : Option tensor} {graph g' : Graph}
    (h : r.map (fun _ => graph) = some g') : r ≠ none ∧ g' = graph := by
  cases r with
  | none => cases h
  | some t =>
    simp only [Option.map_some', Option.some.injEq] at h
    exact ⟨by simp, h.symm⟩

/-- A call of the builder that returns keeps the property. -/
theorem run_call_adjacent (ops : ShapeOps) (check_shape : tensor_shape → String → Bool)
    (c : BuilderCall) (g g' : Graph) (hinv : Adjacent g)
    (h : run_call ops check_shape c g = some g') : Adjacent g' := by
  cases c with
  | placeholder shape name =>
    obtain ⟨h1, rfl⟩ := map_graph_eq_some h
    exact placeholder_adjacent _ _ _ _ hinv h1
  | variable_ shape trainable name =>
    obtain ⟨h1, rfl⟩ := map_graph_eq_some h
    exact variable_adjacent _ _ _ _ _ hinv h1
  | mat_mul tensor1 tensor2 name =>
    obtain ⟨h1, rfl⟩ := map_graph_eq_some h
    exact mat_mul_adjacent _ _ _ _ _ hinv h1
  | mat_add tensor1 tensor2 name =>
    obtain ⟨h1, rfl⟩ := map_graph_eq_some h
    exact mat_add_adjacent _ _ _ _ _ hinv h1
  | mat_dot tensor1 multiplier name =>
    obtain ⟨h1, rfl⟩ := map_graph_eq_some h
    exact mat_dot_adjacent _ _ _ _ _ hinv h1
  | reshape tensor1 shape name =>
    obtain ⟨h1, rfl⟩ := map_graph_eq_some h
    exact reshape_adjacent _ _ _ _ _ _ hinv h1
  | one_hot tensor1 size name =>
    obtain ⟨h1, rfl⟩ := map_graph_eq_some h
    exact one_hot_adjacent _ _ _ _ _ _ hinv h1
  | wrapper tensor1 name =>
    change (if (wrapper ops tensor1 name g).raised = true then none
      else some (wrapper ops tensor1 name g).graph) = some g' at h
    by_cases hr : (wrapper ops tensor1 name g).raised = true
    · rw [if_pos hr] at h; cases h
    · rw [if_neg hr] at h
      cases h
      exact wrapper_adjacent _ _ _ _ hinv (by simpa using hr)

theorem run_calls_adjacent (ops : ShapeOps) (check_shape : tensor_shape → String → Bool)
    (calls : List BuilderCall) :
    ∀ g g' : Graph, Adjacent g → run_calls ops check_shape calls g = some g' → Adjacent g' := by
  induction calls with
  | nil =>
    intro g g' hinv h
    simp only [run_calls, Option.some.injEq] at h
    exact h ▸ hinv
  | cons c rest ih =>
    intro g g' hinv h
    unfold run_calls at h
    cases hc : run_call ops check_shape c g with
    | none => rw [hc] at h; cases h
    | some g₁ =>
      rw [hc] at h
      exact ih g₁ g' (run_call_adjacent ops check_shape c g g₁ hinv hc) h

theorem Adjacent.of_clear (g : Graph) : Adjacent (clear g) := by
  unfold Adjacent
  refine ⟨rfl, ?_, ?_⟩
  · intro row hrow; simp [clear] at hrow
  · intro f t row v hrow; simp [clear] at hrow

/-- Claim C37: starting from cleared managers, after any sequence of builder
calls that return (`placeholder`, `variable`, `mat_mul`, `mat_add`, `mat_dot`,
`reshape`, `one_hot`, `wrapper`), the adjacency matrix is square with one row
and one column for each registered operation; `add_operation_to_adjacency`,
called once the next operation is added, returns that size (the number of
operations then registered); and every entry at row `f`, column `t` is `-1` or
the id of a registered tensor object whose `comes_from()` is `f` and whose
`heads_to()` is `t`. -/
theorem builder_calls_keep_adjacency_square (ops : ShapeOps)
    (check_shape : tensor_shape → String → Bool) (calls : List BuilderCall) (g₀ g : Graph)
    (h : run_calls ops check_shape calls (clear g₀) = some g) :
    g.adjacency_matrix.length = g.operation_vector.length ∧
    (∀ row ∈ g.adjacency_matrix, row.length = g.operation_vector.length) ∧
    (∀ (g₁ : Graph) (op : operation) (operation_id n : Int),
      g₁.adjacency_matrix = g.adjacency_matrix →
      g₁.operation_vector.length = g.operation_vector.length →
      add_operation_to_adjacency_size (add_operation g₁ op) operation_id = some n →
      n = ((add_operation g₁ op).operation_vector.length : Int)) ∧
    ∀ (f t : Nat) (row : List Int) (v : Int),
      g.adjacency_matrix[f]? = some row → row[t]? = some v →
      v = -1 ∨ ∃ object, atLong g.tensor_object_vector v = some object ∧
        object.information.from_ = (f : Int) ∧ object.information.to_ = (t : Int) := by
  obtain ⟨h1, h2, h3⟩ := run_calls_adjacent ops check_shape calls _ g (Adjacent.of_clear g₀) h
  refine ⟨h1, h2, ?_, h3⟩
  intro g₁ op operation_id n hm hops hn
  unfold add_operation_to_adjacency_size at hn
  cases hadj : add_operation_to_adjacency (add_operation g₁ op) operation_id with
  | error g' => rw [hadj] at hn; cases hn
  | ok g' =>
    rw [hadj] at hn
    simp only [Option.some.injEq] at hn
    obtain ⟨-, -, hlen⟩ := add_operation_to_adjacency_keeps _ _ _ (Or.inl hadj)
    rw [← hn, hlen]
    show ((g₁.adjacency_matrix.length + 1 : Nat) : Int) = ((g₁.operation_vector ++ [op]).length : Int)
    rw [hm, h1, List.length_append, hops]
    rfl

/-- Witness for C37: two placeholders, their product and a wrapper, from cleared
managers: four operations and a `4 x 4` matrix. -/
theorem builder_calls_keep_adjacency_square_witness :
    run_calls exampleShapeOps (fun _ _ => true) exampleCalls (clear twoSources)
      = some exampleBuilt ∧
    exampleBuilt.adjacency_matrix.length = 4 ∧
    exampleBuilt.adjacency_matrix.length = exampleBuilt.operation_vector.length :=
  ⟨by decide, by decide,
   (builder_calls_keep_adjacency_square exampleShapeOps (fun _ _ => true) exampleCalls
      twoSources exampleBuilt (by decide)).1⟩

end cubby_dnn
